import Mathlib

/-!
# UThread++ : cooperative user threads, recursive mutex, counting semaphore

A shallow embedding of `UThread.cpp`, `UThread.h`, `UScheduler.h`, `Mutex.h`,
`Mutex.cpp`, `Semaphore.h` and `Semaphore.cpp`.

Conventions of the embedding.

* A `UThread *` is an `Option Nat`: `none` is `NULL`, `some a` is the object at
  address `a`.  `std::list<UThread *>` is `List (Option Nat)`.
* `int` is a 32-bit two's-complement integer (the inline assembly fixes the
  target to 32-bit x86): every `+= 1`, `-= 1` and `++` goes through `toInt32`.
* The static members of `UScheduler`, the file-static `m_threadIdSeed` and the
  table of the `UThread` objects that currently exist make up `Runtime`.
* A function that can stop the process returns `Except (Fault × σ) α`: the
  error carries the state in which the process stopped.  `assert` is compiled
  in (debug build).  A dereference of `NULL` is an access violation; `delete`
  of `NULL` does nothing.
* A context switch is modelled by its effect on `m_pRunningThread`; what the
  switched-out fiber does after it is resumed is a separate definition
  (`UScheduler.Run_resume`, `Mutex.Acquire_afterPark`).
* Addresses handed out by `new` and the address of the local `mainThread` are
  parameters of the functions that allocate.
-/

namespace UThreadPP

/-! ## Machine integers, pointers, faults -/

/-- A `UThread *`: `none` is `NULL`. -/
abbrev Ptr := Option Nat

/-- The value a 32-bit two's-complement `int` holds after a computation whose
mathematical result is `x`. -/
def toInt32 (x : Int) : Int := (x + 2147483648) % 4294967296 - 2147483648

/-- The largest `int`. -/
def INT_MAX : Int := 2147483647

/-- The ways the process can stop. -/
inductive Fault where
  | assertion
  | accessViolation
  deriving DecidableEq, Repr

/-! ## std::list operations used by the sources -/

/-- The `front()` of a list; the sources call it on non-empty lists only. -/
def front : List Ptr → Ptr
  | [] => none
  | x :: _ => x

/-- The list after `pop_front()`. -/
def pop_front : List Ptr → List Ptr
  | [] => []
  | _ :: rest => rest

/-- The list after `push_back(x)`. -/
def push_back (l : List Ptr) (x : Ptr) : List Ptr := l ++ [x]

/-! ## Data model -/

/-- The fields of a `UThread` object that the scheduler level reads
(`UThread.h` 68-93).  `m_pContext` and the stack contents belong to the
machine level of the context switch. -/
structure UThread where
  m_threadId : Int
  m_pStack : Option Nat
  m_pFunction : Option Nat
  m_argument : Option Nat
  deriving DecidableEq, Repr

/-- The process-wide state of `UThread.cpp`: `m_threadIdSeed` (line 29), the
static members of `UScheduler` (lines 35-56) and the existing `UThread`
objects by address. -/
structure Runtime where
  m_threadIdSeed : Int
  m_numThreads : Int
  m_pRunningThread : Ptr
  m_readyQueue : List Ptr
  m_pMainThread : Ptr
  threads : List (Nat × UThread)
  deriving DecidableEq, Repr

/-- The state at program start: statics are zero-initialised. -/
def Runtime.initial : Runtime :=
  { m_threadIdSeed := 0, m_numThreads := 0, m_pRunningThread := none,
    m_readyQueue := [], m_pMainThread := none, threads := [] }

/-- The fields of a `Mutex` (`Mutex.h` 31-43). -/
structure Mutex where
  m_pOwner : Ptr
  m_recursionCounter : Int
  m_waitList : List Ptr
  deriving DecidableEq, Repr

/-- The constructor `Mutex::Mutex()` (`Mutex.h` 51-55). -/
def Mutex.new : Mutex :=
  { m_pOwner := none, m_recursionCounter := 0, m_waitList := [] }

/-- The fields of a `Semaphore` (`Semaphore.h`). -/
structure Semaphore where
  m_permits : Int
  m_waitList : List Ptr
  deriving DecidableEq, Repr

/-- The constructor `Semaphore::Semaphore()`. -/
def Semaphore.new : Semaphore :=
  { m_permits := 0, m_waitList := [] }

/-! ## UThread.cpp -/

/-- The assembly routine `context_switch` (lines 319-365) at the scheduler
level: the store through `ecx` faults on `NULL`, then `m_pRunningThread`
becomes `nextThread`, then the load through `edx` faults on `NULL`. -/
def context_switch (currentThread nextThread : Ptr) (s : Runtime) :
    Except (Fault × Runtime) Runtime :=
  match currentThread with
  | none => .error (Fault.accessViolation, s)
  | some _ =>
    let s1 := { s with m_pRunningThread := nextThread }
    match nextThread with
    | none => .error (Fault.accessViolation, s1)
    | some _ => .ok s1

/-- The function `UScheduler::find_next_thread` (lines 133-145): the thread
returned and the state left. -/
def UScheduler.find_next_thread (s : Runtime) : Ptr × Runtime :=
  if ¬ s.m_readyQueue.isEmpty then
    (front s.m_readyQueue, { s with m_readyQueue := pop_front s.m_readyQueue })
  else
    (s.m_pMainThread, s)

/-- The constructor `UThread::UThread()` (lines 151-156) run on the object at
address `p`. -/
def UThread.ctor_main (p : Nat) (s : Runtime) : Runtime :=
  let s1 := { s with m_numThreads := toInt32 (s.m_numThreads + 1) }
  let s2 := { s1 with m_threadIdSeed := toInt32 (s1.m_threadIdSeed + 1) }
  { s2 with threads :=
      (p, { m_threadId := s2.m_threadIdSeed, m_pStack := none,
            m_pFunction := none, m_argument := none }) :: s2.threads }

/-- The constructor `UThread::UThread(Function, Argument)` (lines 162-206) run
on the object at address `p`, with `stack` the address of the new stack. -/
def UThread.ctor (p stack function argument : Nat) (s : Runtime) : Runtime :=
  let s1 := { s with m_numThreads := toInt32 (s.m_numThreads + 1) }
  let s2 := { s1 with m_threadIdSeed := toInt32 (s1.m_threadIdSeed + 1) }
  { s2 with threads :=
      (p, { m_threadId := s2.m_threadIdSeed, m_pStack := some stack,
            m_pFunction := some function, m_argument := some argument }) :: s2.threads }

/-- The destructor `UThread::~UThread` (lines 212-221) run on the object at
address `p`, which then no longer exists. -/
def UThread.dtor (p : Nat) (s : Runtime) : Runtime :=
  { s with m_numThreads := toInt32 (s.m_numThreads - 1),
           threads := s.threads.filter (fun e => e.1 ≠ p) }

/-- The member `UThread::Unpark` (lines 296-299); `this` is only stored. -/
def UThread.Unpark (this : Ptr) (s : Runtime) : Runtime :=
  { s with m_readyQueue := push_back s.m_readyQueue this }

/-- The function `UThread::Create` (lines 228-231): `new` returns `p` for the
object and `stack` for its stack. -/
def UThread.Create (p stack function argument : Nat) (s : Runtime) : Runtime :=
  UThread.Unpark (some p) (UThread.ctor p stack function argument s)

/-- The function `UThread::Yield` (lines 238-257). -/
def UThread.Yield (s : Runtime) : Except (Fault × Runtime) Runtime :=
  if ¬ s.m_readyQueue.isEmpty then
    let s1 := { s with m_readyQueue := push_back s.m_readyQueue s.m_pRunningThread }
    let nextThread := front s1.m_readyQueue
    let s2 := { s1 with m_readyQueue := pop_front s1.m_readyQueue }
    context_switch s2.m_pRunningThread nextThread s2
  else
    .ok s

/-- The helper `UThread::self_destroy` (`UThread.h` 190-193): `delete this`,
which does nothing when `this` is `NULL`. -/
def UThread.self_destroy (this : Ptr) (s : Runtime) : Runtime :=
  match this with
  | none => s
  | some p => UThread.dtor p s

/-- The assembly routine `internal_exit` (lines 373-404) at the scheduler
level: `m_pRunningThread` becomes `nextThread`, the load through `edx` faults
on `NULL`, then `self_destroy` is called on `currentThread`, which the routine
itself never dereferences. -/
def internal_exit (currentThread nextThread : Ptr) (s : Runtime) :
    Except (Fault × Runtime) Runtime :=
  let s1 := { s with m_pRunningThread := nextThread }
  match nextThread with
  | none => .error (Fault.accessViolation, s1)
  | some _ => .ok (UThread.self_destroy currentThread s1)

/-- The function `UThread::Exit` (lines 266-270); control never comes back to
the caller. -/
def UThread.Exit (s : Runtime) : Except (Fault × Runtime) Runtime :=
  let currentThread := s.m_pRunningThread
  let r := UScheduler.find_next_thread s
  internal_exit currentThread r.1 r.2

/-- The function `UThread::Current` (lines 276-280): the address of the
running thread. -/
def UThread.Current (s : Runtime) : Except (Fault × Runtime) Nat :=
  match s.m_pRunningThread with
  | none => .error (Fault.assertion, s)
  | some p => .ok p

/-- The function `UThread::Park` (lines 286-290). -/
def UThread.Park (s : Runtime) : Except (Fault × Runtime) Runtime :=
  match s.m_pRunningThread with
  | none => .error (Fault.assertion, s)
  | some p =>
    let r := UScheduler.find_next_thread s
    context_switch (some p) r.1 r.2

/-- How far a call of `UScheduler::Run` got before control left it. -/
inductive RunPhase where
  | returned
  | switched
  deriving DecidableEq, Repr

/-- The function `UScheduler::Run` up to and including its context switch
(lines 88-112); `pMain` is the address of the local `mainThread`. -/
def UScheduler.Run_enter (pMain : Nat) (s : Runtime) :
    Except (Fault × Runtime) (RunPhase × Runtime) :=
  if s.m_pRunningThread ≠ none then .error (Fault.assertion, s)
  else if s.m_readyQueue.isEmpty then .ok (RunPhase.returned, s)
  else
    let s1 := UThread.ctor_main pMain s
    let s2 := { s1 with m_pMainThread := some pMain }
    let r := UScheduler.find_next_thread s2
    match context_switch (some pMain) r.1 r.2 with
    | .error e => .error e
    | .ok s3 => .ok (RunPhase.switched, s3)

/-- The function `UScheduler::Run` from the point where its context switch
returns (lines 119-126), the destructor of the local `mainThread` included. -/
def UScheduler.Run_resume (pMain : Nat) (s : Runtime) : Except (Fault × Runtime) Runtime :=
  if ¬ s.m_readyQueue.isEmpty then .error (Fault.assertion, s)
  else
    let s1 := { s with m_pRunningThread := none }
    .ok (UThread.dtor pMain s1)

/-- The results of `n` successive calls of `UScheduler::find_next_thread`. -/
def UScheduler.next_threads : Nat → Runtime → List Ptr
  | 0, _ => []
  | n + 1, s =>
    let r := UScheduler.find_next_thread s
    r.1 :: UScheduler.next_threads n r.2

/-! ## Mutex.cpp -/

/-- The function `Mutex::Acquire` (lines 35-69) up to the point where it
returns or parks the caller; a parked caller continues with
`Mutex.Acquire_afterPark` when it is resumed. -/
def Mutex.Acquire (m : Mutex) (s : Runtime) :
    Except (Fault × Mutex × Runtime) (Mutex × Runtime) :=
  match UThread.Current s with
  | .error e => .error (e.1, m, e.2)
  | .ok currentThread =>
    if m.m_pOwner = some currentThread then
      .ok ({ m with m_recursionCounter := toInt32 (m.m_recursionCounter + 1) }, s)
    else if m.m_pOwner = none then
      .ok ({ m with m_pOwner := some currentThread, m_recursionCounter := 1 }, s)
    else
      let m1 := { m with m_waitList := push_back m.m_waitList (some currentThread) }
      match UThread.Park s with
      | .error e => .error (e.1, m1, e.2)
      | .ok s1 => .ok (m1, s1)

/-- The rest of the blocked branch of `Mutex::Acquire` (line 67), run by the
fiber `currentThread` when `UThread::Park` returns to it. -/
def Mutex.Acquire_afterPark (currentThread : Nat) (m : Mutex) : Except (Fault × Mutex) Mutex :=
  if m.m_pOwner = some currentThread then .ok m else .error (Fault.assertion, m)

/-- The function `Mutex::Release` (lines 76-116). -/
def Mutex.Release (m : Mutex) (s : Runtime) :
    Except (Fault × Mutex × Runtime) (Mutex × Runtime) :=
  match UThread.Current s with
  | .error e => .error (e.1, m, e.2)
  | .ok currentThread =>
    if m.m_pOwner ≠ some currentThread then .error (Fault.assertion, m, s)
    else
      let m1 := { m with m_recursionCounter := toInt32 (m.m_recursionCounter - 1) }
      if m1.m_recursionCounter > 0 then .ok (m1, s)
      else if m1.m_waitList.isEmpty then .ok ({ m1 with m_pOwner := none }, s)
      else
        let thread := front m1.m_waitList
        let m2 := { m1 with m_waitList := pop_front m1.m_waitList }
        let m3 := { m2 with m_pOwner := thread }
        let m4 := { m3 with m_recursionCounter := 1 }
        .ok (m4, UThread.Unpark thread s)

/-- The values the mutex takes, statement by statement, while
`Mutex::Release` runs its transfer branch (lines 82 and 105-109) from `m`:
after the decrement, after `pop_front`, after the store to `m_pOwner`, after
the store to `m_recursionCounter`. -/
def Mutex.Release_transfer_states (m : Mutex) : List Mutex :=
  let m1 := { m with m_recursionCounter := toInt32 (m.m_recursionCounter - 1) }
  let thread := front m1.m_waitList
  let m2 := { m1 with m_waitList := pop_front m1.m_waitList }
  let m3 := { m2 with m_pOwner := thread }
  let m4 := { m3 with m_recursionCounter := 1 }
  [m1, m2, m3, m4]

/-- The two member functions a fiber can call on a mutex. -/
inductive MutexCall where
  | Acquire
  | Release
  deriving DecidableEq, Repr

/-- One call on the mutex `m`, made in the scheduler state `s`; the caller is
the running thread of `s`. -/
def Mutex.call (c : MutexCall) (m : Mutex) (s : Runtime) :
    Except (Fault × Mutex × Runtime) (Mutex × Runtime) :=
  match c with
  | MutexCall.Acquire => Mutex.Acquire m s
  | MutexCall.Release => Mutex.Release m s

/-- A history of calls on one mutex.  Each call comes with the scheduler
state in which it is made: what the scheduler and the other fibers did since
the previous call is left open.  The result is the mutex after the last call;
the first call that stops the process ends the history. -/
def Mutex.history : List (MutexCall × Runtime) → Mutex → Except (Fault × Mutex × Runtime) Mutex
  | [], m => .ok m
  | e :: rest, m =>
    match Mutex.call e.1 m e.2 with
    | .error err => .error err
    | .ok r => Mutex.history rest r.1

/-- The number of `Acquire` calls of a history. -/
def acquireCount (h : List (MutexCall × Runtime)) : Nat :=
  (h.filter (fun e => e.1 = MutexCall.Acquire)).length

/-- The number of `Release` calls of a history. -/
def releaseCount (h : List (MutexCall × Runtime)) : Nat :=
  (h.filter (fun e => e.1 = MutexCall.Release)).length

/-- The callers that blocked in `Acquire` during a history, in the order in
which they blocked: a call blocks when it is an `Acquire` made while the mutex
is held by a thread other than the caller. -/
def Mutex.arrived : List (MutexCall × Runtime) → Mutex → List Ptr
  | [], _ => []
  | e :: rest, m =>
    match Mutex.call e.1 m e.2 with
    | .error _ => []
    | .ok r =>
      (if e.1 = MutexCall.Acquire ∧ m.m_pOwner ≠ none ∧ m.m_pOwner ≠ e.2.m_pRunningThread
        then [e.2.m_pRunningThread] else [])
      ++ Mutex.arrived rest r.1

/-- The owners that `Release` calls installed during a history, in order: a
`Release` hands the mutex over when its decrement leaves the recursion counter
not positive (it brings the counter to zero) while the wait list is not empty;
the owner recorded is the one found in the mutex after the call. -/
def Mutex.served : List (MutexCall × Runtime) → Mutex → List Ptr
  | [], _ => []
  | e :: rest, m =>
    match Mutex.call e.1 m e.2 with
    | .error _ => []
    | .ok r =>
      (if e.1 = MutexCall.Release ∧ ¬ toInt32 (m.m_recursionCounter - 1) > 0 ∧ m.m_waitList ≠ []
        then [r.1.m_pOwner] else [])
      ++ Mutex.served rest r.1

/-! ## Semaphore.cpp -/

/-- The function `Semaphore::Wait` (lines 34-58). -/
def Semaphore.Wait (sem : Semaphore) (s : Runtime) :
    Except (Fault × Semaphore × Runtime) (Semaphore × Runtime) :=
  match UThread.Current s with
  | .error e => .error (e.1, sem, e.2)
  | .ok currentThread =>
    if sem.m_permits > 0 then
      .ok ({ sem with m_permits := toInt32 (sem.m_permits - 1) }, s)
    else
      let sem1 := { sem with m_waitList := push_back sem.m_waitList (some currentThread) }
      match UThread.Park s with
      | .error e => .error (e.1, sem1, e.2)
      | .ok s1 => .ok (sem1, s1)

/-- The function `Semaphore::Post` (lines 64-82). -/
def Semaphore.Post (sem : Semaphore) (s : Runtime) :
    Except (Fault × Semaphore × Runtime) (Semaphore × Runtime) :=
  match UThread.Current s with
  | .error e => .error (e.1, sem, e.2)
  | .ok _ =>
    if sem.m_waitList.isEmpty then
      .ok ({ sem with m_permits := toInt32 (sem.m_permits + 1) }, s)
    else
      let thread := front sem.m_waitList
      let sem1 := { sem with m_waitList := pop_front sem.m_waitList }
      .ok (sem1, UThread.Unpark thread s)

/-! ## The whole program state and the calls fibers make -/

/-- The scheduler state together with every mutex and every semaphore of the
program, each named by a number. -/
structure World where
  sched : Runtime
  mutexes : Nat → Mutex
  semaphores : Nat → Semaphore

/-- A call of the library made by the running code. -/
inductive Call where
  | Create (p stack function argument : Nat)
  | Yield
  | Exit
  | Current
  | Park
  | Unpark (target : Nat)
  | Acquire (i : Nat)
  | Release (i : Nat)
  | Wait (j : Nat)
  | Post (j : Nat)
  deriving DecidableEq, Repr

/-- Puts the scheduler state of a result back into the world. -/
def World.withSched (w : World) (r : Except (Fault × Runtime) Runtime) :
    Except (Fault × World) World :=
  match r with
  | .error e => .error (e.1, { w with sched := e.2 })
  | .ok s => .ok { w with sched := s }

/-- Puts the mutex `i` and the scheduler state of a result back into the world. -/
def World.withMutex (w : World) (i : Nat)
    (r : Except (Fault × Mutex × Runtime) (Mutex × Runtime)) : Except (Fault × World) World :=
  match r with
  | .error e => .error (e.1, { w with sched := e.2.2, mutexes := Function.update w.mutexes i e.2.1 })
  | .ok x => .ok { w with sched := x.2, mutexes := Function.update w.mutexes i x.1 }

/-- Puts the semaphore `j` and the scheduler state of a result back into the
world. -/
def World.withSemaphore (w : World) (j : Nat)
    (r : Except (Fault × Semaphore × Runtime) (Semaphore × Runtime)) :
    Except (Fault × World) World :=
  match r with
  | .error e =>
    .error (e.1, { w with sched := e.2.2, semaphores := Function.update w.semaphores j e.2.1 })
  | .ok x => .ok { w with sched := x.2, semaphores := Function.update w.semaphores j x.1 }

/-- The effect of one call on the world. -/
def World.step (c : Call) (w : World) : Except (Fault × World) World :=
  match c with
  | Call.Create p stack function argument =>
    .ok { w with sched := UThread.Create p stack function argument w.sched }
  | Call.Yield => w.withSched (UThread.Yield w.sched)
  | Call.Exit => w.withSched (UThread.Exit w.sched)
  | Call.Current =>
    match UThread.Current w.sched with
    | .error e => .error (e.1, { w with sched := e.2 })
    | .ok _ => .ok w
  | Call.Park => w.withSched (UThread.Park w.sched)
  | Call.Unpark target => .ok { w with sched := UThread.Unpark (some target) w.sched }
  | Call.Acquire i => w.withMutex i (Mutex.Acquire (w.mutexes i) w.sched)
  | Call.Release i => w.withMutex i (Mutex.Release (w.mutexes i) w.sched)
  | Call.Wait j => w.withSemaphore j (Semaphore.Wait (w.semaphores j) w.sched)
  | Call.Post j => w.withSemaphore j (Semaphore.Post (w.semaphores j) w.sched)

/-- The effect of a sequence of calls, each made by whichever thread is
running when its turn comes; the first call that stops the process ends it. -/
def World.run : List Call → World → Except (Fault × World) World
  | [], w => .ok w
  | c :: cs, w =>
    match World.step c w with
    | .error e => .error e
    | .ok w1 => World.run cs w1

/-- A call that does not pass the address `pMain`: fiber code gets thread
addresses from `UThread::Current` and `new` only, and neither yields the
address of the local `mainThread` of `UScheduler::Run`. -/
def Call.avoids (pMain : Nat) : Call → Bool
  | Call.Create p _ _ _ => decide (p ≠ pMain)
  | Call.Unpark target => decide (target ≠ pMain)
  | _ => true

/-- Every call of the sequence is made while a thread other than `pMain` is
running and avoids `pMain`: the calls are made by fibers. -/
def madeByFibers (pMain : Nat) : List Call → World → Bool
  | [], _ => true
  | c :: cs, w =>
    decide (w.sched.m_pRunningThread ≠ some pMain) && c.avoids pMain &&
      match World.step c w with
      | .error _ => true
      | .ok w1 => madeByFibers pMain cs w1

/-- The calls that end in `UThread::Park` or `internal_exit` on some path. -/
def Call.mayPark : Call → Bool
  | Call.Park => true
  | Call.Exit => true
  | Call.Acquire _ => true
  | Call.Wait _ => true
  | _ => false

/-- The world a call leaves behind, whether the call returned or stopped the
process. -/
def World.after (r : Except (Fault × World) World) : World :=
  match r with
  | .error e => e.2
  | .ok w => w

/-! ## Histories of calls on one semaphore -/

/-- The two member functions a fiber can call on a semaphore. -/
inductive SemaphoreCall where
  | Wait
  | Post
  deriving DecidableEq, Repr

/-- One call on the semaphore `sem`, made in the scheduler state `s`; the
caller is the running thread of `s`. -/
def Semaphore.call (c : SemaphoreCall) (sem : Semaphore) (s : Runtime) :
    Except (Fault × Semaphore × Runtime) (Semaphore × Runtime) :=
  match c with
  | SemaphoreCall.Wait => Semaphore.Wait sem s
  | SemaphoreCall.Post => Semaphore.Post sem s

/-- A history of calls on one semaphore, each made in the scheduler state
paired with it.  The result is the semaphore after the last call; the first
call that stops the process ends the history. -/
def Semaphore.history :
    List (SemaphoreCall × Runtime) → Semaphore → Except (Fault × Semaphore × Runtime) Semaphore
  | [], sem => .ok sem
  | e :: rest, sem =>
    match Semaphore.call e.1 sem e.2 with
    | .error err => .error err
    | .ok r => Semaphore.history rest r.1

/-- The invariant of `Semaphore`: the number of permits is not negative, and
it is zero whenever a thread waits. -/
def Semaphore.invariant (sem : Semaphore) : Prop :=
  0 ≤ sem.m_permits ∧ (sem.m_waitList ≠ [] → sem.m_permits = 0)

/-- No call of the history is a `Post` made with an empty wait list while
`m_permits` already is the largest `int`. -/
def Semaphore.withinInt : List (SemaphoreCall × Runtime) → Semaphore → Bool
  | [], _ => true
  | e :: rest, sem =>
    !(decide (e.1 = SemaphoreCall.Post) && decide (sem.m_waitList = [])
        && decide (sem.m_permits = INT_MAX)) &&
      match Semaphore.call e.1 sem e.2 with
      | .error _ => true
      | .ok r => Semaphore.withinInt rest r.1

/-- The number of `Wait` calls of a history. -/
def waitCount (h : List (SemaphoreCall × Runtime)) : Nat :=
  (h.filter (fun e => e.1 = SemaphoreCall.Wait)).length

/-- The number of `Post` calls of a history. -/
def postCount (h : List (SemaphoreCall × Runtime)) : Nat :=
  (h.filter (fun e => e.1 = SemaphoreCall.Post)).length

/-- The number of `Wait` calls of a history that have been satisfied: a `Wait`
that finds a permit returns at once (lines 42-45), and a `Post` that finds a
waiter unparks it (lines 78-81). -/
def Semaphore.satisfied : List (SemaphoreCall × Runtime) → Semaphore → Nat
  | [], _ => 0
  | e :: rest, sem =>
    match Semaphore.call e.1 sem e.2 with
    | .error _ => 0
    | .ok r =>
      (if (e.1 = SemaphoreCall.Wait ∧ sem.m_permits > 0)
          ∨ (e.1 = SemaphoreCall.Post ∧ sem.m_waitList ≠ []) then 1 else 0)
        + Semaphore.satisfied rest r.1

/-! ## Everything the process does, and the identities it hands out -/

/-- The member `UThread::GetId` (`UThread.h` 142-145) of the object at address
`p`; none when no object exists there. -/
def UThread.GetId (p : Nat) (s : Runtime) : Option Int :=
  (s.threads.lookup p).map (fun t => t.m_threadId)

/-- Something the process does to the library state: a call made by the
running code (the host thread outside a `Run`, a fiber inside), the first part
of `UScheduler::Run` up to its context switch, or its second part from the
return of that switch. -/
inductive Action where
  | call (c : Call)
  | runEnter (pMain : Nat)
  | runResume (pMain : Nat)
  deriving DecidableEq, Repr

/-- The effect of one action on the world. -/
def World.act (a : Action) (w : World) : Except (Fault × World) World :=
  match a with
  | Action.call c => World.step c w
  | Action.runEnter pMain =>
    match UScheduler.Run_enter pMain w.sched with
    | .error e => .error (e.1, { w with sched := e.2 })
    | .ok r => .ok { w with sched := r.2 }
  | Action.runResume pMain => w.withSched (UScheduler.Run_resume pMain w.sched)

/-- The effect of a sequence of actions; the first that stops the process
ends it. -/
def World.acts : List Action → World → Except (Fault × World) World
  | [], w => .ok w
  | a :: rest, w =>
    match World.act a w with
    | .error e => .error e
    | .ok w1 => World.acts rest w1

/-- The address of the `UThread` object the action constructs in world `w`,
if it constructs one: `Create` runs `new UThread(function, argument)`, and
`Run` declares its `mainThread` once it is past its assertion and its test of
the ready queue. -/
def Action.constructs (a : Action) (w : World) : Option Nat :=
  match a with
  | Action.call (Call.Create p _ _ _) => some p
  | Action.runEnter pMain =>
    if w.sched.m_pRunningThread = none ∧ ¬ w.sched.m_readyQueue.isEmpty then some pMain
    else none
  | _ => none

/-- The identities of the objects constructed during a sequence of actions,
in the order of construction: each is what `GetId` returns for the new object
right after the action that constructed it. -/
def World.identities : List Action → World → List Int
  | [], _ => []
  | a :: rest, w =>
    match World.act a w with
    | .error _ => []
    | .ok w1 =>
      (match a.constructs w with
        | none => []
        | some p => (UThread.GetId p w1.sched).toList)
      ++ World.identities rest w1

/-- No action of the sequence constructs a `UThread` while `m_threadIdSeed`
already is the largest `int`. -/
def World.seedWithinInt : List Action → World → Bool
  | [], _ => true
  | a :: rest, w =>
    !((a.constructs w).isSome && decide (w.sched.m_threadIdSeed = INT_MAX)) &&
      match World.act a w with
      | .error _ => true
      | .ok w1 => World.seedWithinInt rest w1

/-! ## The states the program can reach -/

/-- The world at program start: the statics of the scheduler are
zero-initialised and every synchronizer is as its constructor leaves it. -/
def World.initial : World :=
  { sched := Runtime.initial, mutexes := fun _ => Mutex.new,
    semaphores := fun _ => Semaphore.new }

/-- The addresses of the `UThread` objects that exist. -/
def Runtime.live (s : Runtime) : List Nat :=
  s.threads.map Prod.fst

/-- A list of threads of the program: the ready queue, the wait list of a
mutex, or the wait list of a semaphore. -/
inductive Place where
  | ready
  | mutex (i : Nat)
  | semaphore (j : Nat)
  deriving DecidableEq, Repr

/-- The list found at a place. -/
def World.queueAt (w : World) : Place → List Ptr
  | Place.ready => w.sched.m_readyQueue
  | Place.mutex i => (w.mutexes i).m_waitList
  | Place.semaphore j => (w.semaphores j).m_waitList

/-- Whether the program can take the action in world `w`.  A call is made by
the host thread outside a `Run` or by a fiber, not by the main thread, which
sits in the context switch of `Run` until it is switched in and then runs the
rest of `Run`; the calls are `Create`, `Yield`, `Exit`, `Acquire`, `Release`,
`Wait` and `Post` (`Park` and `Unpark` are called by the synchronizers only).
`new` and the stack frame of `Run` give an address at which no `UThread`
exists. -/
def Action.legal (a : Action) (w : World) : Bool :=
  match a with
  | Action.call c =>
    decide (w.sched.m_pRunningThread = none ∨ w.sched.m_pRunningThread ≠ w.sched.m_pMainThread) &&
      match c with
      | Call.Create p _ _ _ => decide (p ∉ w.sched.live)
      | Call.Yield => true
      | Call.Exit => true
      | Call.Acquire _ => true
      | Call.Release _ => true
      | Call.Wait _ => true
      | Call.Post _ => true
      | _ => false
  | Action.runEnter pMain => decide (pMain ∉ w.sched.live)
  | Action.runResume pMain =>
    decide (w.sched.m_pRunningThread = some pMain ∧ w.sched.m_pMainThread = some pMain)

/-- Whether the object the action constructs, if any, lies in the 32-bit
address space at a word-aligned address (a `UThread` holds 32-bit words). -/
def Action.inAddressSpace (a : Action) (w : World) : Bool :=
  match a.constructs w with
  | none => true
  | some p => decide (p % 4 = 0 ∧ p < 4294967296)

/-- Every action of the sequence satisfies `P` in the world in which it is
taken. -/
def World.always (P : Action → World → Bool) : List Action → World → Bool
  | [], _ => true
  | a :: rest, w =>
    P a w &&
      match World.act a w with
      | .error _ => true
      | .ok w1 => World.always P rest w1

/-- The address of the `UThread` object the action destroys in world `w`, if
it destroys one: `Exit` ends in `delete this` on the running thread, and the
`mainThread` of `Run` is destroyed when `Run` returns. -/
def Action.destroys (a : Action) (w : World) : Option Nat :=
  match a with
  | Action.call Call.Exit => w.sched.m_pRunningThread
  | Action.runResume pMain => some pMain
  | _ => none

/-- The number of `UThread` objects constructed during a sequence of actions. -/
def World.constructed : List Action → World → Nat
  | [], _ => 0
  | a :: rest, w =>
    match World.act a w with
    | .error _ => 0
    | .ok w1 => (if (a.constructs w).isSome then 1 else 0) + World.constructed rest w1

/-- The number of `UThread` objects destroyed during a sequence of actions. -/
def World.destroyed : List Action → World → Nat
  | [], _ => 0
  | a :: rest, w =>
    match World.act a w with
    | .error _ => 0
    | .ok w1 => (if (a.destroys w).isSome then 1 else 0) + World.destroyed rest w1

/-- The main fiber a `Run` records in `m_pMainThread` (line 106), if the
action is the entry of a `Run` that gets that far. -/
def Action.recordsMain (a : Action) (w : World) : Option Nat :=
  match a with
  | Action.runEnter pMain =>
    if w.sched.m_pRunningThread = none ∧ ¬ w.sched.m_readyQueue.isEmpty then some pMain
    else none
  | _ => none

/-- No thread occurs twice in the lists `F`: none twice in one list, none in
two lists. -/
def Separate (F : Place → List Ptr) : Prop :=
  (∀ pl, (F pl).Nodup) ∧ (∀ pl1 pl2, pl1 ≠ pl2 → ∀ x ∈ F pl1, x ∉ F pl2)

/-- The thread `x` occurs in none of the lists `F`. -/
def Apart (F : Place → List Ptr) (x : Ptr) : Prop :=
  ∀ pl, x ∉ F pl

/-- Every entry of the lists `F` is the address of an object of `live`. -/
def Within (F : Place → List Ptr) (live : List Nat) : Prop :=
  ∀ pl, ∀ x ∈ F pl, ∃ a, x = some a ∧ a ∈ live

/-- No fiber occurs more than once across the ready queue and all wait lists
taken together, and the running fiber occurs in none of them. -/
def World.queuesDisjoint (w : World) : Prop :=
  Separate w.queueAt ∧ Apart w.queueAt w.sched.m_pRunningThread

/-- The facts about lists `F`, existing objects `live`, running thread `run`
and main-thread handle `main` that every action preserves: the lists are
separate and hold existing objects only, the running thread is in no list,
the thread the handle names is in no wait list, and the running thread exists
unless it is the one the handle names. -/
def Sound (F : Place → List Ptr) (live : List Nat) (run main : Ptr) : Prop :=
  Separate F ∧ Apart F run ∧ Within F live ∧
  (∀ pm, main = some pm → ∀ pl, pl ≠ Place.ready → some pm ∉ F pl) ∧
  (∀ r, run = some r → r ∈ live ∨ main = some r)

/-- The world is sound. -/
def World.sound (w : World) : Prop :=
  Sound w.queueAt w.sched.live w.sched.m_pRunningThread w.sched.m_pMainThread

/-- Whether the action can be taken in world `w` without using a `UThread`
that does not exist.  `new` and the stack frame of `Run` give an address at
which no `UThread` exists; the rest of a `Run` is run by its main thread, once
that is switched in; and the thread the action switches to, if it switches,
exists: the assembly routines load the stack pointer from that object, and
nothing is defined about what they find once it has been destroyed.  Every
call of the library passes, with any argument. -/
def Action.defined (a : Action) (w : World) : Bool :=
  (match a with
    | Action.call (Call.Create p _ _ _) => decide (p ∉ w.sched.live)
    | Action.call _ => true
    | Action.runEnter pMain => decide (pMain ∉ w.sched.live)
    | Action.runResume pMain =>
      decide (w.sched.m_pRunningThread = some pMain ∧ w.sched.m_pMainThread = some pMain)) &&
  (match World.act a w with
    | .error _ => true
    | .ok w1 =>
      match w1.sched.m_pRunningThread with
      | none => true
      | some r => decide (r ∈ w1.sched.live))

/-- No two `UThread` objects share an address, every object lies at a
word-aligned address of the 32-bit address space, `m_numThreads` is the number
of objects, and the running thread exists. -/
def World.counted (w : World) : Prop :=
  w.sched.live.Nodup ∧ (∀ x ∈ w.sched.live, x % 4 = 0 ∧ x < 4294967296) ∧
  w.sched.m_numThreads = (w.sched.threads.length : Int) ∧
  (∀ r, w.sched.m_pRunningThread = some r → r ∈ w.sched.live)

/-- Whether the action is a call of the library made by the host thread or by
a fiber, with any argument: not by the main thread of a `Run`, which sits in
the context switch of `Run` until it is switched in and then runs the rest of
`Run`, which calls nothing. -/
def Action.callByOther (a : Action) (w : World) : Bool :=
  match a with
  | Action.call _ =>
    decide (w.sched.m_pRunningThread = none ∨ w.sched.m_pRunningThread ≠ w.sched.m_pMainThread)
  | _ => false

/-- The value of `m_pMainThread` that the entries of `Run` in a sequence of
actions leave, starting from `handle`: each `Run` that gets as far as line 106
stores the address of its `mainThread`, and nothing else stores to it. -/
def World.recorded : List Action → World → Ptr → Ptr
  | [], _, handle => handle
  | a :: rest, w, handle =>
    match World.act a w with
    | .error _ => handle
    | .ok w1 =>
      World.recorded rest w1
        (match a.recordsMain w with
          | some pm => some pm
          | none => handle)

/-! ## The machine level: stacks, saved contexts and the assembly routines -/

/-- The bytes of memory, by address. -/
abbrev Memory := Nat → Nat

/-- The 32-bit word stored at address `a` (little-endian, as on x86). -/
def read32 (m : Memory) (a : Nat) : Nat :=
  m a + 256 * m (a + 1) + 65536 * m (a + 2) + 16777216 * m (a + 3)

/-- Memory after the 32-bit word `v` is stored at address `a`. -/
def write32 (m : Memory) (a v : Nat) : Memory := fun x =>
  if x = a then v % 256
  else if x = a + 1 then v / 256 % 256
  else if x = a + 2 then v / 65536 % 256
  else if x = a + 3 then v / 16777216 % 256
  else m x

/-- Memory after `memset(dst, value, n)`. -/
def memset (m : Memory) (dst value n : Nat) : Memory := fun x =>
  if dst ≤ x ∧ x < dst + n then value % 256 else m x

/-- The record `UThread::Context` (`UThread.h` 39-62): five 32-bit members, in
the order of their declaration. -/
structure Context where
  EDI : Nat
  ESI : Nat
  EBX : Nat
  EBP : Nat
  Ret : Nat
  deriving DecidableEq, Repr

/-- The constructor `Context::Context()` (`UThread.h` 55-61); `trampoline` is
the address of `UThread::trampoline`. -/
def Context.ctor (trampoline : Nat) : Context :=
  { EBX := 0x11111111, ESI := 0x22222222, EDI := 0x33333333, EBP := 0x00000000,
    Ret := trampoline }

/-- Memory after the record is written at address `a`: each member at the
offset its place in the declaration gives it, 0, 4, 8, 12, 16. -/
def Context.store (c : Context) (a : Nat) (m : Memory) : Memory :=
  write32 (write32 (write32 (write32 (write32 m a c.EDI) (a + 4) c.ESI) (a + 8) c.EBX)
    (a + 12) c.EBP) (a + 16) c.Ret

/-- The constant `UThread::m_stackSize` (`UThread.h` 68). -/
def m_stackSize : Nat := 16 * 4096

/-- The value of `sizeof(unsigned)` on the 32-bit target. -/
def sizeof_unsigned : Nat := 4

/-- The value of `sizeof(UThread::Context)`: five 32-bit members. -/
def sizeof_Context : Nat := 20

/-- The registers the assembly routines use, the memory, the member
`m_pContext` of each `UThread` object (by the address of the object) and the
static `UScheduler::m_pRunningThread`.  `eip` is the address at which
execution continues. -/
structure Cpu where
  esp : Nat
  ebp : Nat
  ebx : Nat
  esi : Nat
  edi : Nat
  eip : Nat
  mem : Memory
  m_pContext : Nat → Nat
  m_pRunningThread : Ptr

/-- The part of `UThread::UThread(Function, Argument)` that prepares the
stack (lines 169-205) of the object at address `p`: `new` returns `stack`, the
stack is zeroed, and a `Context` is constructed in place at
`m_pStack + m_stackSize - sizeof(unsigned) - sizeof(Context)` (pointer
arithmetic of the 32-bit target), which becomes `m_pContext`. -/
def UThread.ctor_stack (p stack trampoline : Nat) (c : Cpu) : Cpu :=
  let mem1 := memset c.mem stack 0 m_stackSize
  let pContext := (stack + m_stackSize - sizeof_unsigned - sizeof_Context) % 4294967296
  { c with mem := (Context.ctor trampoline).store pContext mem1,
           m_pContext := Function.update c.m_pContext p pContext }

/-- The instruction `push v`. -/
def Cpu.push (v : Nat) (c : Cpu) : Cpu :=
  { c with esp := (c.esp + 4294967296 - 4) % 4294967296,
           mem := write32 c.mem ((c.esp + 4294967296 - 4) % 4294967296) v }

/-- The word a `pop` or a `ret` takes from the stack. -/
def Cpu.top (c : Cpu) : Nat :=
  read32 c.mem c.esp

/-- The stack pointer after a `pop` or a `ret`. -/
def Cpu.drop (c : Cpu) : Cpu :=
  { c with esp := (c.esp + 4) % 4294967296 }

/-- The end of both assembly routines (lines 353-363 and 397-402): `pop edi`,
`pop esi`, `pop ebx`, `pop ebp`, `ret`. -/
def Cpu.restore (c : Cpu) : Cpu :=
  let c1 := { c.drop with edi := c.top }
  let c2 := { c1.drop with esi := c1.top }
  let c3 := { c2.drop with ebx := c2.top }
  let c4 := { c3.drop with ebp := c3.top }
  { c4.drop with eip := c4.top }

/-- The assembly routine `context_switch` (lines 319-365), instruction by
instruction; `ecx` holds `currentThread`, `edx` holds `nextThread`, and the
return address is atop the stack. -/
def context_switch_asm (currentThread nextThread : Ptr) (c : Cpu) :
    Except (Fault × Cpu) Cpu :=
  let c1 := c.push c.ebp
  let c2 := c1.push c1.ebx
  let c3 := c2.push c2.esi
  let c4 := c3.push c3.edi
  match currentThread with
  | none => .error (Fault.accessViolation, c4)
  | some cur =>
    let c5 := { c4 with m_pContext := Function.update c4.m_pContext cur c4.esp }
    let c6 := { c5 with m_pRunningThread := nextThread }
    match nextThread with
    | none => .error (Fault.accessViolation, c6)
    | some next => .ok { c6 with esp := c6.m_pContext next }.restore

/-- The assembly routine `internal_exit` (lines 373-404), instruction by
instruction.  The routine never dereferences `currentThread`: it stays in
`ecx` and is the `this` of the callee.  `call UThread::self_destroy` pushes
`returnAddress`; the callee runs `delete this` (which frees nothing when
`this` is `NULL`) and returns, which pops that address again; `destroy this`
is what the callee does to the memory meanwhile (its own frame below the
return address, the freed object and stack). -/
def internal_exit_asm (currentThread nextThread : Ptr) (returnAddress : Nat)
    (destroy : Ptr → Memory → Memory) (c : Cpu) : Except (Fault × Cpu) Cpu :=
  let c1 := { c with m_pRunningThread := nextThread }
  match nextThread with
  | none => .error (Fault.accessViolation, c1)
  | some next =>
    let c2 := { c1 with esp := c1.m_pContext next }
    let c3 := c2.push returnAddress
    let c4 := { c3 with mem := destroy currentThread c3.mem }
    .ok c4.drop.restore

/-- The fiber at address `p` with stack base `stack` has not run since it was
constructed: its `m_pContext` and the 24 bytes at the top of its stack, the
`Context` record and the word above it, are what the constructor left. -/
def Cpu.fresh (c : Cpu) (p stack trampoline : Nat) : Prop :=
  c.m_pContext p = (UThread.ctor_stack p stack trampoline c).m_pContext p ∧
  ∀ a, stack + 65512 ≤ a → a < stack + 65536 →
    c.mem a = (UThread.ctor_stack p stack trampoline c).mem a

/-- Execution has just entered the fiber at `p` for the first time: each
callee-saved register holds the member of the same name of the `Context` its
constructor wrote, execution continues at the trampoline, `p` is the running
thread, and the stack pointer is at the last word of the stack, which is
zero. -/
def Cpu.atTrampoline (c : Cpu) (p stack trampoline : Nat) : Prop :=
  c.edi = (Context.ctor trampoline).EDI ∧ c.esi = (Context.ctor trampoline).ESI ∧
  c.ebx = (Context.ctor trampoline).EBX ∧ c.ebp = (Context.ctor trampoline).EBP ∧
  c.ebp = 0 ∧ c.eip = trampoline ∧ c.m_pRunningThread = some p ∧
  c.esp = stack + 65532 ∧ read32 c.mem (stack + 65532) = 0

/-! ## Mutex.cpp, the destructor -/

/-- The destructor `Mutex::~Mutex` (`Mutex.cpp` 25-29). -/
def Mutex.destroy (m : Mutex) : Except (Fault × Mutex) Unit :=
  if m.m_pOwner ≠ none then .error (Fault.assertion, m)
  else if ¬ m.m_waitList.isEmpty then .error (Fault.assertion, m)
  else .ok ()

/-! ## Fibers that run code: Program.cpp -/

/-- What the test programs write to `cout`, as far as the tests are about it:
the character a fiber of test 1 prints, and the four messages of a fiber of
test 2 around its calls on the mutex, with the number the fiber prints in
them. -/
inductive Event where
  | char (c : Nat)
  | acquiring (k : Nat)
  | acquired (k : Nat)
  | releasing (k : Nat)
  | released (k : Nat)
  deriving DecidableEq, Repr

/-- One step of the code of a fiber: a call of the library, the rest of a
`Mutex::Acquire` on mutex `i` that parked (line 67, run when `Park` returns), a
write to `cout`, or the increment of the counter of the test. -/
inductive Instr where
  | call (c : Call)
  | afterPark (i : Nat)
  | emit (e : Event)
  | count
  deriving DecidableEq, Repr

/-- The library state together with the code each fiber still has to run
before its function returns (by the address of its `UThread`), the counter of
the test (an `unsigned int`) and what was written to `cout`. -/
structure Machine where
  world : World
  code : Nat → List Instr
  count : Nat
  out : List Event

/-- A fiber to create: the addresses `new` returns for the object and for its
stack, the function and argument passed to `UThread::Create`, and the code
that function runs with that argument. -/
structure FiberSpec where
  p : Nat
  stack : Nat
  function : Nat
  argument : Nat
  code : List Instr

/-- The call `UThread::Create(function, argument)` made by the host thread. -/
def Machine.create (f : FiberSpec) (M : Machine) : Machine :=
  { M with
    world := { M.world with
      sched := UThread.Create f.p f.stack f.function f.argument M.world.sched },
    code := Function.update M.code f.p f.code }

/-- The calls of `UThread::Create` for the fibers of a list, in order. -/
def Machine.createAll (fs : List FiberSpec) (M : Machine) : Machine :=
  fs.foldl (fun N f => N.create f) M

/-- The machine after a library call by fiber `r`, which has `rest` left to
run. -/
def Machine.setWorld (M : Machine) (r : Nat) (rest : List Instr)
    (res : Except (Fault × World) World) : Except (Fault × Machine) Machine :=
  match res with
  | .error e => .error (e.1, { M with world := e.2 })
  | .ok w => .ok { M with world := w, code := Function.update M.code r rest }

/-- What a library call leaves the caller `r` to run inside the library when
it is resumed: an `Acquire` of a mutex held by another thread parks and has
its assertion left; every other call has nothing left. -/
def Call.resumes (c : Call) (r : Nat) (w : World) : List Instr :=
  match c with
  | Call.Acquire i =>
    if (w.mutexes i).m_pOwner ≠ none ∧ (w.mutexes i).m_pOwner ≠ some r
    then [Instr.afterPark i] else []
  | _ => []

/-- The running fiber `r` executes the next step of its code.  When its
function has returned, `UThread::trampoline` (lines 306-311) calls `Exit`. -/
def Machine.step (r : Nat) (M : Machine) : Except (Fault × Machine) Machine :=
  match M.code r with
  | [] => M.setWorld r [] (World.step Call.Exit M.world)
  | Instr.call c :: rest =>
    M.setWorld r (c.resumes r M.world ++ rest) (World.step c M.world)
  | Instr.afterPark i :: rest =>
    match Mutex.Acquire_afterPark r (M.world.mutexes i) with
    | .error e => .error (e.1, M)
    | .ok _ => .ok { M with code := Function.update M.code r rest }
  | Instr.emit e :: rest =>
    .ok { M with code := Function.update M.code r rest, out := M.out ++ [e] }
  | Instr.count :: rest =>
    .ok { M with code := Function.update M.code r rest,
                 count := (M.count + 1) % 4294967296 }

/-- At most `fuel` steps of the fibers, until the thread at `pMain` runs. -/
def Machine.exec (pMain : Nat) : Nat → Machine → Except (Fault × Machine) Machine
  | 0, M => .ok M
  | fuel + 1, M =>
    match M.world.sched.m_pRunningThread with
    | none => .ok M
    | some r =>
      if r = pMain then .ok M
      else
        match Machine.step r M with
        | .error e => .error e
        | .ok M1 => Machine.exec pMain fuel M1

/-- The call `UScheduler::Run()` made by the host thread, its `mainThread` at
address `pMain`: none when the fibers have not switched back to the main
thread within `fuel` steps. -/
def Machine.Run (pMain fuel : Nat) (M : Machine) : Except (Fault × Machine) (Option Machine) :=
  match UScheduler.Run_enter pMain M.world.sched with
  | .error e => .error (e.1, { M with world := { M.world with sched := e.2 } })
  | .ok (RunPhase.returned, s) => .ok (some { M with world := { M.world with sched := s } })
  | .ok (RunPhase.switched, s) =>
    match Machine.exec pMain fuel { M with world := { M.world with sched := s } } with
    | .error e => .error e
    | .ok M1 =>
      if M1.world.sched.m_pRunningThread = some pMain then
        match UScheduler.Run_resume pMain M1.world.sched with
        | .error e => .error (e.1, { M1 with world := { M1.world with sched := e.2 } })
        | .ok s3 => .ok (some { M1 with world := { M1.world with sched := s3 } })
      else .ok none

/-- The function `test1_thread` (`Program.cpp` 34-49) for the character `c`;
`yields i` tells whether `rand() % 4 == 0` in iteration `i`. -/
def test1_thread (c : Nat) (yields : Nat → Bool) : List Instr :=
  (List.range 16).flatMap
      (fun i => Instr.emit (Event.char c) ::
        (if yields i then [Instr.call Call.Yield] else []))
    ++ [Instr.count, Instr.call Call.Exit]

/-- The ten fibers `test1` creates (lines 56-58): fiber `i` gets the
character `'0' + i`; `obj i` and `stack i` are the addresses `new` returns for
it, `yields i` its random decisions. -/
def test1_fibers (obj stack : Nat → Nat) (yields : Nat → Nat → Bool) : List FiberSpec :=
  (List.range 10).map (fun i =>
    { p := obj i, stack := stack i, function := 1, argument := 48 + i,
      code := test1_thread (48 + i) (yields i) })

/-- The function `test1` (`Program.cpp` 51-64). -/
def test1 (pMain fuel : Nat) (obj stack : Nat → Nat) (yields : Nat → Nat → Bool)
    (M : Machine) : Except (Fault × Machine) (Option Machine) :=
  let M1 := { M with count := 0 }
  let M2 := Machine.createAll (test1_fibers obj stack yields) M1
  match Machine.Run pMain fuel M2 with
  | .error e => .error e
  | .ok none => .ok none
  | .ok (some M3) => if M3.count = 10 then .ok (some M3) else .error (Fault.assertion, M3)

/-- The function `test2_thread1` (`Program.cpp` 74-100) on the mutex `mtx`,
printing the number `k`. -/
def test2_thread1 (mtx k : Nat) : List Instr :=
  [Instr.emit (Event.acquiring k), Instr.call (Call.Acquire mtx),
   Instr.emit (Event.acquired k), Instr.call Call.Yield,
   Instr.emit (Event.acquiring k), Instr.call (Call.Acquire mtx),
   Instr.emit (Event.acquired k), Instr.call Call.Yield,
   Instr.emit (Event.releasing k), Instr.call (Call.Release mtx),
   Instr.emit (Event.released k), Instr.call Call.Yield,
   Instr.emit (Event.releasing k), Instr.call (Call.Release mtx),
   Instr.emit (Event.released k), Instr.count]

/-- The functions `test2_thread2` and `test2_thread3` (`Program.cpp` 102-132),
which differ in the number `k` they print. -/
def test2_thread2 (mtx k : Nat) : List Instr :=
  [Instr.emit (Event.acquiring k), Instr.call (Call.Acquire mtx),
   Instr.emit (Event.acquired k), Instr.call Call.Yield,
   Instr.emit (Event.releasing k), Instr.call (Call.Release mtx),
   Instr.emit (Event.released k), Instr.count]

/-- The fibers of test 2 with `n` contenders: the first runs `test2_thread1`,
every other one `test2_thread2`; fiber `i` (counted from 0) prints `i + 1`. -/
def test2_fibers (n mtx : Nat) (obj stack : Nat → Nat) : List FiberSpec :=
  (List.range n).map (fun i =>
    { p := obj i, stack := stack i, function := if i = 0 then 1 else 2, argument := mtx,
      code := if i = 0 then test2_thread1 mtx 1 else test2_thread2 mtx (i + 1) })

/-- The function `test2` (`Program.cpp` 134-149) with `n` contenders for the
mutex numbered `mtx`, up to the return of `UScheduler::Run`; the source has
`n = 3`. -/
def test2 (pMain fuel n mtx : Nat) (obj stack : Nat → Nat) (M : Machine) :
    Except (Fault × Machine) (Option Machine) :=
  let M1 := { M with
    world := { M.world with mutexes := Function.update M.world.mutexes mtx Mutex.new },
    count := 0 }
  Machine.Run pMain fuel (Machine.createAll (test2_fibers n mtx obj stack) M1)

/-- The mutual exclusion a log of test 2 shows, read from left to right with
the current holder and its nesting depth: `acquired k` must find the mutex
free or held by `k`, `releasing k` must find it held by `k`. -/
def exclusive : List Event → Option (Nat × Nat) → Bool
  | [], _ => true
  | Event.acquired k :: rest, none => exclusive rest (some (k, 1))
  | Event.acquired k :: rest, some h =>
    if h.1 = k then exclusive rest (some (k, h.2 + 1)) else false
  | Event.releasing _ :: _, none => false
  | Event.releasing k :: rest, some h =>
    if h.1 = k then exclusive rest (if h.2 ≤ 1 then none else some (k, h.2 - 1)) else false
  | _ :: rest, h => exclusive rest h

/-- The fibers that print `acquired`, in the order of the log. -/
def acquisitions : List Event → List Nat
  | [] => []
  | Event.acquired k :: rest => k :: acquisitions rest
  | _ :: rest => acquisitions rest

/-! ## Properties of fibers that never block -/

/-- The steps a fiber that never blocks is made of: writes, increments,
`Yield` and `Exit`. -/
def Instr.plain : Instr → Bool
  | Instr.call c => decide (c = Call.Yield) || decide (c = Call.Exit)
  | Instr.afterPark _ => false
  | Instr.emit _ => true
  | Instr.count => true

/-- The number of steps a fiber with this code takes until it has exited. -/
def stepsToExit : List Instr → Nat
  | [] => 1
  | Instr.call c :: rest => if c = Call.Exit then 1 else stepsToExit rest + 1
  | Instr.afterPark _ :: rest => stepsToExit rest + 1
  | Instr.emit _ :: rest => stepsToExit rest + 1
  | Instr.count :: rest => stepsToExit rest + 1

/-- The number of events satisfying `P` this code writes before it exits. -/
def emitsBeforeExit (P : Event → Bool) : List Instr → Nat
  | [] => 0
  | Instr.call c :: rest => if c = Call.Exit then 0 else emitsBeforeExit P rest
  | Instr.afterPark _ :: rest => emitsBeforeExit P rest
  | Instr.emit e :: rest => (if P e then 1 else 0) + emitsBeforeExit P rest
  | Instr.count :: rest => emitsBeforeExit P rest

/-- The number of increments of the counter this code makes before it exits. -/
def countsBeforeExit : List Instr → Nat
  | [] => 0
  | Instr.call c :: rest => if c = Call.Exit then 0 else countsBeforeExit rest
  | Instr.afterPark _ :: rest => countsBeforeExit rest
  | Instr.emit _ :: rest => countsBeforeExit rest
  | Instr.count :: rest => countsBeforeExit rest + 1

/-- The machine is inside a `Run` whose main thread is `pMain`, fiber `r.1`
runs with code `r.2`, the ready queue holds the fibers of `q` in order, each
with the code paired with it; the fibers are distinct, none is `pMain`, and
none blocks. -/
def Machine.schedules (pMain : Nat) (M : Machine) (r : Nat × List Instr)
    (q : List (Nat × List Instr)) : Prop :=
  M.world.sched.m_pMainThread = some pMain ∧
  M.world.sched.m_pRunningThread = some r.1 ∧
  M.world.sched.m_readyQueue = q.map (fun f => some f.1) ∧
  ((r :: q).map Prod.fst).Nodup ∧
  pMain ∉ (r :: q).map Prod.fst ∧
  (∀ f ∈ r :: q, M.code f.1 = f.2 ∧ ∀ i ∈ f.2, i.plain = true) ∧
  M.count < 4294967296

/-- What test 2 follows of a machine inside `Run`: the main thread `pMain`,
the running fiber `run`, the ready queue, the mutex `mtx`, the counter and the
output. -/
def Machine.holds (M : Machine) (pMain mtx run : Nat) (queue : List Nat) (m : Mutex)
    (cnt : Nat) (out : List Event) : Prop :=
  M.world.sched.m_pMainThread = some pMain ∧
  M.world.sched.m_pRunningThread = some run ∧
  M.world.sched.m_readyQueue = queue.map some ∧
  M.world.mutexes mtx = m ∧ M.count = cnt ∧ M.out = out

/-! ## Properties of a mutex -/

/-- The invariant of `Mutex`: the recursion counter is positive exactly when
the mutex has an owner, and it is zero when the mutex is free. -/
def Mutex.invariant (m : Mutex) : Prop :=
  (0 < m.m_recursionCounter ↔ m.m_pOwner ≠ none) ∧
  (m.m_pOwner = none → m.m_recursionCounter = 0)

/-- The mutex that fiber `c` has acquired `d` times more often than released,
with nobody waiting: free when `d` is zero. -/
def Mutex.nested (c : Nat) (d : Nat) : Mutex :=
  { m_pOwner := if d = 0 then none else some c, m_recursionCounter := (d : Int),
    m_waitList := [] }

/-- A mutex whose fields are in range: no `NULL` waits, and the mutex is
either free with counter zero or owned with a counter from 1 to the largest
`int`. -/
def Mutex.inRange (m : Mutex) : Prop :=
  none ∉ m.m_waitList ∧
  ((m.m_pOwner = none ∧ m.m_recursionCounter = 0) ∨
   (m.m_pOwner ≠ none ∧ 1 ≤ m.m_recursionCounter ∧ m.m_recursionCounter ≤ INT_MAX))

/-- No call of the history is an `Acquire` by the owner made while the
recursion counter already is the largest `int`. -/
def Mutex.withinInt : List (MutexCall × Runtime) → Mutex → Bool
  | [], _ => true
  | e :: rest, m =>
    !(decide (e.1 = MutexCall.Acquire) && decide (m.m_pOwner = e.2.m_pRunningThread)
        && decide (m.m_recursionCounter = INT_MAX)) &&
      match Mutex.call e.1 m e.2 with
      | .error _ => true
      | .ok r => Mutex.withinInt rest r.1

/-! ## Properties of the scheduler during a Run -/

/-- The scheduler state keeps the main thread `pm` apart: `pm` is the
recorded main thread, it is not in the ready queue, and if it is the running
thread the ready queue is empty. -/
def Runtime.mainApart (pm : Nat) (s : Runtime) : Prop :=
  s.m_pMainThread = some pm ∧ some pm ∉ s.m_readyQueue ∧
  (s.m_pRunningThread = some pm → s.m_readyQueue = [])

/-- The world keeps the main thread `pm` apart: the scheduler state does, and
`pm` is in no wait list. -/
def World.mainApart (pm : Nat) (w : World) : Prop :=
  w.sched.mainApart pm ∧
  (∀ i, some pm ∉ (w.mutexes i).m_waitList) ∧
  (∀ j, some pm ∉ (w.semaphores j).m_waitList)

/-! ## Example states -/

/-- Fiber 1 runs inside a `Run` whose main thread is at address 100; fibers 2
and 3 are ready. -/
def exampleRuntime : Runtime :=
  { m_threadIdSeed := 4, m_numThreads := 4, m_pRunningThread := some 1,
    m_readyQueue := [some 2, some 3], m_pMainThread := some 100, threads := [] }

/-- Fiber 1 runs while no other fiber is ready. -/
def exampleAlone : Runtime :=
  { m_threadIdSeed := 4, m_numThreads := 4, m_pRunningThread := some 1,
    m_readyQueue := [], m_pMainThread := some 100, threads := [] }

/-- A mutex that fiber 1 holds once and fiber 2 waits for. -/
def exampleContended : Mutex :=
  { m_pOwner := some 1, m_recursionCounter := 1, m_waitList := [some 2] }

/-- Fiber `c` runs while no other fiber is ready. -/
def exampleRunning (c : Nat) : Runtime :=
  { m_threadIdSeed := 4, m_numThreads := 4, m_pRunningThread := some c,
    m_readyQueue := [], m_pMainThread := some 100, threads := [] }

/-- Fibers 2 and 3 ask for the mutex in that order, then fiber 1 and fiber 2
each release it. -/
def exampleHistory : List (MutexCall × Runtime) :=
  [(MutexCall.Acquire, exampleRunning 2), (MutexCall.Acquire, exampleRunning 3),
   (MutexCall.Release, exampleRunning 1), (MutexCall.Release, exampleRunning 2)]

/-- Two nested acquisitions by the running fiber, then the two releases. -/
def exampleNest : List (MutexCall × Runtime) :=
  [(MutexCall.Acquire, exampleRunning 1), (MutexCall.Acquire, exampleRunning 1),
   (MutexCall.Release, exampleRunning 1), (MutexCall.Release, exampleRunning 1)]

/-- Two fibers were created, at addresses 1 and 2, before `Run` is called. -/
def exampleWorld : World :=
  { sched := UThread.Create 2 2000 20 0 (UThread.Create 1 1000 10 0 Runtime.initial),
    mutexes := fun _ => Mutex.new,
    semaphores := fun _ => Semaphore.new }

/-- Fiber 1 takes mutex 0 and yields; fiber 2 asks for the mutex and blocks;
fiber 1 releases the mutex and exits; fiber 2 exits. -/
def exampleCalls : List Call :=
  [Call.Acquire 0, Call.Yield, Call.Acquire 0, Call.Release 0, Call.Exit, Call.Exit]

/-- The scheduler state of `exampleWorld` once `Run`, with its `mainThread`
at address 100, has switched to the first fiber. -/
def exampleEntered : Runtime :=
  match UScheduler.Run_enter 100 exampleWorld.sched with
  | .ok r => r.2
  | .error e => e.2

/-- The world after the fibers of `exampleWorld` made the calls of
`exampleCalls`. -/
def exampleFinal : World :=
  match World.run exampleCalls { exampleWorld with sched := exampleEntered } with
  | .ok w => w
  | .error e => e.2

/-- A mutex that fiber 7 holds once and fiber 1 waits for. -/
def exampleForeign : Mutex :=
  { m_pOwner := some 7, m_recursionCounter := 1, m_waitList := [some 1] }

/-- A semaphore that fibers 5 and 6 wait on, in that order. -/
def exampleWaited : Semaphore :=
  { m_permits := 0, m_waitList := [some 5, some 6] }

/-- Fiber 1 posts twice and takes one permit back, fiber 2 takes the other,
and fiber 3 finds none and waits. -/
def exampleSignals : List (SemaphoreCall × Runtime) :=
  [(SemaphoreCall.Post, exampleRunning 1), (SemaphoreCall.Post, exampleRunning 1),
   (SemaphoreCall.Wait, exampleRunning 1), (SemaphoreCall.Wait, exampleRunning 2),
   (SemaphoreCall.Wait, exampleRunning 3)]

/-- The world between two runs of the scheduler: no thread exists, the seed is
`x`, the main-thread handle is what the last `Run` left. -/
def exampleIdle (x : Int) (mp : Ptr) : World :=
  { sched := { m_threadIdSeed := x, m_numThreads := 0, m_pRunningThread := none,
               m_readyQueue := [], m_pMainThread := mp, threads := [] },
    mutexes := fun _ => Mutex.new,
    semaphores := fun _ => Semaphore.new }

/-- One round of a host program: create a fiber (object at address 1, stack
at address 2) whose function returns at once, and run the scheduler with its
`mainThread` at address 100 until the fiber has exited. -/
def exampleRound : List Action :=
  [Action.call (Call.Create 1 2 0 0), Action.runEnter 100, Action.call Call.Exit,
   Action.runResume 100]

/-- The round `exampleRound`, `n` times over. -/
def exampleRounds : Nat → List Action
  | 0 => []
  | n + 1 => exampleRounds n ++ exampleRound

/-- A machine at program start, before any test ran. -/
def exampleMachine : Machine :=
  { world := exampleIdle 0 none, code := fun _ => [], count := 7, out := [] }

/-- A pattern of yield decisions: fiber `i` yields in iteration `j` when
`i + j` is a multiple of 4. -/
def exampleYields (i j : Nat) : Bool :=
  (i + j) % 4 == 0

/-- A run of a program from its start: the host creates fibers at addresses
4 and 8 and calls `Run` (main thread at 100); fiber 4 takes mutex 0 and
yields; fiber 8 blocks on mutex 0; fiber 4 waits on semaphore 0, which has no
permit, so the main thread is switched in and `Run` returns with both fibers
parked. -/
def exampleSchedule : List Action :=
  [Action.call (Call.Create 4 1000 0 0), Action.call (Call.Create 8 2000 0 0),
   Action.runEnter 100, Action.call (Call.Acquire 0), Action.call Call.Yield,
   Action.call (Call.Acquire 0), Action.call (Call.Wait 0), Action.runResume 100]

/-- The host creates two fibers and calls `Exit` itself, without `Run`: fiber
4 is switched in, takes mutex 0 and yields, and fiber 8 blocks on mutex 0. -/
def exampleOrphans : List Action :=
  [Action.call (Call.Create 4 1000 0 0), Action.call (Call.Create 8 2000 0 0),
   Action.call Call.Exit, Action.call (Call.Acquire 0), Action.call Call.Yield,
   Action.call (Call.Acquire 0)]

/-- Two fibers and a `Run`: fiber 4 parks without being in any wait list and
is never unparked, fiber 8 exits, and `Run` returns. -/
def exampleStranded : List Action :=
  [Action.call (Call.Create 4 1000 0 0), Action.call (Call.Create 8 2000 0 0),
   Action.runEnter 100, Action.call Call.Park, Action.call Call.Exit, Action.runResume 100]

/-- A processor state: the stack pointer is in the host stack, no stack has
been set up. -/
def exampleCpu : Cpu :=
  { esp := 2097152, ebp := 7, ebx := 8, esi := 9, edi := 10, eip := 0,
    mem := fun _ => 0, m_pContext := fun _ => 0, m_pRunningThread := some 8 }

/-- What `delete this` does to memory in a debug build, for a fiber whose
stack is at 196608: the freed block is filled with the byte 0xDD; nothing is
freed when `this` is `NULL`. -/
def exampleDestroy (this : Ptr) (m : Memory) : Memory :=
  match this with
  | none => m
  | some _ => memset m 196608 221 65536

/-! ## Theorems -/

/-! ### Basic facts -/

theorem toInt32_of_range (x : Int) (h1 : -2147483648 ≤ x) (h2 : x ≤ 2147483647) :
    toInt32 x = x := by
  unfold toInt32
  omega

theorem Current_running (s : Runtime) (c : Nat) (hc : s.m_pRunningThread = some c) :
    UThread.Current s = .ok c := by
  simp [UThread.Current, hc]

theorem Park_cons (s : Runtime) (r h : Nat) (t : List Ptr)
    (hr : s.m_pRunningThread = some r) (hq : s.m_readyQueue = some h :: t) :
    UThread.Park s = .ok { s with m_pRunningThread := some h, m_readyQueue := t } := by
  simp [UThread.Park, hr, hq, UScheduler.find_next_thread, front, pop_front, context_switch]

theorem Park_nil (s : Runtime) (r pm : Nat)
    (hr : s.m_pRunningThread = some r) (hq : s.m_readyQueue = [])
    (hm : s.m_pMainThread = some pm) :
    UThread.Park s = .ok { s with m_pRunningThread := some pm } := by
  simp [UThread.Park, hr, hq, hm, UScheduler.find_next_thread, context_switch]

theorem Exit_cons (s : Runtime) (r h : Nat) (t : List Ptr)
    (hr : s.m_pRunningThread = some r) (hq : s.m_readyQueue = some h :: t) :
    UThread.Exit s =
      .ok (UThread.dtor r { s with m_pRunningThread := some h, m_readyQueue := t }) := by
  simp [UThread.Exit, hr, hq, UScheduler.find_next_thread, front, pop_front, internal_exit,
    UThread.self_destroy]

theorem Exit_nil (s : Runtime) (r pm : Nat)
    (hr : s.m_pRunningThread = some r) (hq : s.m_readyQueue = [])
    (hm : s.m_pMainThread = some pm) :
    UThread.Exit s = .ok (UThread.dtor r { s with m_pRunningThread := some pm }) := by
  simp [UThread.Exit, hr, hq, hm, UScheduler.find_next_thread, internal_exit,
    UThread.self_destroy]

/-- What `self_destroy` leaves alone: everything but `m_numThreads` and the
table of objects. -/
theorem self_destroy_fields (this : Ptr) (s : Runtime) :
    (UThread.self_destroy this s).m_pRunningThread = s.m_pRunningThread ∧
    (UThread.self_destroy this s).m_readyQueue = s.m_readyQueue ∧
    (UThread.self_destroy this s).m_pMainThread = s.m_pMainThread ∧
    (UThread.self_destroy this s).m_threadIdSeed = s.m_threadIdSeed := by
  cases this <;> exact ⟨rfl, rfl, rfl, rfl⟩

/-- `Exit` with a ready thread, whoever calls it. -/
theorem Exit_next (s : Runtime) (h : Nat) (t : List Ptr) (hq : s.m_readyQueue = some h :: t) :
    UThread.Exit s = .ok (UThread.self_destroy s.m_pRunningThread
      { s with m_pRunningThread := some h, m_readyQueue := t }) := by
  simp [UThread.Exit, hq, UScheduler.find_next_thread, front, pop_front, internal_exit]

/-- `Exit` with no ready thread and a main-thread handle, whoever calls it. -/
theorem Exit_last (s : Runtime) (pm : Nat) (hq : s.m_readyQueue = [])
    (hm : s.m_pMainThread = some pm) :
    UThread.Exit s = .ok (UThread.self_destroy s.m_pRunningThread
      { s with m_pRunningThread := some pm }) := by
  simp [UThread.Exit, hq, hm, UScheduler.find_next_thread, internal_exit]

/-- `Exit` stops the process when the thread it would switch to is `NULL`. -/
theorem Exit_fault (s : Runtime) (hnext : (UScheduler.find_next_thread s).1 = none)
    (s1 : Runtime) : UThread.Exit s ≠ .ok s1 := by
  intro h
  simp [UThread.Exit, internal_exit, hnext] at h

theorem next_threads_queue (q : List Ptr) (s : Runtime) (extra : List Ptr)
    (hq : s.m_readyQueue = q ++ extra) :
    UScheduler.next_threads q.length s = q := by
  induction q generalizing s with
  | nil => rfl
  | cons x xs ih =>
    have hstep : UScheduler.find_next_thread s = (x, { s with m_readyQueue := xs ++ extra }) := by
      simp [UScheduler.find_next_thread, hq, front, pop_front]
    simp only [List.length_cons, UScheduler.next_threads, hstep]
    rw [ih { s with m_readyQueue := xs ++ extra } rfl]

/-! ### The fiber operations -/

/-- C1: `UThread::Yield` called by the running fiber `r`: with an empty ready
queue the call returns the state it was given (running fiber, ready queue and
fiber count unchanged, no switch); with ready queue `h :: t` it returns with
`h` running and ready queue `t ++ [r]`, every other field unchanged, and the
fibers of the running slot and the queue together are the same as before. -/
theorem yield_contract (s : Runtime) (r : Nat) (hr : s.m_pRunningThread = some r) :
    (s.m_readyQueue = [] → UThread.Yield s = .ok s) ∧
    (∀ h t, s.m_readyQueue = some h :: t →
      ∃ s2, UThread.Yield s = .ok s2 ∧
        s2 = { s with m_pRunningThread := some h, m_readyQueue := t ++ [some r] } ∧
        s2.m_numThreads = s.m_numThreads ∧
        List.Perm (s2.m_pRunningThread :: s2.m_readyQueue)
          (s.m_pRunningThread :: s.m_readyQueue)) := by
  constructor
  · intro hq
    simp [UThread.Yield, hq]
  · intro h t hq
    refine ⟨{ s with m_pRunningThread := some h, m_readyQueue := t ++ [some r] }, ?_, rfl, rfl, ?_⟩
    · simp [UThread.Yield, hq, hr, push_back, front, pop_front, context_switch]
    · simp only [hq, hr]
      have : List.Perm (some h :: (t ++ [some r])) (some h :: some r :: t) :=
        List.Perm.cons _ (List.perm_append_comm : List.Perm (t ++ [some r]) ([some r] ++ t))
      exact this.trans (List.Perm.swap _ _ _)

/-- Witness of C1: fiber 1 yields while fibers 2 and 3 are ready. -/
theorem yield_contract_witness :
    ∃ s2, UThread.Yield exampleRuntime = .ok s2 ∧
      s2.m_pRunningThread = some 2 ∧ s2.m_readyQueue = [some 3, some 1] := by
  obtain ⟨s2, h1, h2, _, _⟩ := (yield_contract exampleRuntime 1 rfl).2 2 [some 3] rfl
  exact ⟨s2, h1, by rw [h2], by rw [h2]; rfl⟩

/-- C2: `UThread::Park` and `UThread::Exit` called by the running fiber `r`
both make the result of `find_next_thread` the running thread and leave the
ready queue as `find_next_thread` left it.  With ready queue `h :: t` the
running thread becomes `h` and the queue `t`; with an empty queue the running
thread becomes the main thread `pm` and the queue stays empty.  `r` is put in
no queue: apart from the running thread and the removed head, `Park` changes
nothing and `Exit` only destroys the object `r`. -/
theorem park_exit_contract (s : Runtime) (r : Nat) (hr : s.m_pRunningThread = some r) :
    (∀ h t, s.m_readyQueue = some h :: t →
      UScheduler.find_next_thread s = (some h, { s with m_readyQueue := t }) ∧
      UThread.Park s = .ok { s with m_pRunningThread := some h, m_readyQueue := t } ∧
      UThread.Exit s =
        .ok (UThread.dtor r { s with m_pRunningThread := some h, m_readyQueue := t }) ∧
      (UThread.dtor r { s with m_pRunningThread := some h, m_readyQueue := t }).m_pRunningThread
        = some h ∧
      (UThread.dtor r { s with m_pRunningThread := some h, m_readyQueue := t }).m_readyQueue
        = t) ∧
    (∀ pm, s.m_readyQueue = [] → s.m_pMainThread = some pm →
      UScheduler.find_next_thread s = (some pm, s) ∧
      UThread.Park s = .ok { s with m_pRunningThread := some pm } ∧
      UThread.Exit s = .ok (UThread.dtor r { s with m_pRunningThread := some pm }) ∧
      (UThread.dtor r { s with m_pRunningThread := some pm }).m_pRunningThread = some pm ∧
      (UThread.dtor r { s with m_pRunningThread := some pm }).m_readyQueue = []) := by
  constructor
  · intro h t hq
    refine ⟨?_, Park_cons s r h t hr hq, Exit_cons s r h t hr hq, rfl, rfl⟩
    simp [UScheduler.find_next_thread, hq, front, pop_front]
  · intro pm hq hm
    refine ⟨?_, Park_nil s r pm hr hq hm, Exit_nil s r pm hr hq hm, rfl, ?_⟩
    · simp [UScheduler.find_next_thread, hq, hm]
    · simp [UThread.dtor, hq]

/-- Witness of C2: fiber 1 parks or exits while fibers 2 and 3 are ready. -/
theorem park_exit_contract_witness :
    UThread.Park exampleRuntime
      = .ok { exampleRuntime with m_pRunningThread := some 2, m_readyQueue := [some 3] } ∧
    UThread.Exit exampleRuntime
      = .ok (UThread.dtor 1
          { exampleRuntime with m_pRunningThread := some 2, m_readyQueue := [some 3] }) :=
  ⟨((park_exit_contract exampleRuntime 1 rfl).1 2 [some 3] rfl).2.1,
   ((park_exit_contract exampleRuntime 1 rfl).1 2 [some 3] rfl).2.2.1⟩

/-- C3: `UThread::Unpark` on `f` turns the ready queue `q` into `q ++ [f]` and
changes nothing else; `UThread::Create` is the constructor followed by exactly
this `Unpark` of the new object, so it too appends the new fiber to the queue
the constructor left untouched; and after `Unpark(f1)` then `Unpark(f2)` the
successive results of `find_next_thread` are the elements of `q` in order,
then `f1`, then `f2`. -/
theorem unpark_create_fifo (s : Runtime) :
    (∀ f : Ptr, UThread.Unpark f s = { s with m_readyQueue := s.m_readyQueue ++ [f] }) ∧
    (∀ p stack function argument : Nat,
      UThread.Create p stack function argument s
        = UThread.Unpark (some p) (UThread.ctor p stack function argument s) ∧
      (UThread.ctor p stack function argument s).m_readyQueue = s.m_readyQueue ∧
      (UThread.Create p stack function argument s).m_readyQueue
        = s.m_readyQueue ++ [some p]) ∧
    (∀ f1 f2 : Ptr,
      UScheduler.next_threads (s.m_readyQueue.length + 2)
          (UThread.Unpark f2 (UThread.Unpark f1 s))
        = s.m_readyQueue ++ [f1, f2]) := by
  refine ⟨fun f => rfl, fun p stack function argument => ⟨rfl, rfl, rfl⟩, fun f1 f2 => ?_⟩
  have h := next_threads_queue (s.m_readyQueue ++ [f1, f2])
    (UThread.Unpark f2 (UThread.Unpark f1 s)) []
    (by simp [UThread.Unpark, push_back])
  simpa using h

/-! ### The mutex, call by call -/

theorem Acquire_recursive (m : Mutex) (s : Runtime) (c : Nat)
    (hc : s.m_pRunningThread = some c) (ho : m.m_pOwner = some c) :
    Mutex.Acquire m s
      = .ok ({ m with m_recursionCounter := toInt32 (m.m_recursionCounter + 1) }, s) := by
  simp [Mutex.Acquire, Current_running s c hc, ho]

theorem Acquire_free (m : Mutex) (s : Runtime) (c : Nat)
    (hc : s.m_pRunningThread = some c) (ho : m.m_pOwner = none) :
    Mutex.Acquire m s = .ok ({ m with m_pOwner := some c, m_recursionCounter := 1 }, s) := by
  simp [Mutex.Acquire, Current_running s c hc, ho]

theorem Acquire_held (m : Mutex) (s : Runtime) (c o : Nat)
    (hc : s.m_pRunningThread = some c) (ho : m.m_pOwner = some o) (hne : o ≠ c) :
    Mutex.Acquire m s =
      match UThread.Park s with
      | .error e => .error (e.1, { m with m_waitList := m.m_waitList ++ [some c] }, e.2)
      | .ok s1 => .ok ({ m with m_waitList := m.m_waitList ++ [some c] }, s1) := by
  simp [Mutex.Acquire, Current_running s c hc, ho, hne, push_back]

theorem Release_positive (m : Mutex) (s : Runtime) (c : Nat)
    (hc : s.m_pRunningThread = some c) (ho : m.m_pOwner = some c)
    (hk : 0 < toInt32 (m.m_recursionCounter - 1)) :
    Mutex.Release m s
      = .ok ({ m with m_recursionCounter := toInt32 (m.m_recursionCounter - 1) }, s) := by
  simp [Mutex.Release, Current_running s c hc, ho, hk]

theorem Release_free (m : Mutex) (s : Runtime) (c : Nat)
    (hc : s.m_pRunningThread = some c) (ho : m.m_pOwner = some c)
    (hk : toInt32 (m.m_recursionCounter - 1) ≤ 0) (hw : m.m_waitList = []) :
    Mutex.Release m s
      = .ok ({ m with m_recursionCounter := toInt32 (m.m_recursionCounter - 1),
                      m_pOwner := none }, s) := by
  simp [Mutex.Release, Current_running s c hc, ho, hw, not_lt.mpr hk]

theorem Release_transfer (m : Mutex) (s : Runtime) (c : Nat) (w : Ptr) (rest : List Ptr)
    (hc : s.m_pRunningThread = some c) (ho : m.m_pOwner = some c)
    (hk : toInt32 (m.m_recursionCounter - 1) ≤ 0) (hw : m.m_waitList = w :: rest) :
    Mutex.Release m s
      = .ok ({ m_pOwner := w, m_recursionCounter := 1, m_waitList := rest },
             { s with m_readyQueue := s.m_readyQueue ++ [w] }) := by
  simp [Mutex.Release, Current_running s c hc, ho, hw, not_lt.mpr hk, front, pop_front,
    UThread.Unpark, push_back]

/-- C5: `Mutex::Release` called by the owner `c`.  The recursion counter is
decremented by one (as an `int`; exactly `- 1` whenever the counter is above
the least `int`).  If the new value `k` is positive the call returns with only
the counter changed, whatever the wait list holds.  If `k` is not positive
(it reached zero) and the wait list is empty, the owner becomes none.  If `k`
is not positive and the wait list is `some w :: rest`, the wait list becomes
`rest`, the owner `w`, the counter 1, `w` is appended to the ready queue, and
in none of the states the mutex goes through is the owner none.  In every
branch the call returns, with `c` still running. -/
theorem release_contract (m : Mutex) (s : Runtime) (c : Nat)
    (hc : s.m_pRunningThread = some c) (ho : m.m_pOwner = some c) :
    (-2147483648 < m.m_recursionCounter → m.m_recursionCounter ≤ 2147483647 →
      toInt32 (m.m_recursionCounter - 1) = m.m_recursionCounter - 1) ∧
    (0 < toInt32 (m.m_recursionCounter - 1) →
      Mutex.Release m s
        = .ok ({ m with m_recursionCounter := toInt32 (m.m_recursionCounter - 1) }, s)) ∧
    (toInt32 (m.m_recursionCounter - 1) ≤ 0 → m.m_waitList = [] →
      Mutex.Release m s
        = .ok ({ m_pOwner := none, m_recursionCounter := toInt32 (m.m_recursionCounter - 1),
                 m_waitList := [] }, s)) ∧
    (toInt32 (m.m_recursionCounter - 1) ≤ 0 → ∀ w rest, m.m_waitList = some w :: rest →
      Mutex.Release m s
        = .ok ({ m_pOwner := some w, m_recursionCounter := 1, m_waitList := rest },
               { s with m_readyQueue := s.m_readyQueue ++ [some w] }) ∧
      (Mutex.Release_transfer_states m).getLast?
        = some { m_pOwner := some w, m_recursionCounter := 1, m_waitList := rest } ∧
      ∀ x ∈ Mutex.Release_transfer_states m, x.m_pOwner ≠ none) ∧
    (∃ m2 s2, Mutex.Release m s = .ok (m2, s2) ∧ s2.m_pRunningThread = some c) := by
  refine ⟨fun h1 h2 => toInt32_of_range _ (by omega) (by omega),
    Release_positive m s c hc ho, ?_, ?_, ?_⟩
  · intro hk hw
    rw [Release_free m s c hc ho hk hw]
    cases m
    simp_all
  · intro hk w rest hw
    refine ⟨Release_transfer m s c (some w) rest hc ho hk hw, ?_, ?_⟩
    · simp [Mutex.Release_transfer_states, hw, front, pop_front]
    · intro x hx
      simp only [Mutex.Release_transfer_states, hw, front, pop_front, List.mem_cons,
        List.mem_singleton, List.not_mem_nil, or_false] at hx
      rcases hx with rfl | rfl | rfl | rfl <;> simp [ho]
  · by_cases hk : 0 < toInt32 (m.m_recursionCounter - 1)
    · exact ⟨_, _, Release_positive m s c hc ho hk, hc⟩
    · have hk2 : toInt32 (m.m_recursionCounter - 1) ≤ 0 := not_lt.mp hk
      cases hw : m.m_waitList with
      | nil => exact ⟨_, _, Release_free m s c hc ho hk2 hw, hc⟩
      | cons w rest => exact ⟨_, _, Release_transfer m s c w rest hc ho hk2 hw, hc⟩

/-- Witness of C5: fiber 1 owns the mutex once and fiber 2 waits; the release
hands the mutex to fiber 2 and makes it ready behind fibers 2 and 3. -/
theorem release_contract_witness :
    Mutex.Release exampleContended exampleRuntime
      = .ok ({ m_pOwner := some 2, m_recursionCounter := 1, m_waitList := [] },
             { exampleRuntime with m_readyQueue := [some 2, some 3, some 2] }) :=
  ((release_contract exampleContended exampleRuntime 1 rfl rfl).2.2.2.1
    (by decide) 2 [] rfl).1

/-- C6: `Mutex::Acquire` called by the running fiber `c`.  If `c` is the
owner, the recursion counter is incremented by one (as an `int`; exactly
`+ 1` whenever the counter is below the largest `int`) and nothing else
changes.  If the mutex is free, the owner becomes `c` and the counter 1, and
nothing else changes.  If another fiber `o` holds it, `c` is appended to the
wait list, owner and counter stay, and `c` parks: the running thread becomes
the head of the ready queue, or the main thread when the queue is empty.  In
the first two cases the scheduler state is returned as it was, so only the
third suspends `c`. -/
theorem acquire_contract (m : Mutex) (s : Runtime) (c : Nat)
    (hc : s.m_pRunningThread = some c) :
    (m.m_pOwner = some c →
      Mutex.Acquire m s
        = .ok ({ m with m_recursionCounter := toInt32 (m.m_recursionCounter + 1) }, s) ∧
      (-2147483648 ≤ m.m_recursionCounter → m.m_recursionCounter < 2147483647 →
        toInt32 (m.m_recursionCounter + 1) = m.m_recursionCounter + 1)) ∧
    (m.m_pOwner = none →
      Mutex.Acquire m s = .ok ({ m with m_pOwner := some c, m_recursionCounter := 1 }, s)) ∧
    (∀ o, m.m_pOwner = some o → o ≠ c →
      (∀ h t, s.m_readyQueue = some h :: t →
        Mutex.Acquire m s
          = .ok ({ m with m_waitList := m.m_waitList ++ [some c] },
                 { s with m_pRunningThread := some h, m_readyQueue := t })) ∧
      (∀ pm, s.m_readyQueue = [] → s.m_pMainThread = some pm →
        Mutex.Acquire m s
          = .ok ({ m with m_waitList := m.m_waitList ++ [some c] },
                 { s with m_pRunningThread := some pm }))) := by
  refine ⟨fun ho => ⟨Acquire_recursive m s c hc ho,
      fun h1 h2 => toInt32_of_range _ (by omega) (by omega)⟩,
    Acquire_free m s c hc, ?_⟩
  intro o ho hne
  constructor
  · intro h t hq
    rw [Acquire_held m s c o hc ho hne, Park_cons s c h t hc hq]
  · intro pm hq hm
    rw [Acquire_held m s c o hc ho hne, Park_nil s c pm hc hq hm]

/-- Witness of C6: fiber 1 asks for a mutex held by fiber 7 while fibers 2
and 3 are ready; fiber 1 joins the wait list and fiber 2 runs. -/
theorem acquire_contract_witness :
    Mutex.Acquire { m_pOwner := some 7, m_recursionCounter := 1, m_waitList := [] }
        exampleRuntime
      = .ok ({ m_pOwner := some 7, m_recursionCounter := 1, m_waitList := [some 1] },
             { exampleRuntime with m_pRunningThread := some 2, m_readyQueue := [some 3] }) :=
  ((acquire_contract { m_pOwner := some 7, m_recursionCounter := 1, m_waitList := [] }
      exampleRuntime 1 rfl).2.2 7 rfl (by decide)).1 2 [some 3] rfl

/-! ### Histories of calls on one mutex -/

theorem call_by_other (k : MutexCall) (m m1 : Mutex) (s s1 : Runtime) (c : Nat)
    (ho : m.m_pOwner = some c) (hne : s.m_pRunningThread ≠ some c)
    (h : Mutex.call k m s = .ok (m1, s1)) :
    m1.m_pOwner = m.m_pOwner ∧ m1.m_recursionCounter = m.m_recursionCounter := by
  cases hr : s.m_pRunningThread with
  | none =>
    cases k <;> simp [Mutex.call, Mutex.Acquire, Mutex.Release, UThread.Current, hr] at h
  | some x =>
    have hx : c ≠ x := fun e => hne (by rw [hr, e])
    cases k with
    | Acquire =>
      simp only [Mutex.call] at h
      rw [Acquire_held m s x c hr ho hx] at h
      cases hp : UThread.Park s with
      | error e => simp [hp] at h
      | ok s2 =>
        simp only [hp, Except.ok.injEq, Prod.mk.injEq] at h
        rw [← h.1]
        exact ⟨rfl, rfl⟩
    | Release =>
      simp [Mutex.call, Mutex.Release, Current_running s x hr, ho, hx] at h

theorem history_by_others (h : List (MutexCall × Runtime)) (m m2 : Mutex) (c : Nat)
    (ho : m.m_pOwner = some c)
    (hothers : ∀ e ∈ h, e.2.m_pRunningThread ≠ some c)
    (hrun : Mutex.history h m = .ok m2) :
    m2.m_pOwner = m.m_pOwner ∧ m2.m_recursionCounter = m.m_recursionCounter := by
  induction h generalizing m with
  | nil =>
    simp only [Mutex.history, Except.ok.injEq] at hrun
    rw [hrun]
    exact ⟨rfl, rfl⟩
  | cons e rest ih =>
    simp only [Mutex.history] at hrun
    cases hcall : Mutex.call e.1 m e.2 with
    | error err => simp [hcall] at hrun
    | ok r =>
      simp only [hcall] at hrun
      have hstep := call_by_other e.1 m r.1 e.2 r.2 c ho
        (hothers e (List.mem_cons_self _ _)) hcall
      have hrest := ih r.1 (by rw [hstep.1, ho])
        (fun e2 he2 => hothers e2 (List.mem_cons_of_mem _ he2)) hrun
      exact ⟨hrest.1.trans hstep.1, hrest.2.trans hstep.2⟩

/-- C7: a `Release` by the owner `o` that finds fiber `c` at the head of the
wait list and leaves the counter not positive returns with owner `c` and
counter 1, and none of the states the mutex goes through inside that call has
owner none.  After it, whatever `Acquire` and `Release` calls fibers other
than `c` make (any history `h` whose callers all differ from `c`, in any
scheduler states), at the end of every prefix `p` of `h` the owner is still
`c` and the counter still 1, so the mutex is never free in between, and the
assertion that `c` runs when `Park` returns to it inside `Acquire` holds. -/
theorem ownership_transfer (m : Mutex) (s : Runtime) (o c : Nat) (rest : List Ptr)
    (h : List (MutexCall × Runtime))
    (hs : s.m_pRunningThread = some o) (ho : m.m_pOwner = some o)
    (hk : toInt32 (m.m_recursionCounter - 1) ≤ 0) (hw : m.m_waitList = some c :: rest)
    (hothers : ∀ e ∈ h, e.2.m_pRunningThread ≠ some c) :
    ∃ m1 s1, Mutex.Release m s = .ok (m1, s1) ∧
      m1.m_pOwner = some c ∧ m1.m_recursionCounter = 1 ∧
      (∀ x ∈ Mutex.Release_transfer_states m, x.m_pOwner ≠ none) ∧
      ∀ p, p <+: h → ∀ m2, Mutex.history p m1 = .ok m2 →
        m2.m_pOwner = some c ∧ m2.m_recursionCounter = 1 ∧
        Mutex.Acquire_afterPark c m2 = .ok m2 := by
  refine ⟨_, _, Release_transfer m s o (some c) rest hs ho hk hw, rfl, rfl, ?_, ?_⟩
  · intro x hx
    simp only [Mutex.Release_transfer_states, hw, front, pop_front, List.mem_cons,
      List.mem_singleton, List.not_mem_nil, or_false] at hx
    rcases hx with rfl | rfl | rfl | rfl <;> simp [ho]
  · intro p hp m2 hrun
    have hsub : ∀ e ∈ p, e.2.m_pRunningThread ≠ some c :=
      fun e he => hothers e (hp.subset he)
    have hkeep := history_by_others p
      { m_pOwner := some c, m_recursionCounter := 1, m_waitList := rest } m2 c rfl hsub hrun
    refine ⟨hkeep.1, hkeep.2, ?_⟩
    simp [Mutex.Acquire_afterPark, hkeep.1]

/-- Witness of C7: fiber 1 hands the mutex to fiber 2; then fiber 3 asks for
it and blocks; fiber 2 still finds itself owner with counter 1. -/
theorem ownership_transfer_witness :
    ∃ m1 s1, Mutex.Release exampleContended exampleRuntime = .ok (m1, s1) ∧
      m1.m_pOwner = some 2 ∧ m1.m_recursionCounter = 1 ∧
      (∀ x ∈ Mutex.Release_transfer_states exampleContended, x.m_pOwner ≠ none) ∧
      ∀ p, p <+: [(MutexCall.Acquire, exampleRunning 3)] →
        ∀ m2, Mutex.history p m1 = .ok m2 →
          m2.m_pOwner = some 2 ∧ m2.m_recursionCounter = 1 ∧
          Mutex.Acquire_afterPark 2 m2 = .ok m2 :=
  ownership_transfer exampleContended exampleRuntime 1 2 []
    [(MutexCall.Acquire, exampleRunning 3)] rfl rfl (by decide) rfl
    (by intro e he; simp only [List.mem_singleton] at he; rw [he]; decide)

/-- The wait list is a queue: what it held, followed by the callers that
blocked during the history, is the owners handed the mutex during the history
followed by what it holds at the end. -/
theorem history_queue (h : List (MutexCall × Runtime)) (m m2 : Mutex)
    (hrun : Mutex.history h m = .ok m2) :
    m.m_waitList ++ Mutex.arrived h m = Mutex.served h m ++ m2.m_waitList := by
  induction h generalizing m with
  | nil =>
    simp only [Mutex.history, Except.ok.injEq] at hrun
    simp [Mutex.arrived, Mutex.served, hrun]
  | cons e rest ih =>
    obtain ⟨k, s⟩ := e
    simp only [Mutex.history] at hrun
    cases hcall : Mutex.call k m s with
    | error err => simp [hcall] at hrun
    | ok r =>
      simp only [hcall] at hrun
      have hrest := ih r.1 hrun
      simp only [Mutex.arrived, Mutex.served, hcall]
      cases hr : s.m_pRunningThread with
      | none =>
        cases k <;> simp [Mutex.call, Mutex.Acquire, Mutex.Release, UThread.Current, hr] at hcall
      | some x =>
        cases k with
        | Acquire =>
          simp only [Mutex.call] at hcall
          cases hown : m.m_pOwner with
          | none =>
            rw [Acquire_free m s x hr hown] at hcall
            simp only [Except.ok.injEq] at hcall
            rw [← hcall] at hrest ⊢
            simpa using hrest
          | some o =>
            by_cases hox : o = x
            · rw [Acquire_recursive m s x hr (by rw [hown, hox])] at hcall
              simp only [Except.ok.injEq] at hcall
              rw [← hcall] at hrest ⊢
              simpa [hox] using hrest
            · rw [Acquire_held m s x o hr hown hox] at hcall
              cases hp : UThread.Park s with
              | error err => simp [hp] at hcall
              | ok s2 =>
                simp only [hp, Except.ok.injEq] at hcall
                rw [← hcall] at hrest ⊢
                simp only [List.append_assoc] at hrest
                simpa [hox] using hrest
        | Release =>
          simp only [Mutex.call] at hcall
          by_cases hown : m.m_pOwner = some x
          · by_cases hk : 0 < toInt32 (m.m_recursionCounter - 1)
            · rw [Release_positive m s x hr hown hk] at hcall
              simp only [Except.ok.injEq] at hcall
              rw [← hcall] at hrest ⊢
              simpa [hk] using hrest
            · have hk2 : toInt32 (m.m_recursionCounter - 1) ≤ 0 := not_lt.mp hk
              cases hw : m.m_waitList with
              | nil =>
                rw [Release_free m s x hr hown hk2 hw] at hcall
                simp only [Except.ok.injEq] at hcall
                rw [← hcall] at hrest ⊢
                simpa [hw] using hrest
              | cons w tl =>
                rw [Release_transfer m s x w tl hr hown hk2 hw] at hcall
                simp only [Except.ok.injEq] at hcall
                rw [← hcall] at hrest ⊢
                simp only [] at hrest
                simp [hk, hrest]
          · simp [Mutex.Release, Current_running s x hr, hown] at hcall

/-- C9: for every history of calls on a mutex that starts with an empty wait
list, the fibers that blocked in `Acquire`, in the order in which they
blocked, are the fibers that `Release` calls handed the mutex to, in the order
of those calls, followed by the fibers still waiting.  So the fibers served
are always an initial part of the fibers that blocked (nobody is served before
a fiber that blocked earlier), and once as many hand-overs have happened as
fibers blocked, ownership has gone to exactly those fibers in arrival order. -/
theorem mutex_handover_fifo (h : List (MutexCall × Runtime)) (m0 m : Mutex)
    (hw : m0.m_waitList = []) (hrun : Mutex.history h m0 = .ok m) :
    Mutex.arrived h m0 = Mutex.served h m0 ++ m.m_waitList ∧
    Mutex.served h m0 <+: Mutex.arrived h m0 ∧
    ((Mutex.served h m0).length = (Mutex.arrived h m0).length →
      Mutex.served h m0 = Mutex.arrived h m0 ∧ m.m_waitList = []) := by
  have hq := history_queue h m0 m hrun
  rw [hw, List.nil_append] at hq
  refine ⟨hq, ⟨m.m_waitList, hq.symm⟩, fun hlen => ?_⟩
  have hnil : m.m_waitList = [] := by
    have := congrArg List.length hq
    rw [List.length_append] at this
    exact List.length_eq_zero.mp (by omega)
  exact ⟨by rw [hq, hnil, List.append_nil], hnil⟩

/-- Witness of C9: fiber 1 holds the mutex, fibers 2 and 3 block in that
order, then fiber 1 and fiber 2 release: ownership goes to 2, then to 3. -/
theorem mutex_handover_fifo_witness :
    Mutex.arrived exampleHistory (Mutex.nested 1 1) = [some 2, some 3] ∧
    Mutex.served exampleHistory (Mutex.nested 1 1) = [some 2, some 3] := by
  have h := mutex_handover_fifo exampleHistory (Mutex.nested 1 1)
    { m_pOwner := some 3, m_recursionCounter := 1, m_waitList := [] } rfl rfl
  have ha : Mutex.arrived exampleHistory (Mutex.nested 1 1) = [some 2, some 3] := by decide
  exact ⟨ha, by rw [h.1, List.append_nil] at ha; exact ha⟩

/-! ### The invariant of the mutex and the width of its counter -/

theorem toInt32_succ (x : Int) : toInt32 (toInt32 x + 1) = toInt32 (x + 1) := by
  unfold toInt32
  omega

theorem history_append (a b : List (MutexCall × Runtime)) (m : Mutex) :
    Mutex.history (a ++ b) m =
      match Mutex.history a m with
      | .error err => .error err
      | .ok m1 => Mutex.history b m1 := by
  induction a generalizing m with
  | nil => rfl
  | cons e rest ih =>
    simp only [List.cons_append, Mutex.history]
    cases hcall : Mutex.call e.1 m e.2 with
    | error err => rfl
    | ok r => exact ih r.1

theorem acquire_repeat (s : Runtime) (c : Nat) (hc : s.m_pRunningThread = some c)
    (w : List Ptr) (n : Nat) (x : Int) :
    Mutex.history (List.replicate n (MutexCall.Acquire, s))
        { m_pOwner := some c, m_recursionCounter := toInt32 x, m_waitList := w }
      = .ok { m_pOwner := some c, m_recursionCounter := toInt32 (x + n), m_waitList := w } := by
  induction n generalizing x with
  | zero => simp [Mutex.history]
  | succ n ih =>
    rw [List.replicate_succ]
    simp only [Mutex.history, Mutex.call]
    rw [Acquire_recursive _ s c hc rfl]
    simp only [toInt32_succ]
    rw [ih (x + 1)]
    have : x + 1 + (n : Int) = x + ((n + 1 : Nat) : Int) := by push_cast; ring
    rw [this]

theorem acquire_from_new (s : Runtime) (c : Nat) (hc : s.m_pRunningThread = some c)
    (n N : Nat) (k : Int) (hN : n + 1 = N) (hk : toInt32 (1 + n) = k) :
    Mutex.history (List.replicate N (MutexCall.Acquire, s)) Mutex.new
      = .ok { m_pOwner := some c, m_recursionCounter := k, m_waitList := [] } := by
  subst hN hk
  rw [List.replicate_succ]
  simp only [Mutex.history, Mutex.call]
  rw [Acquire_free _ s c hc rfl]
  have h1 : (1 : Int) = toInt32 1 := by decide
  have := acquire_repeat s c hc [] n 1
  rw [← h1] at this
  exact this

theorem call_inRange (k : MutexCall) (m m1 : Mutex) (s s1 : Runtime)
    (hJ : m.inRange)
    (hno : ¬ (k = MutexCall.Acquire ∧ m.m_pOwner = s.m_pRunningThread
      ∧ m.m_recursionCounter = INT_MAX))
    (hcall : Mutex.call k m s = .ok (m1, s1)) :
    m1.inRange := by
  obtain ⟨hnull, hJ⟩ := hJ
  unfold INT_MAX at hJ hno
  unfold Mutex.inRange INT_MAX
  cases hr : s.m_pRunningThread with
  | none =>
    cases k <;> simp [Mutex.call, Mutex.Acquire, Mutex.Release, UThread.Current, hr] at hcall
  | some x =>
    cases k with
    | Acquire =>
      simp only [Mutex.call] at hcall
      cases hown : m.m_pOwner with
      | none =>
        rw [Acquire_free m s x hr hown] at hcall
        simp only [Except.ok.injEq, Prod.mk.injEq] at hcall
        rw [← hcall.1]
        exact ⟨hnull, Or.inr ⟨by simp, by simp, by simp⟩⟩
      | some o =>
        rcases hJ with ⟨hfree, _⟩ | ⟨_, h1, h2⟩
        · rw [hown] at hfree
          cases hfree
        by_cases hox : o = x
        · rw [Acquire_recursive m s x hr (by rw [hown, hox])] at hcall
          simp only [Except.ok.injEq, Prod.mk.injEq] at hcall
          rw [← hcall.1]
          have hlt : m.m_recursionCounter ≠ 2147483647 := fun e =>
            hno ⟨rfl, by rw [hown, hr, hox], e⟩
          have hexact : toInt32 (m.m_recursionCounter + 1) = m.m_recursionCounter + 1 :=
            toInt32_of_range _ (by omega) (by omega)
          refine ⟨hnull, Or.inr ⟨by simp [hown], ?_, ?_⟩⟩
          · simp only [hexact]
            omega
          · simp only [hexact]
            omega
        · rw [Acquire_held m s x o hr hown hox] at hcall
          cases hp : UThread.Park s with
          | error err => simp [hp] at hcall
          | ok s2 =>
            simp only [hp, Except.ok.injEq, Prod.mk.injEq] at hcall
            rw [← hcall.1]
            exact ⟨by simpa using hnull, Or.inr ⟨by simp [hown], h1, h2⟩⟩
    | Release =>
      simp only [Mutex.call] at hcall
      by_cases hown : m.m_pOwner = some x
      · rcases hJ with ⟨hfree, _⟩ | ⟨_, h1, h2⟩
        · rw [hown] at hfree
          cases hfree
        have hexact : toInt32 (m.m_recursionCounter - 1) = m.m_recursionCounter - 1 :=
          toInt32_of_range _ (by omega) (by omega)
        by_cases hk : 0 < toInt32 (m.m_recursionCounter - 1)
        · rw [Release_positive m s x hr hown hk] at hcall
          simp only [Except.ok.injEq, Prod.mk.injEq] at hcall
          rw [← hcall.1]
          refine ⟨hnull, Or.inr ⟨by simp [hown], ?_, ?_⟩⟩
          · simp only
            omega
          · simp only [hexact]
            omega
        · have hk2 : toInt32 (m.m_recursionCounter - 1) ≤ 0 := not_lt.mp hk
          cases hw : m.m_waitList with
          | nil =>
            rw [Release_free m s x hr hown hk2 hw] at hcall
            simp only [Except.ok.injEq, Prod.mk.injEq] at hcall
            rw [← hcall.1]
            refine ⟨hnull, Or.inl ⟨rfl, ?_⟩⟩
            simp only [hexact]
            omega
          | cons w tl =>
            rw [Release_transfer m s x w tl hr hown hk2 hw] at hcall
            simp only [Except.ok.injEq, Prod.mk.injEq] at hcall
            rw [← hcall.1]
            rw [hw] at hnull
            have hw1 : w ≠ none := fun e => hnull (by rw [e]; exact List.mem_cons_self _ _)
            have hw2 : none ∉ tl := fun e => hnull (List.mem_cons_of_mem _ e)
            exact ⟨hw2, Or.inr ⟨hw1, by simp, by simp⟩⟩
      · simp [Mutex.Release, Current_running s x hr, hown] at hcall

theorem history_inRange (h : List (MutexCall × Runtime)) (m m2 : Mutex)
    (hJ : m.inRange) (hin : Mutex.withinInt h m = true)
    (hrun : Mutex.history h m = .ok m2) :
    m2.inRange := by
  induction h generalizing m with
  | nil =>
    simp only [Mutex.history, Except.ok.injEq] at hrun
    rw [← hrun]
    exact hJ
  | cons e rest ih =>
    simp only [Mutex.history] at hrun
    simp only [Mutex.withinInt, Bool.and_eq_true, Bool.not_eq_true', Bool.and_eq_false_imp,
      decide_eq_true_eq, decide_eq_false_iff_not] at hin
    cases hcall : Mutex.call e.1 m e.2 with
    | error err => simp [hcall] at hrun
    | ok r =>
      simp only [hcall] at hrun hin
      have hstep := call_inRange e.1 m r.1 e.2 r.2 hJ
        (fun hno => hin.1 ⟨hno.1, hno.2.1⟩ hno.2.2) hcall
      exact ih r.1 hstep hin.2 hrun

/-- C8, shown false as stated: after 2147483648 successive `Acquire` calls by
fiber 1 on a new mutex the owner is set while the 32-bit recursion counter has
wrapped to -2147483648, which is not positive. -/
theorem invariant_lost_at_overflow :
    ∃ m, Mutex.history (List.replicate 2147483648 (MutexCall.Acquire, exampleAlone)) Mutex.new
        = .ok m ∧ m.m_pOwner = some 1 ∧ m.m_recursionCounter = -2147483648 ∧
      ¬ m.invariant := by
  refine ⟨{ m_pOwner := some 1, m_recursionCounter := -2147483648, m_waitList := [] },
    acquire_from_new exampleAlone 1 rfl 2147483647 2147483648 (-2147483648) (by norm_num)
      (by decide), rfl, rfl, ?_⟩
  intro hinv
  have := hinv.1.2 (by simp)
  simp at this

/-- C8 as amended: starting from a new `Mutex`, every history of `Acquire`
calls and of `Release` calls that pass the owner assertion, in which the owner
never calls `Acquire` while the recursion counter is 2147483647, ends in a
state where the recursion counter is positive exactly when the owner is set
and is zero when the mutex is free. -/
theorem mutex_invariant_within_int (h : List (MutexCall × Runtime)) (m : Mutex)
    (hin : Mutex.withinInt h Mutex.new = true)
    (hrun : Mutex.history h Mutex.new = .ok m) :
    m.invariant := by
  have hJ0 : Mutex.new.inRange := ⟨by simp [Mutex.new], Or.inl ⟨rfl, rfl⟩⟩
  have hJ := history_inRange h Mutex.new m hJ0 hin hrun
  rcases hJ.2 with ⟨hfree, hzero⟩ | ⟨hown, h1, _⟩
  · refine ⟨⟨fun hpos => ?_, fun hne => absurd hfree hne⟩, fun _ => hzero⟩
    rw [hzero] at hpos
    exact absurd hpos (lt_irrefl 0)
  · exact ⟨⟨fun _ => hown, fun _ => by omega⟩, fun hnone => absurd hnone hown⟩

/-- Witness of C8 as amended: fiber 1 acquires a new mutex, then the calls of
`exampleHistory` follow. -/
theorem mutex_invariant_within_int_witness :
    Mutex.invariant { m_pOwner := some 3, m_recursionCounter := 1, m_waitList := [] } :=
  mutex_invariant_within_int ((MutexCall.Acquire, exampleRunning 1) :: exampleHistory)
    { m_pOwner := some 3, m_recursionCounter := 1, m_waitList := [] } rfl rfl

/-! ### Matched acquires and releases by one fiber -/

theorem nested_acquire (s : Runtime) (c d : Nat) (hc : s.m_pRunningThread = some c)
    (hd : d + 1 < 2147483648) :
    Mutex.Acquire (Mutex.nested c d) s = .ok (Mutex.nested c (d + 1), s) := by
  rcases Nat.eq_zero_or_pos d with h0 | hpos
  · subst h0
    rw [Acquire_free _ s c hc (by simp [Mutex.nested])]
    simp [Mutex.nested]
  · have hne : d ≠ 0 := by omega
    rw [Acquire_recursive _ s c hc (by simp [Mutex.nested, hne])]
    have hexact : toInt32 ((d : Int) + 1) = (d : Int) + 1 :=
      toInt32_of_range _ (by omega) (by omega)
    simp [Mutex.nested, hne, hexact]

theorem nested_release (s : Runtime) (c d : Nat) (hc : s.m_pRunningThread = some c)
    (hd : d + 1 < 2147483648) :
    Mutex.Release (Mutex.nested c (d + 1)) s = .ok (Mutex.nested c d, s) := by
  have hcnt : (Mutex.nested c (d + 1)).m_recursionCounter - 1 = (d : Int) := by
    simp [Mutex.nested]
  have hexact : toInt32 ((Mutex.nested c (d + 1)).m_recursionCounter - 1) = (d : Int) := by
    rw [hcnt]
    exact toInt32_of_range _ (by omega) (by omega)
  have hown : (Mutex.nested c (d + 1)).m_pOwner = some c := by simp [Mutex.nested]
  rcases Nat.eq_zero_or_pos d with h0 | hpos
  · subst h0
    rw [Release_free _ s c hc hown (by rw [hexact]; simp) rfl, hexact]
    simp [Mutex.nested]
  · have hne : d ≠ 0 := by omega
    rw [Release_positive _ s c hc hown (by rw [hexact]; omega), hexact]
    simp [Mutex.nested, hne]

theorem acquireCount_snoc (p : List (MutexCall × Runtime)) (e : MutexCall × Runtime) :
    acquireCount (p ++ [e]) = acquireCount p + (if e.1 = MutexCall.Acquire then 1 else 0) := by
  by_cases hk : e.1 = MutexCall.Acquire <;> simp [acquireCount, List.filter_append, hk]

theorem releaseCount_snoc (p : List (MutexCall × Runtime)) (e : MutexCall × Runtime) :
    releaseCount (p ++ [e]) = releaseCount p + (if e.1 = MutexCall.Release then 1 else 0) := by
  by_cases hk : e.1 = MutexCall.Release <;> simp [releaseCount, List.filter_append, hk]

theorem nested_call (s : Runtime) (c : Nat) (k : MutexCall) (a r : Nat)
    (hc : s.m_pRunningThread = some c) (hprev : r ≤ a) (hd0 : a - r < 2147483648)
    (hd1 : (a + (if k = MutexCall.Acquire then 1 else 0))
      - (r + (if k = MutexCall.Release then 1 else 0)) < 2147483648)
    (hbal : r + (if k = MutexCall.Release then 1 else 0)
      ≤ a + (if k = MutexCall.Acquire then 1 else 0)) :
    Mutex.call k (Mutex.nested c (a - r)) s
      = .ok (Mutex.nested c ((a + (if k = MutexCall.Acquire then 1 else 0))
          - (r + (if k = MutexCall.Release then 1 else 0))), s) := by
  cases k with
  | Acquire =>
    have e1 : (if MutexCall.Acquire = MutexCall.Acquire then 1 else 0) = 1 := rfl
    have e2 : (if MutexCall.Acquire = MutexCall.Release then 1 else 0) = 0 := rfl
    rw [e1] at hd1 hbal ⊢
    rw [e2] at hd1 hbal ⊢
    simp only [Mutex.call]
    rw [nested_acquire s c (a - r) hc (by omega)]
    have : a - r + 1 = a + 1 - (r + 0) := by omega
    rw [this]
  | Release =>
    have e1 : (if MutexCall.Release = MutexCall.Acquire then 1 else 0) = 0 := rfl
    have e2 : (if MutexCall.Release = MutexCall.Release then 1 else 0) = 1 := rfl
    rw [e1] at hd1 hbal ⊢
    rw [e2] at hd1 hbal ⊢
    rw [Nat.add_zero] at hd1 hbal ⊢
    simp only [Mutex.call]
    have h1 : a - r = (a - (r + 1)) + 1 := by omega
    rw [h1, nested_release s c (a - (r + 1)) hc (by omega)]

theorem nested_history (c : Nat) (h : List (MutexCall × Runtime))
    (hc : ∀ e ∈ h, e.2.m_pRunningThread = some c)
    (hpre : ∀ p, p <+: h → releaseCount p ≤ acquireCount p)
    (hdepth : ∀ p, p <+: h → acquireCount p - releaseCount p < 2147483648) :
    Mutex.history h Mutex.new
      = .ok (Mutex.nested c (acquireCount h - releaseCount h)) := by
  induction h using List.reverseRecOn with
  | nil => rfl
  | append_singleton p e ih =>
    have hpp : p <+: p ++ [e] := List.prefix_append p [e]
    have hp : Mutex.history p Mutex.new
        = .ok (Mutex.nested c (acquireCount p - releaseCount p)) :=
      ih (fun e2 he2 => hc e2 (List.mem_append_left _ he2))
        (fun q hq => hpre q (hq.trans hpp)) (fun q hq => hdepth q (hq.trans hpp))
    rw [history_append, hp]
    simp only [Mutex.history]
    have hbal := hpre (p ++ [e]) (List.prefix_refl _)
    have hd1 := hdepth (p ++ [e]) (List.prefix_refl _)
    rw [acquireCount_snoc, releaseCount_snoc] at hbal hd1 ⊢
    rw [nested_call e.2 c e.1 (acquireCount p) (releaseCount p)
      (hc e (List.mem_append_right _ (List.mem_singleton_self e)))
      (hpre p hpp) (hdepth p hpp) hd1 hbal]

/-- C10, shown false as stated: with N = 2147483649, the balanced sequence of
N `Acquire` calls followed by N `Release` calls by fiber 1 on a new mutex does
not come back to the initial state.  The 32-bit counter has wrapped to
-2147483647 after the last `Acquire` (not N), the first `Release` frees the
mutex, and the second `Release` stops the process at the owner assertion. -/
theorem round_trip_lost_at_overflow :
    Mutex.history (List.replicate 2147483649 (MutexCall.Acquire, exampleAlone)) Mutex.new
      = .ok { m_pOwner := some 1, m_recursionCounter := -2147483647, m_waitList := [] } ∧
    Mutex.history
        (List.replicate 2147483649 (MutexCall.Acquire, exampleAlone)
          ++ List.replicate 2147483649 (MutexCall.Release, exampleAlone)) Mutex.new
      = .error (Fault.assertion,
          { m_pOwner := none, m_recursionCounter := -2147483648, m_waitList := [] },
          exampleAlone) := by
  have hacq := acquire_from_new exampleAlone 1 rfl 2147483648 2147483649 (-2147483647)
    (by norm_num) (by decide)
  refine ⟨hacq, ?_⟩
  rw [history_append, hacq]
  have hsplit : List.replicate 2147483649 (MutexCall.Release, exampleAlone)
      = (MutexCall.Release, exampleAlone) :: (MutexCall.Release, exampleAlone)
        :: List.replicate 2147483647 (MutexCall.Release, exampleAlone) := by
    rw [← List.replicate_succ, ← List.replicate_succ]
  rw [hsplit]
  rfl

/-- C10 as amended: for every N and every fiber `c`, every sequence `h` of N
`Acquire` and N `Release` calls by `c` on a new mutex, in which every prefix
has at least as many `Acquire` as `Release` calls and fewer than 2147483648
more, ends with the mutex in its initial state.  Every call of the sequence is
made on the mutex nested as deep as the calls before it are unmatched, returns
the scheduler state it was made in (so `c` is not parked and the ready queue
is untouched), and leaves the recursion counter equal to the number of
unmatched `Acquire` calls. -/
theorem recursive_round_trip (N c : Nat) (h : List (MutexCall × Runtime))
    (hc : ∀ e ∈ h, e.2.m_pRunningThread = some c)
    (hA : acquireCount h = N) (hR : releaseCount h = N)
    (hpre : ∀ p, p <+: h → releaseCount p ≤ acquireCount p)
    (hdepth : ∀ p, p <+: h → acquireCount p - releaseCount p < 2147483648) :
    Mutex.history h Mutex.new = .ok Mutex.new ∧
    ∀ p e, p ++ [e] <+: h →
      Mutex.history p Mutex.new
        = .ok (Mutex.nested c (acquireCount p - releaseCount p)) ∧
      Mutex.call e.1 (Mutex.nested c (acquireCount p - releaseCount p)) e.2
        = .ok (Mutex.nested c (acquireCount (p ++ [e]) - releaseCount (p ++ [e])), e.2) ∧
      (Mutex.nested c (acquireCount (p ++ [e]) - releaseCount (p ++ [e]))).m_recursionCounter
        = ((acquireCount (p ++ [e]) - releaseCount (p ++ [e]) : Nat) : Int) := by
  constructor
  · rw [nested_history c h hc hpre hdepth, hA, hR, Nat.sub_self]
    rfl
  · intro p e hpe
    have hp : p <+: h := (List.prefix_append p [e]).trans hpe
    refine ⟨nested_history c p (fun e2 he2 => hc e2 (hp.subset he2))
      (fun q hq => hpre q (hq.trans hp)) (fun q hq => hdepth q (hq.trans hp)), ?_, rfl⟩
    have hbal := hpre (p ++ [e]) hpe
    have hd1 := hdepth (p ++ [e]) hpe
    rw [acquireCount_snoc, releaseCount_snoc] at hbal hd1 ⊢
    exact nested_call e.2 c e.1 (acquireCount p) (releaseCount p)
      (hc e (hpe.subset (List.mem_append_right _ (List.mem_singleton_self e))))
      (hpre p hp) (hdepth p hp) hd1 hbal

/-- Witness of C10 as amended: two nested acquisitions and their releases. -/
theorem recursive_round_trip_witness :
    Mutex.history exampleNest Mutex.new = .ok Mutex.new :=
  (recursive_round_trip 2 1 exampleNest (by decide) rfl rfl
    (fun p hp => (by decide : ∀ q ∈ exampleNest.inits, releaseCount q ≤ acquireCount q) p
      ((List.mem_inits _ _).mpr hp))
    (fun p hp => (by decide :
      ∀ q ∈ exampleNest.inits, acquireCount q - releaseCount q < 2147483648) p
      ((List.mem_inits _ _).mpr hp))).1

/-! ### The main thread during a Run -/

theorem Park_mainApart (pm : Nat) (s s1 : Runtime) (hI : s.mainApart pm)
    (hpark : UThread.Park s = .ok s1) :
    s1.mainApart pm ∧ (s1.m_pRunningThread = some pm → s.m_readyQueue = []) := by
  obtain ⟨hmain, hq, hrunq⟩ := hI
  cases hr : s.m_pRunningThread with
  | none => simp [UThread.Park, hr] at hpark
  | some r =>
    cases hqueue : s.m_readyQueue with
    | nil =>
      rw [Park_nil s r pm hr hqueue hmain] at hpark
      simp only [Except.ok.injEq] at hpark
      rw [← hpark]
      exact ⟨⟨hmain, by simp [hqueue], fun _ => hqueue⟩, fun _ => rfl⟩
    | cons x t =>
      cases x with
      | none =>
        simp [UThread.Park, hr, hqueue, UScheduler.find_next_thread, front, pop_front,
          context_switch] at hpark
      | some h =>
        rw [Park_cons s r h t hr hqueue] at hpark
        simp only [Except.ok.injEq] at hpark
        rw [← hpark]
        rw [hqueue] at hq
        have hne : h ≠ pm := fun e => hq (by rw [e]; exact List.mem_cons_self _ _)
        have ht : some pm ∉ t := fun e => hq (List.mem_cons_of_mem _ e)
        refine ⟨⟨hmain, ht, fun hrun => ?_⟩, fun hrun => ?_⟩
        · simp at hrun
          exact absurd hrun hne
        · simp at hrun
          exact absurd hrun hne

theorem Exit_mainApart (pm : Nat) (s s1 : Runtime) (hI : s.mainApart pm)
    (hexit : UThread.Exit s = .ok s1) :
    s1.mainApart pm ∧ (s1.m_pRunningThread = some pm → s.m_readyQueue = []) := by
  obtain ⟨hmain, hq, hrunq⟩ := hI
  cases hqueue : s.m_readyQueue with
  | nil =>
    rw [Exit_last s pm hqueue hmain] at hexit
    simp only [Except.ok.injEq] at hexit
    obtain ⟨f1, f2, f3, _⟩ := self_destroy_fields s.m_pRunningThread
      { s with m_pRunningThread := some pm }
    rw [hexit] at f1 f2 f3
    exact ⟨⟨f3.trans hmain, by rw [f2]; simp [hqueue], fun _ => f2.trans hqueue⟩, fun _ => rfl⟩
  | cons x t =>
    cases x with
    | none =>
      exact absurd hexit (Exit_fault s (by simp [UScheduler.find_next_thread, hqueue, front]) s1)
    | some h =>
      rw [Exit_next s h t hqueue] at hexit
      simp only [Except.ok.injEq] at hexit
      obtain ⟨f1, f2, f3, _⟩ := self_destroy_fields s.m_pRunningThread
        { s with m_pRunningThread := some h, m_readyQueue := t }
      rw [hexit] at f1 f2 f3
      rw [hqueue] at hq
      have hne : h ≠ pm := fun e => hq (by rw [e]; exact List.mem_cons_self _ _)
      have ht : some pm ∉ t := fun e => hq (List.mem_cons_of_mem _ e)
      refine ⟨⟨f3.trans hmain, by rw [f2]; exact ht, fun hrun => ?_⟩, fun hrun => ?_⟩
      · rw [f1] at hrun
        exact absurd (Option.some.inj hrun) hne
      · rw [f1] at hrun
        exact absurd (Option.some.inj hrun) hne

theorem Yield_mainApart (pm : Nat) (s s1 : Runtime) (hI : s.mainApart pm)
    (hfib : s.m_pRunningThread ≠ some pm) (hyield : UThread.Yield s = .ok s1) :
    s1.mainApart pm ∧ s1.m_pRunningThread ≠ some pm := by
  obtain ⟨hmain, hq, hrunq⟩ := hI
  cases hqueue : s.m_readyQueue with
  | nil =>
    simp only [UThread.Yield, hqueue, List.isEmpty_nil, not_true_eq_false, if_false,
      Except.ok.injEq] at hyield
    rw [← hyield]
    exact ⟨⟨hmain, hq, hrunq⟩, hfib⟩
  | cons x t =>
    cases hr : s.m_pRunningThread with
    | none =>
      simp [UThread.Yield, hqueue, hr, push_back, front, pop_front, context_switch] at hyield
    | some r =>
      cases x with
      | none =>
        simp [UThread.Yield, hqueue, hr, push_back, front, pop_front, context_switch]
          at hyield
      | some h =>
        simp only [UThread.Yield, hqueue, hr, push_back, front, pop_front, context_switch,
          List.isEmpty_cons, Bool.false_eq_true, not_false_eq_true, if_true, List.cons_append,
          Except.ok.injEq] at hyield
        rw [← hyield]
        rw [hqueue] at hq
        have hne : h ≠ pm := fun e => hq (by rw [e]; exact List.mem_cons_self _ _)
        have ht : some pm ∉ t := fun e => hq (List.mem_cons_of_mem _ e)
        have hrne : r ≠ pm := fun e => hfib (by rw [hr, e])
        refine ⟨⟨hmain, ?_, fun hrun => ?_⟩, ?_⟩
        · simp only [List.mem_append, List.mem_singleton, not_or]
          exact ⟨ht, fun e => hrne (Option.some.inj e).symm⟩
        · simp at hrun
          exact absurd hrun hne
        · simp
          exact hne

theorem Unpark_mainApart (pm : Nat) (s : Runtime) (x : Ptr) (hI : s.mainApart pm)
    (hfib : s.m_pRunningThread ≠ some pm) (hx : x ≠ some pm) :
    (UThread.Unpark x s).mainApart pm ∧ (UThread.Unpark x s).m_pRunningThread ≠ some pm := by
  obtain ⟨hmain, hq, _⟩ := hI
  refine ⟨⟨hmain, ?_, fun hrun => absurd hrun hfib⟩, hfib⟩
  simp only [UThread.Unpark, push_back, List.mem_append, List.mem_singleton, not_or]
  exact ⟨hq, fun e => hx e.symm⟩

theorem Create_mainApart (pm p stack function argument : Nat) (s : Runtime)
    (hI : s.mainApart pm) (hfib : s.m_pRunningThread ≠ some pm) (hp : p ≠ pm) :
    (UThread.Create p stack function argument s).mainApart pm ∧
    (UThread.Create p stack function argument s).m_pRunningThread ≠ some pm :=
  Unpark_mainApart pm (UThread.ctor p stack function argument s) (some p) hI hfib
    (fun e => hp (Option.some.inj e))

theorem Acquire_mainApart (pm : Nat) (m m1 : Mutex) (s s1 : Runtime)
    (hI : s.mainApart pm) (hfib : s.m_pRunningThread ≠ some pm)
    (hw : some pm ∉ m.m_waitList) (hcall : Mutex.Acquire m s = .ok (m1, s1)) :
    s1.mainApart pm ∧ some pm ∉ m1.m_waitList ∧
    (s1.m_pRunningThread = some pm → s.m_readyQueue = []) := by
  cases hr : s.m_pRunningThread with
  | none => simp [Mutex.Acquire, UThread.Current, hr] at hcall
  | some x =>
    have hxne : x ≠ pm := fun e => hfib (by rw [hr, e])
    cases hown : m.m_pOwner with
    | none =>
      rw [Acquire_free m s x hr hown] at hcall
      simp only [Except.ok.injEq, Prod.mk.injEq] at hcall
      rw [← hcall.1, ← hcall.2]
      exact ⟨hI, hw, fun hrun => absurd hrun hfib⟩
    | some o =>
      by_cases hox : o = x
      · rw [Acquire_recursive m s x hr (by rw [hown, hox])] at hcall
        simp only [Except.ok.injEq, Prod.mk.injEq] at hcall
        rw [← hcall.1, ← hcall.2]
        exact ⟨hI, hw, fun hrun => absurd hrun hfib⟩
      · rw [Acquire_held m s x o hr hown hox] at hcall
        cases hp : UThread.Park s with
        | error err => simp [hp] at hcall
        | ok s2 =>
          simp only [hp, Except.ok.injEq, Prod.mk.injEq] at hcall
          rw [← hcall.1, ← hcall.2]
          have hpark := Park_mainApart pm s s2 hI hp
          refine ⟨hpark.1, ?_, hpark.2⟩
          simp only [List.mem_append, List.mem_singleton, not_or]
          exact ⟨hw, fun e => hxne (Option.some.inj e).symm⟩

theorem Release_mainApart (pm : Nat) (m m1 : Mutex) (s s1 : Runtime)
    (hI : s.mainApart pm) (hfib : s.m_pRunningThread ≠ some pm)
    (hw : some pm ∉ m.m_waitList) (hcall : Mutex.Release m s = .ok (m1, s1)) :
    s1.mainApart pm ∧ some pm ∉ m1.m_waitList ∧ s1.m_pRunningThread ≠ some pm := by
  cases hr : s.m_pRunningThread with
  | none => simp [Mutex.Release, UThread.Current, hr] at hcall
  | some x =>
    by_cases hown : m.m_pOwner = some x
    · by_cases hk : 0 < toInt32 (m.m_recursionCounter - 1)
      · rw [Release_positive m s x hr hown hk] at hcall
        simp only [Except.ok.injEq, Prod.mk.injEq] at hcall
        rw [← hcall.1, ← hcall.2]
        exact ⟨hI, hw, hfib⟩
      · have hk2 : toInt32 (m.m_recursionCounter - 1) ≤ 0 := not_lt.mp hk
        cases hwl : m.m_waitList with
        | nil =>
          rw [Release_free m s x hr hown hk2 hwl] at hcall
          simp only [Except.ok.injEq, Prod.mk.injEq] at hcall
          rw [← hcall.1, ← hcall.2]
          exact ⟨hI, hw, hfib⟩
        | cons w tl =>
          rw [Release_transfer m s x w tl hr hown hk2 hwl] at hcall
          simp only [Except.ok.injEq, Prod.mk.injEq] at hcall
          rw [← hcall.1, ← hcall.2]
          rw [hwl] at hw
          have hw1 : w ≠ some pm := fun e => hw (by rw [e]; exact List.mem_cons_self _ _)
          have hw2 : some pm ∉ tl := fun e => hw (List.mem_cons_of_mem _ e)
          have hun := Unpark_mainApart pm s w hI hfib hw1
          exact ⟨hun.1, hw2, hun.2⟩
    · simp [Mutex.Release, Current_running s x hr, hown] at hcall

theorem Wait_mainApart (pm : Nat) (sem sem1 : Semaphore) (s s1 : Runtime)
    (hI : s.mainApart pm) (hfib : s.m_pRunningThread ≠ some pm)
    (hw : some pm ∉ sem.m_waitList) (hcall : Semaphore.Wait sem s = .ok (sem1, s1)) :
    s1.mainApart pm ∧ some pm ∉ sem1.m_waitList ∧
    (s1.m_pRunningThread = some pm → s.m_readyQueue = []) := by
  cases hr : s.m_pRunningThread with
  | none => simp [Semaphore.Wait, UThread.Current, hr] at hcall
  | some x =>
    have hxne : x ≠ pm := fun e => hfib (by rw [hr, e])
    by_cases hperm : 0 < sem.m_permits
    · simp only [Semaphore.Wait, Current_running s x hr, gt_iff_lt, hperm, if_true,
        Except.ok.injEq, Prod.mk.injEq] at hcall
      rw [← hcall.1, ← hcall.2]
      exact ⟨hI, hw, fun hrun => absurd hrun hfib⟩
    · simp only [Semaphore.Wait, Current_running s x hr, gt_iff_lt, hperm, if_false] at hcall
      cases hp : UThread.Park s with
      | error err => simp [hp] at hcall
      | ok s2 =>
        simp only [hp, Except.ok.injEq, Prod.mk.injEq] at hcall
        rw [← hcall.1, ← hcall.2]
        have hpark := Park_mainApart pm s s2 hI hp
        refine ⟨hpark.1, ?_, hpark.2⟩
        simp only [push_back, List.mem_append, List.mem_singleton, not_or]
        exact ⟨hw, fun e => hxne (Option.some.inj e).symm⟩

theorem Post_mainApart (pm : Nat) (sem sem1 : Semaphore) (s s1 : Runtime)
    (hI : s.mainApart pm) (hfib : s.m_pRunningThread ≠ some pm)
    (hw : some pm ∉ sem.m_waitList) (hcall : Semaphore.Post sem s = .ok (sem1, s1)) :
    s1.mainApart pm ∧ some pm ∉ sem1.m_waitList ∧ s1.m_pRunningThread ≠ some pm := by
  cases hr : s.m_pRunningThread with
  | none => simp [Semaphore.Post, UThread.Current, hr] at hcall
  | some x =>
    cases hwl : sem.m_waitList with
    | nil =>
      simp only [Semaphore.Post, Current_running s x hr, hwl, List.isEmpty_nil, if_true,
        Except.ok.injEq, Prod.mk.injEq] at hcall
      rw [← hcall.1, ← hcall.2]
      exact ⟨hI, by simp [hwl], hfib⟩
    | cons w tl =>
      simp only [Semaphore.Post, Current_running s x hr, hwl, List.isEmpty_cons,
        Bool.false_eq_true, if_false, front, pop_front, Except.ok.injEq, Prod.mk.injEq] at hcall
      rw [← hcall.1, ← hcall.2]
      rw [hwl] at hw
      have hw1 : w ≠ some pm := fun e => hw (by rw [e]; exact List.mem_cons_self _ _)
      have hw2 : some pm ∉ tl := fun e => hw (List.mem_cons_of_mem _ e)
      have hun := Unpark_mainApart pm s w hI hfib hw1
      exact ⟨hun.1, hw2, hun.2⟩

theorem step_mainApart (pm : Nat) (c : Call) (w w1 : World)
    (hI : w.mainApart pm) (hfib : w.sched.m_pRunningThread ≠ some pm)
    (hav : c.avoids pm = true) (hstep : World.step c w = .ok w1) :
    w1.mainApart pm ∧
    (w1.sched.m_pRunningThread = some pm →
      w.sched.m_readyQueue = [] ∧ c.mayPark = true) := by
  obtain ⟨hs, hm, hsem⟩ := hI
  cases c with
  | Create p stack function argument =>
    simp only [World.step, Except.ok.injEq] at hstep
    have hp : p ≠ pm := by simpa [Call.avoids] using hav
    have hc := Create_mainApart pm p stack function argument w.sched hs hfib hp
    rw [← hstep]
    exact ⟨⟨hc.1, hm, hsem⟩, fun hrun => absurd hrun hc.2⟩
  | Yield =>
    simp only [World.step, World.withSched] at hstep
    cases hy : UThread.Yield w.sched with
    | error e => simp [hy] at hstep
    | ok s1 =>
      simp only [hy, Except.ok.injEq] at hstep
      have hc := Yield_mainApart pm w.sched s1 hs hfib hy
      rw [← hstep]
      exact ⟨⟨hc.1, hm, hsem⟩, fun hrun => absurd hrun hc.2⟩
  | Exit =>
    simp only [World.step, World.withSched] at hstep
    cases hy : UThread.Exit w.sched with
    | error e => simp [hy] at hstep
    | ok s1 =>
      simp only [hy, Except.ok.injEq] at hstep
      have hc := Exit_mainApart pm w.sched s1 hs hy
      rw [← hstep]
      exact ⟨⟨hc.1, hm, hsem⟩, fun hrun => ⟨hc.2 hrun, rfl⟩⟩
  | Current =>
    simp only [World.step] at hstep
    cases hy : UThread.Current w.sched with
    | error e => simp [hy] at hstep
    | ok x =>
      simp only [hy, Except.ok.injEq] at hstep
      rw [← hstep]
      exact ⟨⟨hs, hm, hsem⟩, fun hrun => absurd hrun hfib⟩
  | Park =>
    simp only [World.step, World.withSched] at hstep
    cases hy : UThread.Park w.sched with
    | error e => simp [hy] at hstep
    | ok s1 =>
      simp only [hy, Except.ok.injEq] at hstep
      have hc := Park_mainApart pm w.sched s1 hs hy
      rw [← hstep]
      exact ⟨⟨hc.1, hm, hsem⟩, fun hrun => ⟨hc.2 hrun, rfl⟩⟩
  | Unpark target =>
    simp only [World.step, Except.ok.injEq] at hstep
    have ht : target ≠ pm := by simpa [Call.avoids] using hav
    have hc := Unpark_mainApart pm w.sched (some target) hs hfib
      (fun e => ht (Option.some.inj e))
    rw [← hstep]
    exact ⟨⟨hc.1, hm, hsem⟩, fun hrun => absurd hrun hc.2⟩
  | Acquire i =>
    simp only [World.step, World.withMutex] at hstep
    cases hy : Mutex.Acquire (w.mutexes i) w.sched with
    | error e => simp [hy] at hstep
    | ok r =>
      obtain ⟨m1, s1⟩ := r
      simp only [hy, Except.ok.injEq] at hstep
      have hc := Acquire_mainApart pm (w.mutexes i) m1 w.sched s1 hs hfib (hm i) hy
      rw [← hstep]
      refine ⟨⟨hc.1, fun i2 => ?_, hsem⟩, fun hrun => ⟨hc.2.2 hrun, rfl⟩⟩
      by_cases hi : i2 = i
      · subst hi
        simpa using hc.2.1
      · simpa [Function.update_noteq hi] using hm i2
  | Release i =>
    simp only [World.step, World.withMutex] at hstep
    cases hy : Mutex.Release (w.mutexes i) w.sched with
    | error e => simp [hy] at hstep
    | ok r =>
      obtain ⟨m1, s1⟩ := r
      simp only [hy, Except.ok.injEq] at hstep
      have hc := Release_mainApart pm (w.mutexes i) m1 w.sched s1 hs hfib (hm i) hy
      rw [← hstep]
      refine ⟨⟨hc.1, fun i2 => ?_, hsem⟩, fun hrun => absurd hrun hc.2.2⟩
      by_cases hi : i2 = i
      · subst hi
        simpa using hc.2.1
      · simpa [Function.update_noteq hi] using hm i2
  | Wait j =>
    simp only [World.step, World.withSemaphore] at hstep
    cases hy : Semaphore.Wait (w.semaphores j) w.sched with
    | error e => simp [hy] at hstep
    | ok r =>
      obtain ⟨m1, s1⟩ := r
      simp only [hy, Except.ok.injEq] at hstep
      have hc := Wait_mainApart pm (w.semaphores j) m1 w.sched s1 hs hfib (hsem j) hy
      rw [← hstep]
      refine ⟨⟨hc.1, hm, fun j2 => ?_⟩, fun hrun => ⟨hc.2.2 hrun, rfl⟩⟩
      by_cases hj : j2 = j
      · subst hj
        simpa using hc.2.1
      · simpa [Function.update_noteq hj] using hsem j2
  | Post j =>
    simp only [World.step, World.withSemaphore] at hstep
    cases hy : Semaphore.Post (w.semaphores j) w.sched with
    | error e => simp [hy] at hstep
    | ok r =>
      obtain ⟨m1, s1⟩ := r
      simp only [hy, Except.ok.injEq] at hstep
      have hc := Post_mainApart pm (w.semaphores j) m1 w.sched s1 hs hfib (hsem j) hy
      rw [← hstep]
      refine ⟨⟨hc.1, hm, fun j2 => ?_⟩, fun hrun => absurd hrun hc.2.2⟩
      by_cases hj : j2 = j
      · subst hj
        simpa using hc.2.1
      · simpa [Function.update_noteq hj] using hsem j2

theorem run_mainApart (pm : Nat) (calls : List Call) (w w2 : World)
    (hI : w.mainApart pm) (hmade : madeByFibers pm calls w = true)
    (hrun : World.run calls w = .ok w2) :
    w2.mainApart pm ∧
    (w2.sched.m_pRunningThread = some pm → calls ≠ [] →
      ∃ cs c wl, calls = cs ++ [c] ∧ World.run cs w = .ok wl ∧
        wl.sched.m_readyQueue = [] ∧ c.mayPark = true) := by
  induction calls generalizing w with
  | nil =>
    simp only [World.run, Except.ok.injEq] at hrun
    rw [← hrun]
    exact ⟨hI, fun _ hne => absurd rfl hne⟩
  | cons c cs ih =>
    simp only [World.run] at hrun
    simp only [madeByFibers, Bool.and_eq_true, decide_eq_true_eq] at hmade
    obtain ⟨⟨hfib, hav⟩, hrest⟩ := hmade
    cases hstep : World.step c w with
    | error e => simp [hstep] at hrun
    | ok w1 =>
      simp only [hstep] at hrun hrest
      have hs := step_mainApart pm c w w1 hI hfib hav hstep
      have hnext := ih w1 hs.1 hrest hrun
      refine ⟨hnext.1, fun hback _ => ?_⟩
      cases cs with
      | nil =>
        simp only [World.run, Except.ok.injEq] at hrun
        rw [← hrun] at hback
        exact ⟨[], c, w, rfl, rfl, (hs.2 hback).1, (hs.2 hback).2⟩
      | cons c2 cs2 =>
        obtain ⟨cs3, c3, wl, hsplit, hrun3, hq3, hpark3⟩ :=
          hnext.2 hback (List.cons_ne_nil _ _)
        refine ⟨c :: cs3, c3, wl, by rw [hsplit]; rfl, ?_, hq3, hpark3⟩
        simp only [World.run, hstep]
        exact hrun3

theorem Run_enter_mainApart (pMain : Nat) (s s1 : Runtime)
    (hq : some pMain ∉ s.m_readyQueue)
    (henter : UScheduler.Run_enter pMain s = .ok (RunPhase.switched, s1)) :
    s1.mainApart pMain ∧ s1.m_pRunningThread ≠ some pMain := by
  cases hr : s.m_pRunningThread with
  | some r => simp [UScheduler.Run_enter, hr] at henter
  | none =>
    cases hqueue : s.m_readyQueue with
    | nil => simp [UScheduler.Run_enter, hr, hqueue] at henter
    | cons x t =>
      rw [hqueue] at hq
      have ht : some pMain ∉ t := fun e => hq (List.mem_cons_of_mem _ e)
      cases x with
      | none =>
        simp [UScheduler.Run_enter, hr, hqueue, UScheduler.find_next_thread, UThread.ctor_main,
          front, pop_front, context_switch] at henter
      | some h =>
        have hne : h ≠ pMain := fun e => hq (by rw [e]; exact List.mem_cons_self _ _)
        simp only [UScheduler.Run_enter, hr, hqueue, UScheduler.find_next_thread,
          UThread.ctor_main, front, pop_front, context_switch, ne_eq, not_true_eq_false,
          if_false, List.isEmpty_cons, Bool.false_eq_true, not_false_eq_true, if_true,
          Except.ok.injEq, Prod.mk.injEq, true_and] at henter
        rw [← henter]
        refine ⟨⟨rfl, ht, fun hrun => ?_⟩, ?_⟩
        · simp at hrun
          exact absurd hrun hne
        · simp
          exact hne

/-- C4: let `UScheduler::Run` switch to the first fiber, its local
`mainThread` being at an address `pMain` that is in no ready queue or wait
list at that moment (it is a new object on the caller's stack).  Let the
fibers then make any sequence of `Create`, `Yield`, `Park`, `Unpark`, `Exit`,
`Current`, `Acquire`, `Release`, `Wait` and `Post` calls, each made while a
thread other than `pMain` runs and none passing `pMain`.  If after these calls
the running thread is `pMain`, so that control is back in `Run`, then the
ready queue is empty, the rest of `Run` passes its assertion and returns with
the running-thread handle none, and the call that switched to `pMain` was the
last one, a call that parks or exits, made with an empty ready queue. -/
theorem run_resumes_with_empty_queue (pMain : Nat) (w0 : World) (s1 : Runtime)
    (calls : List Call) (w2 : World)
    (hq : some pMain ∉ w0.sched.m_readyQueue)
    (hm : ∀ i, some pMain ∉ (w0.mutexes i).m_waitList)
    (hsem : ∀ j, some pMain ∉ (w0.semaphores j).m_waitList)
    (henter : UScheduler.Run_enter pMain w0.sched = .ok (RunPhase.switched, s1))
    (hmade : madeByFibers pMain calls { w0 with sched := s1 } = true)
    (hrun : World.run calls { w0 with sched := s1 } = .ok w2)
    (hback : w2.sched.m_pRunningThread = some pMain) :
    w2.sched.m_readyQueue = [] ∧
    (∃ s3, UScheduler.Run_resume pMain w2.sched = .ok s3 ∧ s3.m_pRunningThread = none) ∧
    (∃ cs c wl, calls = cs ++ [c] ∧
      World.run cs { w0 with sched := s1 } = .ok wl ∧
      wl.sched.m_readyQueue = [] ∧ c.mayPark = true) := by
  have hent := Run_enter_mainApart pMain w0.sched s1 hq henter
  have hI : World.mainApart pMain { w0 with sched := s1 } := ⟨hent.1, hm, hsem⟩
  have hfin := run_mainApart pMain calls { w0 with sched := s1 } w2 hI hmade hrun
  have hempty : w2.sched.m_readyQueue = [] := hfin.1.1.2.2 hback
  have hne : calls ≠ [] := by
    intro hnil
    rw [hnil] at hrun
    simp only [World.run, Except.ok.injEq] at hrun
    rw [← hrun] at hback
    exact hent.2 hback
  refine ⟨hempty, ⟨UThread.dtor pMain { w2.sched with m_pRunningThread := none }, ?_, rfl⟩,
    hfin.2 hback hne⟩
  simp [UScheduler.Run_resume, hempty]

/-- Witness of C4: `exampleWorld` runs `exampleCalls` under a `Run` whose
`mainThread` is at address 100; control comes back with an empty queue. -/
theorem run_resumes_with_empty_queue_witness :
    exampleFinal.sched.m_pRunningThread = some 100 ∧
    exampleFinal.sched.m_readyQueue = [] :=
  ⟨rfl, (run_resumes_with_empty_queue 100 exampleWorld exampleEntered exampleCalls
      exampleFinal (by decide) (fun _ => by simp [exampleWorld, Mutex.new])
      (fun _ => by simp [exampleWorld, Semaphore.new]) rfl rfl rfl rfl).1⟩

/-! ### Assertions and the semaphore, call by call -/

/-- C11: `Mutex::Release` called by the running fiber `c` returns exactly when
`c` is the owner.  When `c` is not the owner, and in particular whenever the
mutex is free, the call stops at its assertion, and the mutex and the
scheduler state at the stop are the ones the call was given: owner, recursion
counter, wait list and ready queue are unchanged. -/
theorem release_asserts_owner (m : Mutex) (s : Runtime) (c : Nat)
    (hc : s.m_pRunningThread = some c) :
    ((∃ r, Mutex.Release m s = .ok r) ↔ m.m_pOwner = some c) ∧
    (m.m_pOwner ≠ some c → Mutex.Release m s = .error (Fault.assertion, m, s)) ∧
    (m.m_pOwner = none → Mutex.Release m s = .error (Fault.assertion, m, s)) := by
  have hfail : m.m_pOwner ≠ some c → Mutex.Release m s = .error (Fault.assertion, m, s) := by
    intro hne
    simp [Mutex.Release, Current_running s c hc, hne]
  refine ⟨⟨fun hok => ?_, fun hown => ?_⟩, hfail, fun hfree => hfail (by rw [hfree]; simp)⟩
  · by_contra hne
    obtain ⟨r, hr⟩ := hok
    rw [hfail hne] at hr
    cases hr
  · by_cases hk : 0 < toInt32 (m.m_recursionCounter - 1)
    · exact ⟨_, Release_positive m s c hc hown hk⟩
    · have hk2 : toInt32 (m.m_recursionCounter - 1) ≤ 0 := not_lt.mp hk
      cases hw : m.m_waitList with
      | nil => exact ⟨_, Release_free m s c hc hown hk2 hw⟩
      | cons w rest => exact ⟨_, Release_transfer m s c w rest hc hown hk2 hw⟩

/-- Witness of C11: fiber 1 releases a new mutex and fiber 1 releases a mutex
held by fiber 7. -/
theorem release_asserts_owner_witness :
    Mutex.Release Mutex.new exampleRuntime
      = .error (Fault.assertion, Mutex.new, exampleRuntime) ∧
    Mutex.Release exampleForeign exampleRuntime
      = .error (Fault.assertion, exampleForeign, exampleRuntime) :=
  ⟨(release_asserts_owner Mutex.new exampleRuntime 1 rfl).2.2 rfl,
   (release_asserts_owner exampleForeign exampleRuntime 1 rfl).2.1 (by decide)⟩

theorem Post_empty (sem : Semaphore) (s : Runtime) (c : Nat)
    (hc : s.m_pRunningThread = some c) (hw : sem.m_waitList = []) :
    Semaphore.Post sem s
      = .ok ({ sem with m_permits := toInt32 (sem.m_permits + 1) }, s) := by
  simp [Semaphore.Post, Current_running s c hc, hw]

theorem Post_waiter (sem : Semaphore) (s : Runtime) (c : Nat) (w : Ptr) (rest : List Ptr)
    (hc : s.m_pRunningThread = some c) (hw : sem.m_waitList = w :: rest) :
    Semaphore.Post sem s
      = .ok ({ sem with m_waitList := rest },
             { s with m_readyQueue := s.m_readyQueue ++ [w] }) := by
  simp [Semaphore.Post, Current_running s c hc, hw, front, pop_front, UThread.Unpark,
    push_back]

theorem Wait_permit (sem : Semaphore) (s : Runtime) (c : Nat)
    (hc : s.m_pRunningThread = some c) (hp : 0 < sem.m_permits) :
    Semaphore.Wait sem s
      = .ok ({ sem with m_permits := toInt32 (sem.m_permits - 1) }, s) := by
  simp [Semaphore.Wait, Current_running s c hc, hp]

theorem Wait_blocked (sem : Semaphore) (s : Runtime) (c : Nat)
    (hc : s.m_pRunningThread = some c) (hp : sem.m_permits ≤ 0) :
    Semaphore.Wait sem s =
      match UThread.Park s with
      | .error e => .error (e.1, { sem with m_waitList := sem.m_waitList ++ [some c] }, e.2)
      | .ok s1 => .ok ({ sem with m_waitList := sem.m_waitList ++ [some c] }, s1) := by
  simp [Semaphore.Wait, Current_running s c hc, not_lt.mpr hp, push_back]

/-- C12: `Semaphore::Post` called by a running fiber.  With an empty wait list
it adds one to `m_permits` (as an `int`; exactly `+ 1` whenever the value is
below the largest `int`) and changes nothing else.  With wait list `w :: rest`
it removes `w`, appends `w` to the ready queue and leaves `m_permits` as it
was.  So when `f1` and `f2` head the wait list in that order, two successive
calls leave the ready queue as it was followed by `f1`, then `f2`, and
`find_next_thread` hands out `f1` before `f2`. -/
theorem post_contract (sem : Semaphore) (s : Runtime) (c : Nat)
    (hc : s.m_pRunningThread = some c) :
    (sem.m_waitList = [] →
      Semaphore.Post sem s
        = .ok ({ sem with m_permits := toInt32 (sem.m_permits + 1) }, s) ∧
      (-2147483648 ≤ sem.m_permits → sem.m_permits < 2147483647 →
        toInt32 (sem.m_permits + 1) = sem.m_permits + 1)) ∧
    (∀ w rest, sem.m_waitList = w :: rest →
      Semaphore.Post sem s
        = .ok ({ m_permits := sem.m_permits, m_waitList := rest },
               { s with m_readyQueue := s.m_readyQueue ++ [w] })) ∧
    (∀ f1 f2 rest, sem.m_waitList = f1 :: f2 :: rest →
      ∃ sem1 s1 sem2 s2,
        Semaphore.Post sem s = .ok (sem1, s1) ∧ Semaphore.Post sem1 s1 = .ok (sem2, s2) ∧
        sem2 = { m_permits := sem.m_permits, m_waitList := rest } ∧
        s2 = { s with m_readyQueue := s.m_readyQueue ++ [f1, f2] } ∧
        UScheduler.next_threads (s.m_readyQueue.length + 2) s2
          = s.m_readyQueue ++ [f1, f2]) := by
  refine ⟨fun hw => ⟨Post_empty sem s c hc hw,
      fun h1 h2 => toInt32_of_range _ (by omega) (by omega)⟩,
    fun w rest hw => Post_waiter sem s c w rest hc hw, ?_⟩
  intro f1 f2 rest hw
  refine ⟨_, _, _, _, Post_waiter sem s c f1 (f2 :: rest) hc hw,
    Post_waiter _ _ c f2 rest hc rfl, rfl, ?_, ?_⟩
  · simp
  · have h := next_threads_queue (s.m_readyQueue ++ [f1, f2])
      { s with m_readyQueue := s.m_readyQueue ++ [f1] ++ [f2] } [] (by simp)
    simpa using h

/-- Witness of C12: fibers 5 and 6 wait in that order; fiber 1 posts twice
while fibers 2 and 3 are ready. -/
theorem post_contract_witness :
    ∃ sem1 s1 sem2 s2,
      Semaphore.Post exampleWaited exampleRuntime = .ok (sem1, s1) ∧
      Semaphore.Post sem1 s1 = .ok (sem2, s2) ∧
      sem2 = { m_permits := 0, m_waitList := [] } ∧
      s2 = { exampleRuntime with m_readyQueue := [some 2, some 3] ++ [some 5, some 6] } ∧
      UScheduler.next_threads 4 s2 = [some 2, some 3] ++ [some 5, some 6] :=
  (post_contract exampleWaited exampleRuntime 1 rfl).2.2 (some 5) (some 6) [] rfl

/-- C13: `Semaphore::Wait` called by the running fiber `c`.  With a positive
`m_permits` it takes one permit (the `int` decrement, exactly `- 1` for every
`int` value) and returns with the wait list and the scheduler state as they
were.  With no permit (`m_permits` not positive, zero in particular) it
appends `c` to the wait list, leaves `m_permits` as it was and parks `c`: the
running thread becomes the head of the ready queue, or the main thread when
the queue is empty. -/
theorem wait_contract (sem : Semaphore) (s : Runtime) (c : Nat)
    (hc : s.m_pRunningThread = some c) :
    (0 < sem.m_permits →
      Semaphore.Wait sem s
        = .ok ({ m_permits := toInt32 (sem.m_permits - 1), m_waitList := sem.m_waitList }, s) ∧
      (sem.m_permits ≤ 2147483647 → toInt32 (sem.m_permits - 1) = sem.m_permits - 1)) ∧
    (sem.m_permits ≤ 0 →
      (∀ h t, s.m_readyQueue = some h :: t →
        Semaphore.Wait sem s
          = .ok ({ m_permits := sem.m_permits, m_waitList := sem.m_waitList ++ [some c] },
                 { s with m_pRunningThread := some h, m_readyQueue := t })) ∧
      (∀ pm, s.m_readyQueue = [] → s.m_pMainThread = some pm →
        Semaphore.Wait sem s
          = .ok ({ m_permits := sem.m_permits, m_waitList := sem.m_waitList ++ [some c] },
                 { s with m_pRunningThread := some pm }))) := by
  constructor
  · intro hp
    exact ⟨Wait_permit sem s c hc hp, fun h2 => toInt32_of_range _ (by omega) (by omega)⟩
  · intro hp
    constructor
    · intro h t hq
      rw [Wait_blocked sem s c hc hp, Park_cons s c h t hc hq]
    · intro pm hq hm
      rw [Wait_blocked sem s c hc hp, Park_nil s c pm hc hq hm]

/-- Witness of C13: fiber 1 waits on a semaphore without permits while fibers
2 and 3 are ready. -/
theorem wait_contract_witness :
    Semaphore.Wait exampleWaited exampleRuntime
      = .ok ({ m_permits := 0, m_waitList := [some 5, some 6] ++ [some 1] },
             { exampleRuntime with m_pRunningThread := some 2, m_readyQueue := [some 3] }) :=
  ((wait_contract exampleWaited exampleRuntime 1 rfl).2 (by decide)).1 2 [some 3] rfl

/-- C16, shown false as stated: with no thread running and an empty ready
queue, `UThread::Yield` returns without any assertion; with no thread running
and nothing to switch to, `UThread::Exit` stops at an access violation, not at
an assertion; and `UThread::Yield` with a fiber ready but no thread running
stops at an access violation after it has changed the ready queue. -/
theorem yield_exit_without_assertion :
    UThread.Yield Runtime.initial = .ok Runtime.initial ∧
    UThread.Exit Runtime.initial = .error (Fault.accessViolation, Runtime.initial) ∧
    UThread.Yield { Runtime.initial with m_readyQueue := [some 1] }
      = .error (Fault.accessViolation, { Runtime.initial with m_readyQueue := [none] }) := by
  refine ⟨rfl, rfl, rfl⟩

/-- C16 as amended: while no thread is running, `UThread::Current` and
`UThread::Park` stop at their assertion with the scheduler state unchanged,
and `UThread::Yield` called with an empty ready queue returns at once with the
state unchanged. -/
theorem not_running_contract (s : Runtime) (hn : s.m_pRunningThread = none) :
    UThread.Current s = .error (Fault.assertion, s) ∧
    UThread.Park s = .error (Fault.assertion, s) ∧
    (s.m_readyQueue = [] → UThread.Yield s = .ok s) := by
  refine ⟨by simp [UThread.Current, hn], by simp [UThread.Park, hn], fun hq => ?_⟩
  simp [UThread.Yield, hq]

/-- Witness of C16 as amended: the state at program start. -/
theorem not_running_contract_witness :
    UThread.Current Runtime.initial = .error (Fault.assertion, Runtime.initial) ∧
    UThread.Park Runtime.initial = .error (Fault.assertion, Runtime.initial) :=
  ⟨(not_running_contract Runtime.initial rfl).1, (not_running_contract Runtime.initial rfl).2.1⟩

/-- C17: `UScheduler::Run` called while no thread is running and the ready
queue is empty returns at once with the state it was given: fiber count,
thread-id seed, ready queue, main-thread handle and the table of thread
objects are unchanged (no `mainThread` is constructed) and the running-thread
handle is still none. -/
theorem run_empty_queue (pMain : Nat) (s : Runtime)
    (hr : s.m_pRunningThread = none) (hq : s.m_readyQueue = []) :
    UScheduler.Run_enter pMain s = .ok (RunPhase.returned, s) ∧
    s.m_pRunningThread = none := by
  refine ⟨?_, hr⟩
  simp [UScheduler.Run_enter, hr, hq]

/-- Witness of C17: `Run` at program start. -/
theorem run_empty_queue_witness :
    UScheduler.Run_enter 100 Runtime.initial = .ok (RunPhase.returned, Runtime.initial) :=
  (run_empty_queue 100 Runtime.initial rfl rfl).1

/-! ### Calls that never suspend -/

theorem after_Release (w : World) (i : Nat) :
    (World.after (World.step (Call.Release i) w)).sched.m_pRunningThread
      = w.sched.m_pRunningThread ∧
    w.sched.m_readyQueue <+: (World.after (World.step (Call.Release i) w)).sched.m_readyQueue := by
  simp only [World.step]
  cases hr : w.sched.m_pRunningThread with
  | none =>
    simp [Mutex.Release, UThread.Current, hr, World.withMutex, World.after]
  | some x =>
    by_cases hown : (w.mutexes i).m_pOwner = some x
    · by_cases hk : 0 < toInt32 ((w.mutexes i).m_recursionCounter - 1)
      · rw [Release_positive _ _ x hr hown hk]
        simp [World.withMutex, World.after, hr]
      · have hk2 : toInt32 ((w.mutexes i).m_recursionCounter - 1) ≤ 0 := not_lt.mp hk
        cases hw : (w.mutexes i).m_waitList with
        | nil =>
          rw [Release_free _ _ x hr hown hk2 hw]
          simp [World.withMutex, World.after, hr]
        | cons v rest =>
          rw [Release_transfer _ _ x v rest hr hown hk2 hw]
          simp [World.withMutex, World.after, hr]
    · simp [Mutex.Release, Current_running _ x hr, hown, World.withMutex, World.after, hr]

theorem after_Post (w : World) (j : Nat) :
    (World.after (World.step (Call.Post j) w)).sched.m_pRunningThread
      = w.sched.m_pRunningThread ∧
    w.sched.m_readyQueue <+: (World.after (World.step (Call.Post j) w)).sched.m_readyQueue := by
  simp only [World.step]
  cases hr : w.sched.m_pRunningThread with
  | none =>
    simp [Semaphore.Post, UThread.Current, hr, World.withSemaphore, World.after]
  | some x =>
    cases hw : (w.semaphores j).m_waitList with
    | nil =>
      rw [Post_empty _ _ x hr hw]
      simp [World.withSemaphore, World.after, hr]
    | cons v rest =>
      rw [Post_waiter _ _ x v rest hr hw]
      simp [World.withSemaphore, World.after, hr]

theorem after_Current (w : World) :
    (World.after (World.step Call.Current w)).sched.m_pRunningThread
      = w.sched.m_pRunningThread ∧
    w.sched.m_readyQueue <+: (World.after (World.step Call.Current w)).sched.m_readyQueue := by
  simp only [World.step]
  cases hr : w.sched.m_pRunningThread with
  | none => simp [UThread.Current, hr, World.after]
  | some x => simp [UThread.Current, hr, World.after]

theorem after_Acquire (w : World) (i : Nat)
    (hfree : (w.mutexes i).m_pOwner = none ∨
      (w.mutexes i).m_pOwner = w.sched.m_pRunningThread) :
    (World.after (World.step (Call.Acquire i) w)).sched.m_pRunningThread
      = w.sched.m_pRunningThread := by
  simp only [World.step]
  cases hr : w.sched.m_pRunningThread with
  | none =>
    simp [Mutex.Acquire, UThread.Current, hr, World.withMutex, World.after]
  | some x =>
    rw [hr] at hfree
    rcases hfree with hnone | hown
    · rw [Acquire_free _ _ x hr hnone]
      simp [World.withMutex, World.after, hr]
    · rw [Acquire_recursive _ _ x hr hown]
      simp [World.withMutex, World.after, hr]

theorem after_Wait (w : World) (j : Nat) (hp : 0 < (w.semaphores j).m_permits) :
    (World.after (World.step (Call.Wait j) w)).sched.m_pRunningThread
      = w.sched.m_pRunningThread := by
  simp only [World.step]
  cases hr : w.sched.m_pRunningThread with
  | none =>
    simp [Semaphore.Wait, UThread.Current, hr, World.withSemaphore, World.after]
  | some x =>
    rw [Wait_permit _ _ x hr hp]
    simp [World.withSemaphore, World.after, hr]

/-- C15: in every state, `Unpark` and `Create` return, and `Current`,
`Mutex::Release` and `Semaphore::Post` return whenever their assertion holds
(a thread is running; for `Release`, it is the owner); and whether any of
these five returns or stops at its assertion, the running-thread handle is the
one from before the call and the ready queue from before the call is an
initial part of the ready queue after it.  A call after which the
running-thread handle differs is a `Yield` made with a non-empty ready queue,
a `Park`, an `Exit`, an `Acquire` of a mutex held by a thread other than the
caller, or a `Wait` on a semaphore without a permit. -/
theorem never_suspend (w : World) :
    (∀ target, ∃ w1, World.step (Call.Unpark target) w = .ok w1 ∧
      w1.sched.m_pRunningThread = w.sched.m_pRunningThread ∧
      w.sched.m_readyQueue <+: w1.sched.m_readyQueue) ∧
    (∀ p stack function argument,
      ∃ w1, World.step (Call.Create p stack function argument) w = .ok w1 ∧
        w1.sched.m_pRunningThread = w.sched.m_pRunningThread ∧
        w.sched.m_readyQueue <+: w1.sched.m_readyQueue) ∧
    (∀ c, (c = Call.Current ∨ (∃ i, c = Call.Release i) ∨ (∃ j, c = Call.Post j)) →
      (World.after (World.step c w)).sched.m_pRunningThread = w.sched.m_pRunningThread ∧
      w.sched.m_readyQueue <+: (World.after (World.step c w)).sched.m_readyQueue) ∧
    (∀ x, w.sched.m_pRunningThread = some x →
      (∃ w1, World.step Call.Current w = .ok w1) ∧
      (∀ j, ∃ w1, World.step (Call.Post j) w = .ok w1) ∧
      (∀ i, (w.mutexes i).m_pOwner = some x → ∃ w1, World.step (Call.Release i) w = .ok w1)) ∧
    (∀ c, (World.after (World.step c w)).sched.m_pRunningThread ≠ w.sched.m_pRunningThread →
      (c = Call.Yield ∧ w.sched.m_readyQueue ≠ []) ∨ c = Call.Park ∨ c = Call.Exit ∨
      (∃ i, c = Call.Acquire i ∧ (w.mutexes i).m_pOwner ≠ none ∧
        (w.mutexes i).m_pOwner ≠ w.sched.m_pRunningThread) ∨
      (∃ j, c = Call.Wait j ∧ (w.semaphores j).m_permits ≤ 0)) := by
  refine ⟨fun target => ⟨_, rfl, rfl, ?_⟩, fun p stack function argument => ⟨_, rfl, rfl, ?_⟩,
    ?_, ?_, ?_⟩
  · exact ⟨[some target], rfl⟩
  · exact ⟨[some p], rfl⟩
  · rintro c (rfl | ⟨i, rfl⟩ | ⟨j, rfl⟩)
    · exact after_Current w
    · exact after_Release w i
    · exact after_Post w j
  · intro x hx
    refine ⟨?_, fun j => ?_, fun i hown => ?_⟩
    · simp [World.step, UThread.Current, hx]
    · simp only [World.step]
      cases hw : (w.semaphores j).m_waitList with
      | nil =>
        rw [Post_empty _ _ x hx hw]
        exact ⟨_, rfl⟩
      | cons v rest =>
        rw [Post_waiter _ _ x v rest hx hw]
        exact ⟨_, rfl⟩
    · simp only [World.step]
      by_cases hk : 0 < toInt32 ((w.mutexes i).m_recursionCounter - 1)
      · rw [Release_positive _ _ x hx hown hk]
        exact ⟨_, rfl⟩
      · have hk2 : toInt32 ((w.mutexes i).m_recursionCounter - 1) ≤ 0 := not_lt.mp hk
        cases hw : (w.mutexes i).m_waitList with
        | nil =>
          rw [Release_free _ _ x hx hown hk2 hw]
          exact ⟨_, rfl⟩
        | cons v rest =>
          rw [Release_transfer _ _ x v rest hx hown hk2 hw]
          exact ⟨_, rfl⟩
  · intro c hchange
    cases c with
    | Create p stack function argument => exact absurd rfl hchange
    | Yield =>
      refine Or.inl ⟨rfl, fun hq => hchange ?_⟩
      simp [World.step, UThread.Yield, hq, World.withSched, World.after]
    | Exit => exact Or.inr (Or.inr (Or.inl rfl))
    | Current => exact absurd (after_Current w).1 hchange
    | Park => exact Or.inr (Or.inl rfl)
    | Unpark target => exact absurd rfl hchange
    | Acquire i =>
      refine Or.inr (Or.inr (Or.inr (Or.inl ⟨i, rfl, ?_, ?_⟩)))
      · intro hnone
        exact hchange (after_Acquire w i (Or.inl hnone))
      · intro hown
        exact hchange (after_Acquire w i (Or.inr hown))
    | Release i => exact absurd (after_Release w i).1 hchange
    | Wait j =>
      refine Or.inr (Or.inr (Or.inr (Or.inr ⟨j, rfl, ?_⟩)))
      by_contra hp
      exact hchange (after_Wait w j (not_le.mp hp))
    | Post j => exact absurd (after_Post w j).1 hchange

/-! ### The invariant of the semaphore and the width of its counter -/

theorem sem_history_append (a b : List (SemaphoreCall × Runtime)) (sem : Semaphore) :
    Semaphore.history (a ++ b) sem =
      match Semaphore.history a sem with
      | .error err => .error err
      | .ok sem1 => Semaphore.history b sem1 := by
  induction a generalizing sem with
  | nil => rfl
  | cons e rest ih =>
    simp only [List.cons_append, Semaphore.history]
    cases hcall : Semaphore.call e.1 sem e.2 with
    | error err => rfl
    | ok r => exact ih r.1

theorem post_repeat (s : Runtime) (c : Nat) (hc : s.m_pRunningThread = some c)
    (n : Nat) (x : Int) :
    Semaphore.history (List.replicate n (SemaphoreCall.Post, s))
        { m_permits := toInt32 x, m_waitList := [] }
      = .ok { m_permits := toInt32 (x + n), m_waitList := [] } := by
  induction n generalizing x with
  | zero => simp [Semaphore.history]
  | succ n ih =>
    rw [List.replicate_succ]
    simp only [Semaphore.history, Semaphore.call]
    rw [Post_empty _ s c hc rfl]
    simp only [toInt32_succ]
    rw [ih (x + 1)]
    have : x + 1 + (n : Int) = x + ((n + 1 : Nat) : Int) := by push_cast; ring
    rw [this]

theorem post_from_new (s : Runtime) (c : Nat) (hc : s.m_pRunningThread = some c)
    (N : Nat) (k : Int) (hk : toInt32 N = k) :
    Semaphore.history (List.replicate N (SemaphoreCall.Post, s)) Semaphore.new
      = .ok { m_permits := k, m_waitList := [] } := by
  subst hk
  have h0 : (0 : Int) = toInt32 0 := by decide
  have := post_repeat s c hc N 0
  rw [← h0, zero_add] at this
  exact this

theorem sem_call_inRange (k : SemaphoreCall) (sem sem1 : Semaphore) (s s1 : Runtime)
    (hJ : sem.invariant ∧ sem.m_permits ≤ INT_MAX)
    (hno : ¬ (k = SemaphoreCall.Post ∧ sem.m_waitList = [] ∧ sem.m_permits = INT_MAX))
    (hcall : Semaphore.call k sem s = .ok (sem1, s1)) :
    sem1.invariant ∧ sem1.m_permits ≤ INT_MAX := by
  obtain ⟨⟨hnonneg, hzero⟩, hmax⟩ := hJ
  unfold INT_MAX at hmax hno
  unfold Semaphore.invariant INT_MAX
  cases hr : s.m_pRunningThread with
  | none =>
    cases k <;>
      simp [Semaphore.call, Semaphore.Wait, Semaphore.Post, UThread.Current, hr] at hcall
  | some x =>
    cases k with
    | Wait =>
      simp only [Semaphore.call] at hcall
      by_cases hp : 0 < sem.m_permits
      · rw [Wait_permit sem s x hr hp] at hcall
        simp only [Except.ok.injEq, Prod.mk.injEq] at hcall
        rw [← hcall.1]
        have hexact : toInt32 (sem.m_permits - 1) = sem.m_permits - 1 :=
          toInt32_of_range _ (by omega) (by omega)
        refine ⟨⟨?_, fun hw => ?_⟩, ?_⟩
        · simp only [hexact]
          omega
        · have := hzero hw
          omega
        · simp only [hexact]
          omega
      · have hp0 : sem.m_permits = 0 := by omega
        rw [Wait_blocked sem s x hr (by omega)] at hcall
        cases hpark : UThread.Park s with
        | error err => simp [hpark] at hcall
        | ok s2 =>
          simp only [hpark, Except.ok.injEq, Prod.mk.injEq] at hcall
          rw [← hcall.1]
          exact ⟨⟨by simp [hp0], fun _ => hp0⟩, by simp [hp0]⟩
    | Post =>
      simp only [Semaphore.call] at hcall
      cases hw : sem.m_waitList with
      | nil =>
        rw [Post_empty sem s x hr hw] at hcall
        simp only [Except.ok.injEq, Prod.mk.injEq] at hcall
        rw [← hcall.1]
        have hlt : sem.m_permits ≠ 2147483647 := fun e => hno ⟨rfl, hw, e⟩
        have hexact : toInt32 (sem.m_permits + 1) = sem.m_permits + 1 :=
          toInt32_of_range _ (by omega) (by omega)
        refine ⟨⟨?_, fun hne => ?_⟩, ?_⟩
        · simp only [hexact]
          omega
        · simp [hw] at hne
        · simp only [hexact]
          omega
      | cons v rest =>
        rw [Post_waiter sem s x v rest hr hw] at hcall
        simp only [Except.ok.injEq, Prod.mk.injEq] at hcall
        rw [← hcall.1]
        have hp0 : sem.m_permits = 0 := hzero (by simp [hw])
        exact ⟨⟨by simp [hp0], fun _ => hp0⟩, by simp [hp0]⟩

theorem sem_history_inRange (h : List (SemaphoreCall × Runtime)) (sem sem2 : Semaphore)
    (hJ : sem.invariant ∧ sem.m_permits ≤ INT_MAX)
    (hin : Semaphore.withinInt h sem = true)
    (hrun : Semaphore.history h sem = .ok sem2) :
    sem2.invariant ∧ sem2.m_permits ≤ INT_MAX := by
  induction h generalizing sem with
  | nil =>
    simp only [Semaphore.history, Except.ok.injEq] at hrun
    rw [← hrun]
    exact hJ
  | cons e rest ih =>
    simp only [Semaphore.history] at hrun
    simp only [Semaphore.withinInt, Bool.and_eq_true, Bool.not_eq_true', Bool.and_eq_false_imp,
      decide_eq_true_eq, decide_eq_false_iff_not] at hin
    cases hcall : Semaphore.call e.1 sem e.2 with
    | error err => simp [hcall] at hrun
    | ok r =>
      simp only [hcall] at hrun hin
      have hstep := sem_call_inRange e.1 sem r.1 e.2 r.2 hJ
        (fun hno => hin.1 ⟨hno.1, hno.2.1⟩ hno.2.2) hcall
      exact ih r.1 hstep hin.2 hrun

/-- C14, shown false as stated: after 2147483648 successive `Post` calls by
fiber 1 on a new semaphore the 32-bit `m_permits` has wrapped to -2147483648,
a negative number; and a `Wait` that follows leaves a thread in the wait list
while `m_permits` is not zero. -/
theorem permits_negative_at_overflow :
    (∃ sem, Semaphore.history
        (List.replicate 2147483648 (SemaphoreCall.Post, exampleAlone)) Semaphore.new = .ok sem ∧
      sem.m_permits = -2147483648 ∧ ¬ sem.invariant) ∧
    Semaphore.history
        (List.replicate 2147483648 (SemaphoreCall.Post, exampleAlone)
          ++ [(SemaphoreCall.Wait, exampleAlone)]) Semaphore.new
      = .ok { m_permits := -2147483648, m_waitList := [some 1] } := by
  have hposts := post_from_new exampleAlone 1 rfl 2147483648 (-2147483648) (by decide)
  refine ⟨⟨_, hposts, rfl, fun hinv => ?_⟩, ?_⟩
  · have := hinv.1
    simp at this
  · rw [sem_history_append, hposts]
    rfl

/-- C14 as amended: starting from a new `Semaphore`, every history of `Wait`
and `Post` calls in which `Post` is never called with an empty wait list while
`m_permits` is 2147483647 ends in a state where `m_permits` is not negative
and is zero whenever the wait list is not empty. -/
theorem semaphore_invariant_within_int (h : List (SemaphoreCall × Runtime)) (sem : Semaphore)
    (hin : Semaphore.withinInt h Semaphore.new = true)
    (hrun : Semaphore.history h Semaphore.new = .ok sem) :
    sem.invariant :=
  (sem_history_inRange h Semaphore.new sem
    ⟨⟨le_refl _, fun _ => rfl⟩, by decide⟩ hin hrun).1

/-- Witness of C14 as amended: the calls of `exampleSignals` on a new
semaphore leave fiber 3 waiting and no permit. -/
theorem semaphore_invariant_within_int_witness :
    Semaphore.invariant { m_permits := 0, m_waitList := [some 3] } :=
  semaphore_invariant_within_int exampleSignals
    { m_permits := 0, m_waitList := [some 3] } rfl rfl

/-! ### Thread identities -/

theorem toInt32_add (a b : Int) : toInt32 (toInt32 a + b) = toInt32 (a + b) := by
  unfold toInt32
  omega

theorem context_switch_seed (a b : Ptr) (s s1 : Runtime) (h : context_switch a b s = .ok s1) :
    s1.m_threadIdSeed = s.m_threadIdSeed := by
  unfold context_switch at h
  split at h
  · cases h
  · split at h
    · cases h
    · simp only [Except.ok.injEq] at h
      rw [← h]

theorem find_next_thread_seed (s : Runtime) :
    (UScheduler.find_next_thread s).2.m_threadIdSeed = s.m_threadIdSeed := by
  unfold UScheduler.find_next_thread
  split <;> rfl

theorem Yield_seed (s s1 : Runtime) (h : UThread.Yield s = .ok s1) :
    s1.m_threadIdSeed = s.m_threadIdSeed := by
  unfold UThread.Yield at h
  split at h
  · have hs := context_switch_seed _ _ _ _ h
    exact hs
  · simp only [Except.ok.injEq] at h
    rw [← h]

theorem Park_seed (s s1 : Runtime) (h : UThread.Park s = .ok s1) :
    s1.m_threadIdSeed = s.m_threadIdSeed := by
  unfold UThread.Park at h
  split at h
  · cases h
  · have hs := context_switch_seed _ _ _ _ h
    exact hs.trans (find_next_thread_seed s)

theorem Exit_seed (s s1 : Runtime) (h : UThread.Exit s = .ok s1) :
    s1.m_threadIdSeed = s.m_threadIdSeed := by
  unfold UThread.Exit internal_exit at h
  simp only at h
  split at h
  · cases h
  · simp only [Except.ok.injEq] at h
    rw [← h, (self_destroy_fields _ _).2.2.2]
    exact find_next_thread_seed s

theorem Acquire_seed (m m1 : Mutex) (s s1 : Runtime)
    (h : Mutex.Acquire m s = .ok (m1, s1)) :
    s1.m_threadIdSeed = s.m_threadIdSeed := by
  cases hr : s.m_pRunningThread with
  | none => simp [Mutex.Acquire, UThread.Current, hr] at h
  | some x =>
    cases hown : m.m_pOwner with
    | none =>
      rw [Acquire_free m s x hr hown] at h
      simp only [Except.ok.injEq, Prod.mk.injEq] at h
      rw [← h.2]
    | some o =>
      by_cases hox : o = x
      · rw [Acquire_recursive m s x hr (by rw [hown, hox])] at h
        simp only [Except.ok.injEq, Prod.mk.injEq] at h
        rw [← h.2]
      · rw [Acquire_held m s x o hr hown hox] at h
        cases hp : UThread.Park s with
        | error err => simp [hp] at h
        | ok s2 =>
          simp only [hp, Except.ok.injEq, Prod.mk.injEq] at h
          rw [← h.2]
          exact Park_seed s s2 hp

theorem Release_seed (m m1 : Mutex) (s s1 : Runtime)
    (h : Mutex.Release m s = .ok (m1, s1)) :
    s1.m_threadIdSeed = s.m_threadIdSeed := by
  cases hr : s.m_pRunningThread with
  | none => simp [Mutex.Release, UThread.Current, hr] at h
  | some x =>
    by_cases hown : m.m_pOwner = some x
    · by_cases hk : 0 < toInt32 (m.m_recursionCounter - 1)
      · rw [Release_positive m s x hr hown hk] at h
        simp only [Except.ok.injEq, Prod.mk.injEq] at h
        rw [← h.2]
      · have hk2 : toInt32 (m.m_recursionCounter - 1) ≤ 0 := not_lt.mp hk
        cases hw : m.m_waitList with
        | nil =>
          rw [Release_free m s x hr hown hk2 hw] at h
          simp only [Except.ok.injEq, Prod.mk.injEq] at h
          rw [← h.2]
        | cons v rest =>
          rw [Release_transfer m s x v rest hr hown hk2 hw] at h
          simp only [Except.ok.injEq, Prod.mk.injEq] at h
          rw [← h.2]
    · simp [Mutex.Release, Current_running s x hr, hown] at h

theorem Wait_seed (sem sem1 : Semaphore) (s s1 : Runtime)
    (h : Semaphore.Wait sem s = .ok (sem1, s1)) :
    s1.m_threadIdSeed = s.m_threadIdSeed := by
  cases hr : s.m_pRunningThread with
  | none => simp [Semaphore.Wait, UThread.Current, hr] at h
  | some x =>
    by_cases hp : 0 < sem.m_permits
    · rw [Wait_permit sem s x hr hp] at h
      simp only [Except.ok.injEq, Prod.mk.injEq] at h
      rw [← h.2]
    · rw [Wait_blocked sem s x hr (not_lt.mp hp)] at h
      cases hpark : UThread.Park s with
      | error err => simp [hpark] at h
      | ok s2 =>
        simp only [hpark, Except.ok.injEq, Prod.mk.injEq] at h
        rw [← h.2]
        exact Park_seed s s2 hpark

theorem Post_seed (sem sem1 : Semaphore) (s s1 : Runtime)
    (h : Semaphore.Post sem s = .ok (sem1, s1)) :
    s1.m_threadIdSeed = s.m_threadIdSeed := by
  cases hr : s.m_pRunningThread with
  | none => simp [Semaphore.Post, UThread.Current, hr] at h
  | some x =>
    cases hw : sem.m_waitList with
    | nil =>
      rw [Post_empty sem s x hr hw] at h
      simp only [Except.ok.injEq, Prod.mk.injEq] at h
      rw [← h.2]
    | cons v rest =>
      rw [Post_waiter sem s x v rest hr hw] at h
      simp only [Except.ok.injEq, Prod.mk.injEq] at h
      rw [← h.2]

/-- An action that constructs a thread object leaves the seed one higher (as
an `int`) and gives the new object that seed as identity; every other action
leaves the seed alone. -/
theorem act_seed (a : Action) (w w1 : World) (h : World.act a w = .ok w1) :
    (∀ p, a.constructs w = some p →
      w1.sched.m_threadIdSeed = toInt32 (w.sched.m_threadIdSeed + 1) ∧
      UThread.GetId p w1.sched = some w1.sched.m_threadIdSeed) ∧
    (a.constructs w = none → w1.sched.m_threadIdSeed = w.sched.m_threadIdSeed) := by
  cases a with
  | call c =>
    simp only [World.act] at h
    cases c with
    | Create p stack function argument =>
      simp only [World.step, Except.ok.injEq] at h
      rw [← h]
      refine ⟨fun q hq => ?_, fun hnone => ?_⟩
      · simp only [Action.constructs, Option.some.injEq] at hq
        subst hq
        simp [UThread.Create, UThread.Unpark, UThread.ctor, UThread.GetId, List.lookup]
      · simp [Action.constructs] at hnone
    | Yield =>
      refine ⟨fun q hq => by simp [Action.constructs] at hq, fun _ => ?_⟩
      simp only [World.step, World.withSched] at h
      cases hy : UThread.Yield w.sched with
      | error e => simp [hy] at h
      | ok s1 =>
        simp only [hy, Except.ok.injEq] at h
        rw [← h]
        exact Yield_seed _ _ hy
    | Exit =>
      refine ⟨fun q hq => by simp [Action.constructs] at hq, fun _ => ?_⟩
      simp only [World.step, World.withSched] at h
      cases hy : UThread.Exit w.sched with
      | error e => simp [hy] at h
      | ok s1 =>
        simp only [hy, Except.ok.injEq] at h
        rw [← h]
        exact Exit_seed _ _ hy
    | Current =>
      refine ⟨fun q hq => by simp [Action.constructs] at hq, fun _ => ?_⟩
      simp only [World.step] at h
      cases hy : UThread.Current w.sched with
      | error e => simp [hy] at h
      | ok x =>
        simp only [hy, Except.ok.injEq] at h
        rw [← h]
    | Park =>
      refine ⟨fun q hq => by simp [Action.constructs] at hq, fun _ => ?_⟩
      simp only [World.step, World.withSched] at h
      cases hy : UThread.Park w.sched with
      | error e => simp [hy] at h
      | ok s1 =>
        simp only [hy, Except.ok.injEq] at h
        rw [← h]
        exact Park_seed _ _ hy
    | Unpark target =>
      refine ⟨fun q hq => by simp [Action.constructs] at hq, fun _ => ?_⟩
      simp only [World.step, Except.ok.injEq] at h
      rw [← h]
      rfl
    | Acquire i =>
      refine ⟨fun q hq => by simp [Action.constructs] at hq, fun _ => ?_⟩
      simp only [World.step, World.withMutex] at h
      cases hy : Mutex.Acquire (w.mutexes i) w.sched with
      | error e => simp [hy] at h
      | ok r =>
        simp only [hy, Except.ok.injEq] at h
        rw [← h]
        exact Acquire_seed _ r.1 _ r.2 hy
    | Release i =>
      refine ⟨fun q hq => by simp [Action.constructs] at hq, fun _ => ?_⟩
      simp only [World.step, World.withMutex] at h
      cases hy : Mutex.Release (w.mutexes i) w.sched with
      | error e => simp [hy] at h
      | ok r =>
        simp only [hy, Except.ok.injEq] at h
        rw [← h]
        exact Release_seed _ r.1 _ r.2 hy
    | Wait j =>
      refine ⟨fun q hq => by simp [Action.constructs] at hq, fun _ => ?_⟩
      simp only [World.step, World.withSemaphore] at h
      cases hy : Semaphore.Wait (w.semaphores j) w.sched with
      | error e => simp [hy] at h
      | ok r =>
        simp only [hy, Except.ok.injEq] at h
        rw [← h]
        exact Wait_seed _ r.1 _ r.2 hy
    | Post j =>
      refine ⟨fun q hq => by simp [Action.constructs] at hq, fun _ => ?_⟩
      simp only [World.step, World.withSemaphore] at h
      cases hy : Semaphore.Post (w.semaphores j) w.sched with
      | error e => simp [hy] at h
      | ok r =>
        simp only [hy, Except.ok.injEq] at h
        rw [← h]
        exact Post_seed _ r.1 _ r.2 hy
  | runEnter pMain =>
    simp only [World.act] at h
    cases hy : UScheduler.Run_enter pMain w.sched with
    | error e => simp [hy] at h
    | ok r =>
      simp only [hy, Except.ok.injEq] at h
      rw [← h]
      simp only [Action.constructs]
      unfold UScheduler.Run_enter at hy
      split at hy
      · cases hy
      · rename_i hrun
        split at hy
        · rename_i hq
          simp only [Except.ok.injEq] at hy
          rw [← hy]
          refine ⟨fun q hq2 => ?_, fun _ => rfl⟩
          simp [hq] at hq2
        · rename_i hq
          simp only at hy
          split at hy
          · cases hy
          · rename_i s3 hcs
            simp only [Except.ok.injEq] at hy
            rw [← hy]
            have hs := context_switch_seed _ _ _ _ hcs
            have hthreads : s3.threads
                = (UThread.ctor_main pMain w.sched).threads := by
              unfold context_switch at hcs
              split at hcs
              · cases hcs
              · split at hcs
                · cases hcs
                · simp only [Except.ok.injEq] at hcs
                  rw [← hcs]
                  simp only [UScheduler.find_next_thread]
                  split <;> rfl
            have hseed : s3.m_threadIdSeed = toInt32 (w.sched.m_threadIdSeed + 1) := by
              rw [hs]
              simp only [UScheduler.find_next_thread]
              split <;> rfl
            refine ⟨fun q hq2 => ?_, fun hnone => ?_⟩
            · simp only [not_not] at hrun
              simp [hrun, hq] at hq2
              subst hq2
              refine ⟨hseed, ?_⟩
              simp [UThread.GetId, hthreads, UThread.ctor_main, List.lookup, hseed]
            · simp only [not_not] at hrun
              simp [hrun, hq] at hnone
  | runResume pMain =>
    refine ⟨fun q hq => by simp [Action.constructs] at hq, fun _ => ?_⟩
    simp only [World.act, World.withSched] at h
    cases hy : UScheduler.Run_resume pMain w.sched with
    | error e => simp [hy] at h
    | ok s1 =>
      simp only [hy, Except.ok.injEq] at h
      rw [← h]
      unfold UScheduler.Run_resume at hy
      split at hy
      · cases hy
      · simp only [Except.ok.injEq] at hy
        rw [← hy]
        rfl

theorem acts_append (a b : List Action) (w : World) :
    World.acts (a ++ b) w =
      match World.acts a w with
      | .error e => .error e
      | .ok w1 => World.acts b w1 := by
  induction a generalizing w with
  | nil => rfl
  | cons x rest ih =>
    simp only [List.cons_append, World.acts]
    cases hact : World.act x w with
    | error e => rfl
    | ok w1 => exact ih w1

theorem identities_append (a b : List Action) (w w1 : World)
    (ha : World.acts a w = .ok w1) :
    World.identities (a ++ b) w = World.identities a w ++ World.identities b w1 := by
  induction a generalizing w with
  | nil =>
    simp only [World.acts, Except.ok.injEq] at ha
    rw [ha]
    rfl
  | cons x rest ih =>
    simp only [World.acts] at ha
    simp only [List.cons_append, World.identities]
    cases hact : World.act x w with
    | error e => simp [hact] at ha
    | ok w2 =>
      simp only [hact] at ha ⊢
      rw [show rest.append b = rest ++ b from rfl, ih w2 ha, List.append_assoc]

theorem round_acts (x : Int) (mp : Ptr) :
    World.acts exampleRound (exampleIdle x mp)
      = .ok (exampleIdle (toInt32 (toInt32 (x + 1) + 1)) (some 100)) ∧
    World.identities exampleRound (exampleIdle x mp)
      = [toInt32 (x + 1), toInt32 (toInt32 (x + 1) + 1)] :=
  ⟨rfl, rfl⟩

theorem toInt32_two_steps (y : Int) :
    toInt32 (toInt32 (toInt32 y + 1) + 1) = toInt32 (y + 2) := by
  unfold toInt32
  omega

theorem rounds_acts (n : Nat) (x : Int) :
    World.acts (exampleRounds (n + 1)) (exampleIdle (toInt32 x) none)
      = .ok (exampleIdle (toInt32 (x + 2 * (n + 1 : Nat))) (some 100)) ∧
    (World.identities (exampleRounds (n + 1)) (exampleIdle (toInt32 x) none)).head?
      = some (toInt32 (x + 1)) ∧
    (World.identities (exampleRounds (n + 1)) (exampleIdle (toInt32 x) none)).getLast?
      = some (toInt32 (x + 2 * (n + 1 : Nat))) := by
  induction n with
  | zero =>
    have h := round_acts (toInt32 x) none
    have hstep : toInt32 (toInt32 (toInt32 x + 1) + 1)
        = toInt32 (x + 2 * ((0 + 1 : Nat) : Int)) := by
      rw [toInt32_two_steps]
      norm_num
    rw [hstep, toInt32_succ] at h
    have hunfold : exampleRounds (0 + 1) = exampleRound := rfl
    rw [hunfold, h.1, h.2]
    exact ⟨rfl, rfl, rfl⟩
  | succ n ih =>
    obtain ⟨hacts, hhead, hlast⟩ := ih
    have h := round_acts (toInt32 (x + 2 * (n + 1 : Nat))) (some 100)
    have hstep : toInt32 (toInt32 (toInt32 (x + 2 * ((n + 1 : Nat) : Int)) + 1) + 1)
        = toInt32 (x + 2 * ((n + 1 + 1 : Nat) : Int)) := by
      rw [toInt32_two_steps]
      congr 1
      push_cast
      ring
    rw [hstep] at h
    have hunfold : exampleRounds (n + 1 + 1) = exampleRounds (n + 1) ++ exampleRound := rfl
    rw [hunfold]
    refine ⟨?_, ?_, ?_⟩
    · rw [acts_append, hacts]
      exact h.1
    · rw [identities_append _ _ _ _ hacts]
      cases hl : World.identities (exampleRounds (n + 1)) (exampleIdle (toInt32 x) none) with
      | nil => rw [hl] at hhead; cases hhead
      | cons y ys =>
        rw [hl] at hhead
        simpa using hhead
    · rw [identities_append _ _ _ _ hacts, h.2]
      simp

/-- C20, shown false as stated: a host program that 1073741824 times over
creates a fiber and runs the scheduler until that fiber has exited constructs
2147483648 thread objects; the first gets identity 1 and the last, the main
thread of the last run, gets identity -2147483648, which is not greater than
the identities assigned before it. -/
theorem identity_wraps_at_overflow :
    (World.identities (exampleRounds 1073741824) (exampleIdle 0 none)).head? = some 1 ∧
    (World.identities (exampleRounds 1073741824) (exampleIdle 0 none)).getLast?
      = some (-2147483648) := by
  have h := rounds_acts 1073741823 0
  have h0 : toInt32 0 = 0 := by decide
  have h1 : toInt32 (0 + 1) = 1 := by decide
  have h2 : toInt32 (0 + 2 * ((1073741823 + 1 : Nat) : Int)) = -2147483648 := by decide
  rw [h0, h1, h2] at h
  exact ⟨h.2.1, h.2.2⟩

theorem identities_bounded (actions : List Action) (w : World)
    (h1 : -2147483648 ≤ w.sched.m_threadIdSeed) (h2 : w.sched.m_threadIdSeed ≤ 2147483647)
    (hin : World.seedWithinInt actions w = true) :
    List.Pairwise (fun a b => a < b) (World.identities actions w) ∧
    (∀ x ∈ World.identities actions w, w.sched.m_threadIdSeed < x) := by
  induction actions generalizing w with
  | nil => exact ⟨List.Pairwise.nil, fun x hx => by simp [World.identities] at hx⟩
  | cons a rest ih =>
    simp only [World.seedWithinInt, Bool.and_eq_true, Bool.not_eq_true', Bool.and_eq_false_imp,
      decide_eq_false_iff_not] at hin
    simp only [World.identities]
    cases hact : World.act a w with
    | error e => exact ⟨List.Pairwise.nil, fun x hx => by simp at hx⟩
    | ok w1 =>
      simp only [hact] at hin ⊢
      have hseed := act_seed a w w1 hact
      cases hc : a.constructs w with
      | none =>
        have heq := hseed.2 hc
        have hrest := ih w1 (by rw [heq]; exact h1) (by rw [heq]; exact h2) hin.2
        simp only [List.nil_append]
        exact ⟨hrest.1, fun x hx => by rw [← heq]; exact hrest.2 x hx⟩
      | some p =>
        obtain ⟨hnew, hid⟩ := hseed.1 p hc
        have hne : w.sched.m_threadIdSeed ≠ 2147483647 := hin.1 (by simp [hc])
        have hexact : toInt32 (w.sched.m_threadIdSeed + 1) = w.sched.m_threadIdSeed + 1 :=
          toInt32_of_range _ (by omega) (by omega)
        rw [hexact] at hnew
        have hrest := ih w1 (by rw [hnew]; omega) (by rw [hnew]; omega) hin.2
        simp only [hid, Option.toList_some, List.singleton_append]
        refine ⟨List.Pairwise.cons (fun x hx => hrest.2 x hx) hrest.1, fun x hx => ?_⟩
        rcases List.mem_cons.mp hx with rfl | hx2
        · rw [hnew]
          omega
        · have := hrest.2 x hx2
          rw [hnew] at this
          omega

/-- C20 as amended: in every run of the process from a state whose seed is an
`int`, as long as no thread object is constructed while `m_threadIdSeed` is
2147483647, every object constructed, by `Create` or as the `mainThread` of a
`Run`, gets an identity strictly greater than the seed at the start and than
every identity assigned before it.  So the identities handed out are pairwise
different, whether or not the fibers that got them have exited. -/
theorem identities_increase (actions : List Action) (w : World)
    (h1 : -2147483648 ≤ w.sched.m_threadIdSeed) (h2 : w.sched.m_threadIdSeed ≤ 2147483647)
    (hin : World.seedWithinInt actions w = true) :
    List.Pairwise (fun a b => a < b) (World.identities actions w) ∧
    (∀ x ∈ World.identities actions w, w.sched.m_threadIdSeed < x) ∧
    (World.identities actions w).Nodup := by
  have h := identities_bounded actions w h1 h2 hin
  exact ⟨h.1, h.2, h.1.imp (fun hab => ne_of_lt hab)⟩

/-- Witness of C20 as amended: two rounds of create-and-run from program
start hand out the identities 1, 2, 3, 4. -/
theorem identities_increase_witness :
    World.identities (exampleRounds 2) (exampleIdle 0 none) = [1, 2, 3, 4] ∧
    List.Pairwise (fun a b => a < b) (World.identities (exampleRounds 2) (exampleIdle 0 none)) :=
  ⟨rfl, (identities_increase (exampleRounds 2) (exampleIdle 0 none)
    (by decide) (by decide) rfl).1⟩

/-! ### Fibers that never block: test 1 -/

theorem Yield_nil (s : Runtime) (hq : s.m_readyQueue = []) : UThread.Yield s = .ok s := by
  simp [UThread.Yield, hq]

theorem Yield_cons (s : Runtime) (r h : Nat) (t : List Ptr)
    (hr : s.m_pRunningThread = some r) (hq : s.m_readyQueue = some h :: t) :
    UThread.Yield s
      = .ok { s with m_pRunningThread := some h, m_readyQueue := t ++ [some r] } := by
  simp [UThread.Yield, hq, hr, push_back, front, pop_front, context_switch]

theorem stepsToExit_pos (c : List Instr) : 0 < stepsToExit c := by
  cases c with
  | nil => simp [stepsToExit]
  | cons i rest =>
    cases i with
    | call c => simp only [stepsToExit]; split <;> omega
    | afterPark j => simp [stepsToExit]
    | emit e => simp [stepsToExit]
    | count => simp [stepsToExit]

theorem exec_step (pMain fuel r : Nat) (M M1 : Machine)
    (hr : M.world.sched.m_pRunningThread = some r) (hne : r ≠ pMain)
    (hstep : Machine.step r M = .ok M1) :
    Machine.exec pMain (fuel + 1) M = Machine.exec pMain fuel M1 := by
  simp [Machine.exec, hr, hne, hstep]

/-- The running fiber exits, on an `Exit` of its own or through the
trampoline, while other fibers are ready. -/
theorem schedules_exit_cons (pMain : Nat) (M : Machine) (r h : Nat × List Instr)
    (t : List (Nat × List Instr)) (rest : List Instr)
    (hS : M.schedules pMain r (h :: t)) :
    ∃ M1, M.setWorld r.1 rest (World.step Call.Exit M.world) = .ok M1 ∧
      M1.schedules pMain h t ∧ M1.count = M.count ∧ M1.out = M.out := by
  obtain ⟨hmain, hrun, hq, hnd, hpm, hcode, hcnt⟩ := hS
  have hex := Exit_cons M.world.sched r.1 h.1 (t.map (fun f => some f.1)) hrun
    (by rw [hq]; rfl)
  refine ⟨{ M with
            world :=
              { M.world with
                sched := UThread.dtor r.1
                  { M.world.sched with
                    m_pRunningThread := some h.1,
                    m_readyQueue := t.map (fun f => some f.1) } },
            code := Function.update M.code r.1 rest },
    by simp only [World.step, World.withSched, hex, Machine.setWorld],
    ⟨hmain, rfl, rfl, ?_, ?_, ?_, hcnt⟩, rfl, rfl⟩
  · exact (List.nodup_cons.mp hnd).2
  · exact fun hmem => hpm (List.mem_cons_of_mem _ hmem)
  · intro f hf
    have hfr : f.1 ≠ r.1 := by
      intro e
      have hmem : f.1 ∈ (h :: t).map Prod.fst := List.mem_map_of_mem _ hf
      rw [e] at hmem
      exact (List.nodup_cons.mp hnd).1 hmem
    show Function.update M.code r.1 rest f.1 = f.2 ∧ _
    rw [Function.update_noteq hfr]
    exact hcode f (List.mem_cons_of_mem _ hf)

/-- The last fiber exits: the main thread runs again. -/
theorem schedules_exit_nil (pMain : Nat) (M : Machine) (r : Nat × List Instr)
    (rest : List Instr) (hS : M.schedules pMain r []) :
    ∃ M1, M.setWorld r.1 rest (World.step Call.Exit M.world) = .ok M1 ∧
      M1.world.sched.m_pRunningThread = some pMain ∧ M1.world.sched.m_readyQueue = [] ∧
      M1.count = M.count ∧ M1.out = M.out := by
  obtain ⟨hmain, hrun, hq, hnd, hpm, hcode, hcnt⟩ := hS
  have hex := Exit_nil M.world.sched r.1 pMain hrun (by rw [hq]; rfl) hmain
  refine ⟨{ M with
            world :=
              { M.world with
                sched := UThread.dtor r.1 { M.world.sched with m_pRunningThread := some pMain } },
            code := Function.update M.code r.1 rest },
    by simp only [World.step, World.withSched, hex, Machine.setWorld],
    rfl, ?_, rfl, rfl⟩
  show (UThread.dtor r.1 _).m_readyQueue = []
  simp [UThread.dtor, hq]

theorem plain_exec (pMain : Nat) (n : Nat) :
    ∀ (r : Nat × List Instr) (q : List (Nat × List Instr)) (M : Machine),
      M.schedules pMain r q →
      ((r :: q).map (fun f => stepsToExit f.2)).sum = n →
      ∃ M1, Machine.exec pMain n M = .ok M1 ∧
        M1.world.sched.m_pRunningThread = some pMain ∧
        M1.world.sched.m_readyQueue = [] ∧
        M1.count
          = (M.count + ((r :: q).map (fun f => countsBeforeExit f.2)).sum) % 4294967296 ∧
        ∀ P, M1.out.countP P
          = M.out.countP P + ((r :: q).map (fun f => emitsBeforeExit P f.2)).sum := by
  induction n with
  | zero =>
    intro r q M _ hsum
    have := stepsToExit_pos r.2
    simp only [List.map_cons, List.sum_cons] at hsum
    omega
  | succ n ih =>
    intro r q M hS hsum
    have hS0 := hS
    obtain ⟨hmain, hrun, hq, hnd, hpm, hcode, hcnt⟩ := hS
    have hne : r.1 ≠ pMain := fun e => hpm (by rw [← e]; exact List.mem_cons_self _ _)
    obtain ⟨hcr, hplain⟩ := hcode r (List.mem_cons_self _ _)
    obtain ⟨ra, rc⟩ := r
    simp only at hrun hne hcr hplain
    simp only [List.map_cons, List.sum_cons] at hsum ⊢
    -- the exit of the running fiber, shared by the trampoline and an explicit Exit
    have hexit : ∀ rest : List Instr, stepsToExit rc = 1 → countsBeforeExit rc = 0 →
        (∀ P, emitsBeforeExit P rc = 0) →
        Machine.step ra M = M.setWorld ra rest (World.step Call.Exit M.world) →
        ∃ M1, Machine.exec pMain (n + 1) M = .ok M1 ∧
          M1.world.sched.m_pRunningThread = some pMain ∧
          M1.world.sched.m_readyQueue = [] ∧
          M1.count = (M.count + (countsBeforeExit rc
            + (q.map (fun f => countsBeforeExit f.2)).sum)) % 4294967296 ∧
          ∀ P, M1.out.countP P = M.out.countP P + (emitsBeforeExit P rc
            + (q.map (fun f => emitsBeforeExit P f.2)).sum) := by
      intro rest h1 h2 h3 hstep
      cases q with
      | nil =>
        obtain ⟨M1, hM1, hr1, hq1, hc1, ho1⟩ := schedules_exit_nil pMain M (ra, rc) rest hS0
        simp only [List.map_nil, List.sum_nil] at hsum ⊢
        have hn : n = 0 := by omega
        subst hn
        refine ⟨M1, ?_, hr1, hq1, ?_, fun P => ?_⟩
        · rw [exec_step pMain 0 ra M M1 hrun hne (hstep.trans hM1)]
          rfl
        · rw [hc1, h2]
          simp only [Nat.add_zero]
          exact (Nat.mod_eq_of_lt hcnt).symm
        · rw [ho1, h3 P]
          simp
      | cons h t =>
        obtain ⟨M1, hM1, hS1, hc1, ho1⟩ := schedules_exit_cons pMain M (ra, rc) h t rest hS0
        have hsum1 : ((h :: t).map (fun f => stepsToExit f.2)).sum = n := by omega
        obtain ⟨M2, hrunM2, hr2, hq2, hc2, ho2⟩ := ih h t M1 hS1 hsum1
        refine ⟨M2, ?_, hr2, hq2, ?_, fun P => ?_⟩
        · rw [exec_step pMain n ra M M1 hrun hne (hstep.trans hM1)]
          exact hrunM2
        · rw [hc2, hc1, h2, Nat.zero_add]
        · rw [ho2 P, ho1, h3 P, Nat.zero_add]
    cases rc with
    | nil =>
      exact hexit [] rfl rfl (fun P => rfl) (by simp [Machine.step, hcr])
    | cons i rest =>
      have hi : i.plain = true := hplain i (List.mem_cons_self _ _)
      have hrestplain : ∀ j ∈ rest, j.plain = true :=
        fun j hj => hplain j (List.mem_cons_of_mem _ hj)
      -- a step that leaves the running fiber running, with `rest` to go
      have hstay : ∀ M1 : Machine, Machine.step ra M = .ok M1 →
          M1.world = M.world → M1.code = Function.update M.code ra rest →
          M1.count < 4294967296 →
          stepsToExit (i :: rest) = stepsToExit rest + 1 →
          ∀ dc : Nat, M1.count = (M.count + dc) % 4294967296 →
          countsBeforeExit (i :: rest) = countsBeforeExit rest + dc →
          (∀ P, M1.out.countP P + emitsBeforeExit P rest
            = M.out.countP P + emitsBeforeExit P (i :: rest)) →
          ∃ M2, Machine.exec pMain (n + 1) M = .ok M2 ∧
            M2.world.sched.m_pRunningThread = some pMain ∧
            M2.world.sched.m_readyQueue = [] ∧
            M2.count = (M.count + (countsBeforeExit (i :: rest)
              + (q.map (fun f => countsBeforeExit f.2)).sum)) % 4294967296 ∧
            ∀ P, M2.out.countP P = M.out.countP P + (emitsBeforeExit P (i :: rest)
              + (q.map (fun f => emitsBeforeExit P f.2)).sum) := by
        intro M1 hstep hw hc hlt hsteps dc hcount hcounts hemits
        have hS1 : M1.schedules pMain (ra, rest) q := by
          refine ⟨by rw [hw]; exact hmain, by rw [hw]; exact hrun, by rw [hw]; exact hq,
            hnd, hpm, ?_, hlt⟩
          intro f hf
          rcases List.mem_cons.mp hf with rfl | hfq
          · exact ⟨by rw [hc]; exact Function.update_same _ _ _, hrestplain⟩
          · have hfr : f.1 ≠ ra := by
              intro e
              have hmem : f.1 ∈ q.map Prod.fst := List.mem_map_of_mem _ hfq
              rw [e] at hmem
              exact (List.nodup_cons.mp hnd).1 hmem
            rw [hc, Function.update_noteq hfr]
            exact hcode f (List.mem_cons_of_mem _ hfq)
        have hsum1 : (((ra, rest) :: q).map (fun f => stepsToExit f.2)).sum = n := by
          simp only [List.map_cons, List.sum_cons]
          omega
        obtain ⟨M2, hrunM2, hr2, hq2, hc2, ho2⟩ := ih (ra, rest) q M1 hS1 hsum1
        simp only [List.map_cons, List.sum_cons] at hc2 ho2
        refine ⟨M2, ?_, hr2, hq2, ?_, fun P => ?_⟩
        · rw [exec_step pMain n ra M M1 hrun hne hstep]
          exact hrunM2
        · rw [hc2, hcount, hcounts]
          omega
        · have := hemits P
          rw [ho2 P]
          omega
      cases i with
      | afterPark j => simp [Instr.plain] at hi
      | emit e =>
        refine hstay { M with code := Function.update M.code ra rest, out := M.out ++ [e] }
          (by simp [Machine.step, hcr]) rfl rfl hcnt rfl 0
          (by simp only [Nat.add_zero]; exact (Nat.mod_eq_of_lt hcnt).symm) rfl (fun P => ?_)
        simp only [List.countP_append, List.countP_cons, List.countP_nil, emitsBeforeExit]
        omega
      | count =>
        refine hstay { M with code := Function.update M.code ra rest,
                              count := (M.count + 1) % 4294967296 }
          (by simp [Machine.step, hcr]) rfl rfl (Nat.mod_lt _ (by norm_num)) rfl 1 rfl rfl
          (fun P => rfl)
      | call c =>
        simp only [Instr.plain, Bool.or_eq_true, decide_eq_true_eq] at hi
        rcases hi with rfl | rfl
        · -- Yield
          have hstepY : Machine.step ra M
              = M.setWorld ra rest (World.step Call.Yield M.world) := by
            simp [Machine.step, hcr, Call.resumes]
          cases q with
          | nil =>
            have hy := Yield_nil M.world.sched (by rw [hq]; rfl)
            refine hstay { M with world := { M.world with sched := M.world.sched },
                                  code := Function.update M.code ra rest }
              (by rw [hstepY]; simp only [World.step, World.withSched, hy, Machine.setWorld])
              rfl rfl hcnt (by simp [stepsToExit]) 0
              (by simp only [Nat.add_zero]; exact (Nat.mod_eq_of_lt hcnt).symm)
              (by simp [countsBeforeExit]) (fun P => by simp [emitsBeforeExit])
          | cons h t =>
            have hy := Yield_cons M.world.sched ra h.1 (t.map (fun f => some f.1)) hrun
              (by rw [hq]; rfl)
            have hstep2 : Machine.step ra M = .ok
                { M with
                  world :=
                    { M.world with
                      sched :=
                        { M.world.sched with
                          m_pRunningThread := some h.1,
                          m_readyQueue := t.map (fun f => some f.1) ++ [some ra] } },
                  code := Function.update M.code ra rest } := by
              rw [hstepY]
              simp only [World.step, World.withSched, hy, Machine.setWorld]
            have hndq := List.nodup_cons.mp hnd
            have hS1 : Machine.schedules pMain
                { M with
                  world :=
                    { M.world with
                      sched :=
                        { M.world.sched with
                          m_pRunningThread := some h.1,
                          m_readyQueue := t.map (fun f => some f.1) ++ [some ra] } },
                  code := Function.update M.code ra rest } h (t ++ [(ra, rest)]) := by
              refine ⟨hmain, rfl, by simp, ?_, ?_, ?_, hcnt⟩
              · have hperm : List.Perm ((h :: (t ++ [(ra, rest)])).map Prod.fst)
                    (((ra, Instr.call Call.Yield :: rest) :: h :: t).map Prod.fst) := by
                  simp only [List.map_cons, List.map_append, List.map_nil]
                  have h1 : List.Perm (h.1 :: (t.map Prod.fst ++ [ra]))
                      (h.1 :: ra :: t.map Prod.fst) :=
                    List.Perm.cons _ List.perm_append_comm
                  exact h1.trans (List.Perm.swap _ _ _)
                exact hperm.nodup_iff.mpr hnd
              · intro hmem
                apply hpm
                simp only [List.map_cons, List.map_append, List.map_nil, List.mem_cons,
                  List.mem_append, List.mem_singleton, List.not_mem_nil, or_false] at hmem ⊢
                tauto
              · intro f hf
                have hf2 : f = (ra, rest) ∨ f ∈ h :: t := by
                  simp only [List.mem_cons, List.mem_append, List.mem_singleton,
                    List.not_mem_nil, or_false] at hf ⊢
                  tauto
                rcases hf2 with rfl | hfq
                · exact ⟨Function.update_same _ _ _, hrestplain⟩
                · have hfr : f.1 ≠ ra := by
                    intro e
                    have hmem : f.1 ∈ (h :: t).map Prod.fst := List.mem_map_of_mem _ hfq
                    rw [e] at hmem
                    exact hndq.1 hmem
                  show Function.update M.code ra rest f.1 = f.2 ∧ _
                  rw [Function.update_noteq hfr]
                  exact hcode f (List.mem_cons_of_mem _ hfq)
            have hsum1 : ((h :: (t ++ [(ra, rest)])).map (fun f => stepsToExit f.2)).sum
                = n := by
              simp only [List.map_cons, List.map_append, List.map_nil, List.sum_cons,
                List.sum_append, List.sum_nil, stepsToExit] at hsum ⊢
              simp at hsum
              omega
            obtain ⟨M2, hrunM2, hr2, hq2, hc2, ho2⟩ := ih h (t ++ [(ra, rest)]) _ hS1 hsum1
            refine ⟨M2, ?_, hr2, hq2, ?_, fun P => ?_⟩
            · rw [exec_step pMain n ra M _ hrun hne hstep2]
              exact hrunM2
            · rw [hc2]
              simp only [List.map_cons, List.map_append, List.map_nil, List.sum_cons,
                List.sum_append, List.sum_nil, countsBeforeExit]
              simp
              congr 1
              omega
            · rw [ho2 P]
              simp only [List.map_cons, List.map_append, List.map_nil, List.sum_cons,
                List.sum_append, List.sum_nil, emitsBeforeExit]
              simp
              omega
        · -- Exit
          exact hexit rest (by simp [stepsToExit]) (by simp [countsBeforeExit])
            (fun P => by simp [emitsBeforeExit]) (by simp [Machine.step, hcr, Call.resumes])

theorem exec_mono (pMain : Nat) (n k : Nat) : ∀ (M M1 : Machine),
    Machine.exec pMain n M = .ok M1 → M1.world.sched.m_pRunningThread = some pMain →
    Machine.exec pMain (n + k) M = .ok M1 := by
  induction n with
  | zero =>
    intro M M1 h hr
    simp only [Machine.exec, Except.ok.injEq] at h
    subst h
    cases k with
    | zero => rfl
    | succ k => simp [Machine.exec, hr]
  | succ n ih =>
    intro M M1 h hr
    rw [Nat.add_right_comm]
    simp only [Machine.exec] at h ⊢
    cases hrun : M.world.sched.m_pRunningThread with
    | none => simpa [hrun] using h
    | some r =>
      simp only [hrun] at h ⊢
      by_cases hrp : r = pMain
      · simpa [hrp] using h
      · simp only [hrp, if_false] at h ⊢
        cases hstep : Machine.step r M with
        | error e => simp [hstep] at h
        | ok M2 =>
          simp only [hstep] at h ⊢
          exact ih M2 M1 h hr

theorem create_fields (f : FiberSpec) (M : Machine) :
    (M.create f).world.sched.m_readyQueue = M.world.sched.m_readyQueue ++ [some f.p] ∧
    (M.create f).world.sched.m_pRunningThread = M.world.sched.m_pRunningThread ∧
    (M.create f).world.mutexes = M.world.mutexes ∧
    (M.create f).count = M.count ∧ (M.create f).out = M.out ∧
    (M.create f).code = Function.update M.code f.p f.code :=
  ⟨rfl, rfl, rfl, rfl, rfl, rfl⟩

theorem createAll_spec (fs : List FiberSpec) : ∀ M : Machine,
    (fs.map (fun f => f.p)).Nodup →
    (Machine.createAll fs M).world.sched.m_readyQueue
        = M.world.sched.m_readyQueue ++ fs.map (fun f => some f.p) ∧
    (Machine.createAll fs M).world.sched.m_pRunningThread = M.world.sched.m_pRunningThread ∧
    (Machine.createAll fs M).world.mutexes = M.world.mutexes ∧
    (Machine.createAll fs M).count = M.count ∧ (Machine.createAll fs M).out = M.out ∧
    (∀ f ∈ fs, (Machine.createAll fs M).code f.p = f.code) ∧
    (∀ a, a ∉ fs.map (fun f => f.p) → (Machine.createAll fs M).code a = M.code a) := by
  induction fs with
  | nil =>
    intro M _
    simp [Machine.createAll]
  | cons f fs ih =>
    intro M hnd
    simp only [List.map_cons, List.nodup_cons] at hnd
    obtain ⟨hq, hr, hm, hc, ho, hcode, hother⟩ := ih (M.create f) hnd.2
    obtain ⟨cq, cr, cm, cc, co, ccode⟩ := create_fields f M
    have hfold : Machine.createAll (f :: fs) M = Machine.createAll fs (M.create f) := rfl
    rw [hfold]
    refine ⟨?_, hr.trans cr, hm.trans cm, hc.trans cc, ho.trans co, ?_, ?_⟩
    · rw [hq, cq]
      simp
    · intro g hg
      rcases List.mem_cons.mp hg with rfl | hgs
      · rw [hother _ hnd.1, ccode]
        exact Function.update_same _ _ _
      · exact hcode g hgs
    · intro a ha
      simp only [List.map_cons, List.mem_cons, not_or] at ha
      rw [hother a ha.2, ccode]
      exact Function.update_noteq ha.1 _ _

theorem Run_enter_cons (pMain h : Nat) (t : List Ptr) (s : Runtime)
    (hr : s.m_pRunningThread = none) (hq : s.m_readyQueue = some h :: t) :
    UScheduler.Run_enter pMain s
      = .ok (RunPhase.switched,
          { UThread.ctor_main pMain s with
            m_pMainThread := some pMain,
            m_pRunningThread := some h,
            m_readyQueue := t }) := by
  simp [UScheduler.Run_enter, hr, hq, UScheduler.find_next_thread, UThread.ctor_main, front,
    pop_front, context_switch]

theorem Run_switched (pMain fuel : Nat) (M M1 : Machine) (s : Runtime)
    (h1 : UScheduler.Run_enter pMain M.world.sched = .ok (RunPhase.switched, s))
    (h2 : Machine.exec pMain fuel { M with world := { M.world with sched := s } } = .ok M1)
    (h3 : M1.world.sched.m_pRunningThread = some pMain)
    (h4 : M1.world.sched.m_readyQueue = []) :
    Machine.Run pMain fuel M
      = .ok (some { M1 with
          world :=
            { M1.world with
              sched := UThread.dtor pMain { M1.world.sched with m_pRunningThread := none } } }) := by
  simp [Machine.Run, h1, h2, h3, h4, UScheduler.Run_resume]

theorem Run_plain (pMain : Nat) (fs : List FiberSpec) (M : Machine) (fuel : Nat)
    (hrun : M.world.sched.m_pRunningThread = none)
    (hq : M.world.sched.m_readyQueue = [])
    (hcnt : M.count < 4294967296)
    (hnd : (fs.map (fun f => f.p)).Nodup)
    (hpm : pMain ∉ fs.map (fun f => f.p))
    (hplain : ∀ f ∈ fs, ∀ i ∈ f.code, i.plain = true)
    (hfuel : (fs.map (fun f => stepsToExit f.code)).sum ≤ fuel) :
    ∃ M3, Machine.Run pMain fuel (Machine.createAll fs M) = .ok (some M3) ∧
      M3.world.sched.m_pRunningThread = none ∧ M3.world.sched.m_readyQueue = [] ∧
      M3.count
        = (M.count + (fs.map (fun f => countsBeforeExit f.code)).sum) % 4294967296 ∧
      ∀ P, M3.out.countP P
        = M.out.countP P + (fs.map (fun f => emitsBeforeExit P f.code)).sum := by
  obtain ⟨cq, cr, _, cc, co, ccode, _⟩ := createAll_spec fs M hnd
  rw [hq, List.nil_append] at cq
  rw [hrun] at cr
  cases fs with
  | nil =>
    refine ⟨M, ?_, hrun, hq, ?_, fun P => ?_⟩
    · simp [Machine.Run, Machine.createAll, UScheduler.Run_enter, hrun, hq]
    · simp only [List.map_nil, List.sum_nil, Nat.add_zero]
      exact (Nat.mod_eq_of_lt hcnt).symm
    · simp
  | cons f fs =>
    have henter := Run_enter_cons pMain f.p (fs.map (fun g => some g.p))
      (Machine.createAll (f :: fs) M).world.sched cr (by rw [cq]; rfl)
    have hS : Machine.schedules pMain
        { Machine.createAll (f :: fs) M with
          world :=
            { (Machine.createAll (f :: fs) M).world with
              sched :=
                { UThread.ctor_main pMain (Machine.createAll (f :: fs) M).world.sched with
                  m_pMainThread := some pMain,
                  m_pRunningThread := some f.p,
                  m_readyQueue := fs.map (fun g => some g.p) } } }
        (f.p, f.code) (fs.map (fun g => (g.p, g.code))) := by
      refine ⟨rfl, rfl, by simp [List.map_map, Function.comp_def], ?_, ?_, ?_, ?_⟩
      · simpa [List.map_map, Function.comp] using hnd
      · simpa [List.map_map, Function.comp] using hpm
      · intro g hg
        have hg2 : ∃ g0 ∈ f :: fs, g = (g0.p, g0.code) := by
          rcases List.mem_cons.mp hg with rfl | hgs
          · exact ⟨f, List.mem_cons_self _ _, rfl⟩
          · obtain ⟨g0, hg0, rfl⟩ := List.mem_map.mp hgs
            exact ⟨g0, List.mem_cons_of_mem _ hg0, rfl⟩
        obtain ⟨g0, hg0, rfl⟩ := hg2
        exact ⟨ccode g0 hg0, hplain g0 hg0⟩
      · show (Machine.createAll (f :: fs) M).count < 4294967296
        rw [cc]
        exact hcnt
    obtain ⟨M1, hexec, hr1, hq1, hc1, ho1⟩ := plain_exec pMain _ _ _ _ hS rfl
    have hsumeq : (((f.p, f.code) :: fs.map (fun g => (g.p, g.code))).map
        (fun f => stepsToExit f.2)).sum
        = ((f :: fs).map (fun f => stepsToExit f.code)).sum := by
      simp [List.map_map, Function.comp_def]
    have hexec2 := exec_mono pMain _ (fuel - ((f :: fs).map (fun f => stepsToExit f.code)).sum)
      _ _ hexec hr1
    rw [hsumeq, Nat.add_sub_cancel' hfuel] at hexec2
    refine ⟨_, Run_switched pMain fuel _ M1 _ henter hexec2 hr1 hq1, rfl, ?_, ?_, fun P => ?_⟩
    · show (UThread.dtor pMain _).m_readyQueue = []
      simp [UThread.dtor, hq1]
    · show M1.count = _
      rw [hc1]
      show ((Machine.createAll (f :: fs) M).count + _) % 4294967296 = _
      rw [cc]
      simp [List.map_map, Function.comp_def]
    · show M1.out.countP P = _
      rw [ho1 P]
      show (Machine.createAll (f :: fs) M).out.countP P + _ = _
      rw [co]
      simp [List.map_map, Function.comp_def]

theorem sum_map_const {α : Type} (l : List α) (g : α → Nat) (k : Nat)
    (h : ∀ x ∈ l, g x = k) : (l.map g).sum = l.length * k := by
  induction l with
  | nil => simp
  | cons x xs ih =>
    simp only [List.map_cons, List.sum_cons, List.length_cons]
    rw [h x (List.mem_cons_self _ _), ih (fun y hy => h y (List.mem_cons_of_mem _ hy))]
    ring

theorem sum_map_le {α : Type} (l : List α) (g : α → Nat) (k : Nat)
    (h : ∀ x ∈ l, g x ≤ k) : (l.map g).sum ≤ l.length * k := by
  induction l with
  | nil => simp
  | cons x xs ih =>
    simp only [List.map_cons, List.sum_cons, List.length_cons]
    have h1 := h x (List.mem_cons_self _ _)
    have h2 := ih (fun y hy => h y (List.mem_cons_of_mem _ hy))
    have h3 : (xs.length + 1) * k = xs.length * k + k := by ring
    omega

/-- One iteration of the loop of `test1_thread`, followed by `body`. -/
theorem test1_iteration (c : Nat) (b : Bool) (body : List Instr) :
    stepsToExit (Instr.emit (Event.char c) ::
        ((if b then [Instr.call Call.Yield] else []) ++ body)) ≤ 2 + stepsToExit body ∧
    countsBeforeExit (Instr.emit (Event.char c) ::
        ((if b then [Instr.call Call.Yield] else []) ++ body)) = countsBeforeExit body ∧
    (∀ P, emitsBeforeExit P (Instr.emit (Event.char c) ::
        ((if b then [Instr.call Call.Yield] else []) ++ body))
      = (if P (Event.char c) then 1 else 0) + emitsBeforeExit P body) := by
  cases b
  · refine ⟨?_, ?_, fun P => ?_⟩ <;> simp [stepsToExit, countsBeforeExit, emitsBeforeExit]
    omega
  · refine ⟨?_, ?_, fun P => ?_⟩ <;> simp [stepsToExit, countsBeforeExit, emitsBeforeExit]
    omega

/-- The loop of `test1_thread` over the iterations `l`, followed by `tail`. -/
theorem test1_loop (c : Nat) (yields : Nat → Bool) (tail : List Instr) (l : List Nat) :
    stepsToExit (l.flatMap (fun i => Instr.emit (Event.char c) ::
        (if yields i then [Instr.call Call.Yield] else [])) ++ tail)
      ≤ 2 * l.length + stepsToExit tail ∧
    countsBeforeExit (l.flatMap (fun i => Instr.emit (Event.char c) ::
        (if yields i then [Instr.call Call.Yield] else [])) ++ tail)
      = countsBeforeExit tail ∧
    (∀ P, emitsBeforeExit P (l.flatMap (fun i => Instr.emit (Event.char c) ::
        (if yields i then [Instr.call Call.Yield] else [])) ++ tail)
      = l.length * (if P (Event.char c) then 1 else 0) + emitsBeforeExit P tail) := by
  induction l with
  | nil => simp
  | cons i l ih =>
    obtain ⟨h1, h2, h3⟩ := ih
    obtain ⟨k1, k2, k3⟩ := test1_iteration c (yields i)
      (l.flatMap (fun i => Instr.emit (Event.char c) ::
        (if yields i then [Instr.call Call.Yield] else [])) ++ tail)
    rw [List.flatMap_cons, List.append_assoc, List.cons_append]
    refine ⟨?_, k2.trans h2, fun P => ?_⟩
    · simp only [List.length_cons]
      omega
    · rw [k3 P, h3 P, List.length_cons]
      ring

theorem test1_thread_plain (c : Nat) (yields : Nat → Bool) :
    ∀ i ∈ test1_thread c yields, i.plain = true := by
  intro i hi
  simp only [test1_thread, List.mem_append, List.mem_flatMap, List.mem_cons, List.mem_range,
    List.mem_singleton, List.not_mem_nil, or_false] at hi
  rcases hi with ⟨k, _, rfl | hk⟩ | rfl | rfl
  · rfl
  · by_cases hy : yields k = true
    · simp only [hy, if_true, List.mem_singleton] at hk
      subst hk
      rfl
    · simp [hy] at hk
  · rfl
  · rfl

theorem test1_thread_totals (c : Nat) (yields : Nat → Bool) :
    stepsToExit (test1_thread c yields) ≤ 34 ∧
    countsBeforeExit (test1_thread c yields) = 1 ∧
    (∀ P, emitsBeforeExit P (test1_thread c yields)
      = 16 * (if P (Event.char c) then 1 else 0)) := by
  obtain ⟨h1, h2, h3⟩ := test1_loop c yields [Instr.count, Instr.call Call.Exit]
    (List.range 16)
  refine ⟨?_, ?_, fun P => ?_⟩
  · have : stepsToExit [Instr.count, Instr.call Call.Exit] = 2 := by simp [stepsToExit]
    simp only [List.length_range, this] at h1
    exact h1
  · rw [test1_thread, h2]
    simp [countsBeforeExit]
  · rw [test1_thread, h3 P]
    simp [emitsBeforeExit]

/-- C19. For every pattern of yield decisions, `test1` started with no
running thread and an empty ready queue, the ten fibers and the main thread at
distinct addresses, returns (within 340 steps of the fibers) with its assertion
passed: the counter is 10, the output has gained exactly 16 occurrences of each
of the ten characters and 160 events in all, the ready queue is empty and no
thread is running. -/
theorem test1_terminates (pMain : Nat) (obj stack : Nat → Nat) (yields : Nat → Nat → Bool)
    (M : Machine) (fuel : Nat)
    (hrun : M.world.sched.m_pRunningThread = none)
    (hq : M.world.sched.m_readyQueue = [])
    (hobj : ∀ i < 10, ∀ j < 10, obj i = obj j → i = j)
    (hmain : ∀ i < 10, obj i ≠ pMain)
    (hfuel : 340 ≤ fuel) :
    ∃ M3, test1 pMain fuel obj stack yields M = .ok (some M3) ∧
      M3.count = 10 ∧
      (∀ i < 10, M3.out.count (Event.char (48 + i)) = M.out.count (Event.char (48 + i)) + 16) ∧
      M3.out.length = M.out.length + 160 ∧
      M3.world.sched.m_readyQueue = [] ∧ M3.world.sched.m_pRunningThread = none := by
  have hnd : ((test1_fibers obj stack yields).map (fun f => f.p)).Nodup := by
    simp only [test1_fibers, List.map_map, Function.comp_def]
    exact List.Nodup.map_on
      (fun x hx y hy h => hobj x (List.mem_range.mp hx) y (List.mem_range.mp hy) h)
      (List.nodup_range 10)
  have hpm : pMain ∉ (test1_fibers obj stack yields).map (fun f => f.p) := by
    simp only [test1_fibers, List.map_map, Function.comp_def, List.mem_map, List.mem_range,
      not_exists, not_and]
    exact fun i hi => hmain i hi
  have hplain : ∀ f ∈ test1_fibers obj stack yields, ∀ i ∈ f.code, i.plain = true := by
    intro f hf
    simp only [test1_fibers, List.mem_map] at hf
    obtain ⟨k, _, rfl⟩ := hf
    exact test1_thread_plain _ _
  have hsteps : ((test1_fibers obj stack yields).map (fun f => stepsToExit f.code)).sum
      ≤ fuel := by
    have h := sum_map_le (test1_fibers obj stack yields) (fun f => stepsToExit f.code) 34
      (by
        intro f hf
        simp only [test1_fibers, List.mem_map] at hf
        obtain ⟨k, _, rfl⟩ := hf
        exact (test1_thread_totals _ _).1)
    simp only [test1_fibers, List.length_map, List.length_range] at h ⊢
    omega
  have hcounts : ((test1_fibers obj stack yields).map (fun f => countsBeforeExit f.code)).sum
      = 10 := by
    have h := sum_map_const (test1_fibers obj stack yields) (fun f => countsBeforeExit f.code) 1
      (by
        intro f hf
        simp only [test1_fibers, List.mem_map] at hf
        obtain ⟨k, _, rfl⟩ := hf
        exact (test1_thread_totals _ _).2.1)
    simp only [test1_fibers, List.length_map, List.length_range] at h ⊢
    omega
  have hemits : ∀ P, ((test1_fibers obj stack yields).map
      (fun f => emitsBeforeExit P f.code)).sum
      = ((List.range 10).map (fun j => 16 * (if P (Event.char (48 + j)) then 1 else 0))).sum := by
    intro P
    simp only [test1_fibers, List.map_map, Function.comp_def]
    congr 1
    exact List.map_congr_left (fun j _ => (test1_thread_totals _ _).2.2 P)
  obtain ⟨M3, hRun, hr3, hq3, hc3, ho3⟩ := Run_plain pMain (test1_fibers obj stack yields)
    { M with count := 0 } fuel hrun hq (by show 0 < 4294967296; norm_num) hnd hpm hplain hsteps
  rw [hcounts] at hc3
  have hc10 : M3.count = 10 := hc3
  refine ⟨M3, ?_, hc10, fun i hi => ?_, ?_, hq3, hr3⟩
  · simp [test1, hRun, hc10]
  · have h := ho3 (fun e => e == Event.char (48 + i))
    rw [hemits] at h
    simp only [List.count]
    rw [h]
    show List.countP (fun e => e == Event.char (48 + i)) M.out + _ = _
    congr 1
    interval_cases i <;> rfl
  · have h := ho3 (fun _ => true)
    rw [hemits] at h
    have hl : ∀ l : List Event, l.countP (fun _ => true) = l.length := by
      intro l
      induction l with
      | nil => rfl
      | cons x xs ih => simp
    rw [hl, hl] at h
    rw [h]
    rfl

/-- Witness of C19: the machine at program start, the fibers at addresses
1..10, the main thread at 100, fiber `i` yielding in iteration `j` when
`i + j` is a multiple of 4. -/
theorem test1_terminates_witness :
    ∃ M3, test1 100 340 (fun i => i + 1) (fun i => i + 200) exampleYields exampleMachine
        = .ok (some M3) ∧
      M3.count = 10 ∧
      (∀ i < 10, M3.out.count (Event.char (48 + i))
        = exampleMachine.out.count (Event.char (48 + i)) + 16) ∧
      M3.out.length = exampleMachine.out.length + 160 ∧
      M3.world.sched.m_readyQueue = [] ∧ M3.world.sched.m_pRunningThread = none :=
  test1_terminates 100 (fun i => i + 1) (fun i => i + 200) exampleYields exampleMachine 340
    rfl rfl (by intro i _ j _ h; have h2 : i + 1 = j + 1 := h; omega)
    (by intro i hi h; have h2 : i + 1 = 100 := h; omega) (by norm_num)

/-! ### Fibers that contend for a mutex: test 2 -/

theorem exec_main (pMain fuel : Nat) (M : Machine)
    (hr : M.world.sched.m_pRunningThread = some pMain) :
    Machine.exec pMain fuel M = .ok M := by
  cases fuel with
  | zero => rfl
  | succ k => simp [Machine.exec, hr]

theorem holds_plain (pMain mtx r : Nat) (q : List Nat) (m : Mutex) (cnt : Nat)
    (out : List Event) (M M1 : Machine) (rest : List Instr) (cnt1 : Nat) (out1 : List Event)
    (hH : M.holds pMain mtx r q m cnt out) (hne : r ≠ pMain)
    (hstep : Machine.step r M = .ok M1) (hw : M1.world = M.world)
    (hcode : M1.code = Function.update M.code r rest)
    (hcnt : M1.count = cnt1) (hout : M1.out = out1) :
    ∃ M2, (∀ fuel, Machine.exec pMain (fuel + 1) M = Machine.exec pMain fuel M2) ∧
      M2.holds pMain mtx r q m cnt1 out1 ∧ M2.code = Function.update M.code r rest := by
  obtain ⟨h1, h2, h3, h4, _, _⟩ := hH
  refine ⟨M1, fun fuel => exec_step pMain fuel r M M1 h2 hne hstep, ?_, hcode⟩
  exact ⟨by rw [hw]; exact h1, by rw [hw]; exact h2, by rw [hw]; exact h3,
    by rw [hw]; exact h4, hcnt, hout⟩

theorem holds_emit (pMain mtx r : Nat) (q : List Nat) (m : Mutex) (cnt : Nat)
    (out : List Event) (M : Machine) (e : Event) (rest : List Instr)
    (hH : M.holds pMain mtx r q m cnt out) (hne : r ≠ pMain)
    (hc : M.code r = Instr.emit e :: rest) :
    ∃ M2, (∀ fuel, Machine.exec pMain (fuel + 1) M = Machine.exec pMain fuel M2) ∧
      M2.holds pMain mtx r q m cnt (out ++ [e]) ∧ M2.code = Function.update M.code r rest :=
  holds_plain pMain mtx r q m cnt out M
    { M with code := Function.update M.code r rest, out := M.out ++ [e] } rest cnt (out ++ [e])
    hH hne (by simp [Machine.step, hc]) rfl rfl hH.2.2.2.2.1
    (by show M.out ++ [e] = out ++ [e]; rw [hH.2.2.2.2.2])

theorem holds_count (pMain mtx r : Nat) (q : List Nat) (m : Mutex) (cnt : Nat)
    (out : List Event) (M : Machine) (rest : List Instr)
    (hH : M.holds pMain mtx r q m cnt out) (hne : r ≠ pMain)
    (hc : M.code r = Instr.count :: rest) :
    ∃ M2, (∀ fuel, Machine.exec pMain (fuel + 1) M = Machine.exec pMain fuel M2) ∧
      M2.holds pMain mtx r q m ((cnt + 1) % 4294967296) out ∧
      M2.code = Function.update M.code r rest :=
  holds_plain pMain mtx r q m cnt out M
    { M with code := Function.update M.code r rest, count := (M.count + 1) % 4294967296 }
    rest ((cnt + 1) % 4294967296) out
    hH hne (by simp [Machine.step, hc]) rfl rfl
    (by show (M.count + 1) % 4294967296 = _; rw [hH.2.2.2.2.1]) hH.2.2.2.2.2

theorem holds_afterPark (pMain mtx r : Nat) (q : List Nat) (m : Mutex) (cnt : Nat)
    (out : List Event) (M : Machine) (rest : List Instr)
    (hH : M.holds pMain mtx r q m cnt out) (hne : r ≠ pMain)
    (hc : M.code r = Instr.afterPark mtx :: rest) (ho : m.m_pOwner = some r) :
    ∃ M2, (∀ fuel, Machine.exec pMain (fuel + 1) M = Machine.exec pMain fuel M2) ∧
      M2.holds pMain mtx r q m cnt out ∧ M2.code = Function.update M.code r rest :=
  holds_plain pMain mtx r q m cnt out M
    { M with code := Function.update M.code r rest } rest cnt out
    hH hne (by simp [Machine.step, hc, Mutex.Acquire_afterPark, hH.2.2.2.1, ho]) rfl rfl
    hH.2.2.2.2.1 hH.2.2.2.2.2

/-- A library call by the running fiber that returns the world `w1`. -/
theorem holds_call (pMain mtx r : Nat) (q : List Nat) (m : Mutex) (cnt : Nat)
    (out : List Event) (M : Machine) (c : Call) (rest : List Instr) (w1 : World)
    (r1 : Nat) (q1 : List Nat) (m1 : Mutex)
    (hH : M.holds pMain mtx r q m cnt out) (hne : r ≠ pMain)
    (hstep : Machine.step r M = M.setWorld r rest (World.step c M.world))
    (hw : World.step c M.world = .ok w1)
    (hmain : w1.sched.m_pMainThread = some pMain)
    (hrun : w1.sched.m_pRunningThread = some r1)
    (hq : w1.sched.m_readyQueue = q1.map some)
    (hm : w1.mutexes mtx = m1) :
    ∃ M2, (∀ fuel, Machine.exec pMain (fuel + 1) M = Machine.exec pMain fuel M2) ∧
      M2.holds pMain mtx r1 q1 m1 cnt out ∧ M2.code = Function.update M.code r rest := by
  refine ⟨{ M with world := w1, code := Function.update M.code r rest },
    fun fuel => exec_step pMain fuel r M _ hH.2.1 hne ?_, ?_, rfl⟩
  · rw [hstep, hw]
    rfl
  · exact ⟨hmain, hrun, hq, hm, hH.2.2.2.2.1, hH.2.2.2.2.2⟩

theorem holds_yield_nil (pMain mtx r : Nat) (m : Mutex) (cnt : Nat)
    (out : List Event) (M : Machine) (rest : List Instr)
    (hH : M.holds pMain mtx r [] m cnt out) (hne : r ≠ pMain)
    (hc : M.code r = Instr.call Call.Yield :: rest) :
    ∃ M2, (∀ fuel, Machine.exec pMain (fuel + 1) M = Machine.exec pMain fuel M2) ∧
      M2.holds pMain mtx r [] m cnt out ∧ M2.code = Function.update M.code r rest := by
  have hy := Yield_nil M.world.sched (by rw [hH.2.2.1]; rfl)
  exact holds_call pMain mtx r [] m cnt out M Call.Yield rest
    { M.world with sched := M.world.sched } r [] m hH hne
    (by simp [Machine.step, hc, Call.resumes])
    (by simp only [World.step, World.withSched, hy])
    hH.1 hH.2.1 hH.2.2.1 hH.2.2.2.1

theorem holds_yield_cons (pMain mtx r h : Nat) (t : List Nat) (m : Mutex) (cnt : Nat)
    (out : List Event) (M : Machine) (rest : List Instr)
    (hH : M.holds pMain mtx r (h :: t) m cnt out) (hne : r ≠ pMain)
    (hc : M.code r = Instr.call Call.Yield :: rest) :
    ∃ M2, (∀ fuel, Machine.exec pMain (fuel + 1) M = Machine.exec pMain fuel M2) ∧
      M2.holds pMain mtx h (t ++ [r]) m cnt out ∧
      M2.code = Function.update M.code r rest := by
  have hy := Yield_cons M.world.sched r h (t.map some) hH.2.1 (by rw [hH.2.2.1]; rfl)
  exact holds_call pMain mtx r (h :: t) m cnt out M Call.Yield rest
    { M.world with sched := { M.world.sched with m_pRunningThread := some h, m_readyQueue := t.map some ++ [some r] } }
    h (t ++ [r]) m hH hne
    (by simp [Machine.step, hc, Call.resumes])
    (by simp only [World.step, World.withSched, hy])
    hH.1 rfl (by simp) hH.2.2.2.1

theorem holds_exit_nil (pMain mtx r : Nat) (m : Mutex) (cnt : Nat)
    (out : List Event) (M : Machine)
    (hH : M.holds pMain mtx r [] m cnt out) (hne : r ≠ pMain)
    (hc : M.code r = []) :
    ∃ M2, (∀ fuel, Machine.exec pMain (fuel + 1) M = Machine.exec pMain fuel M2) ∧
      M2.holds pMain mtx pMain [] m cnt out ∧ M2.code = Function.update M.code r [] := by
  have hx := Exit_nil M.world.sched r pMain hH.2.1 (by rw [hH.2.2.1]; rfl) hH.1
  exact holds_call pMain mtx r [] m cnt out M Call.Exit []
    { M.world with sched := UThread.dtor r { M.world.sched with m_pRunningThread := some pMain } }
    pMain [] m hH hne
    (by simp [Machine.step, hc])
    (by simp only [World.step, World.withSched, hx])
    hH.1 rfl (by show (UThread.dtor r _).m_readyQueue = _; simp [UThread.dtor, hH.2.2.1])
    hH.2.2.2.1

theorem holds_exit_cons (pMain mtx r h : Nat) (t : List Nat) (m : Mutex) (cnt : Nat)
    (out : List Event) (M : Machine)
    (hH : M.holds pMain mtx r (h :: t) m cnt out) (hne : r ≠ pMain)
    (hc : M.code r = []) :
    ∃ M2, (∀ fuel, Machine.exec pMain (fuel + 1) M = Machine.exec pMain fuel M2) ∧
      M2.holds pMain mtx h t m cnt out ∧ M2.code = Function.update M.code r [] := by
  have hx := Exit_cons M.world.sched r h (t.map some) hH.2.1 (by rw [hH.2.2.1]; rfl)
  exact holds_call pMain mtx r (h :: t) m cnt out M Call.Exit []
    { M.world with sched := UThread.dtor r { M.world.sched with m_pRunningThread := some h, m_readyQueue := t.map some } }
    h t m hH hne
    (by simp [Machine.step, hc])
    (by simp only [World.step, World.withSched, hx])
    hH.1 rfl rfl hH.2.2.2.1

theorem holds_acquire_free (pMain mtx r : Nat) (q : List Nat) (m : Mutex) (cnt : Nat)
    (out : List Event) (M : Machine) (rest : List Instr)
    (hH : M.holds pMain mtx r q m cnt out) (hne : r ≠ pMain)
    (hc : M.code r = Instr.call (Call.Acquire mtx) :: rest) (ho : m.m_pOwner = none) :
    ∃ M2, (∀ fuel, Machine.exec pMain (fuel + 1) M = Machine.exec pMain fuel M2) ∧
      M2.holds pMain mtx r q { m with m_pOwner := some r, m_recursionCounter := 1 } cnt out ∧
      M2.code = Function.update M.code r rest := by
  have hm := hH.2.2.2.1
  have ha := Acquire_free (M.world.mutexes mtx) M.world.sched r hH.2.1 (by rw [hm]; exact ho)
  exact holds_call pMain mtx r q m cnt out M (Call.Acquire mtx) rest
    { M.world with mutexes := Function.update M.world.mutexes mtx { M.world.mutexes mtx with m_pOwner := some r, m_recursionCounter := 1 } }
    r q _ hH hne
    (by simp [Machine.step, hc, Call.resumes, hm, ho])
    (by simp only [World.step, World.withMutex, ha])
    hH.1 hH.2.1 hH.2.2.1
    (by show Function.update M.world.mutexes mtx _ mtx = _; rw [Function.update_same, hm])

theorem holds_acquire_own (pMain mtx r : Nat) (q : List Nat) (m : Mutex) (cnt : Nat)
    (out : List Event) (M : Machine) (rest : List Instr)
    (hH : M.holds pMain mtx r q m cnt out) (hne : r ≠ pMain)
    (hc : M.code r = Instr.call (Call.Acquire mtx) :: rest) (ho : m.m_pOwner = some r) :
    ∃ M2, (∀ fuel, Machine.exec pMain (fuel + 1) M = Machine.exec pMain fuel M2) ∧
      M2.holds pMain mtx r q
        { m with m_recursionCounter := toInt32 (m.m_recursionCounter + 1) } cnt out ∧
      M2.code = Function.update M.code r rest := by
  have hm := hH.2.2.2.1
  have ha := Acquire_recursive (M.world.mutexes mtx) M.world.sched r hH.2.1
    (by rw [hm]; exact ho)
  exact holds_call pMain mtx r q m cnt out M (Call.Acquire mtx) rest
    { M.world with mutexes := Function.update M.world.mutexes mtx { M.world.mutexes mtx with m_recursionCounter := toInt32 ((M.world.mutexes mtx).m_recursionCounter + 1) } }
    r q _ hH hne
    (by simp [Machine.step, hc, Call.resumes, hm, ho])
    (by simp only [World.step, World.withMutex, ha])
    hH.1 hH.2.1 hH.2.2.1
    (by show Function.update M.world.mutexes mtx _ mtx = _; rw [Function.update_same, hm])

theorem holds_acquire_held (pMain mtx r o h : Nat) (t : List Nat) (m : Mutex) (cnt : Nat)
    (out : List Event) (M : Machine) (rest : List Instr)
    (hH : M.holds pMain mtx r (h :: t) m cnt out) (hne : r ≠ pMain)
    (hc : M.code r = Instr.call (Call.Acquire mtx) :: rest)
    (ho : m.m_pOwner = some o) (hor : o ≠ r) :
    ∃ M2, (∀ fuel, Machine.exec pMain (fuel + 1) M = Machine.exec pMain fuel M2) ∧
      M2.holds pMain mtx h t { m with m_waitList := m.m_waitList ++ [some r] } cnt out ∧
      M2.code = Function.update M.code r (Instr.afterPark mtx :: rest) := by
  have hm := hH.2.2.2.1
  have ha := Acquire_held (M.world.mutexes mtx) M.world.sched r o hH.2.1
    (by rw [hm]; exact ho) hor
  have hp := Park_cons M.world.sched r h (t.map some) hH.2.1 (by rw [hH.2.2.1]; rfl)
  rw [hp] at ha
  have hor2 : ¬ (some o : Ptr) = some r := fun e => hor (Option.some.inj e)
  exact holds_call pMain mtx r (h :: t) m cnt out M (Call.Acquire mtx)
    (Instr.afterPark mtx :: rest)
    { M.world with sched := { M.world.sched with m_pRunningThread := some h, m_readyQueue := t.map some }, mutexes := Function.update M.world.mutexes mtx { M.world.mutexes mtx with m_waitList := (M.world.mutexes mtx).m_waitList ++ [some r] } }
    h t _ hH hne
    (by simp [Machine.step, hc, Call.resumes, hm, ho, hor2])
    (by simp only [World.step, World.withMutex, ha])
    hH.1 rfl rfl
    (by show Function.update M.world.mutexes mtx _ mtx = _; rw [Function.update_same, hm])

theorem holds_release_nested (pMain mtx r : Nat) (q : List Nat) (m : Mutex) (cnt : Nat)
    (out : List Event) (M : Machine) (rest : List Instr)
    (hH : M.holds pMain mtx r q m cnt out) (hne : r ≠ pMain)
    (hc : M.code r = Instr.call (Call.Release mtx) :: rest) (ho : m.m_pOwner = some r)
    (hk : 0 < toInt32 (m.m_recursionCounter - 1)) :
    ∃ M2, (∀ fuel, Machine.exec pMain (fuel + 1) M = Machine.exec pMain fuel M2) ∧
      M2.holds pMain mtx r q
        { m with m_recursionCounter := toInt32 (m.m_recursionCounter - 1) } cnt out ∧
      M2.code = Function.update M.code r rest := by
  have hm := hH.2.2.2.1
  have ha := Release_positive (M.world.mutexes mtx) M.world.sched r hH.2.1
    (by rw [hm]; exact ho) (by rw [hm]; exact hk)
  exact holds_call pMain mtx r q m cnt out M (Call.Release mtx) rest
    { M.world with mutexes := Function.update M.world.mutexes mtx { M.world.mutexes mtx with m_recursionCounter := toInt32 ((M.world.mutexes mtx).m_recursionCounter - 1) } }
    r q _ hH hne
    (by simp [Machine.step, hc, Call.resumes])
    (by simp only [World.step, World.withMutex, ha])
    hH.1 hH.2.1 hH.2.2.1
    (by show Function.update M.world.mutexes mtx _ mtx = _; rw [Function.update_same, hm])

theorem holds_release_free (pMain mtx r : Nat) (q : List Nat) (cnt : Nat)
    (out : List Event) (M : Machine) (rest : List Instr)
    (hH : M.holds pMain mtx r q (Mutex.mk (some r) 1 []) cnt out) (hne : r ≠ pMain)
    (hc : M.code r = Instr.call (Call.Release mtx) :: rest) :
    ∃ M2, (∀ fuel, Machine.exec pMain (fuel + 1) M = Machine.exec pMain fuel M2) ∧
      M2.holds pMain mtx r q (Mutex.mk none 0 []) cnt out ∧
      M2.code = Function.update M.code r rest := by
  have hm := hH.2.2.2.1
  have ha := Release_free (M.world.mutexes mtx) M.world.sched r hH.2.1
    (by rw [hm]) (by rw [hm]; show toInt32 ((1 : Int) - 1) ≤ 0; decide) (by rw [hm])
  exact holds_call pMain mtx r q _ cnt out M (Call.Release mtx) rest
    { M.world with mutexes := Function.update M.world.mutexes mtx { M.world.mutexes mtx with m_recursionCounter := toInt32 ((M.world.mutexes mtx).m_recursionCounter - 1), m_pOwner := none } }
    r q _ hH hne
    (by simp [Machine.step, hc, Call.resumes])
    (by simp only [World.step, World.withMutex, ha])
    hH.1 hH.2.1 hH.2.2.1
    (by show Function.update M.world.mutexes mtx _ mtx = _; rw [Function.update_same, hm]; rfl)

theorem holds_release_transfer (pMain mtx r h : Nat) (t : List Nat) (q : List Nat) (cnt : Nat)
    (out : List Event) (M : Machine) (rest : List Instr)
    (hH : M.holds pMain mtx r q (Mutex.mk (some r) 1 ((h :: t).map some)) cnt out)
    (hne : r ≠ pMain)
    (hc : M.code r = Instr.call (Call.Release mtx) :: rest) :
    ∃ M2, (∀ fuel, Machine.exec pMain (fuel + 1) M = Machine.exec pMain fuel M2) ∧
      M2.holds pMain mtx r (q ++ [h]) (Mutex.mk (some h) 1 (t.map some)) cnt out ∧
      M2.code = Function.update M.code r rest := by
  have hm := hH.2.2.2.1
  have ha := Release_transfer (M.world.mutexes mtx) M.world.sched r (some h) (t.map some)
    hH.2.1 (by rw [hm]) (by rw [hm]; show toInt32 ((1 : Int) - 1) ≤ 0; decide) (by rw [hm]; rfl)
  exact holds_call pMain mtx r q _ cnt out M (Call.Release mtx) rest
    { M.world with sched := { M.world.sched with m_readyQueue := M.world.sched.m_readyQueue ++ [some h] }, mutexes := Function.update M.world.mutexes mtx (Mutex.mk (some h) 1 (t.map some)) }
    r (q ++ [h]) _ hH hne
    (by simp [Machine.step, hc, Call.resumes])
    (by simp only [World.step, World.withMutex, ha])
    hH.1 hH.2.1 (by show M.world.sched.m_readyQueue ++ [some h] = _; rw [hH.2.2.1]; simp)
    (by show Function.update M.world.mutexes mtx _ mtx = _; rw [Function.update_same])

theorem code_self (M M2 : Machine) (r : Nat) (rest : List Instr)
    (h : M2.code = Function.update M.code r rest) : M2.code r = rest := by
  rw [h]
  exact Function.update_same _ _ _

theorem code_other (M M2 : Machine) (r a : Nat) (rest : List Instr)
    (h : M2.code = Function.update M.code r rest) (ha : a ≠ r) : M2.code a = M.code a := by
  rw [h]
  exact Function.update_noteq ha _ _

theorem holds_congr (pMain mtx r : Nat) (q : List Nat) (m m1 : Mutex) (cnt cnt1 : Nat)
    (out out1 : List Event) (M : Machine) (h : M.holds pMain mtx r q m cnt out)
    (hm : m = m1) (hc : cnt = cnt1) (ho : out = out1) : M.holds pMain mtx r q m1 cnt1 out1 := by
  subst hm hc ho
  exact h

/-- The end of a fiber of test 2 when nobody waits for the mutex: it releases,
counts and exits, and the main thread runs again. -/
theorem test2_release_last (pMain mtx r k : Nat) (M : Machine) (cnt : Nat) (out : List Event)
    (hH : M.holds pMain mtx r [] (Mutex.mk (some r) 1 []) cnt out) (hne : r ≠ pMain)
    (hc : M.code r = [Instr.emit (Event.releasing k), Instr.call (Call.Release mtx),
      Instr.emit (Event.released k), Instr.count]) :
    ∃ M2, (∀ fuel, Machine.exec pMain (fuel + 5) M = Machine.exec pMain fuel M2) ∧
      M2.holds pMain mtx pMain [] (Mutex.mk none 0 []) ((cnt + 1) % 4294967296)
        (out ++ [Event.releasing k, Event.released k]) ∧
      M2.code r = [] ∧ ∀ a, a ≠ r → M2.code a = M.code a := by
  obtain ⟨M1, e1, H1, c1⟩ := holds_emit pMain mtx r _ _ _ _ M _ _ hH hne hc
  obtain ⟨M2, e2, H2, c2⟩ := holds_release_free pMain mtx r _ _ _ M1 _ H1 hne
    (code_self _ _ _ _ c1)
  obtain ⟨M3, e3, H3, c3⟩ := holds_emit pMain mtx r _ _ _ _ M2 _ _ H2 hne
    (code_self _ _ _ _ c2)
  obtain ⟨M4, e4, H4, c4⟩ := holds_count pMain mtx r _ _ _ _ M3 _ H3 hne
    (code_self _ _ _ _ c3)
  obtain ⟨M5, e5, H5, c5⟩ := holds_exit_nil pMain mtx r _ _ _ M4 H4 hne
    (code_self _ _ _ _ c4)
  refine ⟨M5, fun fuel => ?_, ?_, code_self _ _ _ _ c5, fun a ha => ?_⟩
  · rw [show fuel + 5 = fuel + 1 + 1 + 1 + 1 + 1 from rfl, e1, e2, e3, e4, e5]
  · exact holds_congr _ _ _ _ _ _ _ _ _ _ _ H5 rfl rfl (by simp)
  · rw [code_other _ _ _ _ _ c5 ha, code_other _ _ _ _ _ c4 ha, code_other _ _ _ _ _ c3 ha,
      code_other _ _ _ _ _ c2 ha, code_other _ _ _ _ _ c1 ha]

/-- The end of a fiber of test 2 when `h` is the first waiter: it hands the
mutex to `h`, counts and exits, and `h` runs. -/
theorem test2_release_next (pMain mtx r k h : Nat) (t : List Nat) (M : Machine) (cnt : Nat)
    (out : List Event)
    (hH : M.holds pMain mtx r [] (Mutex.mk (some r) 1 ((h :: t).map some)) cnt out)
    (hne : r ≠ pMain)
    (hc : M.code r = [Instr.emit (Event.releasing k), Instr.call (Call.Release mtx),
      Instr.emit (Event.released k), Instr.count]) :
    ∃ M2, (∀ fuel, Machine.exec pMain (fuel + 5) M = Machine.exec pMain fuel M2) ∧
      M2.holds pMain mtx h [] (Mutex.mk (some h) 1 (t.map some)) ((cnt + 1) % 4294967296)
        (out ++ [Event.releasing k, Event.released k]) ∧
      M2.code r = [] ∧ ∀ a, a ≠ r → M2.code a = M.code a := by
  obtain ⟨M1, e1, H1, c1⟩ := holds_emit pMain mtx r _ _ _ _ M _ _ hH hne hc
  obtain ⟨M2, e2, H2, c2⟩ := holds_release_transfer pMain mtx r h t _ _ _ M1 _ H1 hne
    (code_self _ _ _ _ c1)
  obtain ⟨M3, e3, H3, c3⟩ := holds_emit pMain mtx r _ _ _ _ M2 _ _ H2 hne
    (code_self _ _ _ _ c2)
  obtain ⟨M4, e4, H4, c4⟩ := holds_count pMain mtx r _ _ _ _ M3 _ H3 hne
    (code_self _ _ _ _ c3)
  obtain ⟨M5, e5, H5, c5⟩ := holds_exit_cons pMain mtx r h [] _ _ _ M4 H4 hne
    (code_self _ _ _ _ c4)
  refine ⟨M5, fun fuel => ?_, ?_, code_self _ _ _ _ c5, fun a ha => ?_⟩
  · rw [show fuel + 5 = fuel + 1 + 1 + 1 + 1 + 1 from rfl, e1, e2, e3, e4, e5]
  · exact holds_congr _ _ _ _ _ _ _ _ _ _ _ H5 rfl rfl (by simp)
  · rw [code_other _ _ _ _ _ c5 ha, code_other _ _ _ _ _ c4 ha, code_other _ _ _ _ _ c3 ha,
      code_other _ _ _ _ _ c2 ha, code_other _ _ _ _ _ c1 ha]

/-- A fiber of test 2 that was handed the mutex resumes in `Acquire`, prints
and yields to nobody. -/
theorem test2_resume (pMain mtx r k : Nat) (w : List Ptr) (M : Machine) (cnt : Nat)
    (out : List Event) (tail : List Instr)
    (hH : M.holds pMain mtx r [] (Mutex.mk (some r) 1 w) cnt out) (hne : r ≠ pMain)
    (hc : M.code r = Instr.afterPark mtx :: Instr.emit (Event.acquired k)
      :: Instr.call Call.Yield :: tail) :
    ∃ M2, (∀ fuel, Machine.exec pMain (fuel + 3) M = Machine.exec pMain fuel M2) ∧
      M2.holds pMain mtx r [] (Mutex.mk (some r) 1 w) cnt (out ++ [Event.acquired k]) ∧
      M2.code r = tail ∧ ∀ a, a ≠ r → M2.code a = M.code a := by
  obtain ⟨M1, e1, H1, c1⟩ := holds_afterPark pMain mtx r _ _ _ _ M _ hH hne hc rfl
  obtain ⟨M2, e2, H2, c2⟩ := holds_emit pMain mtx r _ _ _ _ M1 _ _ H1 hne
    (code_self _ _ _ _ c1)
  obtain ⟨M3, e3, H3, c3⟩ := holds_yield_nil pMain mtx r _ _ _ M2 _ H2 hne
    (code_self _ _ _ _ c2)
  refine ⟨M3, fun fuel => ?_, H3, code_self _ _ _ _ c3, fun a ha => ?_⟩
  · rw [show fuel + 3 = fuel + 1 + 1 + 1 from rfl, e1, e2, e3]
  · rw [code_other _ _ _ _ _ c3 ha, code_other _ _ _ _ _ c2 ha, code_other _ _ _ _ _ c1 ha]

/-- The owner `g` releases for the last time while the fibers `ws` wait, each
blocked in its `Acquire`: the mutex goes from one to the next in the order of
`ws`, every one of them finishes, and the main thread runs again. -/
theorem test2_release_chain (pMain mtx : Nat) : ∀ (ws : List (Nat × Nat)) (g : Nat × Nat)
    (M : Machine) (cnt : Nat) (out : List Event),
    M.holds pMain mtx g.1 [] (Mutex.mk (some g.1) 1 ((ws.map Prod.fst).map some)) cnt out →
    ((g :: ws).map Prod.fst).Nodup → pMain ∉ (g :: ws).map Prod.fst →
    M.code g.1 = [Instr.emit (Event.releasing g.2), Instr.call (Call.Release mtx),
      Instr.emit (Event.released g.2), Instr.count] →
    (∀ f ∈ ws, M.code f.1 = [Instr.afterPark mtx, Instr.emit (Event.acquired f.2),
      Instr.call Call.Yield, Instr.emit (Event.releasing f.2), Instr.call (Call.Release mtx),
      Instr.emit (Event.released f.2), Instr.count]) →
    ∃ M2, (∀ fuel, Machine.exec pMain (fuel + (5 + 8 * ws.length)) M
        = Machine.exec pMain fuel M2) ∧
      M2.holds pMain mtx pMain [] (Mutex.mk none 0 [])
        ((cnt + (ws.length + 1)) % 4294967296)
        (out ++ [Event.releasing g.2, Event.released g.2] ++ ws.flatMap (fun f =>
          [Event.acquired f.2, Event.releasing f.2, Event.released f.2])) ∧
      (∀ f ∈ g :: ws, M2.code f.1 = []) ∧
      (∀ a, a ∉ (g :: ws).map Prod.fst → M2.code a = M.code a) := by
  intro ws
  induction ws with
  | nil =>
    intro g M cnt out hH _ hpm hcg _
    have hne : g.1 ≠ pMain := fun e => hpm (by simp [e])
    obtain ⟨M2, e, H2, cg, co⟩ := test2_release_last pMain mtx g.1 g.2 M cnt out hH hne hcg
    refine ⟨M2, e, ?_, ?_, ?_⟩
    · exact holds_congr _ _ _ _ _ _ _ _ _ _ _ H2 rfl rfl (by simp)
    · intro f hf
      simp only [List.mem_singleton] at hf
      subst hf
      exact cg
    · intro a ha
      exact co a (by simpa using ha)
  | cons h t ih =>
    intro g M cnt out hH hnd hpm hcg hcw
    have hne : g.1 ≠ pMain := fun e => hpm (by simp [e])
    have hnh : h.1 ≠ pMain := fun e => hpm (by simp [e])
    simp only [List.map_cons, List.nodup_cons, List.mem_cons, not_or] at hnd
    obtain ⟨⟨hgh, hgt⟩, hht, hndt⟩ := hnd
    obtain ⟨M1, e1, H1, cg1, co1⟩ := test2_release_next pMain mtx g.1 g.2 h.1
      (t.map Prod.fst) M cnt out hH hne hcg
    have hch : M1.code h.1 = _ := (co1 h.1 (Ne.symm hgh)).trans (hcw h (List.mem_cons_self _ _))
    obtain ⟨M2, e2, H2, ch2, co2⟩ := test2_resume pMain mtx h.1 h.2 _ M1 _ _ _ H1 hnh hch
    obtain ⟨M3, e3, H3, c3, co3⟩ := ih h M2 _ _ H2
      (by simp only [List.map_cons, List.nodup_cons]; exact ⟨hht, hndt⟩)
      (fun hmem => hpm (List.mem_cons_of_mem _ hmem)) ch2
      (by
        intro f hf
        have hfh : f.1 ≠ h.1 := fun e => hht (by rw [← e]; exact List.mem_map_of_mem _ hf)
        have hfg : f.1 ≠ g.1 := fun e => hgt (by rw [← e]; exact List.mem_map_of_mem _ hf)
        rw [co2 f.1 hfh, co1 f.1 hfg]
        exact hcw f (List.mem_cons_of_mem _ hf))
    refine ⟨M3, fun fuel => ?_, ?_, ?_, ?_⟩
    · rw [show fuel + (5 + 8 * (h :: t).length) = fuel + (5 + 8 * t.length) + 3 + 5 from by
        simp only [List.length_cons]; omega, e1, e2, e3]
    · refine holds_congr _ _ _ _ _ _ _ _ _ _ _ H3 rfl ?_ ?_
      · simp only [List.length_cons]
        omega
      · simp [List.flatMap_cons]
    · intro f hf
      rcases List.mem_cons.mp hf with rfl | hf2
      · have hfn : f.1 ∉ (h :: t).map Prod.fst := by
          simp only [List.map_cons, List.mem_cons, not_or]
          exact ⟨hgh, hgt⟩
        rw [co3 f.1 hfn, co2 f.1 hgh, cg1]
      · exact c3 f hf2
    · intro a ha
      simp only [List.map_cons, List.mem_cons, not_or] at ha
      rw [co3 a (by simp only [List.map_cons, List.mem_cons, not_or]; exact ⟨ha.2.1, ha.2.2⟩),
        co2 a ha.2.1, co1 a ha.1]

/-- The fibers `g :: fs`, run one after the other while `a1` holds the mutex,
each block in `Acquire` in that order; then `a1` runs again. -/
theorem test2_block_chain (pMain mtx a1 : Nat) : ∀ (fs : List (Nat × Nat)) (g : Nat × Nat)
    (M : Machine) (blocked : List Nat) (cnt : Nat) (out : List Event),
    M.holds pMain mtx g.1 (fs.map Prod.fst ++ [a1])
      (Mutex.mk (some a1) 1 (blocked.map some)) cnt out →
    ((g :: fs).map Prod.fst).Nodup → a1 ∉ (g :: fs).map Prod.fst →
    pMain ∉ (g :: fs).map Prod.fst →
    (∀ f ∈ g :: fs, M.code f.1 = test2_thread2 mtx f.2) →
    ∃ M2, (∀ fuel, Machine.exec pMain (fuel + 2 * (fs.length + 1)) M
        = Machine.exec pMain fuel M2) ∧
      M2.holds pMain mtx a1 []
        (Mutex.mk (some a1) 1 ((blocked ++ (g :: fs).map Prod.fst).map some)) cnt
        (out ++ (g :: fs).map (fun f => Event.acquiring f.2)) ∧
      (∀ f ∈ g :: fs, M2.code f.1 = [Instr.afterPark mtx, Instr.emit (Event.acquired f.2),
        Instr.call Call.Yield, Instr.emit (Event.releasing f.2),
        Instr.call (Call.Release mtx), Instr.emit (Event.released f.2), Instr.count]) ∧
      (∀ a, a ∉ (g :: fs).map Prod.fst → M2.code a = M.code a) := by
  intro fs
  induction fs with
  | nil =>
    intro g M blocked cnt out hH _ ha1 hpm hcode
    have hne : g.1 ≠ pMain := fun e => hpm (by simp [e])
    have hga : a1 ≠ g.1 := fun e => ha1 (by simp [e])
    obtain ⟨M1, e1, H1, c1⟩ := holds_emit pMain mtx g.1 _ _ _ _ M _ _ hH hne
      (hcode g (List.mem_cons_self _ _))
    obtain ⟨M2, e2, H2, c2⟩ := holds_acquire_held pMain mtx g.1 a1 a1 [] _ _ _ M1 _ H1 hne
      (code_self _ _ _ _ c1) rfl hga
    refine ⟨M2, fun fuel => ?_, ?_, ?_, ?_⟩
    · rw [show fuel + 2 * (([] : List (Nat × Nat)).length + 1) = fuel + 1 + 1 from rfl, e1, e2]
    · exact holds_congr _ _ _ _ _ _ _ _ _ _ _ H2 (by simp) rfl (by simp)
    · intro f hf
      simp only [List.mem_singleton] at hf
      subst hf
      exact code_self _ _ _ _ c2
    · intro a ha
      have hag : a ≠ g.1 := by simpa using ha
      rw [code_other _ _ _ _ _ c2 hag, code_other _ _ _ _ _ c1 hag]
  | cons h t ih =>
    intro g M blocked cnt out hH hnd ha1 hpm hcode
    have hne : g.1 ≠ pMain := fun e => hpm (by simp [e])
    have hga : a1 ≠ g.1 := fun e => ha1 (by simp [e])
    simp only [List.map_cons, List.nodup_cons, List.mem_cons, not_or] at hnd
    obtain ⟨⟨hgh, hgt⟩, hht, hndt⟩ := hnd
    obtain ⟨M1, e1, H1, c1⟩ := holds_emit pMain mtx g.1 _ _ _ _ M _ _ hH hne
      (hcode g (List.mem_cons_self _ _))
    obtain ⟨M2, e2, H2, c2⟩ := holds_acquire_held pMain mtx g.1 a1 h.1
      (t.map Prod.fst ++ [a1]) _ _ _ M1 _ H1 hne (code_self _ _ _ _ c1) rfl hga
    have H2b : M2.holds pMain mtx h.1 (t.map Prod.fst ++ [a1])
        (Mutex.mk (some a1) 1 ((blocked ++ [g.1]).map some)) cnt
        (out ++ [Event.acquiring g.2]) :=
      holds_congr _ _ _ _ _ _ _ _ _ _ _ H2 (by simp) rfl rfl
    obtain ⟨M3, e3, H3, c3, co3⟩ := ih h M2 (blocked ++ [g.1]) cnt _ H2b
      (by simp only [List.map_cons, List.nodup_cons]; exact ⟨hht, hndt⟩)
      (fun hmem => ha1 (List.mem_cons_of_mem _ hmem))
      (fun hmem => hpm (List.mem_cons_of_mem _ hmem))
      (by
        intro f hf
        have hfg : f.1 ≠ g.1 := by
          intro e
          have hmem : f.1 ∈ (h :: t).map Prod.fst := List.mem_map_of_mem _ hf
          rw [e] at hmem
          simp only [List.map_cons, List.mem_cons] at hmem
          rcases hmem with h1 | h1
          · exact hgh h1
          · exact hgt h1
        rw [code_other _ _ _ _ _ c2 hfg, code_other _ _ _ _ _ c1 hfg]
        exact hcode f (List.mem_cons_of_mem _ hf))
    refine ⟨M3, fun fuel => ?_, ?_, ?_, ?_⟩
    · rw [show fuel + 2 * ((h :: t).length + 1) = fuel + 2 * (t.length + 1) + 1 + 1 from by
        simp only [List.length_cons]; omega, e1, e2, e3]
    · exact holds_congr _ _ _ _ _ _ _ _ _ _ _ H3 (by simp) rfl (by simp)
    · intro f hf
      rcases List.mem_cons.mp hf with rfl | hf2
      · have hfn : f.1 ∉ (h :: t).map Prod.fst := by
          simp only [List.map_cons, List.mem_cons, not_or]
          exact ⟨hgh, hgt⟩
        rw [co3 f.1 hfn]
        exact code_self _ _ _ _ c2
      · exact c3 f hf2
    · intro a ha
      simp only [List.map_cons, List.mem_cons, not_or] at ha
      rw [co3 a (by simp only [List.map_cons, List.mem_cons, not_or]; exact ⟨ha.2.1, ha.2.2⟩),
        code_other _ _ _ _ _ c2 ha.1, code_other _ _ _ _ _ c1 ha.1]

/-- The first fiber of test 2 acquires the free mutex and yields; every other
fiber then blocks in `Acquire`, and the first runs again. -/
theorem test2_start (pMain mtx a1 : Nat) (fs : List (Nat × Nat)) (M : Machine) (cnt : Nat)
    (out : List Event)
    (hH : M.holds pMain mtx a1 (fs.map Prod.fst) Mutex.new cnt out)
    (hnd : (fs.map Prod.fst).Nodup) (ha1 : a1 ∉ fs.map Prod.fst)
    (hne : a1 ≠ pMain) (hpm : pMain ∉ fs.map Prod.fst)
    (hc1 : M.code a1 = test2_thread1 mtx 1)
    (hcode : ∀ f ∈ fs, M.code f.1 = test2_thread2 mtx f.2) :
    ∃ M2, (∀ fuel, Machine.exec pMain (fuel + (4 + 2 * fs.length)) M
        = Machine.exec pMain fuel M2) ∧
      M2.holds pMain mtx a1 [] (Mutex.mk (some a1) 1 ((fs.map Prod.fst).map some)) cnt
        (out ++ [Event.acquiring 1, Event.acquired 1]
          ++ fs.map (fun f => Event.acquiring f.2)) ∧
      M2.code a1 = (test2_thread1 mtx 1).drop 4 ∧
      (∀ f ∈ fs, M2.code f.1 = [Instr.afterPark mtx, Instr.emit (Event.acquired f.2),
        Instr.call Call.Yield, Instr.emit (Event.releasing f.2),
        Instr.call (Call.Release mtx), Instr.emit (Event.released f.2), Instr.count]) := by
  obtain ⟨M1, e1, H1, c1⟩ := holds_emit pMain mtx a1 _ _ _ _ M _ _ hH hne hc1
  obtain ⟨M2, e2, H2, c2⟩ := holds_acquire_free pMain mtx a1 _ _ _ _ M1 _ H1 hne
    (code_self _ _ _ _ c1) rfl
  obtain ⟨M3, e3, H3, c3⟩ := holds_emit pMain mtx a1 _ _ _ _ M2 _ _ H2 hne
    (code_self _ _ _ _ c2)
  have hother : ∀ a, a ≠ a1 → M3.code a = M.code a := by
    intro a ha
    rw [code_other _ _ _ _ _ c3 ha, code_other _ _ _ _ _ c2 ha, code_other _ _ _ _ _ c1 ha]
  cases fs with
  | nil =>
    obtain ⟨M4, e4, H4, c4⟩ := holds_yield_nil pMain mtx a1 _ _ _ M3 _ H3 hne
      (code_self _ _ _ _ c3)
    refine ⟨M4, fun fuel => ?_, ?_, code_self _ _ _ _ c4, ?_⟩
    · rw [show fuel + (4 + 2 * ([] : List (Nat × Nat)).length) = fuel + 1 + 1 + 1 + 1 from rfl,
        e1, e2, e3, e4]
    · exact holds_congr _ _ _ _ _ _ _ _ _ _ _ H4 rfl rfl (by simp)
    · intro f hf
      simp at hf
  | cons g t =>
    obtain ⟨M4, e4, H4, c4⟩ := holds_yield_cons pMain mtx a1 g.1 (t.map Prod.fst) _ _ _ M3 _
      H3 hne (code_self _ _ _ _ c3)
    have H4b : M4.holds pMain mtx g.1 (t.map Prod.fst ++ [a1])
        (Mutex.mk (some a1) 1 (([] : List Nat).map some)) cnt
        (out ++ [Event.acquiring 1, Event.acquired 1]) :=
      holds_congr _ _ _ _ _ _ _ _ _ _ _ H4 rfl rfl (by simp)
    have hfa : ∀ f ∈ g :: t, f.1 ≠ a1 := by
      intro f hf e
      exact ha1 (by rw [← e]; exact List.mem_map_of_mem _ hf)
    obtain ⟨M5, e5, H5, c5, co5⟩ := test2_block_chain pMain mtx a1 t g M4 [] cnt _ H4b hnd ha1
      hpm
      (by
        intro f hf
        rw [code_other _ _ _ _ _ c4 (hfa f hf), hother f.1 (hfa f hf)]
        exact hcode f hf)
    refine ⟨M5, fun fuel => ?_, ?_, ?_, c5⟩
    · rw [show fuel + (4 + 2 * (g :: t).length) = fuel + 2 * (t.length + 1) + 1 + 1 + 1 + 1 from by
        simp only [List.length_cons]; omega, e1, e2, e3, e4, e5]
    · exact holds_congr _ _ _ _ _ _ _ _ _ _ _ H5 (by simp) rfl rfl
    · rw [co5 a1 ha1]
      exact code_self _ _ _ _ c4

/-- The middle of `test2_thread1`, run while nobody else is ready: the nested
acquisition and its release. -/
theorem test2_nested (pMain mtx a1 k : Nat) (w : List Ptr) (M : Machine) (cnt : Nat)
    (out : List Event) (tail : List Instr)
    (hH : M.holds pMain mtx a1 [] (Mutex.mk (some a1) 1 w) cnt out) (hne : a1 ≠ pMain)
    (hc : M.code a1 = Instr.emit (Event.acquiring k) :: Instr.call (Call.Acquire mtx)
      :: Instr.emit (Event.acquired k) :: Instr.call Call.Yield
      :: Instr.emit (Event.releasing k) :: Instr.call (Call.Release mtx)
      :: Instr.emit (Event.released k) :: Instr.call Call.Yield :: tail) :
    ∃ M2, (∀ fuel, Machine.exec pMain (fuel + 8) M = Machine.exec pMain fuel M2) ∧
      M2.holds pMain mtx a1 [] (Mutex.mk (some a1) 1 w) cnt
        (out ++ [Event.acquiring k, Event.acquired k, Event.releasing k, Event.released k]) ∧
      M2.code a1 = tail ∧ ∀ a, a ≠ a1 → M2.code a = M.code a := by
  obtain ⟨M1, e1, H1, c1⟩ := holds_emit pMain mtx a1 _ _ _ _ M _ _ hH hne hc
  obtain ⟨M2, e2, H2, c2⟩ := holds_acquire_own pMain mtx a1 _ _ _ _ M1 _ H1 hne
    (code_self _ _ _ _ c1) rfl
  have H2b : M2.holds pMain mtx a1 [] (Mutex.mk (some a1) 2 w) cnt
      (out ++ [Event.acquiring k]) :=
    holds_congr _ _ _ _ _ _ _ _ _ _ _ H2
      (by show Mutex.mk (some a1) (toInt32 ((1 : Int) + 1)) w = _
          rw [show toInt32 ((1 : Int) + 1) = 2 from by decide]) rfl rfl
  obtain ⟨M3, e3, H3, c3⟩ := holds_emit pMain mtx a1 _ _ _ _ M2 _ _ H2b hne
    (code_self _ _ _ _ c2)
  obtain ⟨M4, e4, H4, c4⟩ := holds_yield_nil pMain mtx a1 _ _ _ M3 _ H3 hne
    (code_self _ _ _ _ c3)
  obtain ⟨M5, e5, H5, c5⟩ := holds_emit pMain mtx a1 _ _ _ _ M4 _ _ H4 hne
    (code_self _ _ _ _ c4)
  obtain ⟨M6, e6, H6, c6⟩ := holds_release_nested pMain mtx a1 _ _ _ _ M5 _ H5 hne
    (code_self _ _ _ _ c5) rfl (by show 0 < toInt32 ((2 : Int) - 1); decide)
  have H6b : M6.holds pMain mtx a1 [] (Mutex.mk (some a1) 1 w) cnt
      (out ++ [Event.acquiring k] ++ [Event.acquired k] ++ [Event.releasing k]) :=
    holds_congr _ _ _ _ _ _ _ _ _ _ _ H6
      (by show Mutex.mk (some a1) (toInt32 ((2 : Int) - 1)) w = _
          rw [show toInt32 ((2 : Int) - 1) = 1 from by decide]) rfl rfl
  obtain ⟨M7, e7, H7, c7⟩ := holds_emit pMain mtx a1 _ _ _ _ M6 _ _ H6b hne
    (code_self _ _ _ _ c6)
  obtain ⟨M8, e8, H8, c8⟩ := holds_yield_nil pMain mtx a1 _ _ _ M7 _ H7 hne
    (code_self _ _ _ _ c7)
  refine ⟨M8, fun fuel => ?_, ?_, code_self _ _ _ _ c8, fun a ha => ?_⟩
  · rw [show fuel + 8 = fuel + 1 + 1 + 1 + 1 + 1 + 1 + 1 + 1 from rfl,
      e1, e2, e3, e4, e5, e6, e7, e8]
  · exact holds_congr _ _ _ _ _ _ _ _ _ _ _ H8 rfl rfl (by simp)
  · rw [code_other _ _ _ _ _ c8 ha, code_other _ _ _ _ _ c7 ha, code_other _ _ _ _ _ c6 ha,
      code_other _ _ _ _ _ c5 ha, code_other _ _ _ _ _ c4 ha, code_other _ _ _ _ _ c3 ha,
      code_other _ _ _ _ _ c2 ha, code_other _ _ _ _ _ c1 ha]

/-- The fibers of test 2 from the moment the first one runs until the main
thread runs again. -/
theorem test2_fibers_run (pMain mtx a1 : Nat) (fs : List (Nat × Nat)) (M : Machine)
    (cnt : Nat) (out : List Event)
    (hH : M.holds pMain mtx a1 (fs.map Prod.fst) Mutex.new cnt out)
    (hnd : (fs.map Prod.fst).Nodup) (ha1 : a1 ∉ fs.map Prod.fst)
    (hne : a1 ≠ pMain) (hpm : pMain ∉ fs.map Prod.fst)
    (hc1 : M.code a1 = test2_thread1 mtx 1)
    (hcode : ∀ f ∈ fs, M.code f.1 = test2_thread2 mtx f.2) :
    ∃ M2, (∀ fuel, Machine.exec pMain (fuel + (17 + 10 * fs.length)) M
        = Machine.exec pMain fuel M2) ∧
      M2.holds pMain mtx pMain [] (Mutex.mk none 0 []) ((cnt + (fs.length + 1)) % 4294967296)
        (out ++ ([Event.acquiring 1, Event.acquired 1]
          ++ fs.map (fun f => Event.acquiring f.2)
          ++ [Event.acquiring 1, Event.acquired 1, Event.releasing 1, Event.released 1,
              Event.releasing 1, Event.released 1]
          ++ fs.flatMap (fun f =>
              [Event.acquired f.2, Event.releasing f.2, Event.released f.2]))) ∧
      M2.code a1 = [] ∧ (∀ f ∈ fs, M2.code f.1 = []) := by
  obtain ⟨M1, e1, H1, c1, cw1⟩ := test2_start pMain mtx a1 fs M cnt out hH hnd ha1 hne hpm
    hc1 hcode
  obtain ⟨M2, e2, H2, c2, co2⟩ := test2_nested pMain mtx a1 1 _ M1 cnt _ _ H1 hne c1
  have hfa : ∀ f ∈ fs, f.1 ≠ a1 := by
    intro f hf e
    exact ha1 (by rw [← e]; exact List.mem_map_of_mem _ hf)
  obtain ⟨M3, e3, H3, c3, _⟩ := test2_release_chain pMain mtx fs (a1, 1) M2 cnt _ H2
    (by simp only [List.map_cons, List.nodup_cons]; exact ⟨ha1, hnd⟩)
    (by
      simp only [List.map_cons, List.mem_cons, not_or]
      exact ⟨fun e => hne e.symm, hpm⟩)
    c2
    (by
      intro f hf
      rw [co2 f.1 (hfa f hf)]
      exact cw1 f hf)
  refine ⟨M3, fun fuel => ?_, ?_, c3 (a1, 1) (List.mem_cons_self _ _),
    fun f hf => c3 f (List.mem_cons_of_mem _ hf)⟩
  · rw [show fuel + (17 + 10 * fs.length)
        = fuel + (5 + 8 * fs.length) + 8 + (4 + 2 * fs.length) from by omega, e1, e2, e3]
  · exact holds_congr _ _ _ _ _ _ _ _ _ _ _ H3 rfl rfl (by simp)

theorem exclusive_acquiring (fs : List (Nat × Nat)) (rest : List Event)
    (h : Option (Nat × Nat)) :
    exclusive (fs.map (fun f => Event.acquiring f.2) ++ rest) h = exclusive rest h := by
  induction fs with
  | nil => rfl
  | cons f fs ih =>
    simp only [List.map_cons, List.cons_append]
    rw [← ih]
    cases h <;> simp [exclusive]

theorem exclusive_rounds (fs : List (Nat × Nat)) :
    exclusive (fs.flatMap (fun f =>
      [Event.acquired f.2, Event.releasing f.2, Event.released f.2])) none = true := by
  induction fs with
  | nil => rfl
  | cons f fs ih =>
    simp only [List.flatMap_cons, List.cons_append, List.nil_append]
    simpa [exclusive] using ih

theorem acquisitions_append (a b : List Event) :
    acquisitions (a ++ b) = acquisitions a ++ acquisitions b := by
  induction a with
  | nil => rfl
  | cons e a ih =>
    cases e <;> simp [acquisitions, ih]

theorem acquisitions_acquiring (fs : List (Nat × Nat)) :
    acquisitions (fs.map (fun f => Event.acquiring f.2)) = [] := by
  induction fs with
  | nil => rfl
  | cons f fs ih => simpa [acquisitions] using ih

theorem acquisitions_rounds (fs : List (Nat × Nat)) :
    acquisitions (fs.flatMap (fun f =>
      [Event.acquired f.2, Event.releasing f.2, Event.released f.2])) = fs.map Prod.snd := by
  induction fs with
  | nil => rfl
  | cons f fs ih =>
    simp only [List.flatMap_cons, List.cons_append, List.nil_append, List.map_cons]
    simpa [acquisitions] using ih

theorem test2_fibers_succ (k mtx : Nat) (obj stack : Nat → Nat) :
    test2_fibers (k + 1) mtx obj stack
      = FiberSpec.mk (obj 0) (stack 0) 1 mtx (test2_thread1 mtx 1)
        :: (List.range k).map (fun i =>
            FiberSpec.mk (obj (i + 1)) (stack (i + 1)) 2 mtx (test2_thread2 mtx (i + 2))) := by
  simp [test2_fibers, List.range_succ_eq_map, List.map_map, Function.comp_def]

/-- C18. For every `n ≥ 1`, `test2` with `n` contenders, started with no
running thread and an empty ready queue, the fibers and the main thread at
distinct addresses, returns from `UScheduler::Run` (within `10 n + 7` steps of
the fibers): the function of every fiber has returned, the counter is `n` (as
an `unsigned int`), the mutex is free with an empty wait list so that its
destructor passes both assertions, the output written shows no acquisition
while another fiber holds the mutex, the acquisitions are by fiber 1 (twice,
the second nested), then fibers 2, ..., n in that order, the ready queue is
empty and no thread is running. -/
theorem test2_contenders (pMain mtx n fuel : Nat) (obj stack : Nat → Nat) (M : Machine)
    (hn : 1 ≤ n)
    (hrun : M.world.sched.m_pRunningThread = none)
    (hq : M.world.sched.m_readyQueue = [])
    (hobj : ∀ i < n, ∀ j < n, obj i = obj j → i = j)
    (hmain : ∀ i < n, obj i ≠ pMain)
    (hfuel : 10 * n + 7 ≤ fuel) :
    ∃ M3 log, test2 pMain fuel n mtx obj stack M = .ok (some M3) ∧
      M3.out = M.out ++ log ∧
      (∀ i < n, M3.code (obj i) = []) ∧
      M3.count = n % 4294967296 ∧
      M3.world.mutexes mtx = Mutex.mk none 0 [] ∧
      Mutex.destroy (M3.world.mutexes mtx) = .ok () ∧
      exclusive log none = true ∧
      acquisitions log = 1 :: (List.range n).map (fun i => i + 1) ∧
      M3.world.sched.m_readyQueue = [] ∧ M3.world.sched.m_pRunningThread = none := by
  obtain ⟨k, rfl⟩ : ∃ k, n = k + 1 := ⟨n - 1, by omega⟩
  have hndf : ((test2_fibers (k + 1) mtx obj stack).map (fun f => f.p)).Nodup := by
    simp only [test2_fibers, List.map_map, Function.comp_def]
    exact List.Nodup.map_on
      (fun x hx y hy h => hobj x (List.mem_range.mp hx) y (List.mem_range.mp hy) h)
      (List.nodup_range (k + 1))
  obtain ⟨cq, cr, cm, cc, co, ccode, _⟩ := createAll_spec (test2_fibers (k + 1) mtx obj stack)
    { M with
      world := { M.world with mutexes := Function.update M.world.mutexes mtx Mutex.new },
      count := 0 } hndf
  generalize hM2 : Machine.createAll (test2_fibers (k + 1) mtx obj stack)
    { M with
      world := { M.world with mutexes := Function.update M.world.mutexes mtx Mutex.new },
      count := 0 } = M2 at cq cr cm cc co ccode
  have htest : test2 pMain fuel (k + 1) mtx obj stack M = Machine.Run pMain fuel M2 := by
    rw [← hM2]
    rfl
  rw [test2_fibers_succ] at cq ccode
  have hnd0 := hndf
  rw [test2_fibers_succ] at hnd0
  simp only [List.map_cons, List.map_map, Function.comp_def, List.nodup_cons, List.mem_map,
    List.mem_range, not_exists, not_and] at hnd0
  have cr2 : M2.world.sched.m_pRunningThread = none := cr.trans hrun
  have cq2 : M2.world.sched.m_readyQueue
      = some (obj 0) :: (List.range k).map (fun i => some (obj (i + 1))) := by
    rw [cq]
    show M.world.sched.m_readyQueue ++ _ = _
    rw [hq]
    simp [List.map_map, Function.comp_def]
  have henter := Run_enter_cons pMain (obj 0) _ M2.world.sched cr2 cq2
  have hfs1 : ((List.range k).map (fun i => (obj (i + 1), i + 2))).map Prod.fst
      = (List.range k).map (fun i => obj (i + 1)) := by
    simp [List.map_map, Function.comp_def]
  have hpmf : pMain ∉ ((List.range k).map (fun i => (obj (i + 1), i + 2))).map Prod.fst := by
    rw [hfs1]
    simp only [List.mem_map, List.mem_range, not_exists, not_and]
    exact fun i hi e => hmain (i + 1) (by omega) e
  have ha1 : obj 0 ∉ ((List.range k).map (fun i => (obj (i + 1), i + 2))).map Prod.fst := by
    rw [hfs1]
    simp only [List.mem_map, List.mem_range, not_exists, not_and]
    exact fun i hi e => hnd0.1 i hi e
  have hndt : (((List.range k).map (fun i => (obj (i + 1), i + 2))).map Prod.fst).Nodup := by
    rw [hfs1]
    exact hnd0.2
  obtain ⟨M5, e5, H5, c5, cf5⟩ := test2_fibers_run pMain mtx (obj 0)
    ((List.range k).map (fun i => (obj (i + 1), i + 2)))
    { M2 with
      world :=
        { M2.world with
          sched :=
            { UThread.ctor_main pMain M2.world.sched with
              m_pMainThread := some pMain,
              m_pRunningThread := some (obj 0),
              m_readyQueue := (List.range k).map (fun i => some (obj (i + 1))) } } }
    0 M.out
    ⟨rfl, rfl, by rw [hfs1]; simp [List.map_map, Function.comp_def],
      by show M2.world.mutexes mtx = _
         rw [cm]
         exact Function.update_same _ _ _,
      cc, co⟩
    hndt ha1 (hmain 0 (by omega)) hpmf
    (ccode _ (List.mem_cons_self _ _))
    (by
      intro f hf
      obtain ⟨i, hi, rfl⟩ := List.mem_map.mp hf
      exact ccode (FiberSpec.mk (obj (i + 1)) (stack (i + 1)) 2 mtx (test2_thread2 mtx (i + 2)))
        (List.mem_cons_of_mem _ (List.mem_map.mpr ⟨i, hi, rfl⟩)))
  obtain ⟨hm5, hr5, hq5, hmx5, hc5, ho5⟩ := H5
  have hexec := e5 (fuel - (17 + 10 * ((List.range k).map (fun i => (obj (i + 1), i + 2))).length))
  rw [Nat.sub_add_cancel (by simp only [List.length_map, List.length_range]; omega),
    exec_main pMain _ M5 hr5] at hexec
  have hRun := Run_switched pMain fuel M2 M5 _ henter hexec hr5 (by rw [hq5]; rfl)
  refine ⟨_, _, htest.trans hRun, ho5, ?_, ?_, hmx5, ?_, ?_, ?_, ?_, rfl⟩
  · intro i hi
    show M5.code (obj i) = []
    cases i with
    | zero => exact c5
    | succ j =>
      exact cf5 (obj (j + 1), j + 2)
        (List.mem_map.mpr ⟨j, List.mem_range.mpr (by omega), rfl⟩)
  · show M5.count = _
    rw [hc5]
    simp
  · show Mutex.destroy (M5.world.mutexes mtx) = .ok ()
    rw [hmx5]
    rfl
  · generalize (List.range k).map (fun i => (obj (i + 1), i + 2)) = fs
    simp only [List.append_assoc, List.cons_append, List.nil_append]
    simp [exclusive, exclusive_acquiring, exclusive_rounds]
  · simp only [acquisitions_append, acquisitions_acquiring, acquisitions_rounds]
    simp [acquisitions, List.range_succ_eq_map, List.map_map, Function.comp_def]
  · show (UThread.dtor pMain _).m_readyQueue = []
    simp [UThread.dtor, hq5]

/-- Witness of C18: test 2 as the source has it, three fibers (at addresses
1, 2, 3) on mutex 0, the main thread at 100, from the machine at program
start. -/
theorem test2_contenders_witness :
    ∃ M3 log, test2 100 37 3 0 (fun i => i + 1) (fun i => i + 200) exampleMachine
        = .ok (some M3) ∧
      M3.out = exampleMachine.out ++ log ∧
      (∀ i < 3, M3.code (i + 1) = []) ∧
      M3.count = 3 ∧
      M3.world.mutexes 0 = Mutex.mk none 0 [] ∧
      Mutex.destroy (M3.world.mutexes 0) = .ok () ∧
      exclusive log none = true ∧
      acquisitions log = [1, 1, 2, 3] ∧
      M3.world.sched.m_readyQueue = [] ∧ M3.world.sched.m_pRunningThread = none :=
  test2_contenders 100 0 3 37 (fun i => i + 1) (fun i => i + 200) exampleMachine
    (by norm_num) rfl rfl (by intro i _ j _ h; have h2 : i + 1 = j + 1 := h; omega)
    (by intro i hi h; have h2 : i + 1 = 100 := h; omega) (by norm_num)

/-! ### Permit conservation -/

theorem postCount_replicate (n : Nat) (s : Runtime) :
    postCount (List.replicate n (SemaphoreCall.Post, s)) = n ∧
    waitCount (List.replicate n (SemaphoreCall.Post, s)) = 0 := by
  induction n with
  | zero => exact ⟨rfl, rfl⟩
  | succ n ih =>
    rw [List.replicate_succ]
    unfold postCount waitCount at ih ⊢
    simp only [List.filter_cons, decide_True, if_true, List.length_cons,
      show decide (SemaphoreCall.Post = SemaphoreCall.Wait) = false from rfl]
    exact ⟨by rw [ih.1], ih.2⟩

theorem counts_cons (e : SemaphoreCall × Runtime) (rest : List (SemaphoreCall × Runtime)) :
    (e.1 = SemaphoreCall.Wait →
      waitCount (e :: rest) = waitCount rest + 1 ∧ postCount (e :: rest) = postCount rest) ∧
    (e.1 = SemaphoreCall.Post →
      waitCount (e :: rest) = waitCount rest ∧ postCount (e :: rest) = postCount rest + 1) := by
  unfold waitCount postCount
  constructor <;> intro h <;> simp [List.filter_cons, h]

/-- One call: what it does to the balance of permits and waiters, and whether
it satisfies a `Wait`. -/
theorem sem_call_balance (k : SemaphoreCall) (sem sem1 : Semaphore) (s s1 : Runtime)
    (hJ : sem.invariant ∧ sem.m_permits ≤ INT_MAX)
    (hno : ¬ (k = SemaphoreCall.Post ∧ sem.m_waitList = [] ∧ sem.m_permits = INT_MAX))
    (hcall : Semaphore.call k sem s = .ok (sem1, s1)) :
    (k = SemaphoreCall.Wait →
      sem1.m_permits - sem1.m_waitList.length = sem.m_permits - sem.m_waitList.length - 1 ∧
      (sem1.m_waitList.length : Int) + (if sem.m_permits > 0 then 1 else 0)
        = sem.m_waitList.length + 1) ∧
    (k = SemaphoreCall.Post →
      sem1.m_permits - sem1.m_waitList.length = sem.m_permits - sem.m_waitList.length + 1 ∧
      (sem1.m_waitList.length : Int) + (if sem.m_waitList ≠ [] then 1 else 0)
        = sem.m_waitList.length) := by
  obtain ⟨⟨hnonneg, hzero⟩, hmax⟩ := hJ
  unfold INT_MAX at hmax hno
  cases hr : s.m_pRunningThread with
  | none =>
    cases k <;>
      simp [Semaphore.call, Semaphore.Wait, Semaphore.Post, UThread.Current, hr] at hcall
  | some x =>
    cases k with
    | Wait =>
      refine ⟨fun _ => ?_, fun h => by cases h⟩
      simp only [Semaphore.call] at hcall
      by_cases hp : 0 < sem.m_permits
      · rw [Wait_permit sem s x hr hp] at hcall
        simp only [Except.ok.injEq, Prod.mk.injEq] at hcall
        rw [← hcall.1]
        have hexact : toInt32 (sem.m_permits - 1) = sem.m_permits - 1 :=
          toInt32_of_range _ (by omega) (by omega)
        dsimp only
        rw [hexact]
        simp only [gt_iff_lt, hp, if_true]
        exact ⟨by omega, trivial⟩
      · rw [Wait_blocked sem s x hr (by omega)] at hcall
        cases hpark : UThread.Park s with
        | error err => simp [hpark] at hcall
        | ok s2 =>
          simp only [hpark, Except.ok.injEq, Prod.mk.injEq] at hcall
          rw [← hcall.1]
          dsimp only
          simp only [List.length_append, List.length_singleton, gt_iff_lt, hp, if_false]
          push_cast
          omega
    | Post =>
      refine ⟨fun h => (nomatch h), fun _ => ?_⟩
      simp only [Semaphore.call] at hcall
      cases hw : sem.m_waitList with
      | nil =>
        rw [Post_empty sem s x hr hw] at hcall
        simp only [Except.ok.injEq, Prod.mk.injEq] at hcall
        rw [← hcall.1]
        have hlt : sem.m_permits ≠ 2147483647 := fun e => hno ⟨rfl, hw, e⟩
        have hexact : toInt32 (sem.m_permits + 1) = sem.m_permits + 1 :=
          toInt32_of_range _ (by omega) (by omega)
        dsimp only
        rw [hexact]
        simp only [hw, List.length_nil, ne_eq, not_true_eq_false, if_false]
        omega
      | cons v rest =>
        rw [Post_waiter sem s x v rest hr hw] at hcall
        simp only [Except.ok.injEq, Prod.mk.injEq] at hcall
        rw [← hcall.1]
        dsimp only
        simp only [hw, List.length_cons, ne_eq, reduceCtorEq, not_false_eq_true, if_true]
        push_cast
        omega

theorem sem_history_balance (h : List (SemaphoreCall × Runtime)) (sem sem2 : Semaphore)
    (hJ : sem.invariant ∧ sem.m_permits ≤ INT_MAX)
    (hin : Semaphore.withinInt h sem = true)
    (hrun : Semaphore.history h sem = .ok sem2) :
    sem2.m_permits - sem2.m_waitList.length
      = sem.m_permits - sem.m_waitList.length + postCount h - waitCount h ∧
    (sem2.m_waitList.length : Int) + Semaphore.satisfied h sem
      = sem.m_waitList.length + waitCount h := by
  induction h generalizing sem with
  | nil =>
    simp only [Semaphore.history, Except.ok.injEq] at hrun
    rw [← hrun]
    simp [postCount, waitCount, Semaphore.satisfied]
  | cons e rest ih =>
    simp only [Semaphore.history] at hrun
    simp only [Semaphore.withinInt, Bool.and_eq_true, Bool.not_eq_true', Bool.and_eq_false_imp,
      decide_eq_true_eq, decide_eq_false_iff_not] at hin
    cases hcall : Semaphore.call e.1 sem e.2 with
    | error err => simp [hcall] at hrun
    | ok r =>
      simp only [hcall] at hrun hin
      have hno : ¬ (e.1 = SemaphoreCall.Post ∧ sem.m_waitList = [] ∧ sem.m_permits = INT_MAX) :=
        fun hno => hin.1 ⟨hno.1, hno.2.1⟩ hno.2.2
      have hstep := sem_call_inRange e.1 sem r.1 e.2 r.2 hJ hno hcall
      obtain ⟨hbal, hsat⟩ := ih r.1 hstep hin.2 hrun
      obtain ⟨hW, hP⟩ := sem_call_balance e.1 sem r.1 e.2 r.2 hJ hno hcall
      obtain ⟨cW, cP⟩ := counts_cons e rest
      have hsatdef : Semaphore.satisfied (e :: rest) sem
          = (if (e.1 = SemaphoreCall.Wait ∧ sem.m_permits > 0)
                ∨ (e.1 = SemaphoreCall.Post ∧ sem.m_waitList ≠ []) then 1 else 0)
            + Semaphore.satisfied rest r.1 := by
        simp only [Semaphore.satisfied, hcall]
      rw [hsatdef]
      cases he : e.1 with
      | Wait =>
        obtain ⟨h1, h2⟩ := hW he
        obtain ⟨c1, c2⟩ := cW he
        rw [c1, c2]
        simp only [true_and, reduceCtorEq, false_and, or_false]
        push_cast
        constructor
        · omega
        · split_ifs at h2 ⊢ <;> omega
      | Post =>
        obtain ⟨h1, h2⟩ := hP he
        obtain ⟨c1, c2⟩ := cP he
        rw [c1, c2]
        simp only [true_and, reduceCtorEq, false_and, false_or]
        push_cast
        constructor
        · omega
        · split_ifs at h2 ⊢ <;> omega

/-- C26, shown false as stated: after 2147483648 successive `Post` calls by
fiber 1 on a new semaphore nobody waits and the 32-bit `m_permits` has wrapped
to -2147483648, while the calls made so far are 2147483648 `Post`s and no
`Wait`. -/
theorem permits_lost_at_overflow :
    ∃ sem, Semaphore.history
        (List.replicate 2147483648 (SemaphoreCall.Post, exampleAlone)) Semaphore.new = .ok sem ∧
      sem.m_permits - sem.m_waitList.length
        ≠ (postCount (List.replicate 2147483648 (SemaphoreCall.Post, exampleAlone)) : Int)
          - waitCount (List.replicate 2147483648 (SemaphoreCall.Post, exampleAlone)) := by
  have hposts := post_from_new exampleAlone 1 rfl 2147483648 (-2147483648) (by decide)
  refine ⟨_, hposts, ?_⟩
  rw [(postCount_replicate 2147483648 exampleAlone).1,
    (postCount_replicate 2147483648 exampleAlone).2]
  show (-2147483648 : Int) - (([] : List Ptr).length : Int) ≠ _
  simp

/-- C26 as amended: starting from a new `Semaphore`, after every history of
`Wait` and `Post` calls in which `Post` is never called with an empty wait list
while `m_permits` is 2147483647, `m_permits` minus the length of the wait list
equals the number of `Post` calls minus the number of `Wait` calls, and the
number of `Wait` calls satisfied (returned at once or unparked by a `Post`) is
the smaller of the two numbers. -/
theorem permit_conservation (h : List (SemaphoreCall × Runtime)) (sem : Semaphore)
    (hin : Semaphore.withinInt h Semaphore.new = true)
    (hrun : Semaphore.history h Semaphore.new = .ok sem) :
    sem.m_permits - sem.m_waitList.length = (postCount h : Int) - waitCount h ∧
    Semaphore.satisfied h Semaphore.new = min (postCount h) (waitCount h) := by
  have hJ0 : Semaphore.new.invariant ∧ Semaphore.new.m_permits ≤ INT_MAX :=
    ⟨⟨le_refl _, fun _ => rfl⟩, by decide⟩
  obtain ⟨hbal, hsat⟩ := sem_history_balance h Semaphore.new sem hJ0 hin hrun
  obtain ⟨⟨hnonneg, hzero⟩, _⟩ := sem_history_inRange h Semaphore.new sem hJ0 hin hrun
  have hb : sem.m_permits - sem.m_waitList.length = (postCount h : Int) - waitCount h := by
    rw [hbal]
    show (0 : Int) - (([] : List Ptr).length : Int) + _ - _ = _
    simp
  have hs : (sem.m_waitList.length : Int) + Semaphore.satisfied h Semaphore.new
      = waitCount h := by
    rw [hsat]
    show ((([] : List Ptr).length : Nat) : Int) + _ = _
    simp
  refine ⟨hb, ?_⟩
  by_cases hw : sem.m_waitList = []
  · rw [hw] at hb hs
    simp only [List.length_nil, Nat.cast_zero, sub_zero, zero_add] at hb hs
    omega
  · have hp := hzero hw
    rw [hp] at hb
    omega

/-- Witness of C26 as amended: the calls of `exampleSignals` (two `Post`s,
three `Wait`s) on a new semaphore leave no permit and fiber 3 waiting. -/
theorem permit_conservation_witness :
    (0 : Int) - ([some 3] : List Ptr).length
        = (postCount exampleSignals : Int) - waitCount exampleSignals ∧
    Semaphore.satisfied exampleSignals Semaphore.new
      = min (postCount exampleSignals) (waitCount exampleSignals) :=
  permit_conservation exampleSignals { m_permits := 0, m_waitList := [some 3] } rfl rfl

/-! ### Lists of threads: appending a new entry, removing a head -/

theorem separate_push (F : Place → List Ptr) (A : Place) (x : Ptr)
    (hS : Separate F) (hx : Apart F x) :
    Separate (Function.update F A (F A ++ [x])) := by
  obtain ⟨hnd, hdis⟩ := hS
  refine ⟨fun pl => ?_, fun pl1 pl2 hne y hy => ?_⟩
  · by_cases h : pl = A
    · subst h
      rw [Function.update_same]
      refine List.nodup_append.mpr ⟨hnd pl, List.nodup_singleton x, ?_⟩
      intro z hz hz2
      rw [List.mem_singleton] at hz2
      subst hz2
      exact hx pl hz
    · rw [Function.update_noteq h]
      exact hnd pl
  · by_cases h1 : pl1 = A
    · subst h1
      rw [Function.update_same] at hy
      rw [Function.update_noteq (Ne.symm hne)]
      rcases List.mem_append.mp hy with h | h
      · exact hdis pl1 pl2 hne y h
      · rw [List.mem_singleton] at h
        subst h
        exact hx pl2
    · rw [Function.update_noteq h1] at hy
      by_cases h2 : pl2 = A
      · subst h2
        rw [Function.update_same]
        intro hmem
        rcases List.mem_append.mp hmem with h | h
        · exact hdis pl1 pl2 hne y hy h
        · rw [List.mem_singleton] at h
          subst h
          exact hx pl1 hy
      · rw [Function.update_noteq h2]
        exact hdis pl1 pl2 hne y hy

theorem apart_push (F : Place → List Ptr) (A : Place) (x y : Ptr)
    (hy : Apart F y) (hne : y ≠ x) : Apart (Function.update F A (F A ++ [x])) y := by
  intro pl
  by_cases h : pl = A
  · subst h
    rw [Function.update_same]
    intro hmem
    rcases List.mem_append.mp hmem with h | h
    · exact hy pl h
    · exact hne (List.mem_singleton.mp h)
  · rw [Function.update_noteq h]
    exact hy pl

theorem separate_pop (F : Place → List Ptr) (A : Place) (h : Ptr) (t : List Ptr)
    (hS : Separate F) (hA : F A = h :: t) :
    Separate (Function.update F A t) ∧ Apart (Function.update F A t) h := by
  obtain ⟨hnd, hdis⟩ := hS
  have hndA := hnd A
  rw [hA, List.nodup_cons] at hndA
  have hhA : h ∈ F A := by rw [hA]; exact List.mem_cons_self _ _
  have htA : ∀ y ∈ t, y ∈ F A := fun y hy => by rw [hA]; exact List.mem_cons_of_mem _ hy
  refine ⟨⟨fun pl => ?_, fun pl1 pl2 hne y hy => ?_⟩, fun pl => ?_⟩
  · by_cases hp : pl = A
    · subst hp
      rw [Function.update_same]
      exact hndA.2
    · rw [Function.update_noteq hp]
      exact hnd pl
  · by_cases h1 : pl1 = A
    · subst h1
      rw [Function.update_same] at hy
      rw [Function.update_noteq (Ne.symm hne)]
      exact hdis pl1 pl2 hne y (htA y hy)
    · rw [Function.update_noteq h1] at hy
      by_cases h2 : pl2 = A
      · subst h2
        rw [Function.update_same]
        exact fun hmem => hdis pl1 pl2 hne y hy (htA y hmem)
      · rw [Function.update_noteq h2]
        exact hdis pl1 pl2 hne y hy
  · by_cases hp : pl = A
    · subst hp
      rw [Function.update_same]
      exact hndA.1
    · rw [Function.update_noteq hp]
      exact hdis A pl (Ne.symm hp) h hhA

theorem apart_pop (F : Place → List Ptr) (A : Place) (h y : Ptr) (t : List Ptr)
    (hy : Apart F y) (hA : F A = h :: t) : Apart (Function.update F A t) y := by
  intro pl
  by_cases hp : pl = A
  · subst hp
    rw [Function.update_same]
    exact fun hmem => hy pl (by rw [hA]; exact List.mem_cons_of_mem _ hmem)
  · rw [Function.update_noteq hp]
    exact hy pl

theorem within_push (F : Place → List Ptr) (A : Place) (a : Nat) (live : List Nat)
    (hW : Within F live) (ha : a ∈ live) :
    Within (Function.update F A (F A ++ [some a])) live := by
  intro pl y hy
  by_cases hp : pl = A
  · subst hp
    rw [Function.update_same] at hy
    rcases List.mem_append.mp hy with h | h
    · exact hW pl y h
    · exact ⟨a, List.mem_singleton.mp h, ha⟩
  · rw [Function.update_noteq hp] at hy
    exact hW pl y hy

theorem within_pop (F : Place → List Ptr) (A : Place) (h : Ptr) (t : List Ptr)
    (live : List Nat) (hW : Within F live) (hA : F A = h :: t) :
    Within (Function.update F A t) live := by
  intro pl y hy
  by_cases hp : pl = A
  · subst hp
    rw [Function.update_same] at hy
    exact hW pl y (by rw [hA]; exact List.mem_cons_of_mem _ hy)
  · rw [Function.update_noteq hp] at hy
    exact hW pl y hy

theorem within_mono (F : Place → List Ptr) (live live1 : List Nat)
    (hW : Within F live) (hsub : ∀ a ∈ live, a ∈ live1) : Within F live1 := by
  intro pl y hy
  obtain ⟨a, ha, hal⟩ := hW pl y hy
  exact ⟨a, ha, hsub a hal⟩

theorem within_filter (F : Place → List Ptr) (live : List Nat) (r : Nat)
    (hW : Within F live) (hr : Apart F (some r)) :
    Within F (live.filter (fun a => a ≠ r)) := by
  intro pl y hy
  obtain ⟨a, ha, hal⟩ := hW pl y hy
  refine ⟨a, ha, List.mem_filter.mpr ⟨hal, ?_⟩⟩
  simp only [ne_eq, decide_not, Bool.not_eq_true', decide_eq_false_iff_not]
  intro e
  subst e
  subst ha
  exact hr pl hy

theorem within_head (F : Place → List Ptr) (A : Place) (x : Ptr) (t : List Ptr)
    (live : List Nat) (hW : Within F live) (hA : F A = x :: t) :
    ∃ a, x = some a ∧ a ∈ live :=
  hW A x (by rw [hA]; exact List.mem_cons_self _ _)

theorem apart_of_fresh (F : Place → List Ptr) (live : List Nat) (p : Nat)
    (hW : Within F live) (hp : p ∉ live) : Apart F (some p) := by
  intro pl hmem
  obtain ⟨a, ha, hal⟩ := hW pl _ hmem
  cases ha
  exact hp hal

theorem apart_none (F : Place → List Ptr) (live : List Nat) (hW : Within F live) :
    Apart F none := by
  intro pl hmem
  obtain ⟨a, ha, _⟩ := hW pl _ hmem
  cases ha

/-! ### What each kind of action does to a sound state -/

theorem mem_filter_ne (live : List Nat) (a r : Nat) (ha : a ∈ live) (hne : a ≠ r) :
    a ∈ live.filter (fun b => b ≠ r) := by
  refine List.mem_filter.mpr ⟨ha, ?_⟩
  simpa using hne

/-- The lists hold objects of `live1` when they held objects of `live`, the
running thread is in no list, and `live1` lacks at most the running thread. -/
theorem within_left (F : Place → List Ptr) (live live1 : List Nat) (run : Ptr)
    (hW : Within F live) (hap : Apart F run)
    (hl : ∀ a ∈ live, some a ≠ run → a ∈ live1) : Within F live1 := by
  intro pl y hy
  obtain ⟨a, ha, hal⟩ := hW pl y hy
  refine ⟨a, ha, hl a hal ?_⟩
  intro e
  rw [← ha] at e
  rw [e] at hy
  exact hap pl hy

/-- `Create`: the new object goes to the tail of the ready queue. -/
theorem sound_create (F : Place → List Ptr) (live : List Nat) (run main : Ptr) (p : Nat)
    (hS : Sound F live run main) (hp : p ∉ live) (hc : run = none ∨ run ≠ main) :
    Sound (Function.update F Place.ready (F Place.ready ++ [some p])) (p :: live) run main := by
  obtain ⟨hsep, hap, hw, hmain, hrun⟩ := hS
  have hfresh := apart_of_fresh F live p hw hp
  have hw1 : Within F (p :: live) := within_mono F live _ hw (fun a ha => List.mem_cons_of_mem _ ha)
  refine ⟨separate_push _ _ _ hsep hfresh, apart_push _ _ _ _ hap ?_,
    within_push _ _ p _ hw1 (List.mem_cons_self _ _), ?_, ?_⟩
  · intro e
    rcases hrun p e with h | h
    · exact hp h
    · rcases hc with h1 | h1
      · rw [e] at h1
        cases h1
      · exact h1 (by rw [e, h])
  · intro pm hm pl hpl
    rw [Function.update_noteq hpl]
    exact hmain pm hm pl hpl
  · intro r hr
    rcases hrun r hr with h | h
    · exact Or.inl (List.mem_cons_of_mem _ h)
    · exact Or.inr h

/-- `Yield` with ready threads: the running thread goes to the tail of the
ready queue and the head runs. -/
theorem sound_yield (F : Place → List Ptr) (live : List Nat) (main : Ptr) (r h : Nat)
    (t : List Ptr) (hS : Sound F live (some r) main) (hm : main ≠ some r)
    (hq : F Place.ready = some h :: t) :
    Sound (Function.update F Place.ready (t ++ [some r])) live (some h) main := by
  obtain ⟨hsep, hap, hw, hmain, hrun⟩ := hS
  have hrl : r ∈ live := (hrun r rfl).resolve_right hm
  have hsep1 := separate_push F Place.ready (some r) hsep hap
  have hq1 : Function.update F Place.ready (F Place.ready ++ [some r]) Place.ready
      = some h :: (t ++ [some r]) := by
    rw [Function.update_same, hq]
    rfl
  have hidem : Function.update (Function.update F Place.ready (F Place.ready ++ [some r]))
      Place.ready (t ++ [some r]) = Function.update F Place.ready (t ++ [some r]) :=
    Function.update_idem _ _ _
  obtain ⟨hsep2, hap2⟩ := separate_pop _ Place.ready (some h) (t ++ [some r]) hsep1 hq1
  rw [hidem] at hsep2 hap2
  have hw2 := within_pop _ Place.ready (some h) (t ++ [some r]) live
    (within_push F Place.ready r live hw hrl) hq1
  rw [hidem] at hw2
  obtain ⟨a, ha, hal⟩ := within_head F Place.ready (some h) t live hw hq
  cases ha
  refine ⟨hsep2, hap2, hw2, ?_, ?_⟩
  · intro pm hpm pl hpl
    rw [Function.update_noteq hpl]
    exact hmain pm hpm pl hpl
  · intro r1 hr1
    cases hr1
    exact Or.inl hal

/-- `Exit` with ready threads, called by the running thread or by the host:
the caller, if it is a thread, is destroyed, and the head of the ready queue
runs. -/
theorem sound_exit_next (F : Place → List Ptr) (live live1 : List Nat) (run main : Ptr)
    (h : Nat) (t : List Ptr) (hS : Sound F live run main)
    (hq : F Place.ready = some h :: t) (hl : ∀ a ∈ live, some a ≠ run → a ∈ live1) :
    Sound (Function.update F Place.ready t) live1 (some h) main := by
  obtain ⟨hsep, hap, hw, hmain, hrun⟩ := hS
  obtain ⟨hsep2, hap2⟩ := separate_pop _ Place.ready (some h) t hsep hq
  obtain ⟨a, ha, hal⟩ := within_head F Place.ready (some h) t live hw hq
  cases ha
  have hhr : some h ≠ run := by
    intro e
    rw [← e] at hap
    exact hap Place.ready (by rw [hq]; exact List.mem_cons_self _ _)
  refine ⟨hsep2, hap2, within_pop _ _ _ _ _ (within_left F live live1 run hw hap hl) hq, ?_, ?_⟩
  · intro pm hpm pl hpl
    rw [Function.update_noteq hpl]
    exact hmain pm hpm pl hpl
  · intro r1 hr1
    cases hr1
    exact Or.inl (hl h hal hhr)

/-- `Exit` with nothing ready, called by the running thread or by the host:
the caller, if it is a thread, is destroyed, and the thread the handle names
runs. -/
theorem sound_exit_main (F : Place → List Ptr) (live live1 : List Nat) (run main : Ptr)
    (pm : Nat) (hS : Sound F live run main) (hm : main = some pm) (hq : F Place.ready = [])
    (hl : ∀ a ∈ live, some a ≠ run → a ∈ live1) :
    Sound F live1 (some pm) main := by
  obtain ⟨hsep, hap, hw, hmain, hrun⟩ := hS
  refine ⟨hsep, fun pl => ?_, within_left F live live1 run hw hap hl, hmain,
    fun r1 hr1 => Or.inr (hm.trans hr1)⟩
  by_cases hpl : pl = Place.ready
  · rw [hpl, hq]
    exact List.not_mem_nil _
  · exact hmain pm hm pl hpl

/-- A thread that is in no wait list is in none after another thread was
appended to one. -/
theorem away_push (F : Place → List Ptr) (A : Place) (r pm : Nat)
    (hmain : ∀ pl, pl ≠ Place.ready → some pm ∉ F pl) (hne : pm ≠ r) :
    ∀ pl, pl ≠ Place.ready → some pm ∉ Function.update F A (F A ++ [some r]) pl := by
  intro pl hpl
  by_cases hpA : pl = A
  · subst hpA
    rw [Function.update_same]
    intro hmem
    rcases List.mem_append.mp hmem with h | h
    · exact hmain pl hpl h
    · exact hne (Option.some.inj (List.mem_singleton.mp h))
  · rw [Function.update_noteq hpA]
    exact hmain pl hpl

/-- A blocking `Acquire` or `Wait` with ready threads: the running thread goes
to the tail of the wait list and the head of the ready queue runs. -/
theorem sound_block_next (F : Place → List Ptr) (live : List Nat) (main : Ptr) (A : Place)
    (r h : Nat) (t : List Ptr) (hS : Sound F live (some r) main) (hm : main ≠ some r)
    (hA : A ≠ Place.ready) (hq : F Place.ready = some h :: t) :
    Sound (Function.update (Function.update F A (F A ++ [some r])) Place.ready t) live
      (some h) main := by
  obtain ⟨hsep, hap, hw, hmain, hrun⟩ := hS
  have hrl : r ∈ live := (hrun r rfl).resolve_right hm
  have hsep1 := separate_push F A (some r) hsep hap
  have hq1 : Function.update F A (F A ++ [some r]) Place.ready = some h :: t := by
    rw [Function.update_noteq (Ne.symm hA), hq]
  obtain ⟨hsep2, hap2⟩ := separate_pop _ Place.ready (some h) t hsep1 hq1
  obtain ⟨a, ha, hal⟩ := within_head F Place.ready (some h) t live hw hq
  cases ha
  refine ⟨hsep2, hap2, within_pop _ _ _ _ _ (within_push F A r live hw hrl) hq1, ?_, ?_⟩
  · intro pm hpm pl hpl
    rw [Function.update_noteq hpl]
    exact away_push F A r pm (hmain pm hpm) (fun e => hm (by rw [hpm, e])) pl hpl
  · intro r1 hr1
    cases hr1
    exact Or.inl hal

/-- A blocking `Acquire` or `Wait` with nothing ready: the running thread goes
to the tail of the wait list and the thread the handle names runs. -/
theorem sound_block_main (F : Place → List Ptr) (live : List Nat) (A : Place) (r pm : Nat)
    (hS : Sound F live (some r) (some pm)) (hne : pm ≠ r) (hA : A ≠ Place.ready)
    (hq : F Place.ready = []) :
    Sound (Function.update F A (F A ++ [some r])) live (some pm) (some pm) := by
  obtain ⟨hsep, hap, hw, hmain, hrun⟩ := hS
  have hrl : r ∈ live :=
    (hrun r rfl).resolve_right (fun e => hne (Option.some.inj e))
  have haway := away_push F A r pm (hmain pm rfl) hne
  refine ⟨separate_push F A (some r) hsep hap, fun pl => ?_, within_push F A r live hw hrl,
    fun pm1 hpm1 => ?_, fun r1 hr1 => Or.inr hr1⟩
  · by_cases hpl : pl = Place.ready
    · rw [hpl, Function.update_noteq (Ne.symm hA), hq]
      exact List.not_mem_nil _
    · exact haway pl hpl
  · cases hpm1
    exact haway

/-- A `Release` or `Post` that wakes a waiter: the head of the wait list goes to
the tail of the ready queue. -/
theorem sound_wake (F : Place → List Ptr) (live : List Nat) (run main : Ptr) (A : Place)
    (x : Ptr) (rest : List Ptr) (hS : Sound F live run main)
    (hA : A ≠ Place.ready) (hl : F A = x :: rest) :
    Sound (Function.update (Function.update F A rest) Place.ready (F Place.ready ++ [x])) live
      run main := by
  obtain ⟨hsep, hap, hw, hmain, hrun⟩ := hS
  obtain ⟨hsep1, hap1⟩ := separate_pop F A x rest hsep hl
  have hq1 : Function.update F A rest Place.ready = F Place.ready :=
    Function.update_noteq (Ne.symm hA) _ _
  have hxA : x ∈ F A := by rw [hl]; exact List.mem_cons_self _ _
  obtain ⟨a, ha, hal⟩ := within_head F A x rest live hw hl
  have hsep2 := separate_push _ Place.ready x hsep1 hap1
  rw [hq1] at hsep2
  have hne : run ≠ x := by
    intro e
    subst e
    exact hap A hxA
  have hap2 := apart_push _ Place.ready x run (apart_pop F A x run rest hap hl) hne
  rw [hq1] at hap2
  have hw2 := within_push _ Place.ready a live (within_pop F A x rest live hw hl) hal
  rw [hq1, ← ha] at hw2
  refine ⟨hsep2, hap2, hw2, ?_, hrun⟩
  intro pm hpm pl hpl
  rw [Function.update_noteq hpl]
  by_cases hpA : pl = A
  · subst hpA
    rw [Function.update_same]
    exact fun hmem => hmain pm hpm pl hpl (by rw [hl]; exact List.mem_cons_of_mem _ hmem)
  · rw [Function.update_noteq hpA]
    exact hmain pm hpm pl hpl

/-- `Run` with ready threads: the main thread is constructed and recorded, and
the head of the ready queue runs. -/
theorem sound_enter (F : Place → List Ptr) (live : List Nat) (main : Ptr) (pm h : Nat)
    (t : List Ptr) (hS : Sound F live none main) (hp : pm ∉ live)
    (hq : F Place.ready = some h :: t) :
    Sound (Function.update F Place.ready t) (pm :: live) (some h) (some pm) := by
  obtain ⟨hsep, hap, hw, hmain, hrun⟩ := hS
  obtain ⟨hsep2, hap2⟩ := separate_pop _ Place.ready (some h) t hsep hq
  obtain ⟨a, ha, hal⟩ := within_head F Place.ready (some h) t live hw hq
  cases ha
  refine ⟨hsep2, hap2,
    within_mono _ live _ (within_pop _ _ _ _ _ hw hq) (fun a ha => List.mem_cons_of_mem _ ha),
    ?_, ?_⟩
  · intro pm1 hpm1 pl hpl
    cases hpm1
    rw [Function.update_noteq hpl]
    exact apart_of_fresh F live pm hw hp pl
  · intro r1 hr1
    cases hr1
    exact Or.inl (List.mem_cons_of_mem _ hal)

/-- The rest of `Run`: no thread runs and the main thread is destroyed. -/
theorem sound_resume (F : Place → List Ptr) (live : List Nat) (main : Ptr) (pm : Nat)
    (hS : Sound F live (some pm) main) :
    Sound F (live.filter (fun a => a ≠ pm)) none main := by
  obtain ⟨hsep, hap, hw, hmain, hrun⟩ := hS
  refine ⟨hsep, apart_none F live hw, within_filter _ _ pm hw hap, hmain, ?_⟩
  intro r hr
  cases hr

/-! ### Every action the program can take keeps the world sound -/

theorem queueAt_sched (w : World) (s1 : Runtime) :
    World.queueAt { w with sched := s1 }
      = Function.update w.queueAt Place.ready s1.m_readyQueue := by
  funext pl
  cases pl with
  | ready => simp [World.queueAt]
  | mutex k => simp [World.queueAt]
  | semaphore j => simp [World.queueAt]

theorem queueAt_mutex (w : World) (s1 : Runtime) (i : Nat) (m1 : Mutex) :
    World.queueAt { w with sched := s1, mutexes := Function.update w.mutexes i m1 }
      = Function.update (Function.update w.queueAt (Place.mutex i) m1.m_waitList)
          Place.ready s1.m_readyQueue := by
  funext pl
  cases pl with
  | ready => simp [World.queueAt]
  | mutex k =>
    by_cases hk : k = i
    · subst hk
      simp [World.queueAt]
    · have hne : Place.mutex k ≠ Place.mutex i := fun e => hk (Place.mutex.inj e)
      simp [World.queueAt, Function.update_noteq hk, Function.update_noteq hne]
  | semaphore j => simp [World.queueAt]

theorem queueAt_semaphore (w : World) (s1 : Runtime) (j : Nat) (sem1 : Semaphore) :
    World.queueAt { w with sched := s1, semaphores := Function.update w.semaphores j sem1 }
      = Function.update (Function.update w.queueAt (Place.semaphore j) sem1.m_waitList)
          Place.ready s1.m_readyQueue := by
  funext pl
  cases pl with
  | ready => simp [World.queueAt]
  | mutex k => simp [World.queueAt]
  | semaphore k =>
    by_cases hk : k = j
    · subst hk
      simp [World.queueAt]
    · have hne : Place.semaphore k ≠ Place.semaphore j := fun e => hk (Place.semaphore.inj e)
      simp [World.queueAt, Function.update_noteq hk, Function.update_noteq hne]

theorem dtor_live (r : Nat) (s : Runtime) :
    (UThread.dtor r s).live = s.live.filter (fun a => a ≠ r) := by
  simp only [UThread.dtor, Runtime.live, List.filter_map]
  rfl

/-- A world whose lists, objects, running thread and main handle are those of a
sound world is sound. -/
theorem sound_of_same (w w1 : World) (hS : w.sound) (hq : w1.queueAt = w.queueAt)
    (hl : w1.sched.live = w.sched.live)
    (hr : w1.sched.m_pRunningThread = w.sched.m_pRunningThread)
    (hm : w1.sched.m_pMainThread = w.sched.m_pMainThread) : w1.sound := by
  unfold World.sound
  rw [hq, hl, hr, hm]
  exact hS

theorem queueAt_mutex_same (w : World) (i : Nat) (m1 : Mutex)
    (h : m1.m_waitList = (w.mutexes i).m_waitList) :
    World.queueAt { w with sched := w.sched, mutexes := Function.update w.mutexes i m1 }
      = w.queueAt := by
  rw [queueAt_mutex, h]
  have h1 : Function.update w.queueAt (Place.mutex i) (w.mutexes i).m_waitList = w.queueAt :=
    Function.update_eq_self _ _
  rw [h1]
  exact Function.update_eq_self _ _

theorem queueAt_semaphore_same (w : World) (j : Nat) (sem1 : Semaphore)
    (h : sem1.m_waitList = (w.semaphores j).m_waitList) :
    World.queueAt { w with sched := w.sched, semaphores := Function.update w.semaphores j sem1 }
      = w.queueAt := by
  rw [queueAt_semaphore, h]
  have h1 : Function.update w.queueAt (Place.semaphore j) (w.semaphores j).m_waitList
      = w.queueAt := Function.update_eq_self _ _
  rw [h1]
  exact Function.update_eq_self _ _

/-- In a sound world the ready queue is empty or starts with an existing
thread. -/
theorem sound_queue (w : World) (hS : w.sound) :
    w.sched.m_readyQueue = [] ∨ ∃ h t, w.sched.m_readyQueue = some h :: t := by
  cases hq : w.sched.m_readyQueue with
  | nil => exact Or.inl rfl
  | cons x t =>
    obtain ⟨a, ha, _⟩ := within_head w.queueAt Place.ready x t _ hS.2.2.1 hq
    exact Or.inr ⟨a, t, by rw [ha]⟩

/-- The objects `self_destroy` leaves: all but `this`. -/
theorem self_destroy_live (this : Ptr) (s : Runtime) :
    ∀ a ∈ s.live, some a ≠ this → a ∈ (UThread.self_destroy this s).live := by
  intro a ha hne
  cases this with
  | none => exact ha
  | some r =>
    show a ∈ (UThread.dtor r s).live
    rw [dtor_live]
    exact mem_filter_ne _ _ _ ha (fun e => hne (by rw [e]))

/-- A world is sound when its lists, with the ready queue of the new
scheduler state, and that state are. -/
theorem sound_sched (w : World) (s1 : Runtime)
    (h : Sound (Function.update w.queueAt Place.ready s1.m_readyQueue) s1.live
      s1.m_pRunningThread s1.m_pMainThread) :
    World.sound { w with sched := s1 } := by
  unfold World.sound
  rw [queueAt_sched]
  exact h

theorem queueAt_mutex_keep (w : World) (s1 : Runtime) (i : Nat) (m1 : Mutex)
    (hq : s1.m_readyQueue = w.sched.m_readyQueue) :
    World.queueAt { w with sched := s1, mutexes := Function.update w.mutexes i m1 }
      = Function.update w.queueAt (Place.mutex i) m1.m_waitList := by
  rw [queueAt_mutex, hq]
  have h1 : w.sched.m_readyQueue
      = Function.update w.queueAt (Place.mutex i) m1.m_waitList Place.ready := by
    rw [Function.update_noteq (by simp)]
    rfl
  rw [h1]
  exact Function.update_eq_self _ _

theorem queueAt_semaphore_keep (w : World) (s1 : Runtime) (j : Nat) (sem1 : Semaphore)
    (hq : s1.m_readyQueue = w.sched.m_readyQueue) :
    World.queueAt { w with sched := s1, semaphores := Function.update w.semaphores j sem1 }
      = Function.update w.queueAt (Place.semaphore j) sem1.m_waitList := by
  rw [queueAt_semaphore, hq]
  have h1 : w.sched.m_readyQueue
      = Function.update w.queueAt (Place.semaphore j) sem1.m_waitList Place.ready := by
    rw [Function.update_noteq (by simp)]
    rfl
  rw [h1]
  exact Function.update_eq_self _ _

/-- The running thread `r` of a sound world blocks on the list at `A`, to which
it has been appended: the world that `Park` leaves, if it returns, is sound. -/
theorem block_sound (w : World) (r : Nat) (A : Place) (hA : A ≠ Place.ready)
    (hS : w.sound) (hr : w.sched.m_pRunningThread = some r)
    (hl : w.sched.m_pRunningThread ≠ w.sched.m_pMainThread) (s1 : Runtime)
    (hpark : UThread.Park w.sched = .ok s1) :
    s1.live = w.sched.live ∧
      Sound (Function.update (Function.update w.queueAt A (w.queueAt A ++ [some r]))
        Place.ready s1.m_readyQueue) w.sched.live s1.m_pRunningThread s1.m_pMainThread := by
  have hS1 : Sound w.queueAt w.sched.live (some r) w.sched.m_pMainThread := by
    have := hS
    unfold World.sound at this
    rwa [hr] at this
  have hm : w.sched.m_pMainThread ≠ some r := fun e => hl (by rw [hr, e])
  rcases sound_queue w hS with hq | ⟨hd, t, hq⟩
  · cases hmain : w.sched.m_pMainThread with
    | none =>
      simp [UThread.Park, hr, hq, hmain, UScheduler.find_next_thread, context_switch] at hpark
    | some pm =>
      rw [Park_nil _ r pm hr hq hmain] at hpark
      simp only [Except.ok.injEq] at hpark
      subst hpark
      refine ⟨rfl, ?_⟩
      show Sound (Function.update (Function.update w.queueAt A (w.queueAt A ++ [some r]))
        Place.ready w.sched.m_readyQueue) w.sched.live (some pm) w.sched.m_pMainThread
      have h1 : w.sched.m_readyQueue
          = Function.update w.queueAt A (w.queueAt A ++ [some r]) Place.ready := by
        rw [Function.update_noteq (Ne.symm hA)]
        rfl
      rw [h1, Function.update_eq_self, hmain]
      rw [hmain] at hS1 hm
      exact sound_block_main _ _ A r pm hS1 (fun e => hm (by rw [e])) hA hq
  · rw [Park_cons _ r hd t hr hq] at hpark
    simp only [Except.ok.injEq] at hpark
    subst hpark
    exact ⟨rfl, sound_block_next _ _ _ A r hd t hS1 hm hA hq⟩

/-- A call the program can make leaves a sound world sound. -/
theorem step_sound (c : Call) (w w1 : World) (hS : w.sound)
    (hl : (Action.call c).legal w = true) (h : World.step c w = .ok w1) : w1.sound := by
  simp only [Action.legal, Bool.and_eq_true, decide_eq_true_eq] at hl
  obtain ⟨hcaller, hc⟩ := hl
  have hfiber : ∀ r, w.sched.m_pRunningThread = some r →
      w.sched.m_pRunningThread ≠ w.sched.m_pMainThread :=
    fun r hr => hcaller.resolve_left (by rw [hr]; simp)
  have hS1 : ∀ r, w.sched.m_pRunningThread = some r →
      Sound w.queueAt w.sched.live (some r) w.sched.m_pMainThread := by
    intro r hr
    have := hS
    unfold World.sound at this
    rwa [hr] at this
  have hself : Function.update w.queueAt Place.ready w.sched.m_readyQueue = w.queueAt :=
    Function.update_eq_self _ _
  cases c with
  | Create p stack function argument =>
    simp only [decide_eq_true_eq] at hc
    simp only [World.step, Except.ok.injEq] at h
    subst h
    unfold World.sound
    rw [queueAt_sched]
    exact sound_create _ _ _ _ p hS hc hcaller
  | Yield =>
    simp only [World.step] at h
    rcases sound_queue w hS with hq | ⟨hd, t, hq⟩
    · rw [Yield_nil _ hq] at h
      simp only [World.withSched, Except.ok.injEq] at h
      subst h
      exact hS
    · cases hr : w.sched.m_pRunningThread with
      | none =>
        simp [UThread.Yield, hq, hr, context_switch, push_back, front, pop_front,
          World.withSched] at h
      | some r =>
        rw [Yield_cons _ r hd t hr hq] at h
        simp only [World.withSched, Except.ok.injEq] at h
        subst h
        have hm : w.sched.m_pMainThread ≠ some r := fun e => hfiber r hr (by rw [hr, e])
        unfold World.sound
        rw [queueAt_sched]
        exact sound_yield _ _ _ r hd t (hS1 r hr) hm hq
  | Exit =>
    simp only [World.step] at h
    rcases sound_queue w hS with hq | ⟨hd, t, hq⟩
    · cases hm : w.sched.m_pMainThread with
      | none =>
        cases hx : UThread.Exit w.sched with
        | error e => simp [hx, World.withSched] at h
        | ok s1 =>
          exact absurd hx
            (Exit_fault _ (by simp [UScheduler.find_next_thread, hq, hm]) s1)
      | some pm =>
        rw [Exit_last _ pm hq hm] at h
        simp only [World.withSched, Except.ok.injEq] at h
        subst h
        obtain ⟨f1, f2, f3, _⟩ := self_destroy_fields w.sched.m_pRunningThread
          { w.sched with m_pRunningThread := some pm }
        apply sound_sched
        rw [f1, f2, f3]
        show Sound (Function.update w.queueAt Place.ready w.sched.m_readyQueue) _ (some pm)
          w.sched.m_pMainThread
        rw [hself]
        exact sound_exit_main _ _ _ _ _ pm hS hm hq
          (self_destroy_live w.sched.m_pRunningThread
            { w.sched with m_pRunningThread := some pm })
    · rw [Exit_next _ hd t hq] at h
      simp only [World.withSched, Except.ok.injEq] at h
      subst h
      obtain ⟨f1, f2, f3, _⟩ := self_destroy_fields w.sched.m_pRunningThread
        { w.sched with m_pRunningThread := some hd, m_readyQueue := t }
      apply sound_sched
      rw [f1, f2, f3]
      exact sound_exit_next _ _ _ _ _ hd t hS hq
        (self_destroy_live w.sched.m_pRunningThread
          { w.sched with m_pRunningThread := some hd, m_readyQueue := t })
  | Current => simp at hc
  | Park => simp at hc
  | Unpark target => simp at hc
  | Acquire i =>
    simp only [World.step] at h
    cases hr : w.sched.m_pRunningThread with
    | none => simp [Mutex.Acquire, UThread.Current, hr, World.withMutex] at h
    | some r =>
      by_cases ho : (w.mutexes i).m_pOwner = some r
      · rw [Acquire_recursive _ _ r hr ho] at h
        simp only [World.withMutex, Except.ok.injEq] at h
        subst h
        exact sound_of_same w _ hS (queueAt_mutex_same w i _ rfl) rfl rfl rfl
      · by_cases hfree : (w.mutexes i).m_pOwner = none
        · rw [Acquire_free _ _ r hr hfree] at h
          simp only [World.withMutex, Except.ok.injEq] at h
          subst h
          exact sound_of_same w _ hS (queueAt_mutex_same w i _ rfl) rfl rfl rfl
        · obtain ⟨o, ho2⟩ := Option.ne_none_iff_exists'.mp hfree
          have hne : o ≠ r := fun e => ho (by rw [ho2, e])
          rw [Acquire_held _ _ r o hr ho2 hne] at h
          cases hpark : UThread.Park w.sched with
          | error e => simp [hpark, World.withMutex] at h
          | ok s1 =>
            obtain ⟨hlive, hsound⟩ := block_sound w r (Place.mutex i) (by simp) hS hr
              (hfiber r hr) s1 hpark
            simp only [hpark, World.withMutex, Except.ok.injEq] at h
            subst h
            unfold World.sound
            rw [queueAt_mutex]
            show Sound _ s1.live s1.m_pRunningThread s1.m_pMainThread
            rw [hlive]
            exact hsound
  | Release i =>
    simp only [World.step] at h
    cases hr : w.sched.m_pRunningThread with
    | none => simp [Mutex.Release, UThread.Current, hr, World.withMutex] at h
    | some r =>
      by_cases ho : (w.mutexes i).m_pOwner = some r
      · by_cases hk : 0 < toInt32 ((w.mutexes i).m_recursionCounter - 1)
        · rw [Release_positive _ _ r hr ho hk] at h
          simp only [World.withMutex, Except.ok.injEq] at h
          subst h
          exact sound_of_same w _ hS (queueAt_mutex_same w i _ rfl) rfl rfl rfl
        · cases hw : (w.mutexes i).m_waitList with
          | nil =>
            rw [Release_free _ _ r hr ho (not_lt.mp hk) hw] at h
            simp only [World.withMutex, Except.ok.injEq] at h
            subst h
            exact sound_of_same w _ hS (queueAt_mutex_same w i _ rfl) rfl rfl rfl
          | cons x rest =>
            rw [Release_transfer _ _ r x rest hr ho (not_lt.mp hk) hw] at h
            simp only [World.withMutex, Except.ok.injEq] at h
            subst h
            unfold World.sound
            rw [queueAt_mutex]
            exact sound_wake _ _ _ _ (Place.mutex i) x rest hS (by simp) hw
      · simp [Mutex.Release, Current_running _ r hr, ho, World.withMutex] at h
  | Wait j =>
    simp only [World.step] at h
    cases hr : w.sched.m_pRunningThread with
    | none => simp [Semaphore.Wait, UThread.Current, hr, World.withSemaphore] at h
    | some r =>
      by_cases hp : 0 < (w.semaphores j).m_permits
      · rw [Wait_permit _ _ r hr hp] at h
        simp only [World.withSemaphore, Except.ok.injEq] at h
        subst h
        exact sound_of_same w _ hS (queueAt_semaphore_same w j _ rfl) rfl rfl rfl
      · rw [Wait_blocked _ _ r hr (not_lt.mp hp)] at h
        cases hpark : UThread.Park w.sched with
        | error e => simp [hpark, World.withSemaphore] at h
        | ok s1 =>
          obtain ⟨hlive, hsound⟩ := block_sound w r (Place.semaphore j) (by simp) hS hr
            (hfiber r hr) s1 hpark
          simp only [hpark, World.withSemaphore, Except.ok.injEq] at h
          subst h
          unfold World.sound
          rw [queueAt_semaphore]
          show Sound _ s1.live s1.m_pRunningThread s1.m_pMainThread
          rw [hlive]
          exact hsound
  | Post j =>
    simp only [World.step] at h
    cases hr : w.sched.m_pRunningThread with
    | none => simp [Semaphore.Post, UThread.Current, hr, World.withSemaphore] at h
    | some r =>
      cases hw : (w.semaphores j).m_waitList with
      | nil =>
        rw [Post_empty _ _ r hr hw] at h
        simp only [World.withSemaphore, Except.ok.injEq] at h
        subst h
        exact sound_of_same w _ hS (queueAt_semaphore_same w j _ rfl) rfl rfl rfl
      | cons x rest =>
        rw [Post_waiter _ _ r x rest hr hw] at h
        simp only [World.withSemaphore, Except.ok.injEq] at h
        subst h
        unfold World.sound
        rw [queueAt_semaphore]
        exact sound_wake _ _ _ _ (Place.semaphore j) x rest hS (by simp) hw

/-- An action the program can take leaves a sound world sound. -/
theorem act_sound (a : Action) (w w1 : World) (hS : w.sound)
    (hl : a.legal w = true) (h : World.act a w = .ok w1) : w1.sound := by
  cases a with
  | call c => exact step_sound c w w1 hS hl h
  | runEnter pMain =>
    simp only [Action.legal, decide_eq_true_eq] at hl
    simp only [World.act] at h
    cases hr : w.sched.m_pRunningThread with
    | some r => simp [UScheduler.Run_enter, hr] at h
    | none =>
      rcases sound_queue w hS with hq | ⟨hd, t, hq⟩
      · have hret : UScheduler.Run_enter pMain w.sched = .ok (RunPhase.returned, w.sched) := by
          simp [UScheduler.Run_enter, hr, hq]
        rw [hret] at h
        simp only [Except.ok.injEq] at h
        subst h
        exact hS
      · rw [Run_enter_cons pMain hd t _ hr hq] at h
        simp only [Except.ok.injEq] at h
        subst h
        unfold World.sound
        rw [queueAt_sched]
        have hS0 : Sound w.queueAt w.sched.live none w.sched.m_pMainThread := by
          have := hS
          unfold World.sound at this
          rwa [hr] at this
        exact sound_enter _ _ _ pMain hd t hS0 hl hq
  | runResume pMain =>
    simp only [Action.legal, decide_eq_true_eq] at hl
    obtain ⟨hr, hm⟩ := hl
    simp only [World.act] at h
    cases hq : w.sched.m_readyQueue with
    | cons x t => simp [UScheduler.Run_resume, hq, World.withSched] at h
    | nil =>
      have hres : UScheduler.Run_resume pMain w.sched
          = .ok (UThread.dtor pMain { w.sched with m_pRunningThread := none }) := by
        simp [UScheduler.Run_resume, hq]
      rw [hres] at h
      simp only [World.withSched, Except.ok.injEq] at h
      subst h
      unfold World.sound
      rw [queueAt_sched]
      show Sound (Function.update w.queueAt Place.ready w.sched.m_readyQueue)
        (UThread.dtor pMain _).live none w.sched.m_pMainThread
      rw [dtor_live]
      have h1 : Function.update w.queueAt Place.ready w.sched.m_readyQueue = w.queueAt :=
        Function.update_eq_self _ _
      rw [h1]
      have hS1 : Sound w.queueAt w.sched.live (some pMain) w.sched.m_pMainThread := by
        have := hS
        unfold World.sound at this
        rwa [hr] at this
      exact sound_resume _ _ _ pMain hS1

/-- A property that every action satisfying `P` preserves holds after every
sequence of such actions. -/
theorem always_invariant (P : Action → World → Bool) (I : World → Prop)
    (hstep : ∀ a w w1, I w → P a w = true → World.act a w = .ok w1 → I w1) :
    ∀ (actions : List Action) (w w1 : World), I w → World.always P actions w = true →
      World.acts actions w = .ok w1 → I w1 := by
  intro actions
  induction actions with
  | nil =>
    intro w w1 hI _ h
    simp only [World.acts, Except.ok.injEq] at h
    subst h
    exact hI
  | cons a rest ih =>
    intro w w1 hI hP h
    simp only [World.always, Bool.and_eq_true] at hP
    simp only [World.acts] at h
    cases hact : World.act a w with
    | error e => simp [hact] at h
    | ok w2 =>
      simp only [hact] at h hP
      exact ih w2 w1 (hstep a w w2 hI hP.1 hact) hP.2 h

theorem initial_sound : World.initial.sound := by
  refine ⟨⟨fun pl => ?_, fun pl1 pl2 _ x hx => ?_⟩, fun pl => ?_, fun pl x hx => ?_,
    fun pm hpm => ?_, fun r hr => ?_⟩
  · cases pl <;> exact List.nodup_nil
  · cases pl1 <;> cases hx
  · cases pl <;> exact List.not_mem_nil _
  · cases pl <;> cases hx
  · cases hpm
  · cases hr

/-- Every state the program reaches is sound. -/
theorem reach_sound (actions : List Action) (w : World)
    (hlegal : World.always Action.legal actions World.initial = true)
    (hrun : World.acts actions World.initial = .ok w) : w.sound :=
  always_invariant Action.legal World.sound act_sound actions World.initial w initial_sound
    hlegal hrun

/-- C21. In every state the program reaches from its start by `Create`,
`Yield`, `Exit`, `Mutex::Acquire`, `Mutex::Release`, `Semaphore::Wait` and
`Semaphore::Post` calls, made by the host or by fibers, and by calls of
`UScheduler::Run`, no thread occurs twice in the ready queue or in a wait
list, none occurs in two of these lists, and the running thread occurs in none
of them.  The host may call `Exit` itself, which switches to the first ready
fiber without any `Run`. -/
theorem queues_disjoint (actions : List Action) (w : World)
    (hlegal : World.always Action.legal actions World.initial = true)
    (hrun : World.acts actions World.initial = .ok w) :
    w.queuesDisjoint :=
  ⟨(reach_sound actions w hlegal hrun).1, (reach_sound actions w hlegal hrun).2.1⟩

/-- Witness of C21: after `exampleOrphans`, in which the host calls `Exit`
and no `Run` takes place, fiber 4 runs, fiber 8 is in the wait list of mutex 0
and the ready queue is empty. -/
theorem queues_disjoint_witness :
    (World.after (World.acts exampleOrphans World.initial)).sched.m_pRunningThread = some 4 ∧
    (World.after (World.acts exampleOrphans World.initial)).sched.m_pMainThread = none ∧
    (World.after (World.acts exampleOrphans World.initial)).queueAt (Place.mutex 0)
      = [some 8] ∧
    (World.after (World.acts exampleOrphans World.initial)).queueAt Place.ready = [] ∧
    (World.after (World.acts exampleOrphans World.initial)).queuesDisjoint :=
  ⟨rfl, rfl, rfl, rfl, queues_disjoint exampleOrphans _ rfl rfl⟩

/-! ### The thread count and the objects that exist -/

theorem context_switch_census (a b : Ptr) (s s1 : Runtime) (h : context_switch a b s = .ok s1) :
    s1.m_numThreads = s.m_numThreads ∧ s1.threads = s.threads := by
  unfold context_switch at h
  split at h
  · cases h
  · split at h
    · cases h
    · simp only [Except.ok.injEq] at h
      rw [← h]
      exact ⟨rfl, rfl⟩

theorem find_next_thread_census (s : Runtime) :
    (UScheduler.find_next_thread s).2.m_numThreads = s.m_numThreads ∧
    (UScheduler.find_next_thread s).2.threads = s.threads := by
  unfold UScheduler.find_next_thread
  split <;> exact ⟨rfl, rfl⟩

theorem Yield_census (s s1 : Runtime) (h : UThread.Yield s = .ok s1) :
    s1.m_numThreads = s.m_numThreads ∧ s1.threads = s.threads := by
  unfold UThread.Yield at h
  split at h
  · have hs := context_switch_census _ _ _ _ h
    exact hs
  · simp only [Except.ok.injEq] at h
    rw [← h]
    exact ⟨rfl, rfl⟩

theorem Park_census (s s1 : Runtime) (h : UThread.Park s = .ok s1) :
    s1.m_numThreads = s.m_numThreads ∧ s1.threads = s.threads := by
  unfold UThread.Park at h
  split at h
  · cases h
  · have hs := context_switch_census _ _ _ _ h
    have hf := find_next_thread_census s
    exact ⟨hs.1.trans hf.1, hs.2.trans hf.2⟩

/-- `Exit` called by the thread `r`: `delete this` destroys it. -/
theorem Exit_census_thread (s s1 : Runtime) (r : Nat) (hr : s.m_pRunningThread = some r)
    (h : UThread.Exit s = .ok s1) :
    s1.m_numThreads = toInt32 (s.m_numThreads - 1) ∧
    s1.threads = s.threads.filter (fun e => e.1 ≠ r) := by
  unfold UThread.Exit internal_exit at h
  simp only at h
  split at h
  · cases h
  · simp only [hr, Except.ok.injEq] at h
    rw [← h]
    have hf := find_next_thread_census s
    simp only [UThread.self_destroy, UThread.dtor]
    rw [hf.1, hf.2]
    exact ⟨rfl, rfl⟩

/-- `Exit` called by the host, with no running thread: `delete this` finds
`NULL` and destroys nothing. -/
theorem Exit_census_host (s s1 : Runtime) (hr : s.m_pRunningThread = none)
    (h : UThread.Exit s = .ok s1) :
    s1.m_numThreads = s.m_numThreads ∧ s1.threads = s.threads := by
  unfold UThread.Exit internal_exit at h
  simp only at h
  split at h
  · cases h
  · simp only [hr, Except.ok.injEq] at h
    rw [← h]
    have hf := find_next_thread_census s
    simp only [UThread.self_destroy]
    rw [hf.1, hf.2]
    exact ⟨rfl, rfl⟩

theorem Acquire_census (m m1 : Mutex) (s s1 : Runtime)
    (h : Mutex.Acquire m s = .ok (m1, s1)) :
    s1.m_numThreads = s.m_numThreads ∧ s1.threads = s.threads := by
  cases hr : s.m_pRunningThread with
  | none => simp [Mutex.Acquire, UThread.Current, hr] at h
  | some x =>
    cases hown : m.m_pOwner with
    | none =>
      rw [Acquire_free m s x hr hown] at h
      simp only [Except.ok.injEq, Prod.mk.injEq] at h
      rw [← h.2]
      exact ⟨rfl, rfl⟩
    | some o =>
      by_cases hox : o = x
      · rw [Acquire_recursive m s x hr (by rw [hown, hox])] at h
        simp only [Except.ok.injEq, Prod.mk.injEq] at h
        rw [← h.2]
        exact ⟨rfl, rfl⟩
      · rw [Acquire_held m s x o hr hown hox] at h
        cases hp : UThread.Park s with
        | error err => simp [hp] at h
        | ok s2 =>
          simp only [hp, Except.ok.injEq, Prod.mk.injEq] at h
          rw [← h.2]
          exact Park_census s s2 hp

theorem Release_census (m m1 : Mutex) (s s1 : Runtime)
    (h : Mutex.Release m s = .ok (m1, s1)) :
    s1.m_numThreads = s.m_numThreads ∧ s1.threads = s.threads := by
  cases hr : s.m_pRunningThread with
  | none => simp [Mutex.Release, UThread.Current, hr] at h
  | some x =>
    by_cases hown : m.m_pOwner = some x
    · by_cases hk : 0 < toInt32 (m.m_recursionCounter - 1)
      · rw [Release_positive m s x hr hown hk] at h
        simp only [Except.ok.injEq, Prod.mk.injEq] at h
        rw [← h.2]
        exact ⟨rfl, rfl⟩
      · have hk2 : toInt32 (m.m_recursionCounter - 1) ≤ 0 := not_lt.mp hk
        cases hw : m.m_waitList with
        | nil =>
          rw [Release_free m s x hr hown hk2 hw] at h
          simp only [Except.ok.injEq, Prod.mk.injEq] at h
          rw [← h.2]
          exact ⟨rfl, rfl⟩
        | cons v rest =>
          rw [Release_transfer m s x v rest hr hown hk2 hw] at h
          simp only [Except.ok.injEq, Prod.mk.injEq] at h
          rw [← h.2]
          exact ⟨rfl, rfl⟩
    · simp [Mutex.Release, Current_running s x hr, hown] at h

theorem Wait_census (sem sem1 : Semaphore) (s s1 : Runtime)
    (h : Semaphore.Wait sem s = .ok (sem1, s1)) :
    s1.m_numThreads = s.m_numThreads ∧ s1.threads = s.threads := by
  cases hr : s.m_pRunningThread with
  | none => simp [Semaphore.Wait, UThread.Current, hr] at h
  | some x =>
    by_cases hp : 0 < sem.m_permits
    · rw [Wait_permit sem s x hr hp] at h
      simp only [Except.ok.injEq, Prod.mk.injEq] at h
      rw [← h.2]
      exact ⟨rfl, rfl⟩
    · rw [Wait_blocked sem s x hr (not_lt.mp hp)] at h
      cases hpark : UThread.Park s with
      | error err => simp [hpark] at h
      | ok s2 =>
        simp only [hpark, Except.ok.injEq, Prod.mk.injEq] at h
        rw [← h.2]
        exact Park_census s s2 hpark

theorem Post_census (sem sem1 : Semaphore) (s s1 : Runtime)
    (h : Semaphore.Post sem s = .ok (sem1, s1)) :
    s1.m_numThreads = s.m_numThreads ∧ s1.threads = s.threads := by
  cases hr : s.m_pRunningThread with
  | none => simp [Semaphore.Post, UThread.Current, hr] at h
  | some x =>
    cases hw : sem.m_waitList with
    | nil =>
      rw [Post_empty sem s x hr hw] at h
      simp only [Except.ok.injEq, Prod.mk.injEq] at h
      rw [← h.2]
      exact ⟨rfl, rfl⟩
    | cons v rest =>
      rw [Post_waiter sem s x v rest hr hw] at h
      simp only [Except.ok.injEq, Prod.mk.injEq] at h
      rw [← h.2]
      exact ⟨rfl, rfl⟩

theorem Run_enter_census (pMain : Nat) (s s1 : Runtime) (ph : RunPhase)
    (h : UScheduler.Run_enter pMain s = .ok (ph, s1)) :
    s.m_pRunningThread = none ∧
    (s.m_readyQueue.isEmpty = true → s1.m_numThreads = s.m_numThreads ∧ s1.threads = s.threads ∧
      s1.m_pMainThread = s.m_pMainThread) ∧
    (s.m_readyQueue.isEmpty = false →
      s1.m_numThreads = toInt32 (s.m_numThreads + 1) ∧
      s1.threads = (UThread.ctor_main pMain s).threads ∧ s1.m_pMainThread = some pMain) := by
  unfold UScheduler.Run_enter at h
  split at h
  · cases h
  · rename_i hrun
    simp only [ne_eq, not_not] at hrun
    refine ⟨hrun, ?_⟩
    split at h
    · rename_i hq
      simp only [Except.ok.injEq, Prod.mk.injEq] at h
      rw [← h.2]
      exact ⟨fun _ => ⟨rfl, rfl, rfl⟩, fun hne => by simp [hq] at hne⟩
    · rename_i hq
      simp only at h
      split at h
      · cases h
      · rename_i s3 hcs
        simp only [Except.ok.injEq, Prod.mk.injEq] at h
        rw [← h.2]
        refine ⟨fun he => absurd he hq, fun _ => ?_⟩
        have hs := context_switch_census _ _ _ _ hcs
        have hmain : s3.m_pMainThread = some pMain := by
          unfold context_switch at hcs
          split at hcs
          · cases hcs
          · split at hcs
            · cases hcs
            · simp only [Except.ok.injEq] at hcs
              rw [← hcs]
              simp only [UScheduler.find_next_thread]
              split <;> rfl
        refine ⟨?_, ?_, hmain⟩
        · rw [hs.1]
          simp only [UScheduler.find_next_thread]
          split <;> rfl
        · rw [hs.2]
          simp only [UScheduler.find_next_thread]
          split <;> rfl

theorem Run_resume_census (pMain : Nat) (s s1 : Runtime)
    (h : UScheduler.Run_resume pMain s = .ok s1) :
    s1.m_numThreads = toInt32 (s.m_numThreads - 1) ∧
    s1.threads = s.threads.filter (fun e => e.1 ≠ pMain) ∧
    s1.m_pMainThread = s.m_pMainThread ∧ s1.m_pRunningThread = none := by
  unfold UScheduler.Run_resume at h
  split at h
  · cases h
  · simp only [Except.ok.injEq] at h
    rw [← h]
    exact ⟨rfl, rfl, rfl, rfl⟩

/-- What an action does to `m_numThreads` and to the table of objects. -/
theorem act_census (a : Action) (w w1 : World) (h : World.act a w = .ok w1) :
    (∀ p, a.constructs w = some p →
      w1.sched.m_numThreads = toInt32 (w.sched.m_numThreads + 1) ∧
      ∃ t, w1.sched.threads = (p, t) :: w.sched.threads) ∧
    (∀ p, a.destroys w = some p →
      w1.sched.m_numThreads = toInt32 (w.sched.m_numThreads - 1) ∧
      w1.sched.threads = w.sched.threads.filter (fun e => e.1 ≠ p)) ∧
    (a.constructs w = none → a.destroys w = none →
      w1.sched.m_numThreads = w.sched.m_numThreads ∧ w1.sched.threads = w.sched.threads) := by
  cases a with
  | call c =>
    simp only [World.act] at h
    cases c with
    | Create p stack function argument =>
      simp only [World.step, Except.ok.injEq] at h
      rw [← h]
      refine ⟨fun q hq => ?_, fun q hq => by simp [Action.destroys] at hq,
        fun hnone => by simp [Action.constructs] at hnone⟩
      simp only [Action.constructs, Option.some.injEq] at hq
      subst hq
      exact ⟨rfl, _, rfl⟩
    | Yield =>
      refine ⟨fun q hq => by simp [Action.constructs] at hq,
        fun q hq => by simp [Action.destroys] at hq, fun _ _ => ?_⟩
      simp only [World.step, World.withSched] at h
      cases hy : UThread.Yield w.sched with
      | error e => simp [hy] at h
      | ok s1 =>
        simp only [hy, Except.ok.injEq] at h
        rw [← h]
        exact Yield_census _ _ hy
    | Exit =>
      simp only [World.step, World.withSched] at h
      cases hy : UThread.Exit w.sched with
      | error e => simp [hy] at h
      | ok s1 =>
        simp only [hy, Except.ok.injEq] at h
        rw [← h]
        refine ⟨fun q hq => by simp [Action.constructs] at hq, fun q hq => ?_, fun _ hd => ?_⟩
        · exact Exit_census_thread _ _ q hq hy
        · exact Exit_census_host _ _ hd hy
    | Current =>
      refine ⟨fun q hq => by simp [Action.constructs] at hq,
        fun q hq => by simp [Action.destroys] at hq, fun _ _ => ?_⟩
      simp only [World.step] at h
      cases hy : UThread.Current w.sched with
      | error e => simp [hy] at h
      | ok x =>
        simp only [hy, Except.ok.injEq] at h
        rw [← h]
        exact ⟨rfl, rfl⟩
    | Park =>
      refine ⟨fun q hq => by simp [Action.constructs] at hq,
        fun q hq => by simp [Action.destroys] at hq, fun _ _ => ?_⟩
      simp only [World.step, World.withSched] at h
      cases hy : UThread.Park w.sched with
      | error e => simp [hy] at h
      | ok s1 =>
        simp only [hy, Except.ok.injEq] at h
        rw [← h]
        exact Park_census _ _ hy
    | Unpark target =>
      refine ⟨fun q hq => by simp [Action.constructs] at hq,
        fun q hq => by simp [Action.destroys] at hq, fun _ _ => ?_⟩
      simp only [World.step, Except.ok.injEq] at h
      rw [← h]
      exact ⟨rfl, rfl⟩
    | Acquire i =>
      refine ⟨fun q hq => by simp [Action.constructs] at hq,
        fun q hq => by simp [Action.destroys] at hq, fun _ _ => ?_⟩
      simp only [World.step, World.withMutex] at h
      cases hy : Mutex.Acquire (w.mutexes i) w.sched with
      | error e => simp [hy] at h
      | ok r =>
        simp only [hy, Except.ok.injEq] at h
        rw [← h]
        exact Acquire_census _ r.1 _ r.2 hy
    | Release i =>
      refine ⟨fun q hq => by simp [Action.constructs] at hq,
        fun q hq => by simp [Action.destroys] at hq, fun _ _ => ?_⟩
      simp only [World.step, World.withMutex] at h
      cases hy : Mutex.Release (w.mutexes i) w.sched with
      | error e => simp [hy] at h
      | ok r =>
        simp only [hy, Except.ok.injEq] at h
        rw [← h]
        exact Release_census _ r.1 _ r.2 hy
    | Wait j =>
      refine ⟨fun q hq => by simp [Action.constructs] at hq,
        fun q hq => by simp [Action.destroys] at hq, fun _ _ => ?_⟩
      simp only [World.step, World.withSemaphore] at h
      cases hy : Semaphore.Wait (w.semaphores j) w.sched with
      | error e => simp [hy] at h
      | ok r =>
        simp only [hy, Except.ok.injEq] at h
        rw [← h]
        exact Wait_census _ r.1 _ r.2 hy
    | Post j =>
      refine ⟨fun q hq => by simp [Action.constructs] at hq,
        fun q hq => by simp [Action.destroys] at hq, fun _ _ => ?_⟩
      simp only [World.step, World.withSemaphore] at h
      cases hy : Semaphore.Post (w.semaphores j) w.sched with
      | error e => simp [hy] at h
      | ok r =>
        simp only [hy, Except.ok.injEq] at h
        rw [← h]
        exact Post_census _ r.1 _ r.2 hy
  | runEnter pMain =>
    simp only [World.act] at h
    cases hy : UScheduler.Run_enter pMain w.sched with
    | error e => simp [hy] at h
    | ok r =>
      simp only [hy, Except.ok.injEq] at h
      rw [← h]
      obtain ⟨hrun, hempty, hfull⟩ := Run_enter_census pMain w.sched r.2 r.1 hy
      refine ⟨fun q hq => ?_, fun q hq => by simp [Action.destroys] at hq, fun hnone _ => ?_⟩
      · simp only [Action.constructs, hrun, true_and] at hq
        split at hq
        · rename_i hne
          simp only [Option.some.injEq] at hq
          subst hq
          obtain ⟨h1, h2, _⟩ := hfull (by simpa using hne)
          exact ⟨h1, _, h2⟩
        · cases hq
      · simp only [Action.constructs, hrun, true_and] at hnone
        split at hnone
        · cases hnone
        · rename_i he
          obtain ⟨h1, h2, _⟩ := hempty (by simpa using he)
          exact ⟨h1, h2⟩
  | runResume pMain =>
    simp only [World.act, World.withSched] at h
    cases hy : UScheduler.Run_resume pMain w.sched with
    | error e => simp [hy] at h
    | ok s1 =>
      simp only [hy, Except.ok.injEq] at h
      rw [← h]
      obtain ⟨h1, h2, _, _⟩ := Run_resume_census pMain w.sched s1 hy
      refine ⟨fun q hq => by simp [Action.constructs] at hq, fun q hq => ?_,
        fun _ hd => by simp [Action.destroys] at hd⟩
      simp only [Action.destroys, Option.some.injEq] at hq
      subst hq
      exact ⟨h1, h2⟩

theorem aligned_length_le (l : List Nat) (hnd : l.Nodup)
    (h : ∀ a ∈ l, a % 4 = 0 ∧ a < 4294967296) : l.length ≤ 1073741824 := by
  have hmap : (l.map (fun a => a / 4)).Nodup :=
    List.Nodup.map_on (fun x hx y hy hxy => by
      have h1 := h x hx
      have h2 := h y hy
      omega) hnd
  have hsub : (l.map (fun a => a / 4)).toFinset ⊆ Finset.range 1073741824 := by
    intro z hz
    rw [List.mem_toFinset, List.mem_map] at hz
    obtain ⟨a, ha, rfl⟩ := hz
    have h1 := h a ha
    exact Finset.mem_range.mpr (by omega)
  have hcard := Finset.card_le_card hsub
  rw [List.toFinset_card_of_nodup hmap, Finset.card_range, List.length_map] at hcard
  exact hcard

theorem filter_key_length (threads : List (Nat × UThread)) (p : Nat)
    (hnd : (threads.map Prod.fst).Nodup) (hp : p ∈ threads.map Prod.fst) :
    (threads.filter (fun e => e.1 ≠ p)).length + 1 = threads.length := by
  induction threads with
  | nil => simp at hp
  | cons e rest ih =>
    simp only [List.map_cons, List.nodup_cons] at hnd
    by_cases he : e.1 = p
    · have hrest : rest.filter (fun e => e.1 ≠ p) = rest := by
        refine List.filter_eq_self.mpr (fun x hx => ?_)
        simp only [ne_eq, decide_not, Bool.not_eq_true', decide_eq_false_iff_not]
        intro e2
        exact hnd.1 (by rw [he, ← e2]; exact List.mem_map_of_mem _ hx)
      rw [List.filter_cons_of_neg (by simp [he]), hrest]
      rfl
    · have hp2 : p ∈ rest.map Prod.fst := by
        simp only [List.map_cons, List.mem_cons] at hp
        rcases hp with h1 | h1
        · exact absurd h1.symm he
        · exact h1
      have := ih hnd.2 hp2
      rw [List.filter_cons_of_pos (by simp [he])]
      simp only [List.length_cons]
      omega

theorem threads_filter_live (threads : List (Nat × UThread)) (p : Nat) :
    (threads.filter (fun e => e.1 ≠ p)).map Prod.fst
      = (threads.map Prod.fst).filter (fun a => a ≠ p) := by
  rw [List.filter_map]
  rfl

/-- The thread that runs after an action within defined behaviour exists. -/
theorem defined_runner (a : Action) (w w1 : World) (hd : a.defined w = true)
    (h : World.act a w = .ok w1) :
    ∀ r, w1.sched.m_pRunningThread = some r → r ∈ w1.sched.live := by
  intro r hr
  simp only [Action.defined, Bool.and_eq_true] at hd
  have h2 := hd.2
  rw [h] at h2
  simp only [hr, decide_eq_true_eq] at h2
  exact h2

theorem constructs_fresh (a : Action) (w : World) (p : Nat) (hl : a.defined w = true)
    (hc : a.constructs w = some p) : p ∉ w.sched.live ∧ a.destroys w = none := by
  simp only [Action.defined, Bool.and_eq_true] at hl
  have h1 := hl.1
  cases a with
  | call c =>
    cases c <;> simp [Action.constructs] at hc
    subst hc
    simp only [decide_eq_true_eq] at h1
    exact ⟨h1, rfl⟩
  | runEnter pMain =>
    simp only [Action.constructs] at hc
    split at hc
    · simp only [Option.some.injEq] at hc
      subst hc
      simp only [decide_eq_true_eq] at h1
      exact ⟨h1, rfl⟩
    · cases hc
  | runResume pMain => simp [Action.constructs] at hc

theorem destroys_live (a : Action) (w : World) (p : Nat) (hK : w.counted)
    (hl : a.defined w = true) (hd : a.destroys w = some p) : p ∈ w.sched.live := by
  simp only [Action.defined, Bool.and_eq_true] at hl
  have h1 := hl.1
  cases a with
  | call c =>
    cases c <;> simp [Action.destroys] at hd
    exact hK.2.2.2 p hd
  | runEnter pMain => simp [Action.destroys] at hd
  | runResume pMain =>
    simp only [Action.destroys, Option.some.injEq] at hd
    subst hd
    simp only [decide_eq_true_eq] at h1
    exact hK.2.2.2 _ h1.1

/-- An action within defined behaviour, with the object it constructs in the
address space, keeps `m_numThreads` equal to the number of objects and changes
it by one for a construction, by minus one for a destruction, and not at all
otherwise. -/
theorem act_counted (a : Action) (w w1 : World) (hK : w.counted)
    (hl : a.defined w = true) (ha : a.inAddressSpace w = true) (h : World.act a w = .ok w1) :
    w1.counted ∧
    w1.sched.m_numThreads = w.sched.m_numThreads
      + ((if (a.constructs w).isSome then 1 else 0 : Nat) : Int)
      - ((if (a.destroys w).isSome then 1 else 0 : Nat) : Int) := by
  have hrun1 := defined_runner a w w1 hl h
  obtain ⟨hnd, hA, hC, hR⟩ := hK
  obtain ⟨hcon, hdes, hnone⟩ := act_census a w w1 h
  have hlen : ∀ s : Runtime, s.live.length = s.threads.length :=
    fun s => List.length_map _ _
  cases hc : a.constructs w with
  | some p =>
    obtain ⟨hfresh, hd⟩ := constructs_fresh a w p hl hc
    obtain ⟨hcount, t, hthreads⟩ := hcon p hc
    have hal : p % 4 = 0 ∧ p < 4294967296 := by
      simpa [Action.inAddressSpace, hc] using ha
    have hlive : w1.sched.live = p :: w.sched.live := by
      unfold Runtime.live
      rw [hthreads]
      rfl
    have hnd1 : w1.sched.live.Nodup := by
      rw [hlive]
      exact List.nodup_cons.mpr ⟨hfresh, hnd⟩
    have hA1 : ∀ x ∈ w1.sched.live, x % 4 = 0 ∧ x < 4294967296 := by
      intro x hx
      rw [hlive] at hx
      rcases List.mem_cons.mp hx with rfl | hx2
      · exact hal
      · exact hA x hx2
    have hbound := aligned_length_le w1.sched.live hnd1 hA1
    have hl1 : w1.sched.threads.length = w.sched.threads.length + 1 := by
      rw [hthreads]
      rfl
    rw [hlen, hl1] at hbound
    have hexact : toInt32 (w.sched.m_numThreads + 1) = w.sched.m_numThreads + 1 :=
      toInt32_of_range _ (by omega) (by omega)
    refine ⟨⟨hnd1, hA1, ?_, hrun1⟩, ?_⟩
    · rw [hcount, hexact, hl1, hC]
      push_cast
      rfl
    · rw [hcount, hexact, hd]
      simp
  | none =>
    cases hd : a.destroys w with
    | some p =>
      have hpl := destroys_live a w p ⟨hnd, hA, hC, hR⟩ hl hd
      obtain ⟨hcount, hthreads⟩ := hdes p hd
      have hfl := filter_key_length w.sched.threads p hnd hpl
      rw [← hthreads] at hfl
      have hlive : w1.sched.live = w.sched.live.filter (fun a => a ≠ p) := by
        unfold Runtime.live
        rw [hthreads]
        exact threads_filter_live _ p
      have hA1 : ∀ x ∈ w1.sched.live, x % 4 = 0 ∧ x < 4294967296 := by
        intro x hx
        rw [hlive] at hx
        exact hA x (List.mem_of_mem_filter hx)
      have hbound := aligned_length_le w.sched.live hnd hA
      rw [hlen] at hbound
      have hexact : toInt32 (w.sched.m_numThreads - 1) = w.sched.m_numThreads - 1 :=
        toInt32_of_range _ (by omega) (by omega)
      refine ⟨⟨by rw [hlive]; exact hnd.filter _, hA1, ?_, hrun1⟩, ?_⟩
      · rw [hcount, hexact, hC]
        omega
      · rw [hcount, hexact]
        simp
    | none =>
      obtain ⟨hcount, hthreads⟩ := hnone hc hd
      have hlive : w1.sched.live = w.sched.live := by
        unfold Runtime.live
        rw [hthreads]
      refine ⟨⟨by rw [hlive]; exact hnd, by rw [hlive]; exact hA, ?_, hrun1⟩, ?_⟩
      · rw [hcount, hthreads, hC]
      · rw [hcount]
        simp

theorem acts_counted (actions : List Action) : ∀ (w w1 : World), w.counted →
    World.always Action.defined actions w = true →
    World.always Action.inAddressSpace actions w = true →
    World.acts actions w = .ok w1 →
    w1.counted ∧
    w1.sched.m_numThreads = w.sched.m_numThreads + (World.constructed actions w : Int)
      - (World.destroyed actions w : Int) := by
  induction actions with
  | nil =>
    intro w w1 hK _ _ h
    simp only [World.acts, Except.ok.injEq] at h
    subst h
    exact ⟨hK, by simp [World.constructed, World.destroyed]⟩
  | cons a rest ih =>
    intro w w1 hK hl ha h
    simp only [World.always, Bool.and_eq_true] at hl ha
    simp only [World.acts] at h
    cases hact : World.act a w with
    | error e => simp [hact] at h
    | ok w2 =>
      simp only [hact] at h hl ha
      obtain ⟨hK2, hstep⟩ := act_counted a w w2 hK hl.1 ha.1 hact
      obtain ⟨hK1, hrest⟩ := ih w2 w1 hK2 hl.2 ha.2 h
      refine ⟨hK1, ?_⟩
      rw [hrest, hstep]
      simp only [World.constructed, World.destroyed, hact]
      push_cast
      ring

theorem initial_counted : World.initial.counted :=
  ⟨List.nodup_nil, fun x hx => (by cases hx), rfl, fun r hr => (by cases hr)⟩

/-- C22. From the start of the program, whichever functions of the library
are called (`Park`, `Unpark` and `Current` included, with any argument, by the
host or by any thread), as long as every `UThread` object is constructed at a
word-aligned address of the 32-bit address space at which no object exists and
no thread is switched in after it was destroyed, `m_numThreads` equals the
number of `UThread` objects that exist, at every moment.  Over any stretch of
the run it grows by the number of objects constructed (by `Create`, or as the
main thread of a `Run` that found a ready thread) and shrinks by the number
destroyed (by `Exit` called by a thread, or when `Run` returns); an action that
neither constructs nor destroys leaves it unchanged.  So it is back to its
earlier value when as many objects were destroyed as constructed, and exceeds
it by `k` when `k` of the constructed objects are left. -/
theorem fiber_count (before during : List Action) (w w2 : World)
    (hdefined : World.always Action.defined before World.initial = true)
    (haddr : World.always Action.inAddressSpace before World.initial = true)
    (hbefore : World.acts before World.initial = .ok w)
    (hdefined2 : World.always Action.defined during w = true)
    (haddr2 : World.always Action.inAddressSpace during w = true)
    (hduring : World.acts during w = .ok w2) :
    w.sched.m_numThreads = (w.sched.threads.length : Int) ∧
    w2.sched.m_numThreads = (w2.sched.threads.length : Int) ∧
    w2.sched.m_numThreads = w.sched.m_numThreads + (World.constructed during w : Int)
      - (World.destroyed during w : Int) ∧
    (w2.sched.threads.length : Int) = (w.sched.threads.length : Int)
      + (World.constructed during w : Int) - (World.destroyed during w : Int) ∧
    (∀ a w3, a.defined w2 = true → a.inAddressSpace w2 = true → World.act a w2 = .ok w3 →
      ((a.constructs w2).isSome → w3.sched.m_numThreads = w2.sched.m_numThreads + 1) ∧
      ((a.destroys w2).isSome → w3.sched.m_numThreads = w2.sched.m_numThreads - 1) ∧
      (a.constructs w2 = none → a.destroys w2 = none →
        w3.sched.m_numThreads = w2.sched.m_numThreads)) := by
  obtain ⟨hK, _⟩ := acts_counted before World.initial w initial_counted hdefined haddr hbefore
  obtain ⟨hK2, hdelta⟩ := acts_counted during w w2 hK hdefined2 haddr2 hduring
  refine ⟨hK.2.2.1, hK2.2.2.1, hdelta, ?_, ?_⟩
  · rw [← hK.2.2.1, ← hK2.2.2.1]
    exact hdelta
  · intro a w3 hl ha hact
    obtain ⟨_, hstep⟩ := act_counted a w2 w3 hK2 hl ha hact
    refine ⟨fun hc => ?_, fun hd => ?_, fun hc hd => ?_⟩
    · obtain ⟨p, hp⟩ := Option.isSome_iff_exists.mp hc
      have hd := (constructs_fresh a w2 p hl hp).2
      rw [hstep, hp, hd]
      simp
    · have hc : a.constructs w2 = none := by
        cases hc : a.constructs w2 with
        | none => rfl
        | some p =>
          have := (constructs_fresh a w2 p hl hc).2
          rw [this] at hd
          cases hd
      rw [hstep, hc]
      simp [hd]
    · rw [hstep, hc, hd]
      simp

/-- Witness of C22: in `exampleStranded` fiber 4 parks without being in any
wait list, fiber 8 exits and `Run` returns.  Three objects are constructed
(fibers 4 and 8 and the main thread) and two destroyed (fiber 8 and the main
thread): fiber 4 is left and the count is 1. -/
theorem fiber_count_witness :
    World.constructed exampleStranded World.initial = 3 ∧
    World.destroyed exampleStranded World.initial = 2 ∧
    (World.after (World.acts exampleStranded World.initial)).sched.live = [4] ∧
    (World.after (World.acts exampleStranded World.initial)).sched.m_numThreads = 1 ∧
    (World.after (World.acts exampleStranded World.initial)).sched.m_numThreads
      = World.initial.sched.m_numThreads
        + (World.constructed exampleStranded World.initial : Int)
        - (World.destroyed exampleStranded World.initial : Int) :=
  ⟨rfl, rfl, rfl, rfl,
    (fiber_count [] exampleStranded World.initial _ rfl rfl rfl rfl rfl rfl).2.2.1⟩

/-! ### The main-thread handle -/

theorem context_switch_main (a b : Ptr) (s s1 : Runtime) (h : context_switch a b s = .ok s1) :
    s1.m_pMainThread = s.m_pMainThread := by
  unfold context_switch at h
  split at h
  · cases h
  · split at h
    · cases h
    · simp only [Except.ok.injEq] at h
      rw [← h]

theorem find_next_thread_main (s : Runtime) :
    (UScheduler.find_next_thread s).2.m_pMainThread = s.m_pMainThread := by
  unfold UScheduler.find_next_thread
  split <;> rfl

theorem Yield_main (s s1 : Runtime) (h : UThread.Yield s = .ok s1) :
    s1.m_pMainThread = s.m_pMainThread := by
  unfold UThread.Yield at h
  split at h
  · have hs := context_switch_main _ _ _ _ h
    exact hs
  · simp only [Except.ok.injEq] at h
    rw [← h]

theorem Park_main (s s1 : Runtime) (h : UThread.Park s = .ok s1) :
    s1.m_pMainThread = s.m_pMainThread := by
  unfold UThread.Park at h
  split at h
  · cases h
  · have hs := context_switch_main _ _ _ _ h
    exact hs.trans (find_next_thread_main s)

theorem Exit_main (s s1 : Runtime) (h : UThread.Exit s = .ok s1) :
    s1.m_pMainThread = s.m_pMainThread := by
  unfold UThread.Exit internal_exit at h
  simp only at h
  split at h
  · cases h
  · simp only [Except.ok.injEq] at h
    rw [← h, (self_destroy_fields _ _).2.2.1]
    exact find_next_thread_main s

theorem Acquire_main (m m1 : Mutex) (s s1 : Runtime)
    (h : Mutex.Acquire m s = .ok (m1, s1)) :
    s1.m_pMainThread = s.m_pMainThread := by
  cases hr : s.m_pRunningThread with
  | none => simp [Mutex.Acquire, UThread.Current, hr] at h
  | some x =>
    cases hown : m.m_pOwner with
    | none =>
      rw [Acquire_free m s x hr hown] at h
      simp only [Except.ok.injEq, Prod.mk.injEq] at h
      rw [← h.2]
    | some o =>
      by_cases hox : o = x
      · rw [Acquire_recursive m s x hr (by rw [hown, hox])] at h
        simp only [Except.ok.injEq, Prod.mk.injEq] at h
        rw [← h.2]
      · rw [Acquire_held m s x o hr hown hox] at h
        cases hp : UThread.Park s with
        | error err => simp [hp] at h
        | ok s2 =>
          simp only [hp, Except.ok.injEq, Prod.mk.injEq] at h
          rw [← h.2]
          exact Park_main s s2 hp

theorem Release_main (m m1 : Mutex) (s s1 : Runtime)
    (h : Mutex.Release m s = .ok (m1, s1)) :
    s1.m_pMainThread = s.m_pMainThread := by
  cases hr : s.m_pRunningThread with
  | none => simp [Mutex.Release, UThread.Current, hr] at h
  | some x =>
    by_cases hown : m.m_pOwner = some x
    · by_cases hk : 0 < toInt32 (m.m_recursionCounter - 1)
      · rw [Release_positive m s x hr hown hk] at h
        simp only [Except.ok.injEq, Prod.mk.injEq] at h
        rw [← h.2]
      · have hk2 : toInt32 (m.m_recursionCounter - 1) ≤ 0 := not_lt.mp hk
        cases hw : m.m_waitList with
        | nil =>
          rw [Release_free m s x hr hown hk2 hw] at h
          simp only [Except.ok.injEq, Prod.mk.injEq] at h
          rw [← h.2]
        | cons v rest =>
          rw [Release_transfer m s x v rest hr hown hk2 hw] at h
          simp only [Except.ok.injEq, Prod.mk.injEq] at h
          rw [← h.2]
    · simp [Mutex.Release, Current_running s x hr, hown] at h

theorem Wait_main (sem sem1 : Semaphore) (s s1 : Runtime)
    (h : Semaphore.Wait sem s = .ok (sem1, s1)) :
    s1.m_pMainThread = s.m_pMainThread := by
  cases hr : s.m_pRunningThread with
  | none => simp [Semaphore.Wait, UThread.Current, hr] at h
  | some x =>
    by_cases hp : 0 < sem.m_permits
    · rw [Wait_permit sem s x hr hp] at h
      simp only [Except.ok.injEq, Prod.mk.injEq] at h
      rw [← h.2]
    · rw [Wait_blocked sem s x hr (not_lt.mp hp)] at h
      cases hpark : UThread.Park s with
      | error err => simp [hpark] at h
      | ok s2 =>
        simp only [hpark, Except.ok.injEq, Prod.mk.injEq] at h
        rw [← h.2]
        exact Park_main s s2 hpark

theorem Post_main (sem sem1 : Semaphore) (s s1 : Runtime)
    (h : Semaphore.Post sem s = .ok (sem1, s1)) :
    s1.m_pMainThread = s.m_pMainThread := by
  cases hr : s.m_pRunningThread with
  | none => simp [Semaphore.Post, UThread.Current, hr] at h
  | some x =>
    cases hw : sem.m_waitList with
    | nil =>
      rw [Post_empty sem s x hr hw] at h
      simp only [Except.ok.injEq, Prod.mk.injEq] at h
      rw [← h.2]
    | cons v rest =>
      rw [Post_waiter sem s x v rest hr hw] at h
      simp only [Except.ok.injEq, Prod.mk.injEq] at h
      rw [← h.2]

/-- The only action that stores to `m_pMainThread` is the entry of a `Run`
that finds a ready thread; it stores the address of its `mainThread`. -/
theorem act_main (a : Action) (w w1 : World) (h : World.act a w = .ok w1) :
    w1.sched.m_pMainThread
      = (match a.recordsMain w with
          | some pm => some pm
          | none => w.sched.m_pMainThread) := by
  cases a with
  | call c =>
    simp only [World.act] at h
    simp only [Action.recordsMain]
    cases c with
    | Create p stack function argument =>
      simp only [World.step, Except.ok.injEq] at h
      rw [← h]
      rfl
    | Yield =>
      simp only [World.step, World.withSched] at h
      cases hy : UThread.Yield w.sched with
      | error e => simp [hy] at h
      | ok s1 =>
        simp only [hy, Except.ok.injEq] at h
        rw [← h]
        exact Yield_main _ _ hy
    | Exit =>
      simp only [World.step, World.withSched] at h
      cases hy : UThread.Exit w.sched with
      | error e => simp [hy] at h
      | ok s1 =>
        simp only [hy, Except.ok.injEq] at h
        rw [← h]
        exact Exit_main _ _ hy
    | Current =>
      simp only [World.step] at h
      cases hy : UThread.Current w.sched with
      | error e => simp [hy] at h
      | ok x =>
        simp only [hy, Except.ok.injEq] at h
        rw [← h]
    | Park =>
      simp only [World.step, World.withSched] at h
      cases hy : UThread.Park w.sched with
      | error e => simp [hy] at h
      | ok s1 =>
        simp only [hy, Except.ok.injEq] at h
        rw [← h]
        exact Park_main _ _ hy
    | Unpark target =>
      simp only [World.step, Except.ok.injEq] at h
      rw [← h]
      rfl
    | Acquire i =>
      simp only [World.step, World.withMutex] at h
      cases hy : Mutex.Acquire (w.mutexes i) w.sched with
      | error e => simp [hy] at h
      | ok r =>
        simp only [hy, Except.ok.injEq] at h
        rw [← h]
        exact Acquire_main _ r.1 _ r.2 hy
    | Release i =>
      simp only [World.step, World.withMutex] at h
      cases hy : Mutex.Release (w.mutexes i) w.sched with
      | error e => simp [hy] at h
      | ok r =>
        simp only [hy, Except.ok.injEq] at h
        rw [← h]
        exact Release_main _ r.1 _ r.2 hy
    | Wait j =>
      simp only [World.step, World.withSemaphore] at h
      cases hy : Semaphore.Wait (w.semaphores j) w.sched with
      | error e => simp [hy] at h
      | ok r =>
        simp only [hy, Except.ok.injEq] at h
        rw [← h]
        exact Wait_main _ r.1 _ r.2 hy
    | Post j =>
      simp only [World.step, World.withSemaphore] at h
      cases hy : Semaphore.Post (w.semaphores j) w.sched with
      | error e => simp [hy] at h
      | ok r =>
        simp only [hy, Except.ok.injEq] at h
        rw [← h]
        exact Post_main _ r.1 _ r.2 hy
  | runEnter pMain =>
    simp only [World.act] at h
    cases hy : UScheduler.Run_enter pMain w.sched with
    | error e => simp [hy] at h
    | ok r =>
      simp only [hy, Except.ok.injEq] at h
      rw [← h]
      obtain ⟨hrun, hempty, hfull⟩ := Run_enter_census pMain w.sched r.2 r.1 hy
      simp only [Action.recordsMain, hrun, true_and]
      cases he : w.sched.m_readyQueue.isEmpty with
      | true =>
        simp only [not_true_eq_false, if_false]
        exact (hempty he).2.2
      | false =>
        simp only [Bool.false_eq_true, not_false_eq_true, if_true]
        exact (hfull he).2.2
  | runResume pMain =>
    simp only [World.act, World.withSched] at h
    cases hy : UScheduler.Run_resume pMain w.sched with
    | error e => simp [hy] at h
    | ok s1 =>
      simp only [hy, Except.ok.injEq] at h
      rw [← h]
      exact (Run_resume_census pMain w.sched s1 hy).2.2.1

theorem acts_recorded (actions : List Action) : ∀ (w w1 : World),
    World.acts actions w = .ok w1 →
    w1.sched.m_pMainThread = World.recorded actions w w.sched.m_pMainThread := by
  induction actions with
  | nil =>
    intro w w1 h
    simp only [World.acts, Except.ok.injEq] at h
    subst h
    rfl
  | cons a rest ih =>
    intro w w1 h
    simp only [World.acts] at h
    cases hact : World.act a w with
    | error e => simp [hact] at h
    | ok w2 =>
      simp only [hact] at h
      rw [ih w2 w1 h, act_main a w w2 hact]
      simp only [World.recorded, hact]

/-- As long as no `Run` is entered the handle keeps its value. -/
theorem recorded_without_run (actions : List Action) : ∀ (w : World) (handle : Ptr),
    (∀ pm, Action.runEnter pm ∉ actions) → World.recorded actions w handle = handle := by
  induction actions with
  | nil =>
    intro w handle _
    rfl
  | cons a rest ih =>
    intro w handle hno
    have hrest : ∀ pm, Action.runEnter pm ∉ rest :=
      fun pm hmem => hno pm (List.mem_cons_of_mem _ hmem)
    have hrec : a.recordsMain w = none := by
      cases a with
      | call c => rfl
      | runEnter pm => exact absurd (List.mem_cons_self _ _) (hno pm)
      | runResume pm => rfl
    simp only [World.recorded, hrec]
    split
    · rfl
    · exact ih _ handle hrest

/-- The thread a call destroys is the one that runs. -/
theorem destroys_call (c : Call) (w : World) (p : Nat)
    (h : (Action.call c).destroys w = some p) : w.sched.m_pRunningThread = some p := by
  cases c <;> simp [Action.destroys] at h
  exact h

/-- A call made by the host or by a fiber while the handle names the existing
object at `pMain` leaves the handle and that object as they are. -/
theorem call_keeps_main (pMain : Nat) (a : Action) (w w1 : World)
    (hI : w.sched.m_pMainThread = some pMain ∧ pMain ∈ w.sched.live)
    (hc : a.callByOther w = true) (h : World.act a w = .ok w1) :
    w1.sched.m_pMainThread = some pMain ∧ pMain ∈ w1.sched.live := by
  obtain ⟨hm, hlive⟩ := hI
  cases a with
  | runEnter pm => simp [Action.callByOther] at hc
  | runResume pm => simp [Action.callByOther] at hc
  | call c =>
    simp only [Action.callByOther, decide_eq_true_eq] at hc
    have hmain := act_main (Action.call c) w w1 h
    simp only [Action.recordsMain] at hmain
    refine ⟨hmain.trans hm, ?_⟩
    obtain ⟨hcon, hdes, hnone⟩ := act_census (Action.call c) w w1 h
    cases hcs : (Action.call c).constructs w with
    | some p =>
      obtain ⟨_, t, hthreads⟩ := hcon p hcs
      unfold Runtime.live
      rw [hthreads]
      exact List.mem_cons_of_mem _ hlive
    | none =>
      cases hds : (Action.call c).destroys w with
      | some p =>
        obtain ⟨_, hthreads⟩ := hdes p hds
        have hr := destroys_call c w p hds
        have hne : pMain ≠ p := by
          intro e
          rcases hc with h1 | h1
          · rw [hr] at h1
            cases h1
          · exact h1 (by rw [hr, hm, e])
        unfold Runtime.live
        rw [hthreads, threads_filter_live]
        exact mem_filter_ne _ _ _ hlive hne
      | none =>
        obtain ⟨_, hthreads⟩ := hnone hcs hds
        unfold Runtime.live
        rw [hthreads]
        exact hlive

/-- C23, shown false as stated: the host creates a fiber and calls `Run`, the
fiber exits and `Run` returns; no thread runs any more, and `m_pMainThread`
still holds the address (100) of the `mainThread` of that `Run`. -/
theorem main_handle_not_cleared :
    ∃ w, World.acts exampleRound World.initial = .ok w ∧
      w.sched.m_pRunningThread = none ∧ w.sched.threads = [] ∧
      w.sched.m_pMainThread = some 100 ∧ w.sched.m_pMainThread ≠ none :=
  ⟨_, rfl, rfl, rfl, rfl, fun h => nomatch h⟩

/-- C23 as amended.  From the start of the program, whatever is done,
`m_pMainThread` is what the entries of `Run` so far left in it: none as long
as no `Run` was entered, then the address of the `mainThread` of the latest
`Run` that found a ready thread.  While such a `Run` executes, that is after
its entry and through all the calls that the host or fibers make until its
main thread continues, the handle holds the address of its `mainThread`, which
exists.  The return of `Run` does not clear the handle: it leaves no thread
running, destroys its `mainThread` and leaves the handle holding that
address. -/
theorem main_handle_lifecycle (before during : List Action) (pMain : Nat) (w w1 w2 : World)
    (hbefore : World.acts before World.initial = .ok w)
    (hfound : (Action.runEnter pMain).recordsMain w = some pMain)
    (henter : World.act (Action.runEnter pMain) w = .ok w1)
    (hcalls : World.always Action.callByOther during w1 = true)
    (hduring : World.acts during w1 = .ok w2) :
    w.sched.m_pMainThread = World.recorded before World.initial none ∧
    ((∀ pm, Action.runEnter pm ∉ before) → w.sched.m_pMainThread = none) ∧
    (w2.sched.m_pMainThread = some pMain ∧ pMain ∈ w2.sched.live) ∧
    (∀ w3, World.act (Action.runResume pMain) w2 = .ok w3 →
      w3.sched.m_pRunningThread = none ∧ w3.sched.m_pMainThread = some pMain ∧
      pMain ∉ w3.sched.live) := by
  have hrec := acts_recorded before World.initial w hbefore
  have h1 : w1.sched.m_pMainThread = some pMain ∧ pMain ∈ w1.sched.live := by
    have hmain := act_main (Action.runEnter pMain) w w1 henter
    rw [hfound] at hmain
    refine ⟨hmain, ?_⟩
    obtain ⟨hcon, _, _⟩ := act_census (Action.runEnter pMain) w w1 henter
    have hcs : (Action.runEnter pMain).constructs w = some pMain := hfound
    obtain ⟨_, t, hthreads⟩ := hcon pMain hcs
    unfold Runtime.live
    rw [hthreads]
    exact List.mem_cons_self _ _
  have h2 := always_invariant Action.callByOther
    (fun v => v.sched.m_pMainThread = some pMain ∧ pMain ∈ v.sched.live)
    (call_keeps_main pMain) during w1 w2 h1 hcalls hduring
  refine ⟨hrec, fun hno => ?_, h2, fun w3 h => ?_⟩
  · rw [hrec]
    exact recorded_without_run before World.initial none hno
  · simp only [World.act, World.withSched] at h
    cases hy : UScheduler.Run_resume pMain w2.sched with
    | error e => simp [hy] at h
    | ok s1 =>
      simp only [hy, Except.ok.injEq] at h
      rw [← h]
      obtain ⟨_, hth, hm3, hr3⟩ := Run_resume_census pMain w2.sched s1 hy
      refine ⟨hr3, hm3.trans h2.1, ?_⟩
      unfold Runtime.live
      rw [hth]
      intro hmem
      obtain ⟨e, he, hep⟩ := List.mem_map.mp hmem
      have := (List.mem_filter.mp he).2
      simp only [ne_eq, decide_not, Bool.not_eq_true', decide_eq_false_iff_not] at this
      exact this hep

/-- Witness of C23 as amended: the host creates fibers 4 and 8 and calls
`Run`, whose `mainThread` is at 100; fiber 4 takes mutex 0 and yields, fiber 8
blocks on the mutex and fiber 4 on semaphore 0, which switches the main thread
in.  The handle then holds 100, where the main thread exists. -/
theorem main_handle_lifecycle_witness :
    (World.after (World.acts (exampleSchedule.take 7) World.initial)).sched.m_pMainThread
      = some 100 ∧
    100 ∈ (World.after (World.acts (exampleSchedule.take 7) World.initial)).sched.live :=
  (main_handle_lifecycle (exampleSchedule.take 2) ((exampleSchedule.take 7).drop 3) 100
    (World.after (World.acts (exampleSchedule.take 2) World.initial))
    (World.after (World.acts (exampleSchedule.take 3) World.initial))
    (World.after (World.acts (exampleSchedule.take 7) World.initial))
    rfl rfl rfl rfl rfl).2.2.1

/-! ### The saved context of a new fiber -/

theorem write32_other (m : Memory) (a v x : Nat) (h : x < a ∨ a + 4 ≤ x) :
    write32 m a v x = m x := by
  unfold write32
  have h0 : x ≠ a := by omega
  have h1 : x ≠ a + 1 := by omega
  have h2 : x ≠ a + 2 := by omega
  have h3 : x ≠ a + 3 := by omega
  simp [h0, h1, h2, h3]

theorem read32_write32 (m : Memory) (a v : Nat) (hv : v < 4294967296) :
    read32 (write32 m a v) a = v := by
  unfold read32 write32
  simp
  omega

theorem read32_congr (m m1 : Memory) (a : Nat)
    (h : ∀ x, a ≤ x → x < a + 4 → m x = m1 x) : read32 m a = read32 m1 a := by
  unfold read32
  rw [h a (by omega) (by omega), h (a + 1) (by omega) (by omega),
    h (a + 2) (by omega) (by omega), h (a + 3) (by omega) (by omega)]

theorem read32_write32_other (m : Memory) (a v b : Nat) (h : b + 4 ≤ a ∨ a + 4 ≤ b) :
    read32 (write32 m a v) b = read32 m b :=
  read32_congr _ _ b (fun x h1 h2 => write32_other m a v x (by omega))

theorem Context_store_other (ctx : Context) (a : Nat) (m : Memory) (x : Nat)
    (h : x < a ∨ a + 20 ≤ x) : ctx.store a m x = m x := by
  unfold Context.store
  rw [write32_other _ _ _ _ (by omega), write32_other _ _ _ _ (by omega),
    write32_other _ _ _ _ (by omega), write32_other _ _ _ _ (by omega),
    write32_other _ _ _ _ (by omega)]

/-- The words found where a `Context` was stored are its members, each at its
offset. -/
theorem Context_store_read (ctx : Context) (a : Nat) (m : Memory)
    (h1 : ctx.EDI < 4294967296) (h2 : ctx.ESI < 4294967296) (h3 : ctx.EBX < 4294967296)
    (h4 : ctx.EBP < 4294967296) (h5 : ctx.Ret < 4294967296) :
    read32 (ctx.store a m) a = ctx.EDI ∧ read32 (ctx.store a m) (a + 4) = ctx.ESI ∧
    read32 (ctx.store a m) (a + 8) = ctx.EBX ∧ read32 (ctx.store a m) (a + 12) = ctx.EBP ∧
    read32 (ctx.store a m) (a + 16) = ctx.Ret := by
  unfold Context.store
  refine ⟨?_, ?_, ?_, ?_, ?_⟩
  · rw [read32_write32_other _ _ _ _ (by omega), read32_write32_other _ _ _ _ (by omega),
      read32_write32_other _ _ _ _ (by omega), read32_write32_other _ _ _ _ (by omega),
      read32_write32 _ _ _ h1]
  · rw [read32_write32_other _ _ _ _ (by omega), read32_write32_other _ _ _ _ (by omega),
      read32_write32_other _ _ _ _ (by omega), read32_write32 _ _ _ h2]
  · rw [read32_write32_other _ _ _ _ (by omega), read32_write32_other _ _ _ _ (by omega),
      read32_write32 _ _ _ h3]
  · rw [read32_write32_other _ _ _ _ (by omega), read32_write32 _ _ _ h4]
  · rw [read32_write32 _ _ _ h5]

theorem Context_ctor_range (trampoline : Nat) (ht : trampoline < 4294967296) :
    (Context.ctor trampoline).EDI < 4294967296 ∧ (Context.ctor trampoline).ESI < 4294967296 ∧
    (Context.ctor trampoline).EBX < 4294967296 ∧ (Context.ctor trampoline).EBP < 4294967296 ∧
    (Context.ctor trampoline).Ret < 4294967296 := by
  refine ⟨?_, ?_, ?_, ?_, ht⟩ <;> simp [Context.ctor]

theorem ctor_stack_pointer (p stack trampoline : Nat) (c : Cpu)
    (hstack : stack + 65536 ≤ 4294967296) :
    (UThread.ctor_stack p stack trampoline c).m_pContext p = stack + 65512 := by
  simp only [UThread.ctor_stack, m_stackSize, sizeof_unsigned, sizeof_Context,
    Function.update_same]
  omega

/-- The words at the top of the stack of a fiber that has not run, read in any
memory that agrees with the one its constructor left. -/
theorem fresh_words (m m0 : Memory) (stack trampoline : Nat) (ht : trampoline < 4294967296)
    (hm : ∀ a, stack + 65512 ≤ a → a < stack + 65536 →
      m a = (Context.ctor trampoline).store (stack + 65512) (memset m0 stack 0 65536) a) :
    read32 m (stack + 65512) = (Context.ctor trampoline).EDI ∧
    read32 m (stack + 65516) = (Context.ctor trampoline).ESI ∧
    read32 m (stack + 65520) = (Context.ctor trampoline).EBX ∧
    read32 m (stack + 65524) = (Context.ctor trampoline).EBP ∧
    read32 m (stack + 65528) = (Context.ctor trampoline).Ret ∧
    read32 m (stack + 65532) = 0 := by
  obtain ⟨r1, r2, r3, r4, r5⟩ := Context_ctor_range trampoline ht
  obtain ⟨e1, e2, e3, e4, e5⟩ := Context_store_read (Context.ctor trampoline) (stack + 65512)
    (memset m0 stack 0 65536) r1 r2 r3 r4 r5
  refine ⟨?_, ?_, ?_, ?_, ?_, ?_⟩
  · rw [read32_congr m _ _ (fun x h1 h2 => hm x (by omega) (by omega)), e1]
  · rw [read32_congr m _ _ (fun x h1 h2 => hm x (by omega) (by omega)), ← e2]
  · rw [read32_congr m _ _ (fun x h1 h2 => hm x (by omega) (by omega)), ← e3]
  · rw [read32_congr m _ _ (fun x h1 h2 => hm x (by omega) (by omega)), ← e4]
  · rw [read32_congr m _ _ (fun x h1 h2 => hm x (by omega) (by omega)), ← e5]
  · rw [read32_congr m _ _ (fun x h1 h2 => hm x (by omega) (by omega))]
    have hz : ∀ x, stack + 65532 ≤ x → x < stack + 65536 →
        (Context.ctor trampoline).store (stack + 65512) (memset m0 stack 0 65536) x = 0 := by
      intro x h1 h2
      rw [Context_store_other _ _ _ _ (by omega)]
      unfold memset
      rw [if_pos ⟨by omega, by omega⟩]
    unfold read32
    rw [hz _ (by omega) (by omega), hz _ (by omega) (by omega), hz _ (by omega) (by omega),
      hz _ (by omega) (by omega)]

/-- The epilogue of the assembly routines, run with the stack pointer at the
saved context of a fiber that has not run. -/
theorem restore_fresh (c : Cpu) (m0 : Memory) (stack trampoline : Nat)
    (hstack : stack + 65536 ≤ 4294967296) (ht : trampoline < 4294967296)
    (hesp : c.esp = stack + 65512)
    (hm : ∀ a, stack + 65512 ≤ a → a < stack + 65536 →
      c.mem a = (Context.ctor trampoline).store (stack + 65512) (memset m0 stack 0 65536) a) :
    c.restore.edi = (Context.ctor trampoline).EDI ∧
    c.restore.esi = (Context.ctor trampoline).ESI ∧
    c.restore.ebx = (Context.ctor trampoline).EBX ∧
    c.restore.ebp = (Context.ctor trampoline).EBP ∧
    c.restore.eip = trampoline ∧
    c.restore.m_pRunningThread = c.m_pRunningThread ∧
    c.restore.esp = stack + 65532 ∧ read32 c.restore.mem (stack + 65532) = 0 := by
  obtain ⟨w1, w2, w3, w4, w5, w6⟩ := fresh_words c.mem m0 stack trampoline ht hm
  have a1 : (stack + 65512 + 4) % 4294967296 = stack + 65516 := by omega
  have a2 : (stack + 65516 + 4) % 4294967296 = stack + 65520 := by omega
  have a3 : (stack + 65520 + 4) % 4294967296 = stack + 65524 := by omega
  have a4 : (stack + 65524 + 4) % 4294967296 = stack + 65528 := by omega
  have a5 : (stack + 65528 + 4) % 4294967296 = stack + 65532 := by omega
  simp only [Cpu.restore, Cpu.drop, Cpu.top, hesp, a1, a2, a3, a4, a5]
  exact ⟨w1, w2, w3, w4, w5, trivial, trivial, w6⟩

theorem write32_inside (m m1 : Memory) (a v x : Nat) (h1 : a ≤ x) (h2 : x < a + 4) :
    write32 m a v x = write32 m1 a v x := by
  have hx : x = a ∨ x = a + 1 ∨ x = a + 2 ∨ x = a + 3 := by omega
  rcases hx with rfl | rfl | rfl | rfl <;> simp [write32]

theorem Context_store_inside (ctx : Context) (a : Nat) (m m1 : Memory) (x : Nat)
    (h1 : a ≤ x) (h2 : x < a + 20) : ctx.store a m x = ctx.store a m1 x := by
  unfold Context.store
  by_cases k4 : a + 16 ≤ x
  · exact write32_inside _ _ _ _ _ k4 (by omega)
  · rw [write32_other _ _ _ _ (by omega), write32_other _ (a + 16) _ _ (by omega)]
    by_cases k3 : a + 12 ≤ x
    · exact write32_inside _ _ _ _ _ k3 (by omega)
    · rw [write32_other _ _ _ _ (by omega), write32_other _ (a + 12) _ _ (by omega)]
      by_cases k2 : a + 8 ≤ x
      · exact write32_inside _ _ _ _ _ k2 (by omega)
      · rw [write32_other _ _ _ _ (by omega), write32_other _ (a + 8) _ _ (by omega)]
        by_cases k1 : a + 4 ≤ x
        · exact write32_inside _ _ _ _ _ k1 (by omega)
        · rw [write32_other _ _ _ _ (by omega), write32_other _ (a + 4) _ _ (by omega)]
          exact write32_inside _ _ _ _ _ h1 (by omega)

theorem fresh_mem (c : Cpu) (p stack trampoline : Nat) (hstack : stack + 65536 ≤ 4294967296)
    (hfresh : c.fresh p stack trampoline) :
    c.m_pContext p = stack + 65512 ∧
    ∀ a, stack + 65512 ≤ a → a < stack + 65536 →
      c.mem a = (Context.ctor trampoline).store (stack + 65512) (memset c.mem stack 0 65536) a := by
  obtain ⟨h1, h2⟩ := hfresh
  have hp : (stack + m_stackSize - sizeof_unsigned - sizeof_Context) % 4294967296
      = stack + 65512 := by
    simp only [m_stackSize, sizeof_unsigned, sizeof_Context]
    omega
  refine ⟨h1.trans (ctor_stack_pointer p stack trampoline c hstack), fun a ha1 ha2 => ?_⟩
  rw [h2 a ha1 ha2]
  simp only [UThread.ctor_stack, hp]
  rfl

/-- The constructor leaves the fiber fresh. -/
theorem ctor_stack_fresh (p stack trampoline : Nat) (c0 : Cpu)
    (hstack : stack + 65536 ≤ 4294967296) :
    (UThread.ctor_stack p stack trampoline c0).fresh p stack trampoline := by
  have hp : (stack + m_stackSize - sizeof_unsigned - sizeof_Context) % 4294967296
      = stack + 65512 := by
    simp only [m_stackSize, sizeof_unsigned, sizeof_Context]
    omega
  refine ⟨?_, fun a ha1 ha2 => ?_⟩
  · simp only [UThread.ctor_stack, Function.update_same]
  · simp only [UThread.ctor_stack, hp]
    by_cases hin : a < stack + 65512 + 20
    · exact Context_store_inside _ _ _ _ a ha1 hin
    · rw [Context_store_other _ _ _ _ (by omega), Context_store_other _ _ _ _ (by omega)]
      simp only [memset, m_stackSize]
      rw [if_pos ⟨by omega, by omega⟩, if_pos ⟨by omega, by omega⟩]

theorem push_spec (c : Cpu) (v : Nat) (h1 : 4 ≤ c.esp) (h2 : c.esp < 4294967296) :
    (c.push v).esp = c.esp - 4 ∧
    (∀ x, x < c.esp - 4 ∨ c.esp ≤ x → (c.push v).mem x = c.mem x) ∧
    (c.push v).m_pContext = c.m_pContext ∧
    (c.push v).m_pRunningThread = c.m_pRunningThread := by
  have ha : (c.esp + 4294967296 - 4) % 4294967296 = c.esp - 4 := by omega
  simp only [Cpu.push, ha]
  refine ⟨trivial, fun x hx => write32_other _ _ _ _ (by omega), trivial, trivial⟩

/-- C24, shown false as stated: for the fiber at address 4 with its stack at
65536, the slots of EDI, ESI and EBX in the saved context that the
constructor writes hold 0x33333333, 0x22222222 and 0x11111111, not zero. -/
theorem saved_registers_not_zero :
    (UThread.ctor_stack 4 65536 4198400 exampleCpu).m_pContext 4 = 131048 ∧
    read32 (UThread.ctor_stack 4 65536 4198400 exampleCpu).mem 131048 = 0x33333333 ∧
    read32 (UThread.ctor_stack 4 65536 4198400 exampleCpu).mem (131048 + 4) = 0x22222222 ∧
    read32 (UThread.ctor_stack 4 65536 4198400 exampleCpu).mem (131048 + 8) = 0x11111111 ∧
    read32 (UThread.ctor_stack 4 65536 4198400 exampleCpu).mem 131048 ≠ 0 := by
  refine ⟨by decide, by decide, by decide, by decide, by decide⟩

/-- C24 as amended: in the saved context that the constructor of a fiber
writes at `m_pContext`, the slot of the return address holds the address of
the trampoline, the slot of EBP holds zero, and the slots of EBX, ESI and EDI
hold 0x11111111, 0x22222222 and 0x33333333. -/
theorem saved_context_as_constructed (p stack trampoline : Nat) (c : Cpu)
    (ht : trampoline < 4294967296) :
    read32 (UThread.ctor_stack p stack trampoline c).mem
      ((UThread.ctor_stack p stack trampoline c).m_pContext p + 16) = trampoline ∧
    read32 (UThread.ctor_stack p stack trampoline c).mem
      ((UThread.ctor_stack p stack trampoline c).m_pContext p + 12) = 0 ∧
    read32 (UThread.ctor_stack p stack trampoline c).mem
      ((UThread.ctor_stack p stack trampoline c).m_pContext p + 8) = 0x11111111 ∧
    read32 (UThread.ctor_stack p stack trampoline c).mem
      ((UThread.ctor_stack p stack trampoline c).m_pContext p + 4) = 0x22222222 ∧
    read32 (UThread.ctor_stack p stack trampoline c).mem
      ((UThread.ctor_stack p stack trampoline c).m_pContext p) = 0x33333333 := by
  obtain ⟨r1, r2, r3, r4, r5⟩ := Context_ctor_range trampoline ht
  simp only [UThread.ctor_stack, Function.update_same]
  obtain ⟨e1, e2, e3, e4, e5⟩ := Context_store_read (Context.ctor trampoline)
    ((stack + m_stackSize - sizeof_unsigned - sizeof_Context) % 4294967296)
    (memset c.mem stack 0 m_stackSize) r1 r2 r3 r4 r5
  exact ⟨e5, e4, e3, e2, e1⟩

/-- Witness of C24 as amended: the fiber at address 4 with its stack at 65536
and the trampoline at 4198400. -/
theorem saved_context_as_constructed_witness :
    read32 (UThread.ctor_stack 4 65536 4198400 exampleCpu).mem
      ((UThread.ctor_stack 4 65536 4198400 exampleCpu).m_pContext 4 + 16) = 4198400 ∧
    read32 (UThread.ctor_stack 4 65536 4198400 exampleCpu).mem
      ((UThread.ctor_stack 4 65536 4198400 exampleCpu).m_pContext 4 + 12) = 0 :=
  ⟨(saved_context_as_constructed 4 65536 4198400 exampleCpu (by norm_num)).1,
   (saved_context_as_constructed 4 65536 4198400 exampleCpu (by norm_num)).2.1⟩

/-! ### The first switch into a new fiber -/

/-- The epilogue, run with the stack pointer at the saved context of a fiber
that has not run and with that fiber as the running thread, enters the
trampoline. -/
theorem restore_atTrampoline (c : Cpu) (m0 : Memory) (p stack trampoline : Nat)
    (hstack : stack + 65536 ≤ 4294967296) (ht : trampoline < 4294967296)
    (hesp : c.esp = stack + 65512)
    (hm : ∀ a, stack + 65512 ≤ a → a < stack + 65536 →
      c.mem a = (Context.ctor trampoline).store (stack + 65512) (memset m0 stack 0 65536) a)
    (hrun : c.m_pRunningThread = some p) :
    c.restore.atTrampoline p stack trampoline := by
  obtain ⟨r1, r2, r3, r4, r5, r6, r7, r8⟩ := restore_fresh c m0 stack trampoline hstack ht hesp hm
  have hz : (Context.ctor trampoline).EBP = 0 := rfl
  exact ⟨r1, r2, r3, r4, r4.trans hz, r5, r6.trans hrun, r7, r8⟩

theorem internal_exit_fresh (p stack trampoline cur returnAddress : Nat)
    (destroy : Ptr → Memory → Memory) (c : Cpu)
    (hstack : stack + 65536 ≤ 4294967296) (ht : trampoline < 4294967296)
    (hfresh : c.fresh p stack trampoline)
    (hdestroy : ∀ m a, stack + 65512 ≤ a → a < stack + 65536 →
      destroy (some cur) m a = m a) :
    ∃ c1, internal_exit_asm (some cur) (some p) returnAddress destroy c = .ok c1 ∧
      c1.atTrampoline p stack trampoline := by
  obtain ⟨hctx, hmem⟩ := fresh_mem c p stack trampoline hstack hfresh
  have hpush : (stack + 65512 + 4294967296 - 4) % 4294967296 = stack + 65508 := by omega
  have hdrop : (stack + 65508 + 4) % 4294967296 = stack + 65512 := by omega
  refine ⟨_, rfl, restore_atTrampoline _ c.mem p stack trampoline hstack ht ?_ ?_ ?_⟩
  · simp only [Cpu.drop, Cpu.push, hctx, hpush, hdrop]
  · intro a ha1 ha2
    simp only [Cpu.drop, Cpu.push, hctx, hpush]
    rw [hdestroy _ a ha1 ha2, write32_other _ _ _ _ (by omega)]
    exact hmem a ha1 ha2
  · simp only [Cpu.drop, Cpu.push]

theorem context_switch_fresh (p stack trampoline cur : Nat) (c : Cpu)
    (hstack : stack + 65536 ≤ 4294967296) (ht : trampoline < 4294967296)
    (hfresh : c.fresh p stack trampoline) (hcur : cur ≠ p)
    (hesp : 16 ≤ c.esp ∧ c.esp < 4294967296 ∧
      (c.esp ≤ stack + 65512 ∨ stack + 65552 ≤ c.esp)) :
    ∃ c1, context_switch_asm (some cur) (some p) c = .ok c1 ∧
      c1.atTrampoline p stack trampoline := by
  obtain ⟨hctx, hmem⟩ := fresh_mem c p stack trampoline hstack hfresh
  obtain ⟨he1, he2, he3⟩ := hesp
  obtain ⟨p1e, p1m, p1c, _⟩ := push_spec c c.ebp (by omega) he2
  obtain ⟨p2e, p2m, p2c, _⟩ := push_spec (c.push c.ebp) (c.push c.ebp).ebx
    (by rw [p1e]; omega) (by rw [p1e]; omega)
  obtain ⟨p3e, p3m, p3c, _⟩ := push_spec ((c.push c.ebp).push (c.push c.ebp).ebx)
    ((c.push c.ebp).push (c.push c.ebp).ebx).esi
    (by rw [p2e, p1e]; omega) (by rw [p2e, p1e]; omega)
  obtain ⟨p4e, p4m, p4c, _⟩ := push_spec
    (((c.push c.ebp).push (c.push c.ebp).ebx).push
      ((c.push c.ebp).push (c.push c.ebp).ebx).esi)
    (((c.push c.ebp).push (c.push c.ebp).ebx).push
      ((c.push c.ebp).push (c.push c.ebp).ebx).esi).edi
    (by rw [p3e, p2e, p1e]; omega) (by rw [p3e, p2e, p1e]; omega)
  refine ⟨_, rfl, restore_atTrampoline _ c.mem p stack trampoline hstack ht ?_ ?_ ?_⟩
  · dsimp only
    rw [Function.update_noteq (Ne.symm hcur), p4c, p3c, p2c, p1c, hctx]
  · intro a ha1 ha2
    dsimp only
    rw [p4m a (by rw [p3e, p2e, p1e]; omega), p3m a (by rw [p2e, p1e]; omega),
      p2m a (by rw [p1e]; omega), p1m a (by omega)]
    exact hmem a ha1 ha2
  · rfl

/-- C25. For every fiber `p` with stack base `stack` below the end of the
32-bit address space, the constructor sets `m_pContext` to
`stack + 65536 - 4 - 20`.  As long as the fiber has not run (its `m_pContext`
and the top 24 bytes of its stack are as constructed), a `context_switch` into
it from another thread, whose stack pointer is such that its four pushes miss
those 24 bytes, and an `internal_exit` into it, whose `delete this` leaves
those 24 bytes alone, both pop the four slots into the registers of the same
name (EDI, ESI, EBX, EBP, in the order of the record), return to the
trampoline with EBP zero and `m_pRunningThread` equal to `p`, and leave the
stack pointer at `stack + 65532`, the zero word that ends the stack. -/
theorem first_switch_reaches_trampoline (p stack trampoline cur returnAddress : Nat)
    (destroy : Ptr → Memory → Memory) (c : Cpu)
    (hstack : stack + 65536 ≤ 4294967296) (ht : trampoline < 4294967296)
    (hfresh : c.fresh p stack trampoline) (hcur : cur ≠ p)
    (hesp : 16 ≤ c.esp ∧ c.esp < 4294967296 ∧
      (c.esp ≤ stack + 65512 ∨ stack + 65552 ≤ c.esp))
    (hdestroy : ∀ m a, stack + 65512 ≤ a → a < stack + 65536 →
      destroy (some cur) m a = m a) :
    (∀ c0, (UThread.ctor_stack p stack trampoline c0).m_pContext p = stack + 65536 - 4 - 20 ∧
      (UThread.ctor_stack p stack trampoline c0).fresh p stack trampoline) ∧
    (∃ c1, context_switch_asm (some cur) (some p) c = .ok c1 ∧
      c1.atTrampoline p stack trampoline) ∧
    (∃ c1, internal_exit_asm (some cur) (some p) returnAddress destroy c = .ok c1 ∧
      c1.atTrampoline p stack trampoline) := by
  refine ⟨fun c0 => ⟨ctor_stack_pointer p stack trampoline c0 hstack,
    ctor_stack_fresh p stack trampoline c0 hstack⟩,
    context_switch_fresh p stack trampoline cur c hstack ht hfresh hcur hesp,
    internal_exit_fresh p stack trampoline cur returnAddress destroy c hstack ht hfresh
      hdestroy⟩

/-- Witness of C25: the fiber at address 4 with its stack at 65536 and the
trampoline at 4198400, entered from the thread at address 8 whose stack
pointer is 2097152; `delete this` fills the freed stack at 196608 with 0xDD. -/
theorem first_switch_reaches_trampoline_witness :
    (UThread.ctor_stack 4 65536 4198400 exampleCpu).m_pContext 4 = 65536 + 65536 - 4 - 20 ∧
    (∃ c1, context_switch_asm (some 8) (some 4) (UThread.ctor_stack 4 65536 4198400 exampleCpu)
        = .ok c1 ∧ c1.atTrampoline 4 65536 4198400) ∧
    (∃ c1, internal_exit_asm (some 8) (some 4) 4198500 exampleDestroy
        (UThread.ctor_stack 4 65536 4198400 exampleCpu) = .ok c1 ∧
      c1.atTrampoline 4 65536 4198400) :=
  have h := first_switch_reaches_trampoline 4 65536 4198400 8 4198500 exampleDestroy
    (UThread.ctor_stack 4 65536 4198400 exampleCpu) (by norm_num) (by norm_num)
    (ctor_stack_fresh 4 65536 4198400 exampleCpu (by norm_num)) (by decide)
    ⟨by decide, by decide, Or.inr (by decide)⟩
    (fun m a h1 h2 => by
      simp only [exampleDestroy, memset]
      rw [if_neg (by omega)])
  ⟨(h.1 exampleCpu).1, h.2.1, h.2.2⟩

end UThreadPP
